import Mathlib

/-!
# peg: the compilation back end (`src/compile.c`)

A shallow embedding of the code generator of `peg` and of the runtime that the
generated parsers are linked against.

* The generator (`yyl`, `cnext`, `makeCharClass`, `Node_compile_c_ko`,
  `Rule_compile_c2`, ...) is embedded as pure functions.  The text written to
  `output` is represented by a list of `Instr`, one constructor per statement
  shape that the generator can print; the static label counter of `yyl` is
  threaded through explicitly.
* The runtime preamble (`yyrefill`, `yymatch*`, `yyDo`, `yyDone`, `yyCommit`,
  ...) is embedded as functions on `yycontext`.
* `run` gives the emitted statements their C meaning: sequential execution,
  `goto` to a label of the same procedure, block-local `int` variables
  `yyposN`, `yythunkposN`, `yymaxposN`, and calls of other rule procedures.

Conventions.  C strings are lists of byte values, the terminating NUL being the
end of the list (a zero inside a list also ends the string).  `int` values that
are positions or sizes are natural numbers; `_begin`, `_end` and the value
stack hold integers.  A result `none` stands for an execution without a defined
result (no termination within the given fuel, an access outside an array, a
read of an uninitialised local, a call of a rule that has no procedure).
-/

namespace Peg

/-! ## Grammar tree (`tree.h`) -/

mutual
/-- Expression nodes.  `Rule` and `Variable` nodes are kept in their own
structures: an expression never contains them. `alternate` and `sequence`
hold their `first` child, children being chained through `next`. -/
inductive Node
  | dot
  | name (rule : Nat) (var : Option Nat)
  | character (value : List Nat)
  | string (value : List Nat) (casefold : Bool)
  | cclass (value : List Nat)
  | action (name : Nat)
  | inLine (text : String)
  | predicate (text : String)
  | error (element : Node) (text : String)
  | alternate (first : Chain)
  | sequence (first : Chain)
  | peekFor (element : Node)
  | peekNot (element : Node)
  | query (element : Node)
  | star (element : Node)
  | plus (element : Node)
/-- A null-terminated sibling chain (`alternate.next` / `sequence.next`). -/
inductive Chain
  | nil
  | cons (node : Node) (next : Chain)
end

/-- A `Variable` node: its name and the offset written by `defineVariables`. -/
structure Variable where
  name : String
  offset : Int

/-- A `Rule` node.  `Name` nodes refer to a rule by its position in the rule
list; the procedure symbol `yy_<name>` is represented by that position (rule
names are unique). -/
structure Rule where
  name : String
  id : Nat
  expression : Option Node
  flags : Nat
  vars : List Variable

/-- An entry of the global `actions` list: the action's name, the position of
its owning rule and its text. -/
structure ActionNode where
  name : Nat
  rule : Nat
  text : String
  line : Nat

def RuleUsed : Nat := 1
def RuleReached : Nat := 2

/-! ## Label allocator -/

/-- `yyl`: from the static counter `prev`, the label returned and the new
counter (`return ++prev`). -/
def yyl (prev : Nat) : Nat × Nat := (prev + 1, prev + 1)

/-! ## Character classes -/

/-- `*p` for a C string held as a list. -/
def peekc (p : List Nat) : Nat := p.headD 0

/-- `bits[c >> 3] |= (1 << (c & 7))` on a 32-byte array; `none` when the index
is outside the array. -/
def charClassSet (bits : List Nat) (c : Nat) : Option (List Nat) :=
  if c >>> 3 < bits.length then
    some (bits.set (c >>> 3) (bits.getD (c >>> 3) 0 ||| (1 <<< (c &&& 7))))
  else none

/-- `bits[c >> 3] &= ~(1 << (c & 7))` on a 32-byte array of `unsigned char`;
`none` when the index is outside the array. -/
def charClassClear (bits : List Nat) (c : Nat) : Option (List Nat) :=
  if c >>> 3 < bits.length then
    some (bits.set (c >>> 3) (bits.getD (c >>> 3) 0 &&& (255 ^^^ (1 <<< (c &&& 7)))))
  else none

def oigit (c : Nat) : Bool := 48 ≤ c && c ≤ 55

def higit (c : Nat) : Bool :=
  (48 ≤ c && c ≤ 57) || (65 ≤ c && c ≤ 70) || (97 ≤ c && c ≤ 102)

def hexval (c : Nat) : Nat :=
  if 48 ≤ c ∧ c ≤ 57 then c - 48
  else if 65 ≤ c ∧ c ≤ 70 then 10 + c - 65
  else if 97 ≤ c ∧ c ≤ 102 then 10 + c - 97
  else 0

/-- `cnext`: the symbol decoded at the front of the class text and the
advanced pointer. -/
def cnext (cclass : List Nat) : Nat × List Nat :=
  match cclass with
  | [] => (0, [])
  | c :: p =>
    if c = 0 then (0, c :: p)
    else if c = 92 ∧ peekc p ≠ 0 then
      match p with
      | [] => (c, p)
      | e :: q =>
        if e = 97 then (7, q)
        else if e = 98 then (8, q)
        else if e = 101 then (27, q)
        else if e = 102 then (12, q)
        else if e = 110 then (10, q)
        else if e = 114 then (13, q)
        else if e = 116 then (9, q)
        else if e = 118 then (11, q)
        else if e = 120 then
          let c1 := if higit (peekc q) then (0 <<< 4) + hexval (peekc q) else 0
          let q1 := if higit (peekc q) then q.tail else q
          let c2 := if higit (peekc q1) then (c1 <<< 4) + hexval (peekc q1) else c1
          let q2 := if higit (peekc q1) then q1.tail else q1
          (c2, q2)
        else if oigit e then
          let c0 := e - 48
          let c1 := if oigit (peekc q) then (c0 <<< 3) + peekc q - 48 else c0
          let q1 := if oigit (peekc q) then q.tail else q
          let c2 := if oigit (peekc q1) then (c1 <<< 3) + peekc q1 - 48 else c1
          let q2 := if oigit (peekc q1) then q1.tail else q1
          (c2, q2)
        else (e, q)
    else (c, p)

/-- The inner loop `for (...; prev <= c; ++prev) set(bits, prev)`, `n` being
the number of iterations left. -/
def rangeLoop (set : List Nat → Nat → Option (List Nat)) :
    Nat → List Nat → Nat → Option (List Nat)
  | 0, bits, _ => some bits
  | n + 1, bits, prev =>
    match set bits prev with
    | none => none
    | some bits1 => rangeLoop set n bits1 (prev + 1)

/-- The loop `while (*cclass)` of `makeCharClass`.  `prev` is `none` for the
value `-1`.  Every iteration advances `cclass`, the fuel is its length. -/
def classLoop (set : List Nat → Nat → Option (List Nat)) :
    Nat → List Nat → Option Nat → List Nat → Option (List Nat)
  | 0, cclass, _, bits => if peekc cclass = 0 then some bits else none
  | fuel + 1, cclass, prev, bits =>
    if peekc cclass = 0 then some bits
    else if peekc cclass = 45 ∧ peekc cclass.tail ≠ 0 ∧ prev.isSome then
      let r := cnext cclass.tail
      match rangeLoop set (r.1 + 1 - prev.getD 0) bits (prev.getD 0) with
      | none => none
      | some bits1 => classLoop set fuel r.2 none bits1
    else
      let r := cnext cclass
      match set bits r.1 with
      | none => none
      | some bits1 => classLoop set fuel r.2 (some r.1) bits1

/-- The 32 bytes `bits` at the end of the scanning loop of `makeCharClass`. -/
def makeCharClassBits (cclass : List Nat) : Option (List Nat) :=
  if peekc cclass = 94 then
    classLoop charClassClear cclass.length cclass.tail none (List.replicate 32 255)
  else
    classLoop charClassSet cclass.length cclass none (List.replicate 32 0)

/-- `sprintf(ptr, "\\%03o", b)` for a byte `b`. -/
def sprintfOctal (b : Nat) : List Nat :=
  [92, 48 + b / 64, 48 + b / 8 % 8, 48 + b % 8]

/-- `makeCharClass`: the text of the string literal for the class. -/
def makeCharClass (cclass : List Nat) : Option (List Nat) :=
  (makeCharClassBits cclass).map fun bits => (bits.map sprintfOctal).flatten

/-! ## Runtime: the preamble -/

/-- The functions a thunk can hold: the three value-stack primitives and the
action procedures `yy<name>` emitted by `Rule_compile_c`. -/
inductive yyaction
  | yyPush
  | yyPop
  | yySet
  | user (name : Nat)
  deriving DecidableEq, Repr

/-- `struct _yythunk`. -/
structure yythunk where
  begin : Int
  end_ : Int
  action : yyaction
  deriving DecidableEq, Repr

instance : Inhabited yythunk := ⟨⟨0, 0, yyaction.yyPush⟩⟩

/-- `struct _yycontext`.  `y_` is the member `_`; `_val` is the offset of the
pointer `_val` from `_vals`; `input` is the stream that `YY_INPUT` reads and
`chunks` holds the numbers of bytes that the coming calls of `YY_INPUT` ask the
stream for; `members` stands for `YY_CTX_MEMBERS`.  Cells of `_buf`, `_text`,
`_thunks` that were never written are absent from the lists. -/
structure yycontext where
  _buf : List Nat
  _buflen : Nat
  _pos : Nat
  _limit : Nat
  _maxpos : Nat
  _text : List Nat
  _textlen : Nat
  _begin : Int
  _end : Int
  _thunks : List yythunk
  _thunkslen : Nat
  _thunkpos : Nat
  y_ : Int
  _val : Int
  _vals : List Int
  _valslen : Nat
  input : List Nat
  chunks : List Nat
  members : List Int

def YY_STACK_SIZE : Nat := 128
def YY_BUFFER_SIZE : Nat := 1024

/-- The assignment `a[i] = v` in an array whose unwritten cells are absent. -/
def store {α : Type} (d : α) (a : List α) (i : Nat) (v : α) : List α :=
  if i < a.length then a.set i v else a ++ List.replicate (i - a.length) d ++ [v]

/-- The bytes `a[b], ..., a[b+n-1]`. -/
def slice (a : List Nat) (b n : Nat) : List Nat :=
  (List.range n).map fun i => a.getD (b + i) 0

/-- `INT_MAX`: the members `_buflen`, `_textlen`, `_thunkslen` and `_valslen`
are `int`s, of 32 bits. -/
def INT_MAX : Nat := 2147483647

/-- The loop `while (len < bound) len *= 2;`, which does not end when `len` is
zero and has no defined result when the product overflows `int`.  `bound + 1`
rounds are enough otherwise. -/
def doubleWhileBelow : Nat → Nat → Nat → Option Nat
  | 0, _, _ => none
  | fuel + 1, len, bound =>
    if len < bound then
      if len * 2 ≤ INT_MAX then doubleWhileBelow fuel (len * 2) bound else none
    else some len

/-- The bytes `bytes` written to `a[i], a[i+1], ...`. -/
def storeAll (a : List Nat) (i : Nat) : List Nat → List Nat
  | [] => a
  | c :: rest => storeAll (store 0 a i c) (i + 1) rest

/-- The number `result` of bytes that the call
`YY_INPUT(buf, result, max_size)` delivers: as many as the head of `chunks`
says, one when `chunks` is empty (the default `YY_INPUT`, which reads one
symbol with `getchar`), but no more than `max_size` and no more than the stream
still holds; 0 stands for the end of the input. -/
def yyInputSize (yy : yycontext) (max_size : Nat) : Nat :=
  min (min (yy.chunks.headD 1) max_size) yy.input.length

/-- `yyrefill`: the buffer is doubled until 512 bytes are free behind the
cursor, and `YY_INPUT` writes its bytes at `_buf + _pos`, `max_size` being
`_buflen - _pos`. -/
def yyrefill (yy : yycontext) : Option (Bool × yycontext) :=
  match doubleWhileBelow (yy._pos + 513) yy._buflen (yy._pos + 512) with
  | none => none
  | some n =>
    if yyInputSize yy (n - yy._pos) = 0 then
      some (false, { yy with _buflen := n, chunks := yy.chunks.tail })
    else
      some (true, { yy with _buflen := n,
                            _buf := storeAll yy._buf yy._pos
                              (yy.input.take (yyInputSize yy (n - yy._pos))),
                            _limit := yy._limit + yyInputSize yy (n - yy._pos),
                            input := yy.input.drop (yyInputSize yy (n - yy._pos)),
                            chunks := yy.chunks.tail })

def yyrecordMaxPos (yy : yycontext) : yycontext :=
  if yy._pos > yy._maxpos then { yy with _maxpos := yy._pos } else yy

/-- The test `yy->_pos >= yy->_limit && !yyrefill(yy)` that opens every match
primitive: `false` when it holds (the primitive returns 0). -/
def needInput (yy : yycontext) : Option (Bool × yycontext) :=
  if yy._pos ≥ yy._limit then yyrefill yy else some (true, yy)

def yymatchDot (yy : yycontext) : Option (Bool × yycontext) :=
  match needInput yy with
  | none => none
  | some (false, yy1) => some (false, yy1)
  | some (true, yy1) => some (true, yyrecordMaxPos { yy1 with _pos := yy1._pos + 1 })

def yymatchChar (yy : yycontext) (c : Nat) : Option (Bool × yycontext) :=
  match needInput yy with
  | none => none
  | some (false, yy1) => some (false, yy1)
  | some (true, yy1) =>
    if yy1._buf.getD yy1._pos 0 % 256 = c then
      some (true, yyrecordMaxPos { yy1 with _pos := yy1._pos + 1 })
    else some (false, yy1)

/-- The loop of `yymatchString`, `yysav` being the cursor at entry. -/
def yymatchStringLoop (yysav : Nat) : List Nat → yycontext → Option (Bool × yycontext)
  | [], yy => some (true, yyrecordMaxPos yy)
  | c :: s, yy =>
    if c = 0 then some (true, yyrecordMaxPos yy)
    else
      match needInput yy with
      | none => none
      | some (false, yy1) => some (false, yy1)
      | some (true, yy1) =>
        if yy1._buf.getD yy1._pos 0 ≠ c then some (false, { yy1 with _pos := yysav })
        else yymatchStringLoop yysav s { yy1 with _pos := yy1._pos + 1 }

def yymatchString (yy : yycontext) (s : List Nat) : Option (Bool × yycontext) :=
  yymatchStringLoop yy._pos s yy

def tolower (c : Nat) : Nat := if 65 ≤ c ∧ c ≤ 90 then c + 32 else c

/-- The loop of `yymatchIString`. -/
def yymatchIStringLoop (yysav : Nat) : List Nat → yycontext → Option (Bool × yycontext)
  | [], yy => some (true, yyrecordMaxPos yy)
  | c :: s, yy =>
    if c = 0 then some (true, yyrecordMaxPos yy)
    else
      match needInput yy with
      | none => none
      | some (false, yy1) => some (false, yy1)
      | some (true, yy1) =>
        if tolower (yy1._buf.getD yy1._pos 0) ≠ c then some (false, { yy1 with _pos := yysav })
        else yymatchIStringLoop yysav s { yy1 with _pos := yy1._pos + 1 }

def yymatchIString (yy : yycontext) (s : List Nat) : Option (Bool × yycontext) :=
  yymatchIStringLoop yy._pos s yy

/-- The test `bits[c >> 3] & (1 << (c & 7))`. -/
def classBit (bits : List Nat) (c : Nat) : Bool :=
  bits.getD (c >>> 3) 0 &&& (1 <<< (c &&& 7)) ≠ 0

def yymatchClass (yy : yycontext) (bits : List Nat) : Option (Bool × yycontext) :=
  match needInput yy with
  | none => none
  | some (false, yy1) => some (false, yy1)
  | some (true, yy1) =>
    if classBit bits (yy1._buf.getD yy1._pos 0 % 256) then
      some (true, yyrecordMaxPos { yy1 with _pos := yy1._pos + 1 })
    else some (false, yy1)

def yyDo (yy : yycontext) (action : yyaction) (begin end_ : Int) : Option yycontext :=
  match doubleWhileBelow (yy._thunkpos + 2) yy._thunkslen (yy._thunkpos + 1) with
  | none => none
  | some n =>
    some { yy with _thunkslen := n,
                   _thunks := store default yy._thunks yy._thunkpos ⟨begin, end_, action⟩,
                   _thunkpos := yy._thunkpos + 1 }

/-- `yyText`: the value returned (`yyleng`) and the context.  Copying from in
front of the buffer has no defined result. -/
def yyText (yy : yycontext) (begin end_ : Int) : Option (Int × yycontext) :=
  if end_ - begin ≤ 0 then
    some (0, { yy with _text := store 0 yy._text 0 0 })
  else if begin < 0 then none
  else
    let yyleng := (end_ - begin).toNat
    match doubleWhileBelow (yyleng + 2) yy._textlen (yyleng + 1) with
    | none => none
    | some n =>
      some (end_ - begin,
        { yy with _textlen := n,
                  _text := slice yy._buf begin.toNat yyleng ++ [0] ++ yy._text.drop (yyleng + 1) })

def yyPush (yy : yycontext) (count : Int) : Option yycontext :=
  match doubleWhileBelow ((yy._val + count + 1).toNat + 1) yy._valslen
      (yy._val + count + 1).toNat with
  | none => none
  | some n => some { yy with _val := yy._val + count, _valslen := n }

def yyPop (yy : yycontext) (count : Int) : yycontext :=
  { yy with _val := yy._val - count }

/-- `yySet`: `yy->_val[count]= yy->_`, defined inside the value stack. -/
def yySet (yy : yycontext) (count : Int) : Option yycontext :=
  if 0 ≤ yy._val + count ∧ yy._val + count < yy._valslen then
    some { yy with _vals := store 0 yy._vals (yy._val + count).toNat yy.y_ }
  else none

/-- `yyCommit`; `memmove` with a negative length has no defined result. -/
def yyCommit (yy : yycontext) : Option yycontext :=
  if yy._limit < yy._pos then none
  else
    some { yy with _limit := yy._limit - yy._pos,
                   _buf := slice yy._buf yy._pos (yy._limit - yy._pos)
                             ++ yy._buf.drop (yy._limit - yy._pos),
                   _begin := yy._begin - yy._pos,
                   _end := yy._end - yy._pos,
                   _pos := 0,
                   _thunkpos := 0 }

/-- The text supplied by the grammar's author, which the generator copies
without looking at it: what an action body, an inline block, a predicate and an
error block do to the context.  An action body sees the variables of its rule
through the `#define`s of its procedure, given as pairs of name and offset. -/
structure UserCode where
  action : Nat → List (String × Int) → yycontext → Int → yycontext
  inLine : String → yycontext → yycontext
  predicate : String → yycontext → Bool × yycontext
  error : String → yycontext → yycontext

/-- The call `thunk->action(yy, yy->_text, yyleng)`; `defs` gives the
`#define`s of each action procedure. -/
def invoke (U : UserCode) (defs : Nat → List (String × Int)) (a : yyaction)
    (yy : yycontext) (yyleng : Int) : Option yycontext :=
  match a with
  | .yyPush => yyPush yy yyleng
  | .yyPop => some (yyPop yy yyleng)
  | .yySet => yySet yy yyleng
  | .user name => some (U.action name (defs name) yy yyleng)

/-- One round of the loop of `yyDone`: the thunk's action is called with the
text of its span, or with `begin` as `yyleng` when `end` is 0. -/
def invokeThunk (U : UserCode) (defs : Nat → List (String × Int)) (thunk : yythunk)
    (yy : yycontext) : Option yycontext :=
  match (if thunk.end_ ≠ 0 then yyText yy thunk.begin thunk.end_
         else some (thunk.begin, yy)) with
  | none => none
  | some (yyleng, yy1) => invoke U defs thunk.action yy1 yyleng

/-- The loop of `yyDone` from index `pos` on, followed by
`yy->_thunkpos= 0`. -/
def yyDoneLoop (U : UserCode) (defs : Nat → List (String × Int)) :
    Nat → Nat → yycontext → Option yycontext
  | 0, pos, yy => if pos < yy._thunkpos then none else some { yy with _thunkpos := 0 }
  | fuel + 1, pos, yy =>
    if pos < yy._thunkpos then
      match invokeThunk U defs (yy._thunks.getD pos default) yy with
      | none => none
      | some yy2 => yyDoneLoop U defs fuel (pos + 1) yy2
    else some { yy with _thunkpos := 0 }

def yyDone (U : UserCode) (defs : Nat → List (String × Int)) (fuel : Nat)
    (yy : yycontext) : Option yycontext :=
  yyDoneLoop U defs fuel 0 yy

/-! ## The emitted text -/

/-- The conditions `c` of the printed statements `if (!c) goto l<ko>;`.  They
carry the text printed between the quotes.  `predicate` stands for the block
printed for a `Predicate` node, which fills `yytext` first. -/
inductive Test
  | matchDot
  | call (rule : Nat)
  | matchChar (lit : List Nat)
  | matchString (lit : List Nat)
  | matchIString (lit : List Nat)
  | matchClass (lit : Option (List Nat))
  | predicate (text : String)

/-- The printed statements that act on the context only. -/
inductive Stmt
  | begin
  | end_
  | yyprintf
  | yyDo (action : yyaction) (begin end_ : Int)
  | yyDoAction (name : Nat)
  | inLine (text : String)
  | error (text : String)

/-- The statements that the generator prints into a rule procedure.  Labels
are the numbers `N` of `lN`; `save N` declares `yyposN` and `yythunkposN`,
`saveMaxPos N` declares `yymaxposN`. -/
inductive Instr
  | test (c : Test) (ko : Nat)
  | stmt (a : Stmt)
  | label (n : Nat)
  | jump (n : Nat)
  | save (n : Nat)
  | restore (n : Nat)
  | saveMaxPos (n : Nat)
  | restoreMaxPos (n : Nat)
  | ret (v : Bool)

def begin : Instr := .stmt .begin
def end_ : Instr := .stmt .end_
def label (n : Nat) : Instr := .label n
def jump (n : Nat) : Instr := .jump n
def save (n : Nat) : Instr := .save n
def restore (n : Nat) : Instr := .restore n
def saveMaxPos (n : Nat) : Instr := .saveMaxPos n
def restoreMaxPos (n : Nat) : Instr := .restoreMaxPos n

/-- What `%s` prints of a C string: the symbols in front of the first NUL. -/
def cstr (s : List Nat) : List Nat := s.takeWhile fun c => c ≠ 0

def strlen (s : List Nat) : Nat := (cstr s).length

/-- The condition printed for a `Character` or `String` node. -/
def compileString (isString : Bool) (value : List Nat) (casefold : Bool) : Test :=
  if isString && casefold then .matchIString (cstr value)
  else if strlen value = 1 then
    if peekc value = 39 then .matchChar [92, 39] else .matchChar (cstr value)
  else if strlen value = 2 ∧ peekc value = 92 then .matchChar (cstr value)
  else .matchString (cstr value)

mutual
/-- `Node_compile_c_ko node ko`: the statements printed for `node` and the
label counter afterwards, `prev` being the counter before.  `vars` are the
`Variable` nodes of the rule that owns the node. -/
def Node_compile_c_ko (vars : List Variable) : Node → Nat → Nat → List Instr × Nat
  | .dot, ko, prev => ([.test .matchDot ko], prev)
  | .name rule var, ko, prev =>
    ([.test (.call rule) ko] ++
      (match var with
       | some v => [.stmt (.yyDo .yySet (vars.getD v ⟨"", 0⟩).offset 0)]
       | none => []), prev)
  | .character value, ko, prev => ([.test (compileString false value false) ko], prev)
  | .string value casefold, ko, prev => ([.test (compileString true value casefold) ko], prev)
  | .cclass value, ko, prev => ([.test (.matchClass (makeCharClass value)) ko], prev)
  | .action name, _, prev => ([.stmt (.yyDoAction name)], prev)
  | .inLine text, _, prev => ([.stmt (.inLine text)], prev)
  | .predicate text, ko, prev => ([.test (.predicate text) ko], prev)
  | .error element text, ko, prev =>
    let eok := (yyl prev).1
    let eko := (yyl (yyl prev).2).1
    let r := Node_compile_c_ko vars element eko (yyl (yyl prev).2).2
    (r.1 ++ [jump eok, label eko, .stmt (.error text), jump ko, label eok], r.2)
  | .alternate first, ko, prev =>
    let ok := (yyl prev).1
    let r := alternateLoop vars first ok ko (yyl prev).2
    ([begin, save ok] ++ r.1 ++ [end_, label ok], r.2)
  | .sequence first, ko, prev => sequenceLoop vars first ko prev
  | .peekFor element, ko, prev =>
    let ok := (yyl prev).1
    let r := Node_compile_c_ko vars element ko (yyl prev).2
    ([begin, save ok] ++ r.1 ++ [restore ok, end_], r.2)
  | .peekNot element, ko, prev =>
    let ok := (yyl prev).1
    let r := Node_compile_c_ko vars element ok (yyl prev).2
    ([begin, save ok, saveMaxPos ok] ++ r.1 ++
      [restoreMaxPos ok, jump ko, label ok, restore ok, restoreMaxPos ok, end_], r.2)
  | .query element, _, prev =>
    let qko := (yyl prev).1
    let qok := (yyl (yyl prev).2).1
    let r := Node_compile_c_ko vars element qko (yyl (yyl prev).2).2
    ([begin, save qko] ++ r.1 ++ [jump qok, label qko, restore qko, end_, label qok], r.2)
  | .star element, _, prev =>
    let again := (yyl prev).1
    let out := (yyl (yyl prev).2).1
    let r := Node_compile_c_ko vars element out (yyl (yyl prev).2).2
    ([label again, begin, save out] ++ r.1 ++ [jump again, label out, restore out, end_], r.2)
  | .plus element, ko, prev =>
    let again := (yyl prev).1
    let out := (yyl (yyl prev).2).1
    let r1 := Node_compile_c_ko vars element ko (yyl (yyl prev).2).2
    let r2 := Node_compile_c_ko vars element out r1.2
    (r1.1 ++ [label again, begin, save out] ++ r2.1 ++
      [jump again, label out, restore out, end_], r2.2)
/-- The loop over the children of an `Alternate`, from child `node` on. -/
def alternateLoop (vars : List Variable) : Chain → Nat → Nat → Nat → List Instr × Nat
  | .nil, _, _, prev => ([], prev)
  | .cons node .nil, _, ko, prev => Node_compile_c_ko vars node ko prev
  | .cons node (.cons node2 rest), ok, ko, prev =>
    let next := (yyl prev).1
    let r := Node_compile_c_ko vars node next (yyl prev).2
    let rs := alternateLoop vars (.cons node2 rest) ok ko r.2
    (r.1 ++ [jump ok, label next, restore ok] ++ rs.1, rs.2)
/-- The loop over the children of a `Sequence`, from child `node` on. -/
def sequenceLoop (vars : List Variable) : Chain → Nat → Nat → List Instr × Nat
  | .nil, _, prev => ([], prev)
  | .cons node next, ko, prev =>
    let r := Node_compile_c_ko vars node ko prev
    let rs := sequenceLoop vars next ko r.2
    (r.1 ++ rs.1, rs.2)
end

def countVariables : List Variable → Nat
  | [] => 0
  | _ :: next => countVariables next + 1

/-- `defineVariables`: the `Variable` nodes with the offsets it assigns,
`count` being its counter. -/
def defineVariables : List Variable → Int → List Variable
  | [], _ => []
  | node :: next, count => { node with offset := count - 1 } :: defineVariables next (count - 1)

/-- The `#define <name> yy->_val[<offset>]` lines that `defineVariables`
prints. -/
def defines (vars : List Variable) : List (String × Int) :=
  (defineVariables vars 0).map fun v => (v.name, v.offset)

def isSafe : Node → Bool
  | .query _ => true
  | .star _ => true
  | _ => false

/-- The body printed by `Rule_compile_c2` for one rule with expression
`e`. -/
def ruleBody (node : Rule) (e : Node) (prev : Nat) : List Instr × Nat :=
  let ko := (yyl prev).1
  let safe := isSafe e
  let r := Node_compile_c_ko node.vars e ko (yyl prev).2
  ((if !safe then [save 0] else []) ++
   (if node.vars.isEmpty then []
    else [Instr.stmt (.yyDo .yyPush (countVariables node.vars) 0)]) ++
   [Instr.stmt .yyprintf] ++ r.1 ++ [Instr.stmt .yyprintf] ++
   (if node.vars.isEmpty then []
    else [Instr.stmt (.yyDo .yyPop (countVariables node.vars) 0)]) ++
   [Instr.ret true] ++
   (if !safe then [label ko, restore 0, Instr.stmt .yyprintf, Instr.ret false] else []), r.2)

/-- `Rule_compile_c2`: for every rule of the chain the body of its procedure
(`none` for a rule without expression, for which nothing is printed) and the
label counter afterwards.  The diagnostics written to `stderr` are left out. -/
def Rule_compile_c2 : List Rule → Nat → List (Option (List Instr)) × Nat
  | [], prev => ([], prev)
  | node :: next, prev =>
    match node.expression with
    | none =>
      let rs := Rule_compile_c2 next prev
      (none :: rs.1, rs.2)
    | some e =>
      let r := ruleBody node e prev
      let rs := Rule_compile_c2 next r.2
      (some r.1 :: rs.1, rs.2)

/-- The loop over `actions` in `Rule_compile_c`, which runs `defineVariables`
on the variables of each action's rule. -/
def defineLoop : List ActionNode → List Rule → List Rule
  | [], rules => rules
  | n :: list, rules =>
    defineLoop list
      (match rules.get? n.rule with
       | none => rules
       | some r => rules.set n.rule { r with vars := defineVariables r.vars 0 })

/-- The `#define`s inside the procedure of the action called `name`. -/
def actionDefines (rules : List Rule) : List ActionNode → Nat → List (String × Int)
  | [], _ => []
  | n :: list, name =>
    if n.name = name then
      match rules.get? n.rule with
      | none => []
      | some r => defines r.vars
    else actionDefines rules list name

/-- What `Rule_compile_c` prints: the action procedures, of which the
`#define`s are kept, and the rule procedures. -/
structure Program where
  defs : Nat → List (String × Int)
  procs : List (Option (List Instr))

def Rule_compile_c (rules : List Rule) (actions : List ActionNode) (prev : Nat) : Program :=
  { defs := actionDefines rules actions
    procs := (Rule_compile_c2 (defineLoop actions rules) prev).1 }

/-! ## Meaning of the emitted text -/

/-- The value of an octal escape of up to `n` further digits, `acc` being the
value so far, and the rest of the text. -/
def octalEscape : Nat → Nat → List Nat → Nat × List Nat
  | 0, acc, s => (acc, s)
  | n + 1, acc, s =>
    match s with
    | [] => (acc, [])
    | d :: q => if oigit d then octalEscape n (acc * 8 + (d - 48)) q else (acc, d :: q)

/-- The value of a hexadecimal escape, which takes every hexadecimal digit
that follows. -/
def hexEscape : Nat → List Nat → Nat × List Nat
  | acc, [] => (acc, [])
  | acc, d :: q => if higit d then hexEscape (acc * 16 + hexval d) q else (acc, d :: q)

/-- The bytes that a C compiler stores for the text between the quotes of a
string or character literal. -/
def cLiteral : Nat → List Nat → List Nat
  | 0, _ => []
  | _ + 1, [] => []
  | fuel + 1, c :: p =>
    if c = 92 then
      match p with
      | [] => [92]
      | e :: q =>
        if e = 97 then 7 :: cLiteral fuel q
        else if e = 98 then 8 :: cLiteral fuel q
        else if e = 101 then 27 :: cLiteral fuel q
        else if e = 102 then 12 :: cLiteral fuel q
        else if e = 110 then 10 :: cLiteral fuel q
        else if e = 114 then 13 :: cLiteral fuel q
        else if e = 116 then 9 :: cLiteral fuel q
        else if e = 118 then 11 :: cLiteral fuel q
        else if e = 120 then (hexEscape 0 q).1 % 256 :: cLiteral fuel (hexEscape 0 q).2
        else if oigit e then
          (octalEscape 2 (e - 48) q).1 % 256 :: cLiteral fuel (octalEscape 2 (e - 48) q).2
        else e :: cLiteral fuel q
    else c :: cLiteral fuel p

/-- The array denoted by the string literal with text `lit`. -/
def literal (lit : List Nat) : List Nat := cLiteral lit.length lit

/-- The value of a condition and the context after its evaluation.
`call r yy` is the result of the procedure of rule `r`. -/
def evalTest (U : UserCode) (call : Nat → yycontext → Option (Bool × yycontext))
    (c : Test) (yy : yycontext) : Option (Bool × yycontext) :=
  match c with
  | .matchDot => yymatchDot yy
  | .call rule => call rule yy
  | .matchChar lit => yymatchChar yy (peekc (literal lit))
  | .matchString lit => yymatchString yy (literal lit)
  | .matchIString lit => yymatchIString yy (literal lit)
  | .matchClass lit =>
    match lit with
    | none => none
    | some l => yymatchClass yy (literal l)
  | .predicate text =>
    match yyText yy yy._begin yy._end with
    | none => none
    | some (_, yy1) => some (U.predicate text yy1)

/-- The context after a statement that acts on the context only. -/
def evalStmt (U : UserCode) (a : Stmt) (yy : yycontext) : Option yycontext :=
  match a with
  | .begin => some yy
  | .end_ => some yy
  | .yyprintf => some yy
  | .yyDo action b e => yyDo yy action b e
  | .yyDoAction name => yyDo yy (.user name) yy._begin yy._end
  | .inLine text =>
    match yyText yy yy._begin yy._end with
    | none => none
    | some (_, yy1) => some (U.inLine text yy1)
  | .error text =>
    match yyText yy yy._begin yy._end with
    | none => none
    | some (_, yy1) => some (U.error text yy1)

/-- The block-local variables of one activation of a rule procedure, `none`
while not initialised. -/
structure Locals where
  yypos : Nat → Option Nat
  yythunkpos : Nat → Option Nat
  yymaxpos : Nat → Option Nat

/-- An activation: the context `yy` points to and the local variables. -/
structure Frame where
  yy : yycontext
  loc : Locals

/-- How a statement, or a run of statements, hands over control: to the
statement that follows, to a label, or to the caller. -/
inductive Ctl
  | fall
  | jump (l : Nat)
  | ret (v : Bool)
  deriving DecidableEq, Repr

/-- One statement. -/
def execInstr (U : UserCode) (call : Nat → yycontext → Option (Bool × yycontext))
    (i : Instr) (s : Frame) : Option (Ctl × Frame) :=
  match i with
  | .test c ko =>
    match evalTest U call c s.yy with
    | none => none
    | some (true, yy) => some (.fall, ⟨yy, s.loc⟩)
    | some (false, yy) => some (.jump ko, ⟨yy, s.loc⟩)
  | .stmt a =>
    match evalStmt U a s.yy with
    | none => none
    | some yy => some (.fall, ⟨yy, s.loc⟩)
  | .label _ => some (.fall, s)
  | .jump n => some (.jump n, s)
  | .save n =>
    some (.fall, ⟨s.yy, ⟨Function.update s.loc.yypos n (some s.yy._pos),
      Function.update s.loc.yythunkpos n (some s.yy._thunkpos), s.loc.yymaxpos⟩⟩)
  | .restore n =>
    match s.loc.yypos n, s.loc.yythunkpos n with
    | some p, some t => some (.fall, ⟨{ s.yy with _pos := p, _thunkpos := t }, s.loc⟩)
    | _, _ => none
  | .saveMaxPos n =>
    some (.fall, ⟨s.yy, ⟨s.loc.yypos, s.loc.yythunkpos,
      Function.update s.loc.yymaxpos n (some s.yy._maxpos)⟩⟩)
  | .restoreMaxPos n =>
    match s.loc.yymaxpos n with
    | some m => some (.fall, ⟨{ s.yy with _maxpos := m }, s.loc⟩)
    | none => none
  | .ret v => some (.ret v, s)

/-- The statements that follow the statement `l<l>:;` in a body. -/
def afterLabel : List Instr → Nat → Option (List Instr)
  | [], _ => none
  | i :: rest, l =>
    match i with
    | .label n => if n = l then some rest else afterLabel rest l
    | _ => afterLabel rest l

/-- Execution of the statements `rest` inside the body `code`, for at most
`fuel` statements.  It ends behind the last statement (`fall`), at a `goto` to
a label that `code` does not contain (`jump`), or at a `return`. -/
def run (U : UserCode) (call : Nat → yycontext → Option (Bool × yycontext)) :
    Nat → List Instr → List Instr → Frame → Option (Ctl × Frame)
  | _, _, [], s => some (.fall, s)
  | 0, _, _ :: _, _ => none
  | fuel + 1, code, i :: rest, s =>
    match execInstr U call i s with
    | none => none
    | some (.fall, s1) => run U call fuel code rest s1
    | some (.jump l, s1) =>
      match afterLabel code l with
      | some rest1 => run U call fuel code rest1 s1
      | none => some (.jump l, s1)
    | some (.ret v, s1) => some (.ret v, s1)

def noLocals : Locals := ⟨fun _ => none, fun _ => none, fun _ => none⟩

/-- The procedure `yy_<rule>` of the program `procs`: a call runs the body in
a new activation.  `fuel` bounds the nesting of calls and the statements of
each activation. -/
def yyrule (U : UserCode) (procs : List (Option (List Instr))) :
    Nat → Nat → yycontext → Option (Bool × yycontext)
  | 0 => fun _ _ => none
  | fuel + 1 => fun rule yy =>
    match procs.getD rule none with
    | none => none
    | some body =>
      match run U (yyrule U procs fuel) fuel body body ⟨yy, noLocals⟩ with
      | some (.ret v, s) => some (v, s.yy)
      | _ => none

/-- The block `if (!yyctx->_buflen) { ... }` of `YYPARSEFROM`, which sets up
the context on first use. -/
def yyinit (yyctx : yycontext) : yycontext :=
  if yyctx._buflen = 0 then
    { yyctx with _buflen := YY_BUFFER_SIZE, _buf := [], _textlen := YY_BUFFER_SIZE,
                 _text := [], _thunkslen := YY_STACK_SIZE, _thunks := [],
                 _valslen := YY_STACK_SIZE, _vals := [],
                 _begin := 0, _end := 0, _pos := 0, _limit := 0, _maxpos := 0,
                 _thunkpos := 0 }
  else yyctx

/-- `YYPARSEFROM(yystart)`, `yystart` being the procedure of rule `yystart`. -/
def YYPARSEFROM (U : UserCode) (P : Program) (fuel : Nat) (yystart : Nat)
    (yyctx : yycontext) : Option (Bool × yycontext) :=
  let yy0 : yycontext := yyinit yyctx
  let yy1 : yycontext :=
    { yy0 with _begin := yy0._pos, _end := yy0._pos, _thunkpos := 0, _val := 0 }
  match yyrule U P.procs fuel yystart yy1 with
  | none => none
  | some (yyok, yy2) =>
    match (if yyok then yyDone U P.defs fuel yy2 else some yy2) with
    | none => none
    | some yy3 =>
      match yyCommit yy3 with
      | none => none
      | some yy4 => some (yyok, yy4)

/-- The zero-initialised `yyctx_` with `input` waiting on standard input. -/
def yyctx0 (input : List Nat) : yycontext :=
  { _buf := [], _buflen := 0, _pos := 0, _limit := 0, _maxpos := 0, _text := [],
    _textlen := 0, _begin := 0, _end := 0, _thunks := [], _thunkslen := 0, _thunkpos := 0,
    y_ := 0, _val := 0, _vals := [], _valslen := 0, input := input, chunks := [],
    members := [] }

/-! ## Outcome of the text printed for a node

`Outcome` describes, on the context alone, what the statements printed for a
node do: it follows the printed text construct by construct.  The theorems
`outcome_of_run` and `run_of_outcome` below show that it is exactly the
behaviour of `run` on that text, for every failure label, every value of the
label counter and every content of the local variables. -/

/-- The nodes printed as a single `if (!c) goto l<ko>;`. -/
def testOf : Node → Option Test
  | .dot => some .matchDot
  | .name rule none => some (.call rule)
  | .character value => some (compileString false value false)
  | .string value casefold => some (compileString true value casefold)
  | .cclass value => some (.matchClass (makeCharClass value))
  | .predicate text => some (.predicate text)
  | _ => none

/-- The nodes printed as a single statement on the context. -/
def stmtOf : Node → Option Stmt
  | .action name => some (.yyDoAction name)
  | .inLine text => some (.inLine text)
  | _ => none

/-- The context `yy1` after `yy->_pos= yyposN; yy->_thunkpos= yythunkposN;`
where the two locals were saved in context `yy`. -/
def rewind (yy1 yy : yycontext) : yycontext :=
  { yy1 with _pos := yy._pos, _thunkpos := yy._thunkpos }

/-- `Outcome U call vars e yy b yy1`: started in context `yy`, the text
printed for `e` ends in context `yy1`, behind its last statement when `b` is
true and with a `goto` to its failure label when `b` is false. -/
inductive Outcome (U : UserCode) (call : Nat → yycontext → Option (Bool × yycontext))
    (vars : List Variable) : Node → yycontext → Bool → yycontext → Prop
  | test {e c yy b yy1} : testOf e = some c → evalTest U call c yy = some (b, yy1) →
      Outcome U call vars e yy b yy1
  | stmt {e a yy yy1} : stmtOf e = some a → evalStmt U a yy = some yy1 →
      Outcome U call vars e yy true yy1
  | name_ko {rule v yy yy1} : call rule yy = some (false, yy1) →
      Outcome U call vars (.name rule (some v)) yy false yy1
  | name_ok {rule v yy yy1 yy2} : call rule yy = some (true, yy1) →
      yyDo yy1 .yySet (vars.getD v ⟨"", 0⟩).offset 0 = some yy2 →
      Outcome U call vars (.name rule (some v)) yy true yy2
  | error_ok {e text yy yy1} : Outcome U call vars e yy true yy1 →
      Outcome U call vars (.error e text) yy true yy1
  | error_ko {e text yy yy1 yy2} : Outcome U call vars e yy false yy1 →
      evalStmt U (.error text) yy1 = some yy2 →
      Outcome U call vars (.error e text) yy false yy2
  | alt_nil {yy} : Outcome U call vars (.alternate .nil) yy true yy
  | alt_last {e yy b yy1} : Outcome U call vars e yy b yy1 →
      Outcome U call vars (.alternate (.cons e .nil)) yy b yy1
  | alt_ok {e e2 rest yy yy1} : Outcome U call vars e yy true yy1 →
      Outcome U call vars (.alternate (.cons e (.cons e2 rest))) yy true yy1
  | alt_next {e e2 rest yy yy1 b yy2} : Outcome U call vars e yy false yy1 →
      Outcome U call vars (.alternate (.cons e2 rest)) (rewind yy1 yy) b yy2 →
      Outcome U call vars (.alternate (.cons e (.cons e2 rest))) yy b yy2
  | seq_nil {yy} : Outcome U call vars (.sequence .nil) yy true yy
  | seq_ko {e rest yy yy1} : Outcome U call vars e yy false yy1 →
      Outcome U call vars (.sequence (.cons e rest)) yy false yy1
  | seq_ok {e rest yy yy1 b yy2} : Outcome U call vars e yy true yy1 →
      Outcome U call vars (.sequence rest) yy1 b yy2 →
      Outcome U call vars (.sequence (.cons e rest)) yy b yy2
  | peekFor_ok {e yy yy1} : Outcome U call vars e yy true yy1 →
      Outcome U call vars (.peekFor e) yy true (rewind yy1 yy)
  | peekFor_ko {e yy yy1} : Outcome U call vars e yy false yy1 →
      Outcome U call vars (.peekFor e) yy false yy1
  | peekNot_ok {e yy yy1} : Outcome U call vars e yy false yy1 →
      Outcome U call vars (.peekNot e) yy true { rewind yy1 yy with _maxpos := yy._maxpos }
  | peekNot_ko {e yy yy1} : Outcome U call vars e yy true yy1 →
      Outcome U call vars (.peekNot e) yy false { yy1 with _maxpos := yy._maxpos }
  | query_ok {e yy yy1} : Outcome U call vars e yy true yy1 →
      Outcome U call vars (.query e) yy true yy1
  | query_ko {e yy yy1} : Outcome U call vars e yy false yy1 →
      Outcome U call vars (.query e) yy true (rewind yy1 yy)
  | star_out {e yy yy1} : Outcome U call vars e yy false yy1 →
      Outcome U call vars (.star e) yy true (rewind yy1 yy)
  | star_again {e yy yy1 yy2} : Outcome U call vars e yy true yy1 →
      Outcome U call vars (.star e) yy1 true yy2 →
      Outcome U call vars (.star e) yy true yy2
  | plus_ko {e yy yy1} : Outcome U call vars e yy false yy1 →
      Outcome U call vars (.plus e) yy false yy1
  | plus_ok {e yy yy1 yy2} : Outcome U call vars e yy true yy1 →
      Outcome U call vars (.star e) yy1 true yy2 →
      Outcome U call vars (.plus e) yy true yy2

/-- How the text printed for a node with failure label `ko` ends. -/
def exitOf (b : Bool) (ko : Nat) : Ctl := if b then .fall else .jump ko

/-- What a body `code` does once a part of it, followed by the statements
`post`, has ended with `x`. -/
def resume (U : UserCode) (call : Nat → yycontext → Option (Bool × yycontext))
    (fuel : Nat) (code post : List Instr) (x : Ctl × Frame) : Option (Ctl × Frame) :=
  match x.1 with
  | .fall => run U call fuel code post x.2
  | .jump l =>
    match afterLabel code l with
    | some rest => run U call fuel code rest x.2
    | none => some (.jump l, x.2)
  | .ret v => some (.ret v, x.2)

/-- The statements `mid`, followed by `post`, are a part of the body `code`:
every label of `mid` is found in `code` at the same place. -/
def Inside (mid post code : List Instr) : Prop :=
  ∀ l r, afterLabel mid l = some r → afterLabel code l = some (r ++ post)

/-- The locals numbered up to `prev` hold the same values. -/
def LocAgree (prev : Nat) (l1 l2 : Locals) : Prop :=
  ∀ i, i ≤ prev →
    l2.yypos i = l1.yypos i ∧ l2.yythunkpos i = l1.yythunkpos i ∧ l2.yymaxpos i = l1.yymaxpos i

/-- One oracle for rule calls gives every result that another one gives. -/
def CallLe (c1 c2 : Nat → yycontext → Option (Bool × yycontext)) : Prop :=
  ∀ r yy x, c1 r yy = some x → c2 r yy = some x

/-- No statement `l<l>:;` with `l ≤ lo` or `hi < l` occurs in `code`. -/
def LabelsWithin (code : List Instr) (lo hi : Nat) : Prop :=
  ∀ l, l ≤ lo ∨ hi < l → afterLabel code l = none

/-- With enough fuel, the statements `rest` inside the body `code`, started
in `s`, end with `y`. -/
def Runs (U : UserCode) (call : Nat → yycontext → Option (Bool × yycontext))
    (code rest : List Instr) (s : Frame) (y : Ctl × Frame) : Prop :=
  ∃ n, run U call n code rest s = some y

/-- With enough fuel, the body `code` ends with `y` once a part of it,
followed by `post`, has ended with `x`. -/
def Resumes (U : UserCode) (call : Nat → yycontext → Option (Bool × yycontext))
    (code post : List Instr) (x y : Ctl × Frame) : Prop :=
  ∃ n, resume U call n code post x = some y

/-- Every run of the text printed for `e` ends as `Outcome` says, and leaves
the locals declared before it alone. -/
def SoundAt (U : UserCode) (call : Nat → yycontext → Option (Bool × yycontext))
    (vars : List Variable) (e : Node) : Prop :=
  ∀ (ko prev : Nat) (s : Frame) (y : Ctl × Frame), ko ≤ prev →
    Runs U call (Node_compile_c_ko vars e ko prev).1 (Node_compile_c_ko vars e ko prev).1 s y →
    ∃ b, y.1 = exitOf b ko ∧ Outcome U call vars e s.yy b y.2.yy ∧ LocAgree prev s.loc y.2.loc

/-- The same for the text printed by the loop of an `Alternate`, which is
entered with the cursor and the thunk depth saved in the locals numbered `ok`
and is left to the label `ok` by the branches that are not the last. -/
def SoundAlt (U : UserCode) (call : Nat → yycontext → Option (Bool × yycontext))
    (vars : List Variable) (c : Chain) : Prop :=
  ∀ (ok ko prev : Nat) (s : Frame) (y : Ctl × Frame), ko < ok → ok ≤ prev →
    s.loc.yypos ok = some s.yy._pos → s.loc.yythunkpos ok = some s.yy._thunkpos →
    Runs U call (alternateLoop vars c ok ko prev).1 (alternateLoop vars c ok ko prev).1 s y →
    ∃ b, (y.1 = exitOf b ko ∨ (b = true ∧ y.1 = .jump ok)) ∧
      Outcome U call vars (.alternate c) s.yy b y.2.yy ∧ LocAgree prev s.loc y.2.loc

/-- Whatever `Outcome` says of `e`, the text printed for `e` does, with any
failure label, label counter and locals. -/
def CompleteAt (U : UserCode) (call : Nat → yycontext → Option (Bool × yycontext))
    (vars : List Variable) (e : Node) : Prop :=
  ∀ (yy : yycontext) (b : Bool) (yy1 : yycontext), Outcome U call vars e yy b yy1 →
    ∀ (ko prev : Nat) (loc : Locals), ko ≤ prev →
      ∃ loc1, Runs U call (Node_compile_c_ko vars e ko prev).1
          (Node_compile_c_ko vars e ko prev).1 ⟨yy, loc⟩ (exitOf b ko, ⟨yy1, loc1⟩) ∧
        LocAgree prev loc loc1

/-- The same for the loop of an `Alternate`. -/
def CompleteAlt (U : UserCode) (call : Nat → yycontext → Option (Bool × yycontext))
    (vars : List Variable) (c : Chain) : Prop :=
  ∀ (yy : yycontext) (b : Bool) (yy1 : yycontext),
    Outcome U call vars (.alternate c) yy b yy1 →
    ∀ (ok ko prev : Nat) (loc : Locals), ko < ok → ok ≤ prev →
      loc.yypos ok = some yy._pos → loc.yythunkpos ok = some yy._thunkpos →
      ∃ ctl loc1, (ctl = exitOf b ko ∨ (b = true ∧ ctl = .jump ok)) ∧
        Runs U call (alternateLoop vars c ok ko prev).1 (alternateLoop vars c ok ko prev).1
          ⟨yy, loc⟩ (ctl, ⟨yy1, loc1⟩) ∧
        LocAgree prev loc loc1

/-- `Ends U call vars e yy b yy1`: whatever the failure label `ko`, the label
counter and the locals, the statements printed for `e`, started in context
`yy`, end in context `yy1`, behind their last statement when `b` is true (`e`
succeeds) and with `goto l<ko>` when `b` is false (`e` fails). -/
def Ends (U : UserCode) (call : Nat → yycontext → Option (Bool × yycontext))
    (vars : List Variable) (e : Node) (yy : yycontext) (b : Bool) (yy1 : yycontext) : Prop :=
  ∀ (ko prev : Nat) (loc : Locals), ko ≤ prev →
    ∃ loc1, Runs U call (Node_compile_c_ko vars e ko prev).1 (Node_compile_c_ko vars e ko prev).1
      ⟨yy, loc⟩ (exitOf b ko, ⟨yy1, loc1⟩)

/-- Ordered choice over the branches of a chain, in the words of the
specification: the branches are tried in order, the first one that succeeds
gives the result and no later branch is run; a branch that is not the first is
started with the cursor `p` and the thunk depth `t` of the entry; when the last
branch fails, the choice fails, in the context that branch left. -/
inductive OrderedChoice (U : UserCode) (call : Nat → yycontext → Option (Bool × yycontext))
    (vars : List Variable) (p t : Nat) : Chain → yycontext → Bool → yycontext → Prop
  | last {e yy b yy1} : Ends U call vars e yy b yy1 →
      OrderedChoice U call vars p t (.cons e .nil) yy b yy1
  | first {e e2 rest yy yy1} : Ends U call vars e yy true yy1 →
      OrderedChoice U call vars p t (.cons e (.cons e2 rest)) yy true yy1
  | next {e e2 rest yy yy1 b yy2} : Ends U call vars e yy false yy1 →
      OrderedChoice U call vars p t (.cons e2 rest) { yy1 with _pos := p, _thunkpos := t } b yy2 →
      OrderedChoice U call vars p t (.cons e (.cons e2 rest)) yy b yy2

/-- `k` rounds of `e` in a row, each of which succeeds, lead from context `yy`
to context `yy1`. -/
inductive Iterates (U : UserCode) (call : Nat → yycontext → Option (Bool × yycontext))
    (vars : List Variable) (e : Node) : Nat → yycontext → yycontext → Prop
  | zero {yy} : Iterates U call vars e 0 yy yy
  | succ {k yy yy1 yy2} : Ends U call vars e yy true yy1 → Iterates U call vars e k yy1 yy2 →
      Iterates U call vars e (k + 1) yy yy2

/-- The statement `yyDo(yy, yyPush, n, 0);` (or `yyPop`) that a rule with
variables has, and that a rule without variables has not, leads from `yy` to
`yy1`. -/
def varsDo (node : Rule) (a : yyaction) (yy yy1 : yycontext) : Prop :=
  if node.vars.isEmpty then yy1 = yy else yyDo yy a (countVariables node.vars) 0 = some yy1

/-- What the procedure printed for the rule `node` with expression `e` does
to the context: it returns 1 after the push, the expression and the pop, or,
when the expression fails, 0 with the cursor and the thunk depth of the
entry. -/
inductive RuleOutcome (U : UserCode) (call : Nat → yycontext → Option (Bool × yycontext))
    (node : Rule) (e : Node) : yycontext → Bool → yycontext → Prop
  | ok {yy yyA yyB yyC} : varsDo node .yyPush yy yyA → Outcome U call node.vars e yyA true yyB →
      varsDo node .yyPop yyB yyC → RuleOutcome U call node e yy true yyC
  | ko {yy yyA yyB} : isSafe e = false → varsDo node .yyPush yy yyA →
      Outcome U call node.vars e yyA false yyB → RuleOutcome U call node e yy false (rewind yyB yy)

/-- The optional statement of a rule with variables. -/
def varsStmt (node : Rule) (a : yyaction) : List Instr :=
  if node.vars.isEmpty then [] else [Instr.stmt (.yyDo a (countVariables node.vars) 0)]

/-- The thunk log is untouched: same array, same depth. -/
def LogSame (yy yy1 : yycontext) : Prop :=
  yy1._thunks = yy._thunks ∧ yy1._thunkpos = yy._thunkpos

/-- The thunk log has only grown: the depth is not smaller and the thunks below
the old depth are the same. -/
def LogKeeps (yy yy1 : yycontext) : Prop :=
  yy._thunkpos ≤ yy1._thunkpos ∧
    ∀ i, i < yy._thunkpos → yy1._thunks.getD i default = yy._thunks.getD i default

/-- The thunks that `yyDone` will invoke: those at the positions below
`_thunkpos`. -/
def thunkLog (yy : yycontext) : List yythunk :=
  (List.range yy._thunkpos).map fun i => yy._thunks.getD i default

/-- The text of the grammar's author that runs while matching (inline blocks,
predicates, error blocks) leaves the thunk log alone. -/
def UserKeepsLog (U : UserCode) : Prop :=
  ∀ text yy, LogSame yy (U.inLine text yy) ∧ LogSame yy (U.predicate text yy).2 ∧
    LogSame yy (U.error text yy)

/-- The rule procedures only let the thunk log grow. -/
def CallKeeps (call : Nat → yycontext → Option (Bool × yycontext)) : Prop :=
  ∀ r yy v yy1, call r yy = some (v, yy1) → LogKeeps yy yy1

/-- The actions of the thunks of a list, called one after the other as the
loop of `yyDone` calls them. -/
def invokeAll (U : UserCode) (defs : Nat → List (String × Int)) :
    List yythunk → yycontext → Option yycontext
  | [], yy => some yy
  | thunk :: rest, yy =>
    match invokeThunk U defs thunk yy with
    | none => none
    | some yy1 => invokeAll U defs rest yy1

/-- The action bodies of the grammar's author leave the thunk log alone. -/
def ActionsKeepLog (U : UserCode) : Prop :=
  ∀ name defs yy yyleng, LogSame yy (U.action name defs yy yyleng)

/-- Two texts of the grammar's author that differ in the action bodies
only. -/
def SameMatching (U1 U2 : UserCode) : Prop :=
  U1.inLine = U2.inLine ∧ U1.predicate = U2.predicate ∧ U1.error = U2.error

/-- The context in which `YYPARSEFROM` calls the start rule. -/
def yyentry (yyctx : yycontext) : yycontext :=
  { yyinit yyctx with _begin := (yyinit yyctx)._pos, _end := (yyinit yyctx)._pos,
                      _thunkpos := 0, _val := 0 }

/-- A grammar author's text that does nothing. -/
def noUser : UserCode :=
  ⟨fun _ _ yy _ => yy, fun _ yy => yy, fun _ yy => (true, yy), fun _ yy => yy⟩

/-- The oracle for a text without rule calls. -/
def noCall : Nat → yycontext → Option (Bool × yycontext) := fun _ _ => none

/-- The context in which a first parse of `input` calls the start rule. -/
def ready (input : List Nat) : yycontext := yyentry (yyctx0 input)

/-- The branches of `"ab" / "ac"`. -/
def choiceAbAc : Chain :=
  .cons (.string [97, 98] false) (.cons (.string [97, 99] false) .nil)

/-- The grammar `A <- "ab" / "ac"`. -/
def grammarChoice : List Rule := [⟨"A", 0, some (.alternate choiceAbAc), 0, []⟩]

/-- The grammar `A <- "a"* "b"`. -/
def grammarStar : List Rule :=
  [⟨"A", 0, some (.sequence (.cons (.star (.string [97] false))
    (.cons (.string [98] false) .nil))), 0, []⟩]

/-- The grammar `A <- "a"+`. -/
def grammarPlus : List Rule := [⟨"A", 0, some (.plus (.string [97] false)), 0, []⟩]

/-- The grammar `A <- !"x" .`. -/
def grammarNot : List Rule :=
  [⟨"A", 0, some (.sequence (.cons (.peekNot (.string [120] false)) (.cons .dot .nil))), 0, []⟩]

/-- The grammar `A <- &"a" "ab"`. -/
def grammarAnd : List Rule :=
  [⟨"A", 0, some (.sequence (.cons (.peekFor (.string [97] false))
    (.cons (.string [97, 98] false) .nil))), 0, []⟩]

/-- The grammar `A <- "ab"`. -/
def grammarAb : List Rule := [⟨"A", 0, some (.string [97, 98] false), 0, []⟩]

/-- The grammar `A <- "a" { n++ } / "b"`, its action being called 0. -/
def grammarAct : List Rule :=
  [⟨"A", 0, some (.alternate (.cons (.sequence (.cons (.string [97] false)
    (.cons (.action 0) .nil))) (.cons (.string [98] false) .nil))), 0, []⟩]

/-- The `actions` list of `grammarAct`. -/
def actionsAct : List ActionNode := [⟨0, 0, "n++", 1⟩]

/-- The author's text of `grammarAct`: the action body `n++`, the counter `n`
being the first of `YY_CTX_MEMBERS`. -/
def userCount : UserCode :=
  ⟨fun _ _ yy _ => { yy with members := [yy.members.headD 0 + 1] }, fun _ yy => yy,
    fun _ yy => (true, yy), fun _ yy => yy⟩

/-- The rules with `flags |= RuleReached` done on rule `r`. -/
def setReached (rules : List Rule) (r : Nat) : List Rule :=
  match rules.get? r with
  | none => rules
  | some node => rules.set r { node with flags := node.flags ||| RuleReached }

/-- The rules with `flags &= ~RuleReached` done on rule `r`: the bits that the
flags share with `RuleReached` are taken out. -/
def clearReached (rules : List Rule) (r : Nat) : List Rule :=
  match rules.get? r with
  | none => rules
  | some node =>
    rules.set r { node with flags := node.flags ^^^ (node.flags &&& RuleReached) }

mutual
/-- `consumesInput` on an expression node.  `rule r` is the call
`consumesInput(node->name.rule)` on the `Rule` node `r`.  A result holds the
value returned, the rules with the flags as the call leaves them, and the names
of the rules in the lines `possible infinite left recursion in rule '<name>'`
written to `stderr`, in order. -/
def consumesInput (rule : Nat → List Rule → Option (Bool × List Rule × List String)) :
    Node → List Rule → Option (Bool × List Rule × List String)
  | .dot, rules => some (true, rules, [])
  | .name r _, rules => rule r rules
  | .character value, rules => some (decide (strlen value > 0), rules, [])
  | .string value _, rules => some (decide (strlen value > 0), rules, [])
  | .cclass _, rules => some (true, rules, [])
  | .action _, rules => some (false, rules, [])
  | .inLine _, rules => some (false, rules, [])
  | .predicate _, rules => some (false, rules, [])
  | .error element _, rules => consumesInput rule element rules
  | .alternate first, rules => consumesAlternate rule first rules
  | .sequence first, rules => consumesSequence rule first rules
  | .peekFor _, rules => some (false, rules, [])
  | .peekNot _, rules => some (false, rules, [])
  | .query _, rules => some (false, rules, [])
  | .star _, rules => some (false, rules, [])
  | .plus element, rules => consumesInput rule element rules
/-- The loop of `case Alternate`, from child `n` on. -/
def consumesAlternate (rule : Nat → List Rule → Option (Bool × List Rule × List String)) :
    Chain → List Rule → Option (Bool × List Rule × List String)
  | .nil, rules => some (true, rules, [])
  | .cons n next, rules =>
    match consumesInput rule n rules with
    | none => none
    | some (false, rules1, w) => some (false, rules1, w)
    | some (true, rules1, w) =>
      match consumesAlternate rule next rules1 with
      | none => none
      | some (b, rules2, w2) => some (b, rules2, w ++ w2)
/-- The loop of `case Sequence`, from child `n` on. -/
def consumesSequence (rule : Nat → List Rule → Option (Bool × List Rule × List String)) :
    Chain → List Rule → Option (Bool × List Rule × List String)
  | .nil, rules => some (false, rules, [])
  | .cons n next, rules =>
    match consumesInput rule n rules with
    | none => none
    | some (true, rules1, w) => some (true, rules1, w)
    | some (false, rules1, w) =>
      match consumesSequence rule next rules1 with
      | none => none
      | some (b, rules2, w2) => some (b, rules2, w ++ w2)
end

/-- `consumesInput` on the `Rule` node `r` (`case Rule`); `fuel` bounds the
nesting of these calls.  A rule without expression gives 0 by the test
`if (!node) return 0`. -/
def consumesInputRule : Nat → Nat → List Rule → Option (Bool × List Rule × List String)
  | 0, _, _ => none
  | fuel + 1, r, rules =>
    match rules.get? r with
    | none => none
    | some node =>
      if RuleReached &&& node.flags ≠ 0 then some (false, rules, [node.name])
      else
        match node.expression with
        | none => some (false, clearReached (setReached rules r) r, [])
        | some e =>
          match consumesInput (consumesInputRule fuel) e (setReached rules r) with
          | none => none
          | some (b, rules1, w) => some (b, clearReached rules1 r, w)

/-- The loop `for (n= rules; n; n= n->rule.next) consumesInput(n);` that opens
`Rule_compile_c`, for the `k` rules from rule `r` on: the rules afterwards and
the warnings written. -/
def analysis (fuel : Nat) : Nat → Nat → List Rule → Option (List Rule × List String)
  | 0, _, rules => some (rules, [])
  | k + 1, r, rules =>
    match consumesInputRule fuel r rules with
    | none => none
    | some (_, rules1, w) =>
      match analysis fuel k (r + 1) rules1 with
      | none => none
      | some (rules2, w2) => some (rules2, w ++ w2)

/-- `Rule_compile_c` from its first statement on: the analysis loop, whose
warnings go to `stderr`, and then the printing of the parser. -/
def Rule_compile_c_all (fuel : Nat) (rules : List Rule) (actions : List ActionNode)
    (prev : Nat) : Option (List String × Program) :=
  match analysis fuel rules.length 0 rules with
  | none => none
  | some (rules1, w) => some (w, Rule_compile_c rules1 actions prev)

/-- The grammar `A <- A "x" / "y"`. -/
def grammarLeft : List Rule :=
  [⟨"A", 0, some (.alternate (.cons (.sequence (.cons (.name 0 none)
    (.cons (.string [120] false) .nil))) (.cons (.string [121] false) .nil))), 0, []⟩]

/-- The nodes of a sibling chain, in order. -/
def chainNodes : Chain → List Node
  | .nil => []
  | .cons n next => n :: chainNodes next

mutual
/-- Every `Name` inside the node refers to one of the first `n` rules. -/
def namesBelow (n : Nat) : Node → Bool
  | .name r _ => decide (r < n)
  | .error element _ => namesBelow n element
  | .alternate first => chainNamesBelow n first
  | .sequence first => chainNamesBelow n first
  | .peekFor element => namesBelow n element
  | .peekNot element => namesBelow n element
  | .query element => namesBelow n element
  | .star element => namesBelow n element
  | .plus element => namesBelow n element
  | _ => true
/-- The same for the nodes of a chain. -/
def chainNamesBelow (n : Nat) : Chain → Bool
  | .nil => true
  | .cons node next => namesBelow n node && chainNamesBelow n next
end

/-- Every `Name` of the grammar refers to a rule of the grammar: the pointer
`name.rule` is the address of a `Rule` node of the list. -/
def WellFormed (rules : List Rule) : Prop :=
  ∀ node ∈ rules, ∀ e, node.expression = some e → namesBelow rules.length e = true

/-- Rule `i` exists and has its `RuleReached` flag set. -/
def isReached (rules : List Rule) (i : Nat) : Bool :=
  match rules.get? i with
  | some node => RuleReached &&& node.flags != 0
  | none => false

/-- The rules whose `RuleReached` flag is clear. -/
def unreached (rules : List Rule) : Finset Nat :=
  (Finset.range rules.length).filter fun i => isReached rules i = false

/-- The value that `consumesInput` returns on a node, the rules being
`rules`. -/
def consumes (fuel : Nat) (rules : List Rule) (n : Node) : Option Bool :=
  (consumesInput (consumesInputRule fuel) n rules).map fun x => x.1

/-- The oracle for `Rule` nodes returns on every rule of `rules` and leaves
the rules as they are. -/
def TotalOn (rule : Nat → List Rule → Option (Bool × List Rule × List String))
    (rules : List Rule) : Prop :=
  ∀ r, r < rules.length → ∃ b w, rule r rules = some (b, rules, w)

/-- The value that `consumesInput` returns on a node when no rule that it
enters is found entered already (no warning is written): 1 on `Dot` and
`Class`, the test `strlen > 0` on a literal, 0 on actions, inline blocks,
predicates, `PeekFor`, `PeekNot`, `Query` and `Star`, the value of the
expression on a `Name` (0 when the rule has none), of the element on `Error`
and `Plus`; on a `Sequence` 1 with the first element of value 1, on an
`Alternate` 0 with the first branch of value 0. -/
inductive Verdict (rules : List Rule) : Node → Bool → Prop
  | dot : Verdict rules .dot true
  | cclass {value} : Verdict rules (.cclass value) true
  | character {value} : Verdict rules (.character value) (decide (strlen value > 0))
  | string {value casefold} : Verdict rules (.string value casefold) (decide (strlen value > 0))
  | action {name} : Verdict rules (.action name) false
  | inLine {text} : Verdict rules (.inLine text) false
  | predicate {text} : Verdict rules (.predicate text) false
  | peekFor {e} : Verdict rules (.peekFor e) false
  | peekNot {e} : Verdict rules (.peekNot e) false
  | query {e} : Verdict rules (.query e) false
  | star {e} : Verdict rules (.star e) false
  | undefined {r v node} : rules.get? r = some node → node.expression = none →
      Verdict rules (.name r v) false
  | rule {r v node e b} : rules.get? r = some node → node.expression = some e →
      Verdict rules e b → Verdict rules (.name r v) b
  | error {e t b} : Verdict rules e b → Verdict rules (.error e t) b
  | plus {e b} : Verdict rules e b → Verdict rules (.plus e) b
  | seq_nil : Verdict rules (.sequence .nil) false
  | seq_stop {n next} : Verdict rules n true → Verdict rules (.sequence (.cons n next)) true
  | seq_next {n next b} : Verdict rules n false → Verdict rules (.sequence next) b →
      Verdict rules (.sequence (.cons n next)) b
  | alt_nil : Verdict rules (.alternate .nil) true
  | alt_stop {n next} : Verdict rules n false → Verdict rules (.alternate (.cons n next)) false
  | alt_next {n next b} : Verdict rules n true → Verdict rules (.alternate next) b →
      Verdict rules (.alternate (.cons n next)) b

/-- Left recursion through the places that the analysis visits: the node has
a `Name` of rule `R` in front, reached through the expression of a rule named,
the element of an `Error` or of a `Plus`, an element of a sequence behind
elements that the analysis gives the value 0, or a branch of a choice behind
branches that it gives the value 1. -/
inductive LeftReach (rules : List Rule) (R : Nat) : Node → Prop
  | here {v} : LeftReach rules R (.name R v)
  | rule {r v node e} : rules.get? r = some node → node.expression = some e →
      LeftReach rules R e → LeftReach rules R (.name r v)
  | error {e t} : LeftReach rules R e → LeftReach rules R (.error e t)
  | plus {e} : LeftReach rules R e → LeftReach rules R (.plus e)
  | seq_head {n next} : LeftReach rules R n → LeftReach rules R (.sequence (.cons n next))
  | seq_skip {n next} : Verdict rules n false → LeftReach rules R (.sequence next) →
      LeftReach rules R (.sequence (.cons n next))
  | alt_head {n next} : LeftReach rules R n → LeftReach rules R (.alternate (.cons n next))
  | alt_skip {n next} : Verdict rules n true → LeftReach rules R (.alternate next) →
      LeftReach rules R (.alternate (.cons n next))

/-- The rules `rules1` have the expressions of the rules `rules`. -/
def SameExprs (rules rules1 : List Rule) : Prop :=
  ∀ i node1, rules1.get? i = some node1 →
    ∃ node, rules.get? i = some node ∧ node.expression = node1.expression

/-- The grammar `A <- A? "x"`. -/
def grammarOpt : List Rule :=
  [⟨"A", 0, some (.sequence (.cons (.query (.name 0 none))
    (.cons (.string [120] false) .nil))), 0, []⟩]

/-- The text of the grammar's author that runs while matching and can end
in success (inline blocks and predicates) leaves the cursor alone. -/
def UserKeepsPos (U : UserCode) : Prop :=
  ∀ text yy, (U.inLine text yy)._pos = yy._pos ∧ (U.predicate text yy).2._pos = yy._pos

/-- A rule procedure that returns 1 has not moved the cursor backwards. -/
def CallMono (call : Nat → yycontext → Option (Bool × yycontext)) : Prop :=
  ∀ r yy yy1, call r yy = some (true, yy1) → yy._pos ≤ yy1._pos

/-- Every success of the text printed for `e` moves the cursor forward. -/
def Consuming (U : UserCode) (call : Nat → yycontext → Option (Bool × yycontext))
    (vars : List Variable) (e : Node) : Prop :=
  ∀ yy yy1, Outcome U call vars e yy true yy1 → yy._pos < yy1._pos

/-- The string handed to `yymatchString` or `yymatchIString` by the
condition does not begin with NUL. -/
def startsNonNul : Test → Bool
  | .matchString lit => decide (peekc (literal lit) ≠ 0)
  | .matchIString lit => decide (peekc (literal lit) ≠ 0)
  | _ => true

mutual
/-- No literal of the node that is not empty is matched as a C string that
begins with NUL. -/
def literalsOK : Node → Bool
  | .character value => decide (strlen value = 0) || startsNonNul (compileString false value false)
  | .string value casefold =>
    decide (strlen value = 0) || startsNonNul (compileString true value casefold)
  | .error element _ => literalsOK element
  | .alternate first => chainLiteralsOK first
  | .sequence first => chainLiteralsOK first
  | .peekFor element => literalsOK element
  | .peekNot element => literalsOK element
  | .query element => literalsOK element
  | .star element => literalsOK element
  | .plus element => literalsOK element
  | _ => true
/-- The same for the nodes of a chain. -/
def chainLiteralsOK : Chain → Bool
  | .nil => true
  | .cons node next => literalsOK node && chainLiteralsOK next
end

/-- The grammar `A <- "\000"`. -/
def grammarNul : List Rule := [⟨"A", 0, some (.string [92, 48, 48, 48] false), 0, []⟩]

mutual
/-- No `Alternate` inside the node has an empty chain. -/
def altsNonEmpty : Node → Bool
  | .error element _ => altsNonEmpty element
  | .alternate .nil => false
  | .alternate (.cons node next) => altsNonEmpty node && chainAltsNonEmpty next
  | .sequence first => chainAltsNonEmpty first
  | .peekFor element => altsNonEmpty element
  | .peekNot element => altsNonEmpty element
  | .query element => altsNonEmpty element
  | .star element => altsNonEmpty element
  | .plus element => altsNonEmpty element
  | _ => true
/-- The same for the nodes of a chain. -/
def chainAltsNonEmpty : Chain → Bool
  | .nil => true
  | .cons node next => altsNonEmpty node && chainAltsNonEmpty next
end

/-- The oracle for `Rule` nodes leaves the rules as they are. -/
def KeepsRules (rule : Nat → List Rule → Option (Bool × List Rule × List String)) : Prop :=
  ∀ r S b S1 w, rule r S = some (b, S1, w) → S1 = S

/-- No literal of the grammar that is not empty is matched as a C string that
begins with NUL, and no `Alternate` of the grammar is empty. -/
def Matchable (rules : List Rule) : Prop :=
  ∀ node ∈ rules, ∀ e, node.expression = some e → literalsOK e = true ∧ altsNonEmpty e = true

/-- A statement that belongs to the text of a node printed with failure
label `ko` when the label counter was `prev`: its `goto`s go to `ko` or to a
label made since, the labels and locals it names were made since, and it is
no `return`. -/
def inner (ko prev : Nat) : Instr → Prop
  | .test _ l => l = ko ∨ prev < l
  | .jump l => l = ko ∨ prev < l
  | .label l => prev < l
  | .save l => prev < l
  | .restore l => prev < l
  | .saveMaxPos l => prev < l
  | .restoreMaxPos l => prev < l
  | .stmt _ => True
  | .ret _ => False

/-- The grammar `A <- A*`. -/
def grammarLoop : List Rule := [⟨"A", 0, some (.star (.name 0 none)), 0, []⟩]

/-- The grammar `A <- x:B ; B <- "1"`, which has no action; the offset of `x`
is 0, as the allocation of the node leaves it. -/
def grammarBindOnly : List Rule :=
  [⟨"A", 0, some (.name 1 (some 0)), 0, [⟨"x", 0⟩]⟩, ⟨"B", 1, some (.string [49] false), 0, []⟩]

/-- The grammar `A <- x:B { use(x) } ; B <- "1" { $$ = 1 }`, the action of `A`
being called 0 and the action of `B` 1. -/
def grammarBind : List Rule :=
  [⟨"A", 0, some (.sequence (.cons (.name 1 (some 0)) (.cons (.action 0) .nil))), 0, [⟨"x", 0⟩]⟩,
   ⟨"B", 1, some (.sequence (.cons (.string [49] false) (.cons (.action 1) .nil))), 0, []⟩]

/-- The `actions` list of `grammarBind`. -/
def actionsBind : List ActionNode := [⟨0, 0, "use(x)", 1⟩, ⟨1, 1, "$$ = 1", 1⟩]

/-- A grammar author's text whose actions note the `yyleng` they are called
with in the first of `YY_CTX_MEMBERS`. -/
def userLeng : UserCode :=
  ⟨fun _ _ yy yyleng => { yy with members := yy.members ++ [yyleng] }, fun _ yy => yy,
    fun _ yy => (true, yy), fun _ yy => yy⟩

/-- The invariant `0 <= _pos <= _limit <= _buflen`. -/
def CursorInside (yy : yycontext) : Prop := yy._pos ≤ yy._limit ∧ yy._limit ≤ yy._buflen

/-- The cursor, the end of the buffered input and the size of the buffer are
the same in both contexts. -/
def SameCursor (yy yy1 : yycontext) : Prop :=
  yy1._pos = yy._pos ∧ yy1._limit = yy._limit ∧ yy1._buflen = yy._buflen

/-- The text of the grammar's author that runs while matching leaves the
cursor and the bounds of the buffer alone. -/
def UserKeepsBuffer (U : UserCode) : Prop :=
  ∀ text yy, SameCursor yy (U.inLine text yy) ∧ SameCursor yy (U.predicate text yy).2 ∧
    SameCursor yy (U.error text yy)

/-- Every cursor saved in a local of the activation is inside the buffered
input. -/
def SavedInside (s : Frame) : Prop :=
  ∀ n p, s.loc.yypos n = some p → p ≤ s.yy._limit

/-- The rule procedures keep the invariant and do not shorten the buffered
input. -/
def CallInside (call : Nat → yycontext → Option (Bool × yycontext)) : Prop :=
  ∀ r yy v yy1, call r yy = some (v, yy1) → CursorInside yy →
    CursorInside yy1 ∧ yy._limit ≤ yy1._limit

/-- The number of statements `l<l>:;` in a text. -/
def countLabel (l : Nat) : List Instr → Nat
  | [] => 0
  | .label n :: rest => (if n = l then 1 else 0) + countLabel l rest
  | _ :: rest => countLabel l rest

/-- The label that a statement has a `goto` to. -/
def target : Instr → Option Nat
  | .test _ l => some l
  | .jump l => some l
  | _ => none

/-- The text of all the rule procedures printed by `Rule_compile_c2`, one
after the other. -/
def printed (rules : List Rule) (prev : Nat) : List Instr :=
  ((Rule_compile_c2 rules prev).1.filterMap id).flatten

/-- The bitwise complement of a bitmap of bytes. -/
def complement (bits : List Nat) : List Nat := bits.map fun b => 255 - b

/-- Every cell of the bitmap holds a byte. -/
def Bytes (bits : List Nat) : Prop := ∀ b ∈ bits, b < 256

/-- The chain `c1` followed by the chain `c2`. -/
def chainAppend : Chain → Chain → Chain
  | .nil, c2 => c2
  | .cons node next, c2 => .cons node (chainAppend next c2)

/-- The set denoted by a class text, in the words of the specification: the
text is read from left to right as symbols decoded by `cnext`; a `-` that has a
captured symbol `prev` before it and a character after it stands, with the
symbol `c` decoded next, for every symbol of `[prev, c]`; every other symbol,
a `-` included, stands for itself.  `fuel` bounds the symbols read. -/
def denotes : Nat → List Nat → Option Nat → Nat → Bool
  | 0, _, _, _ => false
  | fuel + 1, s, prev, b =>
    if peekc s = 0 then false
    else if peekc s = 45 ∧ peekc s.tail ≠ 0 ∧ prev.isSome then
      decide (prev.getD 0 ≤ b ∧ b ≤ (cnext s.tail).1) || denotes fuel (cnext s.tail).2 none b
    else decide (b = (cnext s).1) || denotes fuel (cnext s).2 (some (cnext s).1) b

/-- Every symbol that the class text is decoded to is a byte. -/
def symbolsAreBytes : Nat → List Nat → Option Nat → Bool
  | 0, _, _ => true
  | fuel + 1, s, prev =>
    if peekc s = 0 then true
    else if peekc s = 45 ∧ peekc s.tail ≠ 0 ∧ prev.isSome then
      decide ((cnext s.tail).1 < 256) && symbolsAreBytes fuel (cnext s.tail).2 none
    else decide ((cnext s).1 < 256) && symbolsAreBytes fuel (cnext s).2 (some (cnext s).1)

/-- `yyAccept(yy, tp0)`. -/
def yyAccept (U : UserCode) (defs : Nat → List (String × Int)) (fuel : Nat)
    (yy : yycontext) (tp0 : Nat) : Option (Bool × yycontext) :=
  if tp0 ≠ 0 then some (false, yy)
  else
    match yyDone U defs fuel yy with
    | none => none
    | some yy1 =>
      match yyCommit yy1 with
      | none => none
      | some yy2 => some (true, yy2)

/-- An author's text with the action body `n++` of `userCount` and the
predicate `YYACCEPT`, which stands for `yyAccept(yy, yythunkpos0)`, in the
procedure of a rule that is entered with the thunk depth 0 (the start rule):
`yythunkpos0` is 0 there. -/
def userAccept : UserCode :=
  ⟨userCount.action, fun _ yy => yy,
    fun _ yy => (yyAccept userCount (fun _ => []) 8 yy 0).getD (false, yy), fun _ yy => yy⟩

/-- The grammar `A <- "a" { n++ } &{ YYACCEPT } "b"`. -/
def grammarAccept : List Rule :=
  [⟨"A", 0, some (.sequence (.cons (.string [97] false) (.cons (.action 0)
    (.cons (.predicate "YYACCEPT") (.cons (.string [98] false) .nil))))), 0, []⟩]

/-- The grammar `A <- "ab" ("c" &{ YYACCEPT } "d")? "x"`. -/
def grammarAcceptBack : List Rule :=
  [⟨"A", 0, some (.sequence (.cons (.string [97, 98] false)
    (.cons (.query (.sequence (.cons (.string [99] false) (.cons (.predicate "YYACCEPT")
      (.cons (.string [100] false) .nil)))))
    (.cons (.string [120] false) .nil)))), 0, []⟩]

/-- The action bodies of the grammar's author leave the cursor, the end of the
buffered input and the buffer alone. -/
def ActionsKeepBuffer (U : UserCode) : Prop :=
  ∀ name defs yy yyleng, (U.action name defs yy yyleng)._pos = yy._pos ∧
    (U.action name defs yy yyleng)._limit = yy._limit ∧
    (U.action name defs yy yyleng)._buf = yy._buf

/-- A context with `abc` buffered, the cursor behind the `a` and the thunk
depth 2. -/
def bufferedAbc : yycontext :=
  { ready [] with _buf := [97, 98, 99], _pos := 1, _limit := 3, _thunkpos := 2 }

/-- The zero-initialised `yyctx_` with `abc` waiting, all of which the first
call of `YY_INPUT` delivers. -/
def yyctxAbc : yycontext := { yyctx0 [97, 98, 99] with chunks := [3] }

/-- The grammar `A <- "a"*`. -/
def grammarStarA : List Rule := [⟨"A", 0, some (.star (.string [97] false)), 0, []⟩]

/-- The grammar `A <- "a"?`. -/
def grammarQueryA : List Rule := [⟨"A", 0, some (.query (.string [97] false)), 0, []⟩]

/-- The grammar `A <- &"b" / A "x"`. -/
def grammarPeek : List Rule :=
  [⟨"A", 0, some (.alternate (.cons (.peekFor (.string [98] false))
    (.cons (.sequence (.cons (.name 0 none) (.cons (.string [120] false) .nil))) .nil))),
    0, []⟩]

/-- The grammar `A <- "\000" A`. -/
def grammarNulLeft : List Rule :=
  [⟨"A", 0, some (.sequence (.cons (.string [92, 48, 48, 48] false)
    (.cons (.name 0 none) .nil))), 0, []⟩]

/-- What a result of `consumesInput` on the node `n`, with value `b` and
warnings `w`, in the state `S` of the flags, comes from: no warning and the
value of `Verdict`, or a left recursion of a rule entered in `S` through `n`,
or a left recursion of some rule through its own expression. -/
def Explained (rules : List Rule) (n : Node) (S : List Rule) (b : Bool) (w : List String) :
    Prop :=
  (w = [] ∧ Verdict rules n b) ∨ (∃ R, isReached S R = true ∧ LeftReach rules R n) ∨
    ∃ R node e, rules.get? R = some node ∧ node.expression = some e ∧ LeftReach rules R e

mutual
/-- The positions of the variables to which the `Name`s inside the node are
bound. -/
def bindsOf : Node → List Nat
  | .name _ (some v) => [v]
  | .error element _ => bindsOf element
  | .alternate first => chainBindsOf first
  | .sequence first => chainBindsOf first
  | .peekFor element => bindsOf element
  | .peekNot element => bindsOf element
  | .query element => bindsOf element
  | .star element => bindsOf element
  | .plus element => bindsOf element
  | _ => []
/-- The same for the nodes of a chain. -/
def chainBindsOf : Chain → List Nat
  | .nil => []
  | .cons node next => bindsOf node ++ chainBindsOf next
end

mutual
/-- The names of the `Action` nodes inside the node. -/
def actionsOf : Node → List Nat
  | .action name => [name]
  | .error element _ => actionsOf element
  | .alternate first => chainActionsOf first
  | .sequence first => chainActionsOf first
  | .peekFor element => actionsOf element
  | .peekNot element => actionsOf element
  | .query element => actionsOf element
  | .star element => actionsOf element
  | .plus element => actionsOf element
  | _ => []
/-- The same for the nodes of a chain. -/
def chainActionsOf : Chain → List Nat
  | .nil => []
  | .cons node next => actionsOf node ++ chainActionsOf next
end

/-- The grammar `A <- "a" { yythunkpos = 2 } ("b" { n++ } "c")?`, the action
`n++` being called 1. -/
def grammarStale : List Rule :=
  [⟨"A", 0, some (.sequence (.cons (.string [97] false) (.cons (.action 0)
    (.cons (.query (.sequence (.cons (.string [98] false) (.cons (.action 1)
      (.cons (.string [99] false) .nil))))) .nil)))), 0, []⟩]

/-- The `actions` list of `grammarStale`. -/
def actionsStale : List ActionNode := [⟨0, 0, "yythunkpos = 2", 1⟩, ⟨1, 0, "n++", 1⟩]

/-- The author's text of `grammarStale`: the body `n++` of `userCount` for
action 1, and for action 0 the body `yythunkpos = 2`, `yythunkpos` being what
the action procedure defines as `yy->_thunkpos`. -/
def userStale : UserCode :=
  ⟨fun name defs yy yyleng =>
      if name = 0 then { yy with _thunkpos := 2 } else userCount.action name defs yy yyleng,
    fun _ yy => yy, fun _ yy => (true, yy), fun _ yy => yy⟩

/-- A context in which 2^30 bytes are buffered in a buffer of that size and
all of them are matched. -/
def bufferedFull : yycontext :=
  { ready [120] with _buflen := 1073741824, _pos := 1073741824, _limit := 1073741824 }

/-- The grammar `Expr <- Term / Expr "+" Term ; Term <- "n"`. -/
def grammarExpr : List Rule :=
  [⟨"Expr", 0, some (.alternate (.cons (.name 1 none) (.cons (.sequence (.cons (.name 0 none)
      (.cons (.string [43] false) (.cons (.name 1 none) .nil)))) .nil))), 0, []⟩,
   ⟨"Term", 1, some (.string [110] false), 0, []⟩]

/-- The grammar `A <- B A ; B <- "x"?`. -/
def grammarNullable : List Rule :=
  [⟨"A", 0, some (.sequence (.cons (.name 1 none) (.cons (.name 0 none) .nil))), 0, []⟩,
   ⟨"B", 1, some (.query (.string [120] false)), 0, []⟩]

/-! ## Theorems -/

theorem afterLabel_append (a b : List Instr) (l : Nat) :
    afterLabel (a ++ b) l =
      match afterLabel a l with
      | some r => some (r ++ b)
      | none => afterLabel b l := by
  induction a with
  | nil => simp [afterLabel]
  | cons i a ih =>
    cases i <;> simp [afterLabel, ih]
    split <;> simp

theorem evalTest_mono {U : UserCode} {c1 c2 : Nat → yycontext → Option (Bool × yycontext)}
    (h : CallLe c1 c2) {c : Test} {yy : yycontext} {x : Bool × yycontext}
    (hx : evalTest U c1 c yy = some x) : evalTest U c2 c yy = some x := by
  cases c <;> simp_all [evalTest]
  exact h _ _ _ hx

theorem execInstr_mono {U : UserCode} {c1 c2 : Nat → yycontext → Option (Bool × yycontext)}
    (h : CallLe c1 c2) {i : Instr} {s : Frame} {x : Ctl × Frame}
    (hx : execInstr U c1 i s = some x) : execInstr U c2 i s = some x := by
  cases i with
  | test c ko =>
    simp only [execInstr] at hx ⊢
    cases ht : evalTest U c1 c s.yy with
    | none => simp [ht] at hx
    | some r => rw [evalTest_mono h ht]; rw [ht] at hx; exact hx
  | _ => simpa [execInstr] using hx

theorem run_mono {U : UserCode} {c1 c2 : Nat → yycontext → Option (Bool × yycontext)}
    (h : CallLe c1 c2) {n : Nat} : ∀ {m : Nat} {code r : List Instr} {s : Frame}
    {x : Ctl × Frame}, n ≤ m → run U c1 n code r s = some x → run U c2 m code r s = some x := by
  induction n with
  | zero =>
    intro m code r s x _ hx
    cases r with
    | nil => cases m <;> simpa [run] using hx
    | cons i r => simp [run] at hx
  | succ n ih =>
    intro m code r s x hm hx
    cases r with
    | nil => cases m <;> simpa [run] using hx
    | cons i r =>
      obtain ⟨m, rfl⟩ : ∃ k, m = k + 1 := ⟨m - 1, by omega⟩
      simp only [run] at hx ⊢
      cases he : execInstr U c1 i s with
      | none => simp [he] at hx
      | some y =>
        rw [execInstr_mono h he]
        rw [he] at hx
        obtain ⟨ctl, s1⟩ := y
        cases ctl with
        | fall => exact ih (by omega) hx
        | jump l =>
          simp only at hx ⊢
          cases hl : afterLabel code l with
          | none => simpa [hl] using hx
          | some r1 => simp only [hl] at hx ⊢; exact ih (by omega) hx
        | ret v => simpa using hx

theorem callLe_refl (c : Nat → yycontext → Option (Bool × yycontext)) : CallLe c c :=
  fun _ _ _ h => h

theorem resume_mono {U : UserCode} {call : Nat → yycontext → Option (Bool × yycontext)}
    {n m : Nat} {code post : List Instr} {x y : Ctl × Frame} (hm : n ≤ m)
    (h : resume U call n code post x = some y) : resume U call m code post x = some y := by
  obtain ⟨ctl, s⟩ := x
  cases ctl with
  | fall => exact run_mono (callLe_refl call) hm h
  | jump l =>
    simp only [resume] at h ⊢
    cases hl : afterLabel code l with
    | none => simpa [hl] using h
    | some r => simp only [hl] at h ⊢; exact run_mono (callLe_refl call) hm h
  | ret v => simpa [resume] using h

/-- A run of a body that stands at a part `mid` of it is a run of `mid` alone
followed by what the body does after `mid` has ended. -/
theorem run_split {U : UserCode} {call : Nat → yycontext → Option (Bool × yycontext)}
    {mid post code : List Instr} (hin : Inside mid post code) {n : Nat} :
    ∀ {r : List Instr} {s : Frame} {y : Ctl × Frame},
      run U call n code (r ++ post) s = some y →
      ∃ x, run U call n mid r s = some x ∧ resume U call n code post x = some y := by
  induction n with
  | zero =>
    intro r s y h
    cases r with
    | nil => exact ⟨(.fall, s), by simp [run], by simpa [resume] using h⟩
    | cons i r => simp [run] at h
  | succ n ih =>
    intro r s y h
    cases r with
    | nil => exact ⟨(.fall, s), by simp [run], by simpa [resume] using h⟩
    | cons i r =>
      simp only [List.cons_append, run] at h ⊢
      cases he : execInstr U call i s with
      | none => simp [he] at h
      | some z =>
        rw [he] at h
        obtain ⟨ctl, s1⟩ := z
        cases ctl with
        | fall =>
          obtain ⟨x, hx, hr⟩ := ih h
          exact ⟨x, hx, resume_mono (Nat.le_succ n) hr⟩
        | jump l =>
          simp only at h ⊢
          cases hl : afterLabel mid l with
          | none =>
            refine ⟨(.jump l, s1), rfl, ?_⟩
            simp only [resume]
            cases hc : afterLabel code l with
            | none => simpa [hc] using h
            | some r1 =>
              simp only [hc] at h ⊢
              exact run_mono (callLe_refl call) (Nat.le_succ n) h
          | some r1 =>
            rw [hin l r1 hl] at h
            obtain ⟨x, hx, hr⟩ := ih h
            exact ⟨x, hx, resume_mono (Nat.le_succ n) hr⟩
        | ret v => exact ⟨(.ret v, s1), rfl, by simpa [resume] using h⟩

/-- A run of a part `mid` of a body, and a run of the body from where `mid`
has ended, make a run of the body. -/
theorem run_join {U : UserCode} {call : Nat → yycontext → Option (Bool × yycontext)}
    {mid post code : List Instr} (hin : Inside mid post code) {n : Nat} :
    ∀ {m : Nat} {r : List Instr} {s : Frame} {x y : Ctl × Frame},
      run U call n mid r s = some x → resume U call m code post x = some y →
      run U call (n + m) code (r ++ post) s = some y := by
  induction n with
  | zero =>
    intro m r s x y h hr
    cases r with
    | nil =>
      simp only [run, Option.some.injEq] at h
      subst h
      simpa [resume] using hr
    | cons i r => simp [run] at h
  | succ n ih =>
    intro m r s x y h hr
    cases r with
    | nil =>
      simp only [run, Option.some.injEq] at h
      subst h
      have hr2 : run U call m code post s = some y := by simpa [resume] using hr
      exact run_mono (callLe_refl call) (show m ≤ n + 1 + m by omega) (by simpa using hr2)
    | cons i r =>
      have e1 : n + 1 + m = (n + m) + 1 := by omega
      rw [e1]
      simp only [List.cons_append, run] at h ⊢
      cases he : execInstr U call i s with
      | none => simp [he] at h
      | some z =>
        rw [he] at h
        obtain ⟨ctl, s1⟩ := z
        cases ctl with
        | fall => exact ih h hr
        | jump l =>
          simp only at h ⊢
          cases hl : afterLabel mid l with
          | none =>
            simp only [hl, Option.some.injEq] at h
            subst h
            simp only [resume] at hr
            cases hc : afterLabel code l with
            | none => simpa [hc] using hr
            | some r1 =>
              simp only [hc] at hr ⊢
              exact run_mono (callLe_refl call) (show m ≤ n + m by omega) hr
          | some r1 =>
            simp only [hl] at h
            rw [hin l r1 hl]
            exact ih h hr
        | ret v =>
          simp only [Option.some.injEq] at h
          subst h
          simpa [resume] using hr

/-! ### Labels of the printed text -/

mutual
theorem labels_node (vars : List Variable) : ∀ (e : Node) (ko prev : Nat),
    prev ≤ (Node_compile_c_ko vars e ko prev).2 ∧
    LabelsWithin (Node_compile_c_ko vars e ko prev).1 prev (Node_compile_c_ko vars e ko prev).2
  | .dot, ko, prev => by simp [Node_compile_c_ko, LabelsWithin, afterLabel]
  | .name rule var, ko, prev => by
    cases var <;> simp [Node_compile_c_ko, LabelsWithin, afterLabel]
  | .character value, ko, prev => by simp [Node_compile_c_ko, LabelsWithin, afterLabel]
  | .string value casefold, ko, prev => by simp [Node_compile_c_ko, LabelsWithin, afterLabel]
  | .cclass value, ko, prev => by simp [Node_compile_c_ko, LabelsWithin, afterLabel]
  | .action name, ko, prev => by simp [Node_compile_c_ko, LabelsWithin, afterLabel]
  | .inLine text, ko, prev => by simp [Node_compile_c_ko, LabelsWithin, afterLabel]
  | .predicate text, ko, prev => by simp [Node_compile_c_ko, LabelsWithin, afterLabel]
  | .error element text, ko, prev => by
    have ih := labels_node vars element (prev + 1 + 1) (prev + 1 + 1)
    simp only [Node_compile_c_ko, yyl]
    refine ⟨by omega, ?_⟩
    intro l hl
    rw [afterLabel_append, ih.2 l (by omega)]
    simp only [afterLabel, jump, label]
    rw [if_neg (by omega), if_neg (by omega)]
  | .alternate first, ko, prev => by
    have ih := labels_alt vars first (prev + 1) ko (prev + 1)
    simp only [Node_compile_c_ko, yyl]
    refine ⟨by omega, ?_⟩
    intro l hl
    rw [List.append_assoc, afterLabel_append, afterLabel_append, ih.2 l (by omega)]
    simp only [afterLabel, begin, save, end_, label]
    rw [if_neg (by omega)]
  | .sequence first, ko, prev => by
    simpa only [Node_compile_c_ko] using labels_seq vars first ko prev
  | .peekFor element, ko, prev => by
    have ih := labels_node vars element ko (prev + 1)
    simp only [Node_compile_c_ko, yyl]
    refine ⟨by omega, ?_⟩
    intro l hl
    rw [List.append_assoc, afterLabel_append, afterLabel_append, ih.2 l (by omega)]
    simp only [afterLabel, begin, save, end_, restore]
  | .peekNot element, ko, prev => by
    have ih := labels_node vars element (prev + 1) (prev + 1)
    simp only [Node_compile_c_ko, yyl]
    refine ⟨by omega, ?_⟩
    intro l hl
    rw [List.append_assoc, afterLabel_append, afterLabel_append, ih.2 l (by omega)]
    simp only [afterLabel, begin, save, end_, restore, saveMaxPos, restoreMaxPos, jump, label]
    rw [if_neg (by omega)]
  | .query element, ko, prev => by
    have ih := labels_node vars element (prev + 1) (prev + 1 + 1)
    simp only [Node_compile_c_ko, yyl]
    refine ⟨by omega, ?_⟩
    intro l hl
    rw [List.append_assoc, afterLabel_append, afterLabel_append, ih.2 l (by omega)]
    simp only [afterLabel, begin, save, end_, restore, jump, label]
    rw [if_neg (by omega), if_neg (by omega)]
  | .star element, ko, prev => by
    have ih := labels_node vars element (prev + 1 + 1) (prev + 1 + 1)
    simp only [Node_compile_c_ko, yyl]
    refine ⟨by omega, ?_⟩
    intro l hl
    rw [List.append_assoc, afterLabel_append, afterLabel_append, ih.2 l (by omega)]
    simp only [afterLabel, begin, save, end_, restore, jump, label]
    rw [if_neg (by omega), if_neg (by omega)]
  | .plus element, ko, prev => by
    have ih1 := labels_node vars element ko (prev + 1 + 1)
    have ih2 := labels_node vars element (prev + 1 + 1)
      (Node_compile_c_ko vars element ko (prev + 1 + 1)).2
    simp only [Node_compile_c_ko, yyl]
    refine ⟨by omega, ?_⟩
    intro l hl
    rw [List.append_assoc, List.append_assoc, afterLabel_append, ih1.2 l (by omega),
      afterLabel_append, afterLabel_append, ih2.2 l (by omega)]
    simp only [afterLabel, begin, save, end_, restore, jump, label]
    rw [if_neg (by omega), if_neg (by omega)]
theorem labels_alt (vars : List Variable) : ∀ (c : Chain) (ok ko prev : Nat),
    prev ≤ (alternateLoop vars c ok ko prev).2 ∧
    LabelsWithin (alternateLoop vars c ok ko prev).1 prev (alternateLoop vars c ok ko prev).2
  | .nil, ok, ko, prev => by simp [alternateLoop, LabelsWithin, afterLabel]
  | .cons node .nil, ok, ko, prev => by
    simpa only [alternateLoop] using labels_node vars node ko prev
  | .cons node (.cons node2 rest), ok, ko, prev => by
    have ih1 := labels_node vars node (prev + 1) (prev + 1)
    have ih2 := labels_alt vars (.cons node2 rest) ok ko
      (Node_compile_c_ko vars node (prev + 1) (prev + 1)).2
    simp only [alternateLoop, yyl]
    refine ⟨by omega, ?_⟩
    intro l hl
    rw [List.append_assoc, afterLabel_append, ih1.2 l (by omega), afterLabel_append]
    simp only [afterLabel, jump, label, restore]
    rw [if_neg (by omega)]
    exact ih2.2 l (by omega)
theorem labels_seq (vars : List Variable) : ∀ (c : Chain) (ko prev : Nat),
    prev ≤ (sequenceLoop vars c ko prev).2 ∧
    LabelsWithin (sequenceLoop vars c ko prev).1 prev (sequenceLoop vars c ko prev).2
  | .nil, ko, prev => by simp [sequenceLoop, LabelsWithin, afterLabel]
  | .cons node next, ko, prev => by
    have ih1 := labels_node vars node ko prev
    have ih2 := labels_seq vars next ko (Node_compile_c_ko vars node ko prev).2
    simp only [sequenceLoop]
    refine ⟨by omega, ?_⟩
    intro l hl
    rw [afterLabel_append, ih1.2 l (by omega)]
    exact ih2.2 l (by omega)
end

/-! ### Runs -/

variable {U : UserCode} {call : Nat → yycontext → Option (Bool × yycontext)}

theorem runs_nil {code : List Instr} {s : Frame} {y : Ctl × Frame} :
    Runs U call code [] s y ↔ y = (.fall, s) := by
  constructor
  · rintro ⟨n, h⟩
    cases n <;> simpa [run, eq_comm] using h
  · rintro rfl
    exact ⟨0, by simp [run]⟩

theorem resumes_fall {code post : List Instr} {s : Frame} {y : Ctl × Frame} :
    Resumes U call code post (.fall, s) y ↔ Runs U call code post s y := Iff.rfl

theorem resumes_ret {code post : List Instr} {v : Bool} {s : Frame} {y : Ctl × Frame} :
    Resumes U call code post (.ret v, s) y ↔ y = (.ret v, s) := by
  simp [Resumes, resume, eq_comm]

theorem resumes_jump_some {code post r : List Instr} {l : Nat} {s : Frame} {y : Ctl × Frame}
    (h : afterLabel code l = some r) :
    Resumes U call code post (.jump l, s) y ↔ Runs U call code r s y := by
  simp [Resumes, resume, h, Runs]

theorem resumes_jump_none {code post : List Instr} {l : Nat} {s : Frame} {y : Ctl × Frame}
    (h : afterLabel code l = none) :
    Resumes U call code post (.jump l, s) y ↔ y = (.jump l, s) := by
  simp [Resumes, resume, h, eq_comm]

theorem runs_cons {code rest : List Instr} {i : Instr} {s : Frame} {y : Ctl × Frame} :
    Runs U call code (i :: rest) s y ↔
      ∃ x, execInstr U call i s = some x ∧ Resumes U call code rest x y := by
  constructor
  · rintro ⟨n, h⟩
    cases n with
    | zero => simp [run] at h
    | succ n =>
      simp only [run] at h
      cases he : execInstr U call i s with
      | none => simp [he] at h
      | some x =>
        rw [he] at h
        refine ⟨x, rfl, n, ?_⟩
        obtain ⟨ctl, s1⟩ := x
        cases ctl <;> simpa [resume] using h
  · rintro ⟨x, he, n, h⟩
    refine ⟨n + 1, ?_⟩
    simp only [run, he]
    obtain ⟨ctl, s1⟩ := x
    cases ctl <;> simpa [resume] using h

theorem runs_append {mid post code r : List Instr} (hin : Inside mid post code)
    {s : Frame} {y : Ctl × Frame} :
    Runs U call code (r ++ post) s y ↔
      ∃ x, Runs U call mid r s x ∧ Resumes U call code post x y := by
  constructor
  · rintro ⟨n, h⟩
    obtain ⟨x, hx, hr⟩ := run_split hin h
    exact ⟨x, ⟨n, hx⟩, ⟨n, hr⟩⟩
  · rintro ⟨x, ⟨n, hx⟩, ⟨m, hr⟩⟩
    exact ⟨n + m, run_join hin hx hr⟩

theorem inside_of_labels {pre mid post : List Instr}
    (h : ∀ l r, afterLabel mid l = some r → afterLabel pre l = none) :
    Inside mid post (pre ++ mid ++ post) := by
  intro l r hl
  rw [List.append_assoc, afterLabel_append, h l r hl, afterLabel_append, hl]

theorem LabelsWithin.lt {code : List Instr} {lo hi l : Nat} {r : List Instr}
    (h : LabelsWithin code lo hi) (hl : afterLabel code l = some r) : lo < l ∧ l ≤ hi := by
  by_contra hc
  have := h l (by omega)
  simp [this] at hl

theorem locAgree_refl (prev : Nat) (l : Locals) : LocAgree prev l l :=
  fun _ _ => ⟨rfl, rfl, rfl⟩

theorem LocAgree.agreeTrans {p q : Nat} {l1 l2 l3 : Locals} (h1 : LocAgree p l1 l2)
    (h2 : LocAgree q l2 l3) (hpq : p ≤ q) : LocAgree p l1 l3 := by
  intro i hi
  have a := h1 i hi
  have b := h2 i (by omega)
  exact ⟨b.1.trans a.1, b.2.1.trans a.2.1, b.2.2.trans a.2.2⟩

theorem LocAgree.mono {p q : Nat} {l1 l2 : Locals} (h : LocAgree q l1 l2) (hpq : p ≤ q) :
    LocAgree p l1 l2 :=
  fun i hi => h i (by omega)

/-! ### The printed text does what `Outcome` says -/

theorem sound_test {vars : List Variable} {e : Node} {c : Test}
    (hc : ∀ ko prev, Node_compile_c_ko vars e ko prev = ([.test c ko], prev))
    (ht : testOf e = some c) : SoundAt U call vars e := by
  intro ko prev s y _ h
  rw [hc] at h
  simp only [runs_cons, execInstr] at h
  obtain ⟨x, hx, hr⟩ := h
  cases hev : evalTest U call c s.yy with
  | none => simp [hev] at hx
  | some r =>
    obtain ⟨b, yy⟩ := r
    cases b with
    | true =>
      simp only [hev, Option.some.injEq] at hx
      subst hx
      simp only [resumes_fall, runs_nil] at hr
      subst hr
      exact ⟨true, rfl, Outcome.test ht hev, locAgree_refl _ _⟩
    | false =>
      simp only [hev, Option.some.injEq] at hx
      subst hx
      rw [resumes_jump_none (by simp [afterLabel])] at hr
      subst hr
      exact ⟨false, rfl, Outcome.test ht hev, locAgree_refl _ _⟩

theorem sound_stmt {vars : List Variable} {e : Node} {a : Stmt}
    (hc : ∀ ko prev, Node_compile_c_ko vars e ko prev = ([.stmt a], prev))
    (ht : stmtOf e = some a) : SoundAt U call vars e := by
  intro ko prev s y _ h
  rw [hc] at h
  simp only [runs_cons, execInstr] at h
  obtain ⟨x, hx, hr⟩ := h
  cases hev : evalStmt U a s.yy with
  | none => simp [hev] at hx
  | some yy =>
    simp only [hev, Option.some.injEq] at hx
    subst hx
    simp only [resumes_fall, runs_nil] at hr
    subst hr
    exact ⟨true, rfl, Outcome.stmt ht hev, locAgree_refl _ _⟩

theorem sound_peekFor {vars : List Variable} {e : Node} (ih : SoundAt U call vars e) :
    SoundAt U call vars (.peekFor e) := by
  intro ko prev s y hko h
  have hl := labels_node vars e ko (prev + 1)
  have hlp := labels_node vars (.peekFor e) ko prev
  simp only [Node_compile_c_ko, yyl] at h hlp
  have hin : Inside (Node_compile_c_ko vars e ko (prev + 1)).1 [restore (prev + 1), end_]
      ([begin, save (prev + 1)] ++ (Node_compile_c_ko vars e ko (prev + 1)).1 ++
        [restore (prev + 1), end_]) := by
    apply inside_of_labels
    intro l r _
    simp [afterLabel, begin, save]
  have hko' := hlp.2 ko (Or.inl hko)
  generalize hE : (Node_compile_c_ko vars e ko (prev + 1)).1 = E at h hin hko'
  generalize hcode : [begin, save (prev + 1)] ++ E ++ [restore (prev + 1), end_] = code
    at hin hko'
  rw [hcode] at h
  nth_rewrite 2 [← hcode] at h
  simp only [List.append_assoc, List.cons_append, List.nil_append, runs_cons, execInstr,
    begin, save, evalStmt, Option.some.injEq, exists_eq_left', resumes_fall,
    runs_append hin] at h
  obtain ⟨x, hx, hr⟩ := h
  subst hE
  obtain ⟨b, hb, ho, hla⟩ := ih ko (prev + 1) _ x (by omega) hx
  obtain ⟨ctl, s1⟩ := x
  simp only at hb ho hla hr
  subst hb
  have hpos := hla (prev + 1) (le_refl _)
  simp only [Function.update_same] at hpos
  have hagree : LocAgree prev s.loc s1.loc := by
    intro i hi
    have := hla i (by omega)
    simpa [Function.update_noteq (show i ≠ prev + 1 by omega)] using this
  cases b with
  | true =>
    simp only [exitOf, if_true, resumes_fall, runs_cons, execInstr, restore, end_, evalStmt,
      hpos.1, hpos.2.1, Option.some.injEq, exists_eq_left', runs_nil] at hr
    subst hr
    exact ⟨true, rfl, Outcome.peekFor_ok ho, hagree⟩
  | false =>
    simp only [exitOf, Bool.false_eq_true, if_false, resumes_jump_none hko'] at hr
    subst hr
    exact ⟨false, rfl, Outcome.peekFor_ko ho, hagree⟩

theorem inside_head (mid post : List Instr) : Inside mid post (mid ++ post) := by
  intro l r hl
  rw [afterLabel_append, hl]

theorem sound_name {vars : List Variable} (rule v : Nat) :
    SoundAt U call vars (.name rule (some v)) := by
  intro ko prev s y _ h
  simp only [Node_compile_c_ko, List.cons_append, List.nil_append, runs_cons, execInstr,
    evalTest] at h
  obtain ⟨x, hx, hr⟩ := h
  cases hev : call rule s.yy with
  | none => simp [hev] at hx
  | some r =>
    obtain ⟨b, yy⟩ := r
    cases b with
    | true =>
      simp only [hev, Option.some.injEq] at hx
      subst hx
      simp only [resumes_fall, runs_cons, execInstr, evalStmt] at hr
      obtain ⟨x2, hx2, hr2⟩ := hr
      cases hd : yyDo yy yyaction.yySet (vars.getD v ⟨"", 0⟩).offset 0 with
      | none => rw [hd] at hx2; simp at hx2
      | some yy2 =>
        simp only [hd, Option.some.injEq] at hx2
        subst hx2
        simp only [resumes_fall, runs_nil] at hr2
        subst hr2
        exact ⟨true, rfl, Outcome.name_ok hev hd, locAgree_refl _ _⟩
    | false =>
      simp only [hev, Option.some.injEq] at hx
      subst hx
      rw [resumes_jump_none (by simp [afterLabel])] at hr
      subst hr
      exact ⟨false, rfl, Outcome.name_ko hev, locAgree_refl _ _⟩

theorem sound_error {vars : List Variable} {e : Node} (text : String)
    (ih : SoundAt U call vars e) : SoundAt U call vars (.error e text) := by
  intro ko prev s y hko h
  have hl := labels_node vars e (prev + 1 + 1) (prev + 1 + 1)
  have hlp := (labels_node vars (.error e text) ko prev).2 ko (Or.inl hko)
  simp only [Node_compile_c_ko, yyl] at h hlp
  have hLE := hl.2
  have hin := inside_head (Node_compile_c_ko vars e (prev + 1 + 1) (prev + 1 + 1)).1
    [jump (prev + 1), label (prev + 1 + 1), .stmt (.error text), jump ko, label (prev + 1)]
  have hok : afterLabel ((Node_compile_c_ko vars e (prev + 1 + 1) (prev + 1 + 1)).1 ++
      [jump (prev + 1), label (prev + 1 + 1), .stmt (.error text), jump ko, label (prev + 1)])
      (prev + 1) = some [] := by
    rw [afterLabel_append, hLE _ (by omega)]
    simp [afterLabel, jump, label]
  have heko : afterLabel ((Node_compile_c_ko vars e (prev + 1 + 1) (prev + 1 + 1)).1 ++
      [jump (prev + 1), label (prev + 1 + 1), .stmt (.error text), jump ko, label (prev + 1)])
      (prev + 1 + 1) = some [.stmt (.error text), jump ko, label (prev + 1)] := by
    rw [afterLabel_append, hLE _ (by omega)]
    simp [afterLabel, jump, label]
  generalize hcode : (Node_compile_c_ko vars e (prev + 1 + 1) (prev + 1 + 1)).1 ++
      [jump (prev + 1), label (prev + 1 + 1), .stmt (.error text), jump ko, label (prev + 1)]
      = code at hin hok heko hlp
  rw [hcode] at h
  nth_rewrite 2 [← hcode] at h
  rw [runs_append hin] at h
  obtain ⟨x, hx, hr⟩ := h
  obtain ⟨b, hb, ho, hla⟩ := ih _ _ _ x (le_refl _) hx
  obtain ⟨ctl, s1⟩ := x
  simp only at hb ho hla hr
  subst hb
  have hagree : LocAgree prev s.loc s1.loc := hla.mono (by omega)
  cases b with
  | true =>
    simp only [exitOf, if_true, resumes_fall, runs_cons, execInstr, jump,
      Option.some.injEq, exists_eq_left', resumes_jump_some hok, runs_nil] at hr
    subst hr
    exact ⟨true, rfl, Outcome.error_ok ho, hagree⟩
  | false =>
    simp only [exitOf, Bool.false_eq_true, if_false, resumes_jump_some heko, runs_cons,
      execInstr] at hr
    obtain ⟨x2, hx2, hr2⟩ := hr
    cases hd : evalStmt U (.error text) s1.yy with
    | none => simp [hd] at hx2
    | some yy2 =>
      simp only [hd, Option.some.injEq] at hx2
      subst hx2
      simp only [resumes_fall, runs_cons, execInstr, jump, Option.some.injEq, exists_eq_left',
        resumes_jump_none hlp] at hr2
      subst hr2
      exact ⟨false, rfl, Outcome.error_ko ho hd, hagree⟩

theorem sound_peekNot {vars : List Variable} {e : Node} (ih : SoundAt U call vars e) :
    SoundAt U call vars (.peekNot e) := by
  intro ko prev s y hko h
  have hl := labels_node vars e (prev + 1) (prev + 1)
  have hlp := (labels_node vars (.peekNot e) ko prev).2 ko (Or.inl hko)
  simp only [Node_compile_c_ko, yyl] at h hlp
  have hLE := hl.2
  have hin : Inside (Node_compile_c_ko vars e (prev + 1) (prev + 1)).1
      [restoreMaxPos (prev + 1), jump ko, label (prev + 1), restore (prev + 1),
        restoreMaxPos (prev + 1), end_]
      ([begin, save (prev + 1), saveMaxPos (prev + 1)] ++
        (Node_compile_c_ko vars e (prev + 1) (prev + 1)).1 ++
        [restoreMaxPos (prev + 1), jump ko, label (prev + 1), restore (prev + 1),
          restoreMaxPos (prev + 1), end_]) := by
    apply inside_of_labels
    intro l r _
    simp [afterLabel, begin, save, saveMaxPos]
  have hok : afterLabel ([begin, save (prev + 1), saveMaxPos (prev + 1)] ++
        (Node_compile_c_ko vars e (prev + 1) (prev + 1)).1 ++
        [restoreMaxPos (prev + 1), jump ko, label (prev + 1), restore (prev + 1),
          restoreMaxPos (prev + 1), end_]) (prev + 1)
      = some [restore (prev + 1), restoreMaxPos (prev + 1), end_] := by
    rw [List.append_assoc, afterLabel_append, afterLabel_append, hLE _ (by omega)]
    simp [afterLabel, begin, save, saveMaxPos, restoreMaxPos, jump, label]
  generalize hcode : [begin, save (prev + 1), saveMaxPos (prev + 1)] ++
        (Node_compile_c_ko vars e (prev + 1) (prev + 1)).1 ++
        [restoreMaxPos (prev + 1), jump ko, label (prev + 1), restore (prev + 1),
          restoreMaxPos (prev + 1), end_] = code at hin hok hlp
  rw [hcode] at h
  nth_rewrite 2 [← hcode] at h
  simp only [List.append_assoc, List.cons_append, List.nil_append, runs_cons, execInstr,
    begin, save, saveMaxPos, evalStmt, Option.some.injEq, exists_eq_left', resumes_fall,
    runs_append hin] at h
  obtain ⟨x, hx, hr⟩ := h
  obtain ⟨b, hb, ho, hla⟩ := ih _ _ _ x (le_refl _) hx
  obtain ⟨ctl, s1⟩ := x
  simp only at hb ho hla hr
  subst hb
  have hpos := hla (prev + 1) (le_refl _)
  simp only [Function.update_same] at hpos
  have hagree : LocAgree prev s.loc s1.loc := by
    intro i hi
    have := hla i (by omega)
    simpa [Function.update_noteq (show i ≠ prev + 1 by omega)] using this
  cases b with
  | true =>
    simp only [exitOf, if_true, resumes_fall, runs_cons, execInstr, restoreMaxPos, jump,
      hpos.2.2, Option.some.injEq, exists_eq_left', resumes_jump_none hlp] at hr
    subst hr
    exact ⟨false, rfl, Outcome.peekNot_ko ho, hagree⟩
  | false =>
    simp only [exitOf, Bool.false_eq_true, if_false, resumes_jump_some hok, runs_cons,
      execInstr, restore, restoreMaxPos, end_, evalStmt, hpos.1, hpos.2.1, hpos.2.2,
      Option.some.injEq, exists_eq_left', resumes_fall, runs_nil] at hr
    subst hr
    exact ⟨true, rfl, Outcome.peekNot_ok ho, hagree⟩

theorem sound_query {vars : List Variable} {e : Node} (ih : SoundAt U call vars e) :
    SoundAt U call vars (.query e) := by
  intro ko prev s y hko h
  have hl := labels_node vars e (prev + 1) (prev + 1 + 1)
  simp only [Node_compile_c_ko, yyl] at h
  have hLE := hl.2
  have hin : Inside (Node_compile_c_ko vars e (prev + 1) (prev + 1 + 1)).1
      [jump (prev + 1 + 1), label (prev + 1), restore (prev + 1), end_, label (prev + 1 + 1)]
      ([begin, save (prev + 1)] ++
        (Node_compile_c_ko vars e (prev + 1) (prev + 1 + 1)).1 ++
        [jump (prev + 1 + 1), label (prev + 1), restore (prev + 1), end_,
          label (prev + 1 + 1)]) := by
    apply inside_of_labels
    intro l r _
    simp [afterLabel, begin, save]
  have hqko : afterLabel ([begin, save (prev + 1)] ++
        (Node_compile_c_ko vars e (prev + 1) (prev + 1 + 1)).1 ++
        [jump (prev + 1 + 1), label (prev + 1), restore (prev + 1), end_,
          label (prev + 1 + 1)]) (prev + 1)
      = some [restore (prev + 1), end_, label (prev + 1 + 1)] := by
    rw [List.append_assoc, afterLabel_append, afterLabel_append, hLE _ (by omega)]
    simp [afterLabel, begin, save, jump, label]
  have hqok : afterLabel ([begin, save (prev + 1)] ++
        (Node_compile_c_ko vars e (prev + 1) (prev + 1 + 1)).1 ++
        [jump (prev + 1 + 1), label (prev + 1), restore (prev + 1), end_,
          label (prev + 1 + 1)]) (prev + 1 + 1) = some [] := by
    rw [List.append_assoc, afterLabel_append, afterLabel_append, hLE _ (by omega)]
    simp [afterLabel, begin, save, jump, label, restore, end_]
  generalize hcode : [begin, save (prev + 1)] ++
        (Node_compile_c_ko vars e (prev + 1) (prev + 1 + 1)).1 ++
        [jump (prev + 1 + 1), label (prev + 1), restore (prev + 1), end_,
          label (prev + 1 + 1)] = code at hin hqko hqok
  rw [hcode] at h
  nth_rewrite 2 [← hcode] at h
  simp only [List.append_assoc, List.cons_append, List.nil_append, runs_cons, execInstr,
    begin, save, evalStmt, Option.some.injEq, exists_eq_left', resumes_fall,
    runs_append hin] at h
  obtain ⟨x, hx, hr⟩ := h
  obtain ⟨b, hb, ho, hla⟩ := ih _ _ _ x (by omega) hx
  obtain ⟨ctl, s1⟩ := x
  simp only at hb ho hla hr
  subst hb
  have hpos := hla (prev + 1) (by omega)
  simp only [Function.update_same] at hpos
  have hagree : LocAgree prev s.loc s1.loc := by
    intro i hi
    have := hla i (by omega)
    simpa [Function.update_noteq (show i ≠ prev + 1 by omega)] using this
  cases b with
  | true =>
    simp only [exitOf, if_true, resumes_fall, runs_cons, execInstr, jump,
      Option.some.injEq, exists_eq_left', resumes_jump_some hqok, runs_nil] at hr
    subst hr
    exact ⟨true, rfl, Outcome.query_ok ho, hagree⟩
  | false =>
    simp only [exitOf, Bool.false_eq_true, if_false, resumes_jump_some hqko, runs_cons,
      execInstr, restore, end_, label, evalStmt, hpos.1, hpos.2.1,
      Option.some.injEq, exists_eq_left', resumes_fall, runs_nil] at hr
    subst hr
    exact ⟨true, rfl, Outcome.query_ko ho, hagree⟩

theorem inside_tail {pre mid : List Instr}
    (h : ∀ l r, afterLabel mid l = some r → afterLabel pre l = none) :
    Inside mid [] (pre ++ mid) := by
  intro l r hl
  rw [afterLabel_append, h l r hl, hl, List.append_nil]

theorem runs_tail {mid code : List Instr} (hin : Inside mid [] code)
    {s : Frame} {y : Ctl × Frame} :
    Runs U call code mid s y ↔ ∃ x, Runs U call mid mid s x ∧ Resumes U call code [] x y := by
  have h := @runs_append U call mid [] code mid hin s y
  rwa [List.append_nil] at h

theorem resumes_exit {code : List Instr} {ko : Nat} (h : afterLabel code ko = none)
    {b : Bool} {s : Frame} {y : Ctl × Frame} :
    Resumes U call code [] (exitOf b ko, s) y ↔ y = (exitOf b ko, s) := by
  cases b
  · simp only [exitOf, Bool.false_eq_true, if_false, resumes_jump_none h]
  · simp only [exitOf, if_true, resumes_fall, runs_nil]

theorem sound_seq_nil {vars : List Variable} : SoundAt U call vars (.sequence .nil) := by
  intro ko prev s y _ h
  simp only [Node_compile_c_ko, sequenceLoop, runs_nil] at h
  subst h
  exact ⟨true, rfl, Outcome.seq_nil, locAgree_refl _ _⟩

theorem sound_seq_cons {vars : List Variable} {e : Node} {next : Chain}
    (ih1 : SoundAt U call vars e) (ih2 : SoundAt U call vars (.sequence next)) :
    SoundAt U call vars (.sequence (.cons e next)) := by
  intro ko prev s y hko h
  have hl1 := labels_node vars e ko prev
  have hl2 := labels_node vars (.sequence next) ko (Node_compile_c_ko vars e ko prev).2
  have hlp := (labels_node vars (.sequence (.cons e next)) ko prev).2 ko (Or.inl hko)
  simp only [Node_compile_c_ko, sequenceLoop] at h hlp hl2 ih2
  have hin1 := inside_head (Node_compile_c_ko vars e ko prev).1
    (sequenceLoop vars next ko (Node_compile_c_ko vars e ko prev).2).1
  have hin2 : Inside (sequenceLoop vars next ko (Node_compile_c_ko vars e ko prev).2).1 []
      ((Node_compile_c_ko vars e ko prev).1 ++
        (sequenceLoop vars next ko (Node_compile_c_ko vars e ko prev).2).1) := by
    apply inside_tail
    intro l r hlr
    exact hl1.2 l (Or.inr (hl2.2.lt hlr).1)
  generalize hcode : (Node_compile_c_ko vars e ko prev).1 ++
        (sequenceLoop vars next ko (Node_compile_c_ko vars e ko prev).2).1 = code
    at hin1 hin2 hlp
  rw [hcode] at h
  nth_rewrite 2 [← hcode] at h
  rw [runs_append hin1] at h
  obtain ⟨x, hx, hr⟩ := h
  obtain ⟨b, hb, ho, hla⟩ := ih1 _ _ _ x hko hx
  obtain ⟨ctl, s1⟩ := x
  simp only at hb ho hla hr
  subst hb
  cases b with
  | true =>
    simp only [exitOf, if_true, resumes_fall, runs_tail hin2] at hr
    obtain ⟨x2, hx2, hr2⟩ := hr
    obtain ⟨b2, hb2, ho2, hla2⟩ := ih2 ko _ _ x2 (by omega) hx2
    obtain ⟨ctl2, s2⟩ := x2
    simp only at hb2 ho2 hla2 hr2
    subst hb2
    rw [resumes_exit hlp] at hr2
    subst hr2
    exact ⟨b2, rfl, Outcome.seq_ok ho ho2, hla.agreeTrans hla2 hl1.1⟩
  | false =>
    simp only [exitOf, Bool.false_eq_true, if_false, resumes_jump_none hlp] at hr
    subst hr
    exact ⟨false, rfl, Outcome.seq_ko ho, hla⟩

theorem sound_alt_nil {vars : List Variable} : SoundAlt U call vars .nil := by
  intro ok ko prev s y _ _ _ _ h
  simp only [alternateLoop, runs_nil] at h
  subst h
  exact ⟨true, Or.inl rfl, Outcome.alt_nil, locAgree_refl _ _⟩

theorem sound_alt_last {vars : List Variable} {e : Node} (ih : SoundAt U call vars e) :
    SoundAlt U call vars (.cons e .nil) := by
  intro ok ko prev s y hlt hle _ _ h
  simp only [alternateLoop] at h
  obtain ⟨b, hb, ho, hla⟩ := ih ko prev s y (by omega) h
  exact ⟨b, Or.inl hb, Outcome.alt_last ho, hla⟩

theorem sound_alt_cons {vars : List Variable} {e e2 : Node} {rest : Chain}
    (ih1 : SoundAt U call vars e) (ih2 : SoundAlt U call vars (.cons e2 rest)) :
    SoundAlt U call vars (.cons e (.cons e2 rest)) := by
  intro ok ko prev s y hlt hle hp ht h
  have hl1 := labels_node vars e (prev + 1) (prev + 1)
  have hl2 := labels_alt vars (.cons e2 rest) ok ko
    (Node_compile_c_ko vars e (prev + 1) (prev + 1)).2
  have hlp := (labels_alt vars (.cons e (.cons e2 rest)) ok ko prev).2
  simp only [alternateLoop, yyl] at h hlp
  have hko := hlp ko (Or.inl (by omega))
  have hok := hlp ok (Or.inl hle)
  have hin1 : Inside (Node_compile_c_ko vars e (prev + 1) (prev + 1)).1
      ([jump ok, label (prev + 1), restore ok] ++
        (alternateLoop vars (.cons e2 rest) ok ko
          (Node_compile_c_ko vars e (prev + 1) (prev + 1)).2).1)
      ((Node_compile_c_ko vars e (prev + 1) (prev + 1)).1 ++
        [jump ok, label (prev + 1), restore ok] ++
        (alternateLoop vars (.cons e2 rest) ok ko
          (Node_compile_c_ko vars e (prev + 1) (prev + 1)).2).1) := by
    rw [List.append_assoc]
    exact inside_head _ _
  have hin2 : Inside (alternateLoop vars (.cons e2 rest) ok ko
          (Node_compile_c_ko vars e (prev + 1) (prev + 1)).2).1 []
      ((Node_compile_c_ko vars e (prev + 1) (prev + 1)).1 ++
        [jump ok, label (prev + 1), restore ok] ++
        (alternateLoop vars (.cons e2 rest) ok ko
          (Node_compile_c_ko vars e (prev + 1) (prev + 1)).2).1) := by
    apply inside_tail
    intro l r hlr
    have := (hl2.2.lt hlr).1
    rw [afterLabel_append, hl1.2 l (Or.inr this)]
    simp only [afterLabel, jump, label, restore]
    rw [if_neg (by omega)]
  have hnext : afterLabel ((Node_compile_c_ko vars e (prev + 1) (prev + 1)).1 ++
        [jump ok, label (prev + 1), restore ok] ++
        (alternateLoop vars (.cons e2 rest) ok ko
          (Node_compile_c_ko vars e (prev + 1) (prev + 1)).2).1) (prev + 1)
      = some (restore ok :: (alternateLoop vars (.cons e2 rest) ok ko
          (Node_compile_c_ko vars e (prev + 1) (prev + 1)).2).1) := by
    rw [List.append_assoc, afterLabel_append, hl1.2 _ (Or.inl (le_refl _))]
    simp [afterLabel, jump, label]
  generalize hcode : (Node_compile_c_ko vars e (prev + 1) (prev + 1)).1 ++
        [jump ok, label (prev + 1), restore ok] ++
        (alternateLoop vars (.cons e2 rest) ok ko
          (Node_compile_c_ko vars e (prev + 1) (prev + 1)).2).1 = code
    at hin1 hin2 hko hok hnext
  rw [hcode] at h
  nth_rewrite 2 [← hcode] at h
  rw [List.append_assoc, runs_append hin1] at h
  obtain ⟨x, hx, hr⟩ := h
  obtain ⟨b, hb, ho, hla⟩ := ih1 _ _ _ x (le_refl _) hx
  obtain ⟨ctl, s1⟩ := x
  simp only at hb ho hla hr
  subst hb
  have hpos := hla ok (by omega)
  rw [hp, ht] at hpos
  cases b with
  | true =>
    simp only [exitOf, if_true, resumes_fall, List.cons_append, List.nil_append, runs_cons,
      execInstr, jump, Option.some.injEq, exists_eq_left', resumes_jump_none hok] at hr
    subst hr
    exact ⟨true, Or.inr ⟨rfl, rfl⟩, Outcome.alt_ok ho, hla.mono (by omega)⟩
  | false =>
    simp only [exitOf, Bool.false_eq_true, if_false, resumes_jump_some hnext, runs_cons,
      execInstr, restore, hpos.1, hpos.2.1, Option.some.injEq, exists_eq_left',
      resumes_fall, runs_tail hin2] at hr
    obtain ⟨x2, hx2, hr2⟩ := hr
    obtain ⟨b2, hb2, ho2, hla2⟩ := ih2 ok ko (Node_compile_c_ko vars e (prev + 1) (prev + 1)).2
      ⟨{ s1.yy with _pos := s.yy._pos, _thunkpos := s.yy._thunkpos }, s1.loc⟩ x2 hlt
      (by omega) hpos.1 hpos.2.1 hx2
    obtain ⟨ctl2, s2⟩ := x2
    simp only at hb2 ho2 hla2 hr2
    have hagree : LocAgree prev s.loc s2.loc :=
      (hla.mono (Nat.le_succ prev)).agreeTrans hla2 (by omega)
    rcases hb2 with hb2 | ⟨hb2, hj⟩
    · subst hb2
      rw [resumes_exit hko] at hr2
      subst hr2
      exact ⟨b2, Or.inl rfl, Outcome.alt_next ho ho2, hagree⟩
    · subst hb2 hj
      rw [resumes_jump_none hok] at hr2
      subst hr2
      exact ⟨true, Or.inr ⟨rfl, rfl⟩, Outcome.alt_next ho ho2, hagree⟩

theorem sound_alternate {vars : List Variable} {first : Chain}
    (ih : SoundAlt U call vars first) : SoundAt U call vars (.alternate first) := by
  intro ko prev s y hko h
  have hl := labels_alt vars first (prev + 1) ko (prev + 1)
  have hlp := (labels_node vars (.alternate first) ko prev).2 ko (Or.inl hko)
  simp only [Node_compile_c_ko, yyl] at h hlp
  have hin : Inside (alternateLoop vars first (prev + 1) ko (prev + 1)).1
      [end_, label (prev + 1)]
      ([begin, save (prev + 1)] ++ (alternateLoop vars first (prev + 1) ko (prev + 1)).1 ++
        [end_, label (prev + 1)]) := by
    apply inside_of_labels
    intro l r _
    simp [afterLabel, begin, save]
  have hok : afterLabel ([begin, save (prev + 1)] ++
        (alternateLoop vars first (prev + 1) ko (prev + 1)).1 ++
        [end_, label (prev + 1)]) (prev + 1) = some [] := by
    rw [List.append_assoc, afterLabel_append, afterLabel_append, hl.2 _ (Or.inl (le_refl _))]
    simp [afterLabel, begin, save, end_, label]
  generalize hcode : [begin, save (prev + 1)] ++
        (alternateLoop vars first (prev + 1) ko (prev + 1)).1 ++
        [end_, label (prev + 1)] = code at hin hok hlp
  rw [hcode] at h
  nth_rewrite 2 [← hcode] at h
  simp only [List.append_assoc, List.cons_append, List.nil_append, runs_cons, execInstr,
    begin, save, evalStmt, Option.some.injEq, exists_eq_left', resumes_fall,
    runs_append hin] at h
  obtain ⟨x, hx, hr⟩ := h
  obtain ⟨b, hb, ho, hla⟩ := ih (prev + 1) ko (prev + 1) _ x (by omega) (le_refl _)
    (by simp) (by simp) hx
  obtain ⟨ctl, s1⟩ := x
  simp only at hb ho hla hr
  have hagree : LocAgree prev s.loc s1.loc := by
    intro i hi
    have := hla i (by omega)
    simpa [Function.update_noteq (show i ≠ prev + 1 by omega)] using this
  rcases hb with hb | ⟨hb, hj⟩
  · subst hb
    cases b with
    | true =>
      simp only [exitOf, if_true, resumes_fall, runs_cons, execInstr, end_, label, evalStmt,
        Option.some.injEq, exists_eq_left', runs_nil] at hr
      subst hr
      exact ⟨true, rfl, ho, hagree⟩
    | false =>
      simp only [exitOf, Bool.false_eq_true, if_false, resumes_jump_none hlp] at hr
      subst hr
      exact ⟨false, rfl, ho, hagree⟩
  · subst hb hj
    simp only [resumes_jump_some hok, runs_nil] at hr
    subst hr
    exact ⟨true, rfl, ho, hagree⟩

theorem run_cons_inv {n : Nat} {code rest : List Instr} {i : Instr} {s : Frame}
    {y : Ctl × Frame} (h : run U call n code (i :: rest) s = some y) :
    ∃ m x, n = m + 1 ∧ execInstr U call i s = some x ∧ resume U call m code rest x = some y := by
  cases n with
  | zero => simp [run] at h
  | succ n =>
    simp only [run] at h
    cases he : execInstr U call i s with
    | none => simp [he] at h
    | some x =>
      rw [he] at h
      refine ⟨n, x, rfl, rfl, ?_⟩
      obtain ⟨ctl, s1⟩ := x
      cases ctl <;> simpa [resume] using h

/-- The loop printed for `Star` and `Plus`: from the statement after
`l<again>:;` on, it ends behind its last statement, after some rounds that the
element wins and one that it loses. -/
theorem sound_loop {vars : List Variable} {e : Node} {E code : List Instr} {again out q : Nat}
    (hq : out ≤ q)
    (hin : Inside E [jump again, label out, restore out, end_] code)
    (hagain : afterLabel code again
      = some (begin :: save out :: (E ++ [jump again, label out, restore out, end_])))
    (hout : afterLabel code out = some [restore out, end_])
    (ihE : ∀ s x, Runs U call E E s x →
      ∃ b, x.1 = exitOf b out ∧ Outcome U call vars e s.yy b x.2.yy ∧ LocAgree q s.loc x.2.loc) :
    ∀ (s : Frame) (y : Ctl × Frame),
      Runs U call code (begin :: save out :: (E ++ [jump again, label out, restore out, end_]))
        s y →
      y.1 = .fall ∧ Outcome U call vars (.star e) s.yy true y.2.yy ∧
        ∀ i, i < out → y.2.loc.yypos i = s.loc.yypos i ∧
          y.2.loc.yythunkpos i = s.loc.yythunkpos i ∧ y.2.loc.yymaxpos i = s.loc.yymaxpos i := by
  intro s y ⟨n, h⟩
  induction n using Nat.strong_induction_on generalizing s y with
  | _ n ih =>
    obtain ⟨m1, x1, rfl, he1, hr1⟩ := run_cons_inv h
    simp only [execInstr, begin, evalStmt, Option.some.injEq] at he1
    subst he1
    simp only [resume] at hr1
    obtain ⟨m2, x2, rfl, he2, hr2⟩ := run_cons_inv hr1
    simp only [execInstr, save, Option.some.injEq] at he2
    subst he2
    simp only [resume] at hr2
    obtain ⟨x, hx, hr⟩ := run_split hin hr2
    obtain ⟨b, hb, ho, hla⟩ := ihE _ x ⟨m2, hx⟩
    obtain ⟨ctl, s1⟩ := x
    simp only at hb ho hla hr
    subst hb
    have hpos := hla out hq
    simp only [Function.update_same] at hpos
    have hagree : ∀ i, i < out → s1.loc.yypos i = s.loc.yypos i ∧
        s1.loc.yythunkpos i = s.loc.yythunkpos i ∧ s1.loc.yymaxpos i = s.loc.yymaxpos i := by
      intro i hi
      have := hla i (by omega)
      simpa [Function.update_noteq (show i ≠ out by omega)] using this
    cases b with
    | true =>
      simp only [exitOf, if_true, resume] at hr
      obtain ⟨m3, x3, rfl, he3, hr3⟩ := run_cons_inv hr
      simp only [execInstr, jump, Option.some.injEq] at he3
      subst he3
      simp only [resume, hagain] at hr3
      obtain ⟨h1, h2, h3⟩ := ih m3 (by omega) s1 y hr3
      refine ⟨h1, Outcome.star_again ho h2, ?_⟩
      intro i hi
      have a := h3 i hi
      have b := hagree i hi
      exact ⟨a.1.trans b.1, a.2.1.trans b.2.1, a.2.2.trans b.2.2⟩
    | false =>
      have hr' : Resumes U call code [jump again, label out, restore out, end_]
          (exitOf false out, s1) y := ⟨m2, hr⟩
      simp only [exitOf, Bool.false_eq_true, if_false, resumes_jump_some hout, runs_cons,
        execInstr, restore, end_, evalStmt, hpos.1, hpos.2.1,
        Option.some.injEq, exists_eq_left', resumes_fall, runs_nil] at hr'
      subst hr'
      exact ⟨rfl, Outcome.star_out ho, hagree⟩

theorem sound_star {vars : List Variable} {e : Node} (ih : SoundAt U call vars e) :
    SoundAt U call vars (.star e) := by
  intro ko prev s y hko h
  have hl := labels_node vars e (prev + 1 + 1) (prev + 1 + 1)
  simp only [Node_compile_c_ko, yyl] at h
  have hin : Inside (Node_compile_c_ko vars e (prev + 1 + 1) (prev + 1 + 1)).1
      [jump (prev + 1), label (prev + 1 + 1), restore (prev + 1 + 1), end_]
      ([label (prev + 1), begin, save (prev + 1 + 1)] ++
        (Node_compile_c_ko vars e (prev + 1 + 1) (prev + 1 + 1)).1 ++
        [jump (prev + 1), label (prev + 1 + 1), restore (prev + 1 + 1), end_]) := by
    apply inside_of_labels
    intro l r hlr
    have := (hl.2.lt hlr).1
    simp only [afterLabel, label, begin, save]
    rw [if_neg (by omega)]
  have hagain : afterLabel ([label (prev + 1), begin, save (prev + 1 + 1)] ++
        (Node_compile_c_ko vars e (prev + 1 + 1) (prev + 1 + 1)).1 ++
        [jump (prev + 1), label (prev + 1 + 1), restore (prev + 1 + 1), end_]) (prev + 1)
      = some (begin :: save (prev + 1 + 1) ::
          ((Node_compile_c_ko vars e (prev + 1 + 1) (prev + 1 + 1)).1 ++
          [jump (prev + 1), label (prev + 1 + 1), restore (prev + 1 + 1), end_])) := by
    simp [afterLabel, label]
  have hout : afterLabel ([label (prev + 1), begin, save (prev + 1 + 1)] ++
        (Node_compile_c_ko vars e (prev + 1 + 1) (prev + 1 + 1)).1 ++
        [jump (prev + 1), label (prev + 1 + 1), restore (prev + 1 + 1), end_]) (prev + 1 + 1)
      = some [restore (prev + 1 + 1), end_] := by
    rw [List.append_assoc, afterLabel_append, afterLabel_append, hl.2 _ (Or.inl (le_refl _))]
    simp [afterLabel, begin, save, jump, label]
  generalize hcode : [label (prev + 1), begin, save (prev + 1 + 1)] ++
        (Node_compile_c_ko vars e (prev + 1 + 1) (prev + 1 + 1)).1 ++
        [jump (prev + 1), label (prev + 1 + 1), restore (prev + 1 + 1), end_] = code
    at hin hagain hout
  rw [hcode] at h
  nth_rewrite 2 [← hcode] at h
  simp only [List.append_assoc, List.cons_append, List.nil_append] at h
  rw [runs_cons] at h
  simp only [execInstr, label, Option.some.injEq, exists_eq_left', resumes_fall] at h
  obtain ⟨h1, h2, h3⟩ := sound_loop (le_refl _) hin hagain hout
    (fun s x hx => ih _ _ s x (le_refl _) hx) s y h
  refine ⟨true, h1, h2, fun i hi => h3 i (by omega)⟩

theorem sound_plus {vars : List Variable} {e : Node} (ih : SoundAt U call vars e) :
    SoundAt U call vars (.plus e) := by
  intro ko prev s y hko h
  have hl1 := labels_node vars e ko (prev + 1 + 1)
  have hl2 := labels_node vars e (prev + 1 + 1)
    (Node_compile_c_ko vars e ko (prev + 1 + 1)).2
  have hlp := (labels_node vars (.plus e) ko prev).2 ko (Or.inl hko)
  simp only [Node_compile_c_ko, yyl] at h hlp
  have hin1 : Inside (Node_compile_c_ko vars e ko (prev + 1 + 1)).1
      (label (prev + 1) :: begin :: save (prev + 1 + 1) ::
        ((Node_compile_c_ko vars e (prev + 1 + 1)
          (Node_compile_c_ko vars e ko (prev + 1 + 1)).2).1 ++
        [jump (prev + 1), label (prev + 1 + 1), restore (prev + 1 + 1), end_]))
      ((Node_compile_c_ko vars e ko (prev + 1 + 1)).1 ++
        [label (prev + 1), begin, save (prev + 1 + 1)] ++
        (Node_compile_c_ko vars e (prev + 1 + 1)
          (Node_compile_c_ko vars e ko (prev + 1 + 1)).2).1 ++
        [jump (prev + 1), label (prev + 1 + 1), restore (prev + 1 + 1), end_]) := by
    intro l r hlr
    simp only [List.append_assoc, List.cons_append, List.nil_append, afterLabel_append, hlr]
  have hin2 : Inside (Node_compile_c_ko vars e (prev + 1 + 1)
          (Node_compile_c_ko vars e ko (prev + 1 + 1)).2).1
      [jump (prev + 1), label (prev + 1 + 1), restore (prev + 1 + 1), end_]
      ((Node_compile_c_ko vars e ko (prev + 1 + 1)).1 ++
        [label (prev + 1), begin, save (prev + 1 + 1)] ++
        (Node_compile_c_ko vars e (prev + 1 + 1)
          (Node_compile_c_ko vars e ko (prev + 1 + 1)).2).1 ++
        [jump (prev + 1), label (prev + 1 + 1), restore (prev + 1 + 1), end_]) := by
    apply inside_of_labels
    intro l r hlr
    have := (hl2.2.lt hlr).1
    rw [afterLabel_append, hl1.2 l (Or.inr this)]
    simp only [afterLabel, label, begin, save]
    rw [if_neg (by omega)]
  have hagain : afterLabel ((Node_compile_c_ko vars e ko (prev + 1 + 1)).1 ++
        [label (prev + 1), begin, save (prev + 1 + 1)] ++
        (Node_compile_c_ko vars e (prev + 1 + 1)
          (Node_compile_c_ko vars e ko (prev + 1 + 1)).2).1 ++
        [jump (prev + 1), label (prev + 1 + 1), restore (prev + 1 + 1), end_]) (prev + 1)
      = some (begin :: save (prev + 1 + 1) ::
          ((Node_compile_c_ko vars e (prev + 1 + 1)
            (Node_compile_c_ko vars e ko (prev + 1 + 1)).2).1 ++
          [jump (prev + 1), label (prev + 1 + 1), restore (prev + 1 + 1), end_])) := by
    rw [List.append_assoc, List.append_assoc, afterLabel_append,
      hl1.2 _ (Or.inl (Nat.le_succ _))]
    simp [afterLabel, label]
  have hout : afterLabel ((Node_compile_c_ko vars e ko (prev + 1 + 1)).1 ++
        [label (prev + 1), begin, save (prev + 1 + 1)] ++
        (Node_compile_c_ko vars e (prev + 1 + 1)
          (Node_compile_c_ko vars e ko (prev + 1 + 1)).2).1 ++
        [jump (prev + 1), label (prev + 1 + 1), restore (prev + 1 + 1), end_]) (prev + 1 + 1)
      = some [restore (prev + 1 + 1), end_] := by
    rw [List.append_assoc, List.append_assoc, afterLabel_append,
      hl1.2 _ (Or.inl (le_refl _)), afterLabel_append, afterLabel_append,
      hl2.2 _ (Or.inl hl1.1)]
    simp [afterLabel, begin, save, jump, label]
  generalize hcode : (Node_compile_c_ko vars e ko (prev + 1 + 1)).1 ++
        [label (prev + 1), begin, save (prev + 1 + 1)] ++
        (Node_compile_c_ko vars e (prev + 1 + 1)
          (Node_compile_c_ko vars e ko (prev + 1 + 1)).2).1 ++
        [jump (prev + 1), label (prev + 1 + 1), restore (prev + 1 + 1), end_] = code
    at hin1 hin2 hagain hout hlp
  rw [hcode] at h
  nth_rewrite 2 [← hcode] at h
  simp only [List.append_assoc, List.cons_append, List.nil_append] at h
  rw [runs_append hin1] at h
  obtain ⟨x, hx, hr⟩ := h
  obtain ⟨b, hb, ho, hla⟩ := ih _ _ _ x (by omega) hx
  obtain ⟨ctl, s1⟩ := x
  simp only at hb ho hla hr
  subst hb
  cases b with
  | true =>
    simp only [exitOf, if_true, resumes_fall] at hr
    rw [runs_cons] at hr
    simp only [execInstr, label, Option.some.injEq, exists_eq_left', resumes_fall] at hr
    obtain ⟨h1, h2, h3⟩ := sound_loop hl1.1 hin2 hagain hout
      (fun s x hx => ih _ _ s x hl1.1 hx) s1 y hr
    refine ⟨true, h1, Outcome.plus_ok ho h2, fun i hi => ?_⟩
    have a := h3 i (by omega)
    have b := hla i (by omega)
    exact ⟨a.1.trans b.1, a.2.1.trans b.2.1, a.2.2.trans b.2.2⟩
  | false =>
    simp only [exitOf, Bool.false_eq_true, if_false, resumes_jump_none hlp] at hr
    subst hr
    exact ⟨false, rfl, Outcome.plus_ko ho, hla.mono (by omega)⟩

mutual
theorem sound_node (U : UserCode) (call : Nat → yycontext → Option (Bool × yycontext))
    (vars : List Variable) : ∀ e : Node, SoundAt U call vars e
  | .dot => sound_test (fun _ _ => rfl) rfl
  | .name _ none => sound_test (fun _ _ => rfl) rfl
  | .name rule (some v) => sound_name rule v
  | .character _ => sound_test (fun _ _ => rfl) rfl
  | .string _ _ => sound_test (fun _ _ => rfl) rfl
  | .cclass _ => sound_test (fun _ _ => rfl) rfl
  | .action _ => sound_stmt (fun _ _ => rfl) rfl
  | .inLine _ => sound_stmt (fun _ _ => rfl) rfl
  | .predicate _ => sound_test (fun _ _ => rfl) rfl
  | .error e text => sound_error text (sound_node U call vars e)
  | .alternate first => sound_alternate (sound_altLoop U call vars first)
  | .sequence first => sound_seqLoop U call vars first
  | .peekFor e => sound_peekFor (sound_node U call vars e)
  | .peekNot e => sound_peekNot (sound_node U call vars e)
  | .query e => sound_query (sound_node U call vars e)
  | .star e => sound_star (sound_node U call vars e)
  | .plus e => sound_plus (sound_node U call vars e)
theorem sound_altLoop (U : UserCode) (call : Nat → yycontext → Option (Bool × yycontext))
    (vars : List Variable) : ∀ c : Chain, SoundAlt U call vars c
  | .nil => sound_alt_nil
  | .cons e .nil => sound_alt_last (sound_node U call vars e)
  | .cons e (.cons e2 rest) =>
    sound_alt_cons (sound_node U call vars e) (sound_altLoop U call vars (.cons e2 rest))
theorem sound_seqLoop (U : UserCode) (call : Nat → yycontext → Option (Bool × yycontext))
    (vars : List Variable) : ∀ c : Chain, SoundAt U call vars (.sequence c)
  | .nil => sound_seq_nil
  | .cons e next => sound_seq_cons (sound_node U call vars e) (sound_seqLoop U call vars next)
end

/-! ### Whatever `Outcome` says, the printed text does -/

theorem locAgree_save {prev : Nat} {loc loc1 : Locals} {p t : Option Nat}
    (h : LocAgree (prev + 1)
      ⟨Function.update loc.yypos (prev + 1) p, Function.update loc.yythunkpos (prev + 1) t,
        loc.yymaxpos⟩ loc1) :
    LocAgree prev loc loc1 ∧ loc1.yypos (prev + 1) = p ∧ loc1.yythunkpos (prev + 1) = t := by
  refine ⟨?_, ?_, ?_⟩
  · intro i hi
    have := h i (by omega)
    simpa [Function.update_noteq (show i ≠ prev + 1 by omega)] using this
  · simpa using (h (prev + 1) (le_refl _)).1
  · simpa using (h (prev + 1) (le_refl _)).2.1

theorem complete_test {vars : List Variable} {e : Node} {c : Test}
    (hc : ∀ ko prev, Node_compile_c_ko vars e ko prev = ([.test c ko], prev))
    (ht : testOf e = some c) : CompleteAt U call vars e := by
  intro yy b yy1 h ko prev loc _
  refine ⟨loc, ?_, locAgree_refl _ _⟩
  rw [hc]
  cases h with
  | test ht2 hev =>
    rw [ht] at ht2
    cases ht2
    simp only [runs_cons, execInstr, hev]
    cases b with
    | true => simp [exitOf, resumes_fall, runs_nil]
    | false =>
      simp only [exitOf, Bool.false_eq_true, if_false, Option.some.injEq, exists_eq_left']
      rw [resumes_jump_none (by simp [afterLabel])]
  | stmt hs _ => cases e <;> simp [testOf, stmtOf] at ht hs
  | _ => simp [testOf] at ht

theorem complete_stmt {vars : List Variable} {e : Node} {a : Stmt}
    (hc : ∀ ko prev, Node_compile_c_ko vars e ko prev = ([.stmt a], prev))
    (ht : stmtOf e = some a) : CompleteAt U call vars e := by
  intro yy b yy1 h ko prev loc _
  refine ⟨loc, ?_, locAgree_refl _ _⟩
  rw [hc]
  cases h with
  | stmt hs hev =>
    rw [ht] at hs
    cases hs
    simp [runs_cons, execInstr, hev, exitOf, resumes_fall, runs_nil]
  | test hs _ => cases e <;> simp [testOf, stmtOf] at ht hs
  | _ => simp [stmtOf] at ht

theorem complete_name {vars : List Variable} (rule v : Nat) :
    CompleteAt U call vars (.name rule (some v)) := by
  intro yy b yy1 h ko prev loc _
  refine ⟨loc, ?_, locAgree_refl _ _⟩
  simp only [Node_compile_c_ko, List.cons_append, List.nil_append, runs_cons, execInstr,
    evalTest]
  cases h with
  | test ht _ => simp [testOf] at ht
  | stmt ht _ => simp [stmtOf] at ht
  | name_ko hev =>
    simp only [hev, exitOf, Bool.false_eq_true, if_false, Option.some.injEq, exists_eq_left']
    rw [resumes_jump_none (by simp [afterLabel])]
  | name_ok hev hd =>
    simp only [hev, Option.some.injEq, exists_eq_left', resumes_fall, runs_cons, execInstr,
      evalStmt, hd, runs_nil, exitOf, if_true]

theorem complete_error {vars : List Variable} {e : Node} (text : String)
    (ih : CompleteAt U call vars e) : CompleteAt U call vars (.error e text) := by
  intro yy b yy1 h ko prev loc hko
  have hl := labels_node vars e (prev + 1 + 1) (prev + 1 + 1)
  have hlp := (labels_node vars (.error e text) ko prev).2 ko (Or.inl hko)
  simp only [Node_compile_c_ko, yyl] at hlp ⊢
  have hLE := hl.2
  have hin := inside_head (Node_compile_c_ko vars e (prev + 1 + 1) (prev + 1 + 1)).1
    [jump (prev + 1), label (prev + 1 + 1), .stmt (.error text), jump ko, label (prev + 1)]
  have hok : afterLabel ((Node_compile_c_ko vars e (prev + 1 + 1) (prev + 1 + 1)).1 ++
      [jump (prev + 1), label (prev + 1 + 1), .stmt (.error text), jump ko, label (prev + 1)])
      (prev + 1) = some [] := by
    rw [afterLabel_append, hLE _ (by omega)]
    simp [afterLabel, jump, label]
  have heko : afterLabel ((Node_compile_c_ko vars e (prev + 1 + 1) (prev + 1 + 1)).1 ++
      [jump (prev + 1), label (prev + 1 + 1), .stmt (.error text), jump ko, label (prev + 1)])
      (prev + 1 + 1) = some [.stmt (.error text), jump ko, label (prev + 1)] := by
    rw [afterLabel_append, hLE _ (by omega)]
    simp [afterLabel, jump, label]
  generalize hcode : (Node_compile_c_ko vars e (prev + 1 + 1) (prev + 1 + 1)).1 ++
      [jump (prev + 1), label (prev + 1 + 1), .stmt (.error text), jump ko, label (prev + 1)]
      = code at hin hok heko hlp
  nth_rewrite 2 [← hcode]
  simp only [runs_append hin]
  cases h with
  | test ht _ => simp [testOf] at ht
  | stmt ht _ => simp [stmtOf] at ht
  | error_ok ho =>
    obtain ⟨loc1, hr, hla⟩ := ih _ _ _ ho (prev + 1 + 1) (prev + 1 + 1) loc (le_refl _)
    refine ⟨loc1, ⟨_, hr, ?_⟩, hla.mono (by omega)⟩
    simp only [exitOf, if_true, resumes_fall, runs_cons, execInstr, jump,
      Option.some.injEq, exists_eq_left', resumes_jump_some hok, runs_nil]
  | error_ko ho hd =>
    obtain ⟨loc1, hr, hla⟩ := ih _ _ _ ho (prev + 1 + 1) (prev + 1 + 1) loc (le_refl _)
    refine ⟨loc1, ⟨_, hr, ?_⟩, hla.mono (by omega)⟩
    simp only [exitOf, Bool.false_eq_true, if_false, resumes_jump_some heko, runs_cons,
      execInstr, hd, jump, Option.some.injEq, exists_eq_left', resumes_fall,
      resumes_jump_none hlp]

theorem locAgree_saveMax {prev : Nat} {loc loc1 : Locals} {p t m : Option Nat}
    (h : LocAgree (prev + 1)
      ⟨Function.update loc.yypos (prev + 1) p, Function.update loc.yythunkpos (prev + 1) t,
        Function.update loc.yymaxpos (prev + 1) m⟩ loc1) :
    LocAgree prev loc loc1 ∧ loc1.yypos (prev + 1) = p ∧ loc1.yythunkpos (prev + 1) = t ∧
      loc1.yymaxpos (prev + 1) = m := by
  refine ⟨?_, ?_, ?_, ?_⟩
  · intro i hi
    have := h i (by omega)
    simpa [Function.update_noteq (show i ≠ prev + 1 by omega)] using this
  · simpa using (h (prev + 1) (le_refl _)).1
  · simpa using (h (prev + 1) (le_refl _)).2.1
  · simpa using (h (prev + 1) (le_refl _)).2.2

theorem complete_peekNot {vars : List Variable} {e : Node} (ih : CompleteAt U call vars e) :
    CompleteAt U call vars (.peekNot e) := by
  intro yy b yy1 h ko prev loc hko
  have hl := labels_node vars e (prev + 1) (prev + 1)
  have hlp := (labels_node vars (.peekNot e) ko prev).2 ko (Or.inl hko)
  simp only [Node_compile_c_ko, yyl] at hlp ⊢
  have hLE := hl.2
  have hin : Inside (Node_compile_c_ko vars e (prev + 1) (prev + 1)).1
      [restoreMaxPos (prev + 1), jump ko, label (prev + 1), restore (prev + 1),
        restoreMaxPos (prev + 1), end_]
      ([begin, save (prev + 1), saveMaxPos (prev + 1)] ++
        (Node_compile_c_ko vars e (prev + 1) (prev + 1)).1 ++
        [restoreMaxPos (prev + 1), jump ko, label (prev + 1), restore (prev + 1),
          restoreMaxPos (prev + 1), end_]) := by
    apply inside_of_labels
    intro l r _
    simp [afterLabel, begin, save, saveMaxPos]
  have hok : afterLabel ([begin, save (prev + 1), saveMaxPos (prev + 1)] ++
        (Node_compile_c_ko vars e (prev + 1) (prev + 1)).1 ++
        [restoreMaxPos (prev + 1), jump ko, label (prev + 1), restore (prev + 1),
          restoreMaxPos (prev + 1), end_]) (prev + 1)
      = some [restore (prev + 1), restoreMaxPos (prev + 1), end_] := by
    rw [List.append_assoc, afterLabel_append, afterLabel_append, hLE _ (by omega)]
    simp [afterLabel, begin, save, saveMaxPos, restoreMaxPos, jump, label]
  generalize hcode : [begin, save (prev + 1), saveMaxPos (prev + 1)] ++
        (Node_compile_c_ko vars e (prev + 1) (prev + 1)).1 ++
        [restoreMaxPos (prev + 1), jump ko, label (prev + 1), restore (prev + 1),
          restoreMaxPos (prev + 1), end_] = code at hin hok hlp
  nth_rewrite 2 [← hcode]
  simp only [List.append_assoc, List.cons_append, List.nil_append, runs_cons, execInstr,
    begin, save, saveMaxPos, evalStmt, Option.some.injEq, exists_eq_left', resumes_fall,
    runs_append hin]
  cases h with
  | test ht _ => simp [testOf] at ht
  | stmt ht _ => simp [stmtOf] at ht
  | peekNot_ok ho =>
    obtain ⟨loc1, hr, hla⟩ := ih _ _ _ ho (prev + 1) (prev + 1)
      ⟨Function.update loc.yypos (prev + 1) (some yy._pos),
        Function.update loc.yythunkpos (prev + 1) (some yy._thunkpos),
        Function.update loc.yymaxpos (prev + 1) (some yy._maxpos)⟩ (le_refl _)
    obtain ⟨hag, hp, ht, hm⟩ := locAgree_saveMax hla
    refine ⟨loc1, ⟨_, hr, ?_⟩, hag⟩
    simp only [exitOf, Bool.false_eq_true, if_false, resumes_jump_some hok, runs_cons,
      execInstr, restore, restoreMaxPos, end_, evalStmt, hp, ht, hm,
      Option.some.injEq, exists_eq_left', resumes_fall, runs_nil, rewind, if_true]
  | peekNot_ko ho =>
    obtain ⟨loc1, hr, hla⟩ := ih _ _ _ ho (prev + 1) (prev + 1)
      ⟨Function.update loc.yypos (prev + 1) (some yy._pos),
        Function.update loc.yythunkpos (prev + 1) (some yy._thunkpos),
        Function.update loc.yymaxpos (prev + 1) (some yy._maxpos)⟩ (le_refl _)
    obtain ⟨hag, hp, ht, hm⟩ := locAgree_saveMax hla
    refine ⟨loc1, ⟨_, hr, ?_⟩, hag⟩
    simp only [exitOf, if_true, resumes_fall, runs_cons, execInstr, restoreMaxPos, jump,
      hm, Option.some.injEq, exists_eq_left', resumes_jump_none hlp, Bool.false_eq_true,
      if_false]

theorem complete_query {vars : List Variable} {e : Node} (ih : CompleteAt U call vars e) :
    CompleteAt U call vars (.query e) := by
  intro yy b yy1 h ko prev loc hko
  have hl := labels_node vars e (prev + 1) (prev + 1 + 1)
  simp only [Node_compile_c_ko, yyl]
  have hLE := hl.2
  have hin : Inside (Node_compile_c_ko vars e (prev + 1) (prev + 1 + 1)).1
      [jump (prev + 1 + 1), label (prev + 1), restore (prev + 1), end_, label (prev + 1 + 1)]
      ([begin, save (prev + 1)] ++
        (Node_compile_c_ko vars e (prev + 1) (prev + 1 + 1)).1 ++
        [jump (prev + 1 + 1), label (prev + 1), restore (prev + 1), end_,
          label (prev + 1 + 1)]) := by
    apply inside_of_labels
    intro l r _
    simp [afterLabel, begin, save]
  have hqko : afterLabel ([begin, save (prev + 1)] ++
        (Node_compile_c_ko vars e (prev + 1) (prev + 1 + 1)).1 ++
        [jump (prev + 1 + 1), label (prev + 1), restore (prev + 1), end_,
          label (prev + 1 + 1)]) (prev + 1)
      = some [restore (prev + 1), end_, label (prev + 1 + 1)] := by
    rw [List.append_assoc, afterLabel_append, afterLabel_append, hLE _ (by omega)]
    simp [afterLabel, begin, save, jump, label]
  have hqok : afterLabel ([begin, save (prev + 1)] ++
        (Node_compile_c_ko vars e (prev + 1) (prev + 1 + 1)).1 ++
        [jump (prev + 1 + 1), label (prev + 1), restore (prev + 1), end_,
          label (prev + 1 + 1)]) (prev + 1 + 1) = some [] := by
    rw [List.append_assoc, afterLabel_append, afterLabel_append, hLE _ (by omega)]
    simp [afterLabel, begin, save, jump, label, restore, end_]
  generalize hcode : [begin, save (prev + 1)] ++
        (Node_compile_c_ko vars e (prev + 1) (prev + 1 + 1)).1 ++
        [jump (prev + 1 + 1), label (prev + 1), restore (prev + 1), end_,
          label (prev + 1 + 1)] = code at hin hqko hqok
  nth_rewrite 2 [← hcode]
  simp only [List.append_assoc, List.cons_append, List.nil_append, runs_cons, execInstr,
    begin, save, evalStmt, Option.some.injEq, exists_eq_left', resumes_fall,
    runs_append hin]
  have key : ∀ b2 yy2, Outcome U call vars e yy b2 yy2 → ∃ loc1,
      Runs U call (Node_compile_c_ko vars e (prev + 1) (prev + 1 + 1)).1
        (Node_compile_c_ko vars e (prev + 1) (prev + 1 + 1)).1
        ⟨yy, ⟨Function.update loc.yypos (prev + 1) (some yy._pos),
          Function.update loc.yythunkpos (prev + 1) (some yy._thunkpos), loc.yymaxpos⟩⟩
        (exitOf b2 (prev + 1), ⟨yy2, loc1⟩) ∧
      LocAgree prev loc loc1 ∧ loc1.yypos (prev + 1) = some yy._pos ∧
      loc1.yythunkpos (prev + 1) = some yy._thunkpos := by
    intro b2 yy2 ho
    obtain ⟨loc1, hr, hla⟩ := ih _ _ _ ho (prev + 1) (prev + 1 + 1)
      ⟨Function.update loc.yypos (prev + 1) (some yy._pos),
        Function.update loc.yythunkpos (prev + 1) (some yy._thunkpos), loc.yymaxpos⟩ (by omega)
    exact ⟨loc1, hr, locAgree_save (hla.mono (Nat.le_succ _))⟩
  cases h with
  | test ht _ => simp [testOf] at ht
  | stmt ht _ => simp [stmtOf] at ht
  | query_ok ho =>
    obtain ⟨loc1, hr, hag, hp, ht⟩ := key _ _ ho
    refine ⟨loc1, ⟨_, hr, ?_⟩, hag⟩
    simp only [exitOf, if_true, resumes_fall, runs_cons, execInstr, jump,
      Option.some.injEq, exists_eq_left', resumes_jump_some hqok, runs_nil]
  | query_ko ho =>
    obtain ⟨loc1, hr, hag, hp, ht⟩ := key _ _ ho
    refine ⟨loc1, ⟨_, hr, ?_⟩, hag⟩
    simp only [exitOf, Bool.false_eq_true, if_false, resumes_jump_some hqko, runs_cons,
      execInstr, restore, end_, label, evalStmt, hp, ht,
      Option.some.injEq, exists_eq_left', resumes_fall, runs_nil, rewind, if_true]

theorem complete_peekFor {vars : List Variable} {e : Node} (ih : CompleteAt U call vars e) :
    CompleteAt U call vars (.peekFor e) := by
  intro yy b yy1 h ko prev loc hko
  have hl := labels_node vars e ko (prev + 1)
  have hlp := (labels_node vars (.peekFor e) ko prev).2 ko (Or.inl hko)
  simp only [Node_compile_c_ko, yyl] at hlp ⊢
  have hin : Inside (Node_compile_c_ko vars e ko (prev + 1)).1 [restore (prev + 1), end_]
      ([begin, save (prev + 1)] ++ (Node_compile_c_ko vars e ko (prev + 1)).1 ++
        [restore (prev + 1), end_]) := by
    apply inside_of_labels
    intro l r _
    simp [afterLabel, begin, save]
  generalize hcode : [begin, save (prev + 1)] ++ (Node_compile_c_ko vars e ko (prev + 1)).1 ++
    [restore (prev + 1), end_] = code at hin hlp
  nth_rewrite 2 [← hcode]
  simp only [List.append_assoc, List.cons_append, List.nil_append, runs_cons, execInstr,
    begin, save, evalStmt, Option.some.injEq, exists_eq_left', resumes_fall,
    runs_append hin]
  cases h with
  | test ht _ => simp [testOf] at ht
  | stmt ht _ => simp [stmtOf] at ht
  | peekFor_ok ho =>
    obtain ⟨loc1, hr, hla⟩ := ih _ _ _ ho ko (prev + 1)
      ⟨Function.update loc.yypos (prev + 1) (some yy._pos),
        Function.update loc.yythunkpos (prev + 1) (some yy._thunkpos), loc.yymaxpos⟩ (by omega)
    obtain ⟨hag, hp, ht⟩ := locAgree_save hla
    refine ⟨loc1, ⟨_, hr, ?_⟩, hag⟩
    simp only [exitOf, if_true, resumes_fall, runs_cons, execInstr, restore, end_, evalStmt,
      hp, ht, Option.some.injEq, exists_eq_left', runs_nil, rewind]
  | peekFor_ko ho =>
    obtain ⟨loc1, hr, hla⟩ := ih _ _ _ ho ko (prev + 1)
      ⟨Function.update loc.yypos (prev + 1) (some yy._pos),
        Function.update loc.yythunkpos (prev + 1) (some yy._thunkpos), loc.yymaxpos⟩ (by omega)
    obtain ⟨hag, hp, ht⟩ := locAgree_save hla
    refine ⟨loc1, ⟨_, hr, ?_⟩, hag⟩
    simp only [exitOf, Bool.false_eq_true, if_false, resumes_jump_none hlp]

theorem complete_seq_nil {vars : List Variable} : CompleteAt U call vars (.sequence .nil) := by
  intro yy b yy1 h ko prev loc _
  refine ⟨loc, ?_, locAgree_refl _ _⟩
  cases h with
  | test ht _ => simp [testOf] at ht
  | stmt ht _ => simp [stmtOf] at ht
  | seq_nil => simp [Node_compile_c_ko, sequenceLoop, runs_nil, exitOf]

theorem complete_seq_cons {vars : List Variable} {e : Node} {next : Chain}
    (ih1 : CompleteAt U call vars e) (ih2 : CompleteAt U call vars (.sequence next)) :
    CompleteAt U call vars (.sequence (.cons e next)) := by
  intro yy b yy1 h ko prev loc hko
  have hl1 := labels_node vars e ko prev
  have hl2 := labels_node vars (.sequence next) ko (Node_compile_c_ko vars e ko prev).2
  have hlp := (labels_node vars (.sequence (.cons e next)) ko prev).2 ko (Or.inl hko)
  simp only [Node_compile_c_ko, sequenceLoop] at hlp hl2 ih2 ⊢
  have hin1 := inside_head (Node_compile_c_ko vars e ko prev).1
    (sequenceLoop vars next ko (Node_compile_c_ko vars e ko prev).2).1
  have hin2 : Inside (sequenceLoop vars next ko (Node_compile_c_ko vars e ko prev).2).1 []
      ((Node_compile_c_ko vars e ko prev).1 ++
        (sequenceLoop vars next ko (Node_compile_c_ko vars e ko prev).2).1) := by
    apply inside_tail
    intro l r hlr
    exact hl1.2 l (Or.inr (hl2.2.lt hlr).1)
  generalize hcode : (Node_compile_c_ko vars e ko prev).1 ++
        (sequenceLoop vars next ko (Node_compile_c_ko vars e ko prev).2).1 = code
    at hin1 hin2 hlp
  nth_rewrite 2 [← hcode]
  simp only [runs_append hin1]
  cases h with
  | test ht _ => simp [testOf] at ht
  | stmt ht _ => simp [stmtOf] at ht
  | seq_ko ho =>
    obtain ⟨loc1, hr, hla⟩ := ih1 _ _ _ ho ko prev loc hko
    refine ⟨loc1, ⟨_, hr, ?_⟩, hla⟩
    simp only [exitOf, Bool.false_eq_true, if_false, resumes_jump_none hlp]
  | seq_ok ho ho2 =>
    obtain ⟨loc1, hr, hla⟩ := ih1 _ _ _ ho ko prev loc hko
    obtain ⟨loc2, hr2, hla2⟩ := ih2 _ _ _ ho2 ko (Node_compile_c_ko vars e ko prev).2 loc1
      (by omega)
    refine ⟨loc2, ⟨_, hr, ?_⟩, hla.agreeTrans hla2 hl1.1⟩
    simp only [exitOf, if_true, resumes_fall, runs_tail hin2]
    exact ⟨_, hr2, (resumes_exit hlp).2 rfl⟩

theorem complete_alt_nil {vars : List Variable} : CompleteAlt U call vars .nil := by
  intro yy b yy1 h ok ko prev loc _ _ _ _
  cases h with
  | test ht _ => simp [testOf] at ht
  | stmt ht _ => simp [stmtOf] at ht
  | alt_nil =>
    exact ⟨.fall, loc, Or.inl rfl, by simp [alternateLoop, runs_nil], locAgree_refl _ _⟩

theorem complete_alt_last {vars : List Variable} {e : Node} (ih : CompleteAt U call vars e) :
    CompleteAlt U call vars (.cons e .nil) := by
  intro yy b yy1 h ok ko prev loc hlt hle _ _
  cases h with
  | test ht _ => simp [testOf] at ht
  | stmt ht _ => simp [stmtOf] at ht
  | alt_last ho =>
    obtain ⟨loc1, hr, hla⟩ := ih _ _ _ ho ko prev loc (by omega)
    exact ⟨_, loc1, Or.inl rfl, by simpa only [alternateLoop] using hr, hla⟩

theorem complete_alt_cons {vars : List Variable} {e e2 : Node} {rest : Chain}
    (ih1 : CompleteAt U call vars e) (ih2 : CompleteAlt U call vars (.cons e2 rest)) :
    CompleteAlt U call vars (.cons e (.cons e2 rest)) := by
  intro yy b yy1 h ok ko prev loc hlt hle hp ht
  have hl1 := labels_node vars e (prev + 1) (prev + 1)
  have hl2 := labels_alt vars (.cons e2 rest) ok ko
    (Node_compile_c_ko vars e (prev + 1) (prev + 1)).2
  have hlp := (labels_alt vars (.cons e (.cons e2 rest)) ok ko prev).2
  simp only [alternateLoop, yyl] at hlp ⊢
  have hko := hlp ko (Or.inl (by omega))
  have hok := hlp ok (Or.inl hle)
  have hin1 : Inside (Node_compile_c_ko vars e (prev + 1) (prev + 1)).1
      (jump ok :: label (prev + 1) :: restore ok ::
        (alternateLoop vars (.cons e2 rest) ok ko
          (Node_compile_c_ko vars e (prev + 1) (prev + 1)).2).1)
      ((Node_compile_c_ko vars e (prev + 1) (prev + 1)).1 ++
        [jump ok, label (prev + 1), restore ok] ++
        (alternateLoop vars (.cons e2 rest) ok ko
          (Node_compile_c_ko vars e (prev + 1) (prev + 1)).2).1) := by
    intro l r hlr
    simp only [List.append_assoc, List.cons_append, List.nil_append, afterLabel_append, hlr]
  have hin2 : Inside (alternateLoop vars (.cons e2 rest) ok ko
          (Node_compile_c_ko vars e (prev + 1) (prev + 1)).2).1 []
      ((Node_compile_c_ko vars e (prev + 1) (prev + 1)).1 ++
        [jump ok, label (prev + 1), restore ok] ++
        (alternateLoop vars (.cons e2 rest) ok ko
          (Node_compile_c_ko vars e (prev + 1) (prev + 1)).2).1) := by
    apply inside_tail
    intro l r hlr
    have := (hl2.2.lt hlr).1
    rw [afterLabel_append, hl1.2 l (Or.inr this)]
    simp only [afterLabel, jump, label, restore]
    rw [if_neg (by omega)]
  have hnext : afterLabel ((Node_compile_c_ko vars e (prev + 1) (prev + 1)).1 ++
        [jump ok, label (prev + 1), restore ok] ++
        (alternateLoop vars (.cons e2 rest) ok ko
          (Node_compile_c_ko vars e (prev + 1) (prev + 1)).2).1) (prev + 1)
      = some (restore ok :: (alternateLoop vars (.cons e2 rest) ok ko
          (Node_compile_c_ko vars e (prev + 1) (prev + 1)).2).1) := by
    rw [List.append_assoc, afterLabel_append, hl1.2 _ (Or.inl (le_refl _))]
    simp [afterLabel, jump, label]
  generalize hcode : (Node_compile_c_ko vars e (prev + 1) (prev + 1)).1 ++
        [jump ok, label (prev + 1), restore ok] ++
        (alternateLoop vars (.cons e2 rest) ok ko
          (Node_compile_c_ko vars e (prev + 1) (prev + 1)).2).1 = code
    at hin1 hin2 hko hok hnext
  nth_rewrite 2 [← hcode]
  simp only [List.append_assoc, List.cons_append, List.nil_append, runs_append hin1]
  cases h with
  | test ht _ => simp [testOf] at ht
  | stmt ht _ => simp [stmtOf] at ht
  | alt_ok ho =>
    obtain ⟨loc1, hr, hla⟩ := ih1 _ _ _ ho (prev + 1) (prev + 1) loc (le_refl _)
    refine ⟨.jump ok, loc1, Or.inr ⟨rfl, rfl⟩, ⟨_, hr, ?_⟩, hla.mono (by omega)⟩
    simp only [exitOf, if_true, resumes_fall, runs_cons, execInstr, jump,
      Option.some.injEq, exists_eq_left', resumes_jump_none hok]
  | alt_next ho ho2 =>
    obtain ⟨loc1, hr, hla⟩ := ih1 _ _ _ ho (prev + 1) (prev + 1) loc (le_refl _)
    have hpos := hla ok (by omega)
    rw [hp, ht] at hpos
    obtain ⟨ctl, loc2, hctl, hr2, hla2⟩ := ih2 _ _ _ ho2 ok ko
      (Node_compile_c_ko vars e (prev + 1) (prev + 1)).2 loc1 hlt (by omega) hpos.1 hpos.2.1
    refine ⟨ctl, loc2, hctl, ⟨_, hr, ?_⟩, (hla.mono (Nat.le_succ prev)).agreeTrans hla2 (by omega)⟩
    simp only [exitOf, Bool.false_eq_true, if_false, resumes_jump_some hnext, runs_cons,
      execInstr, restore, hpos.1, hpos.2.1, Option.some.injEq, exists_eq_left',
      resumes_fall, runs_tail hin2]
    refine ⟨_, hr2, ?_⟩
    rcases hctl with rfl | ⟨_, rfl⟩
    · exact (resumes_exit hko).2 rfl
    · exact (resumes_jump_none hok).2 rfl

theorem complete_alternate {vars : List Variable} {first : Chain}
    (ih : CompleteAlt U call vars first) : CompleteAt U call vars (.alternate first) := by
  intro yy b yy1 h ko prev loc hko
  have hl := labels_alt vars first (prev + 1) ko (prev + 1)
  have hlp := (labels_node vars (.alternate first) ko prev).2 ko (Or.inl hko)
  simp only [Node_compile_c_ko, yyl] at hlp ⊢
  have hin : Inside (alternateLoop vars first (prev + 1) ko (prev + 1)).1
      [end_, label (prev + 1)]
      ([begin, save (prev + 1)] ++ (alternateLoop vars first (prev + 1) ko (prev + 1)).1 ++
        [end_, label (prev + 1)]) := by
    apply inside_of_labels
    intro l r _
    simp [afterLabel, begin, save]
  have hok : afterLabel ([begin, save (prev + 1)] ++
        (alternateLoop vars first (prev + 1) ko (prev + 1)).1 ++
        [end_, label (prev + 1)]) (prev + 1) = some [] := by
    rw [List.append_assoc, afterLabel_append, afterLabel_append, hl.2 _ (Or.inl (le_refl _))]
    simp [afterLabel, begin, save, end_, label]
  generalize hcode : [begin, save (prev + 1)] ++
        (alternateLoop vars first (prev + 1) ko (prev + 1)).1 ++
        [end_, label (prev + 1)] = code at hin hok hlp
  nth_rewrite 2 [← hcode]
  simp only [List.append_assoc, List.cons_append, List.nil_append, runs_cons, execInstr,
    begin, save, evalStmt, Option.some.injEq, exists_eq_left', resumes_fall,
    runs_append hin]
  obtain ⟨ctl, loc1, hctl, hr, hla⟩ := ih _ _ _ h (prev + 1) ko (prev + 1)
    ⟨Function.update loc.yypos (prev + 1) (some yy._pos),
      Function.update loc.yythunkpos (prev + 1) (some yy._thunkpos), loc.yymaxpos⟩
    (by omega) (le_refl _) (by simp) (by simp)
  refine ⟨loc1, ⟨_, hr, ?_⟩, (locAgree_save hla).1⟩
  rcases hctl with rfl | ⟨rfl, rfl⟩
  · cases b with
    | true =>
      simp only [exitOf, if_true, resumes_fall, runs_cons, execInstr, end_, label, evalStmt,
        Option.some.injEq, exists_eq_left', runs_nil]
    | false =>
      simp only [exitOf, Bool.false_eq_true, if_false, resumes_jump_none hlp]
  · simp only [resumes_jump_some hok, runs_nil, exitOf, if_true]

/-- The loop printed for `Star` and `Plus` does whatever `Outcome` says of the
`Star`. -/
theorem complete_loop {vars : List Variable} {e : Node} {E code : List Instr}
    {again out q : Nat} (hq : out ≤ q)
    (hin : Inside E [jump again, label out, restore out, end_] code)
    (hagain : afterLabel code again
      = some (begin :: save out :: (E ++ [jump again, label out, restore out, end_])))
    (hout : afterLabel code out = some [restore out, end_])
    (ihE : ∀ yy b yy1, Outcome U call vars e yy b yy1 → ∀ loc, ∃ loc1,
      Runs U call E E ⟨yy, loc⟩ (exitOf b out, ⟨yy1, loc1⟩) ∧ LocAgree q loc loc1) :
    ∀ (yy : yycontext) (b : Bool) (yy1 : yycontext), Outcome U call vars (.star e) yy b yy1 →
      ∀ loc, ∃ loc1,
        Runs U call code (begin :: save out :: (E ++ [jump again, label out, restore out, end_]))
          ⟨yy, loc⟩ (.fall, ⟨yy1, loc1⟩) ∧
        b = true ∧
        ∀ i, i < out → loc1.yypos i = loc.yypos i ∧
          loc1.yythunkpos i = loc.yythunkpos i ∧ loc1.yymaxpos i = loc.yymaxpos i := by
  intro yy b yy1 h
  generalize hx : Node.star e = x at h
  induction h with
  | test ht _ => subst hx; simp [testOf] at ht
  | stmt ht _ => subst hx; simp [stmtOf] at ht
  | @star_out e' yy yy2 ho _ =>
    cases hx
    intro loc
    obtain ⟨loc1, hr, hla⟩ := ihE _ _ _ ho
      ⟨Function.update loc.yypos out (some yy._pos),
        Function.update loc.yythunkpos out (some yy._thunkpos), loc.yymaxpos⟩
    have hpos := hla out hq
    simp only [Function.update_same] at hpos
    refine ⟨loc1, ?_, rfl, ?_⟩
    · simp only [runs_cons, execInstr, begin, save, evalStmt, Option.some.injEq,
        exists_eq_left', resumes_fall, runs_append hin]
      refine ⟨_, hr, ?_⟩
      simp only [exitOf, Bool.false_eq_true, if_false, resumes_jump_some hout, runs_cons,
        execInstr, restore, end_, evalStmt, hpos.1, hpos.2.1,
        Option.some.injEq, exists_eq_left', resumes_fall, runs_nil, rewind]
    · intro i hi
      have := hla i (by omega)
      simpa [Function.update_noteq (show i ≠ out by omega)] using this
  | @star_again e' yy yy2 yy3 ho hs _ ih2 =>
    cases hx
    intro loc
    obtain ⟨loc1, hr, hla⟩ := ihE _ _ _ ho
      ⟨Function.update loc.yypos out (some yy._pos),
        Function.update loc.yythunkpos out (some yy._thunkpos), loc.yymaxpos⟩
    obtain ⟨loc2, hr2, _, hla2⟩ := ih2 rfl loc1
    refine ⟨loc2, ?_, rfl, ?_⟩
    · simp only [runs_cons, execInstr, begin, save, evalStmt, Option.some.injEq,
        exists_eq_left', resumes_fall, runs_append hin]
      refine ⟨_, hr, ?_⟩
      simp only [exitOf, if_true, resumes_fall, runs_cons, execInstr, jump,
        Option.some.injEq, exists_eq_left', resumes_jump_some hagain]
      simpa only [runs_cons, execInstr, begin, save, evalStmt, Option.some.injEq,
        exists_eq_left', resumes_fall] using hr2
    · intro i hi
      have a := hla2 i hi
      have b := hla i (by omega)
      simp only [Function.update_noteq (show i ≠ out by omega)] at b
      exact ⟨a.1.trans b.1, a.2.1.trans b.2.1, a.2.2.trans b.2.2⟩
  | _ => cases hx

theorem complete_star {vars : List Variable} {e : Node} (ih : CompleteAt U call vars e) :
    CompleteAt U call vars (.star e) := by
  intro yy b yy1 h ko prev loc hko
  have hl := labels_node vars e (prev + 1 + 1) (prev + 1 + 1)
  simp only [Node_compile_c_ko, yyl]
  have hin : Inside (Node_compile_c_ko vars e (prev + 1 + 1) (prev + 1 + 1)).1
      [jump (prev + 1), label (prev + 1 + 1), restore (prev + 1 + 1), end_]
      ([label (prev + 1), begin, save (prev + 1 + 1)] ++
        (Node_compile_c_ko vars e (prev + 1 + 1) (prev + 1 + 1)).1 ++
        [jump (prev + 1), label (prev + 1 + 1), restore (prev + 1 + 1), end_]) := by
    apply inside_of_labels
    intro l r hlr
    have := (hl.2.lt hlr).1
    simp only [afterLabel, label, begin, save]
    rw [if_neg (by omega)]
  have hagain : afterLabel ([label (prev + 1), begin, save (prev + 1 + 1)] ++
        (Node_compile_c_ko vars e (prev + 1 + 1) (prev + 1 + 1)).1 ++
        [jump (prev + 1), label (prev + 1 + 1), restore (prev + 1 + 1), end_]) (prev + 1)
      = some (begin :: save (prev + 1 + 1) ::
          ((Node_compile_c_ko vars e (prev + 1 + 1) (prev + 1 + 1)).1 ++
          [jump (prev + 1), label (prev + 1 + 1), restore (prev + 1 + 1), end_])) := by
    simp [afterLabel, label]
  have hout : afterLabel ([label (prev + 1), begin, save (prev + 1 + 1)] ++
        (Node_compile_c_ko vars e (prev + 1 + 1) (prev + 1 + 1)).1 ++
        [jump (prev + 1), label (prev + 1 + 1), restore (prev + 1 + 1), end_]) (prev + 1 + 1)
      = some [restore (prev + 1 + 1), end_] := by
    rw [List.append_assoc, afterLabel_append, afterLabel_append, hl.2 _ (Or.inl (le_refl _))]
    simp [afterLabel, begin, save, jump, label]
  generalize hcode : [label (prev + 1), begin, save (prev + 1 + 1)] ++
        (Node_compile_c_ko vars e (prev + 1 + 1) (prev + 1 + 1)).1 ++
        [jump (prev + 1), label (prev + 1 + 1), restore (prev + 1 + 1), end_] = code
    at hin hagain hout
  nth_rewrite 2 [← hcode]
  obtain ⟨loc1, hr, hb, hla⟩ := complete_loop (le_refl _) hin hagain hout
    (fun yy b yy1 ho loc => ih yy b yy1 ho _ _ loc (le_refl _)) yy b yy1 h loc
  subst hb
  refine ⟨loc1, ?_, fun i hi => hla i (by omega)⟩
  simp only [List.append_assoc, List.cons_append, List.nil_append]
  rw [runs_cons]
  simp only [execInstr, label, Option.some.injEq, exists_eq_left', resumes_fall]
  exact hr

theorem complete_plus {vars : List Variable} {e : Node} (ih : CompleteAt U call vars e) :
    CompleteAt U call vars (.plus e) := by
  intro yy b yy1 h ko prev loc hko
  have hl1 := labels_node vars e ko (prev + 1 + 1)
  have hl2 := labels_node vars e (prev + 1 + 1)
    (Node_compile_c_ko vars e ko (prev + 1 + 1)).2
  have hlp := (labels_node vars (.plus e) ko prev).2 ko (Or.inl hko)
  simp only [Node_compile_c_ko, yyl] at hlp ⊢
  have hin1 : Inside (Node_compile_c_ko vars e ko (prev + 1 + 1)).1
      (label (prev + 1) :: begin :: save (prev + 1 + 1) ::
        ((Node_compile_c_ko vars e (prev + 1 + 1)
          (Node_compile_c_ko vars e ko (prev + 1 + 1)).2).1 ++
        [jump (prev + 1), label (prev + 1 + 1), restore (prev + 1 + 1), end_]))
      ((Node_compile_c_ko vars e ko (prev + 1 + 1)).1 ++
        [label (prev + 1), begin, save (prev + 1 + 1)] ++
        (Node_compile_c_ko vars e (prev + 1 + 1)
          (Node_compile_c_ko vars e ko (prev + 1 + 1)).2).1 ++
        [jump (prev + 1), label (prev + 1 + 1), restore (prev + 1 + 1), end_]) := by
    intro l r hlr
    simp only [List.append_assoc, List.cons_append, List.nil_append, afterLabel_append, hlr]
  have hin2 : Inside (Node_compile_c_ko vars e (prev + 1 + 1)
          (Node_compile_c_ko vars e ko (prev + 1 + 1)).2).1
      [jump (prev + 1), label (prev + 1 + 1), restore (prev + 1 + 1), end_]
      ((Node_compile_c_ko vars e ko (prev + 1 + 1)).1 ++
        [label (prev + 1), begin, save (prev + 1 + 1)] ++
        (Node_compile_c_ko vars e (prev + 1 + 1)
          (Node_compile_c_ko vars e ko (prev + 1 + 1)).2).1 ++
        [jump (prev + 1), label (prev + 1 + 1), restore (prev + 1 + 1), end_]) := by
    apply inside_of_labels
    intro l r hlr
    have := (hl2.2.lt hlr).1
    rw [afterLabel_append, hl1.2 l (Or.inr this)]
    simp only [afterLabel, label, begin, save]
    rw [if_neg (by omega)]
  have hagain : afterLabel ((Node_compile_c_ko vars e ko (prev + 1 + 1)).1 ++
        [label (prev + 1), begin, save (prev + 1 + 1)] ++
        (Node_compile_c_ko vars e (prev + 1 + 1)
          (Node_compile_c_ko vars e ko (prev + 1 + 1)).2).1 ++
        [jump (prev + 1), label (prev + 1 + 1), restore (prev + 1 + 1), end_]) (prev + 1)
      = some (begin :: save (prev + 1 + 1) ::
          ((Node_compile_c_ko vars e (prev + 1 + 1)
            (Node_compile_c_ko vars e ko (prev + 1 + 1)).2).1 ++
          [jump (prev + 1), label (prev + 1 + 1), restore (prev + 1 + 1), end_])) := by
    rw [List.append_assoc, List.append_assoc, afterLabel_append,
      hl1.2 _ (Or.inl (Nat.le_succ _))]
    simp [afterLabel, label]
  have hout : afterLabel ((Node_compile_c_ko vars e ko (prev + 1 + 1)).1 ++
        [label (prev + 1), begin, save (prev + 1 + 1)] ++
        (Node_compile_c_ko vars e (prev + 1 + 1)
          (Node_compile_c_ko vars e ko (prev + 1 + 1)).2).1 ++
        [jump (prev + 1), label (prev + 1 + 1), restore (prev + 1 + 1), end_]) (prev + 1 + 1)
      = some [restore (prev + 1 + 1), end_] := by
    rw [List.append_assoc, List.append_assoc, afterLabel_append,
      hl1.2 _ (Or.inl (le_refl _)), afterLabel_append, afterLabel_append,
      hl2.2 _ (Or.inl hl1.1)]
    simp [afterLabel, begin, save, jump, label]
  generalize hcode : (Node_compile_c_ko vars e ko (prev + 1 + 1)).1 ++
        [label (prev + 1), begin, save (prev + 1 + 1)] ++
        (Node_compile_c_ko vars e (prev + 1 + 1)
          (Node_compile_c_ko vars e ko (prev + 1 + 1)).2).1 ++
        [jump (prev + 1), label (prev + 1 + 1), restore (prev + 1 + 1), end_] = code
    at hin1 hin2 hagain hout hlp
  nth_rewrite 2 [← hcode]
  simp only [List.append_assoc, List.cons_append, List.nil_append, runs_append hin1]
  cases h with
  | test ht _ => simp [testOf] at ht
  | stmt ht _ => simp [stmtOf] at ht
  | plus_ko ho =>
    obtain ⟨loc1, hr, hla⟩ := ih _ _ _ ho ko (prev + 1 + 1) loc (by omega)
    refine ⟨loc1, ⟨_, hr, ?_⟩, hla.mono (by omega)⟩
    simp only [exitOf, Bool.false_eq_true, if_false, resumes_jump_none hlp]
  | plus_ok ho hs =>
    obtain ⟨loc1, hr, hla⟩ := ih _ _ _ ho ko (prev + 1 + 1) loc (by omega)
    obtain ⟨loc2, hr2, _, hla2⟩ := complete_loop hl1.1 hin2 hagain hout
      (fun yy b yy1 ho loc => ih yy b yy1 ho _ _ loc hl1.1) _ _ _ hs loc1
    refine ⟨loc2, ⟨_, hr, ?_⟩, fun i hi => ?_⟩
    · simp only [exitOf, if_true, resumes_fall]
      rw [runs_cons]
      simp only [execInstr, label, Option.some.injEq, exists_eq_left', resumes_fall]
      exact hr2
    · have a := hla2 i (by omega)
      have b := hla i (by omega)
      exact ⟨a.1.trans b.1, a.2.1.trans b.2.1, a.2.2.trans b.2.2⟩

mutual
theorem complete_node (U : UserCode) (call : Nat → yycontext → Option (Bool × yycontext))
    (vars : List Variable) : ∀ e : Node, CompleteAt U call vars e
  | .dot => complete_test (fun _ _ => rfl) rfl
  | .name _ none => complete_test (fun _ _ => rfl) rfl
  | .name rule (some v) => complete_name rule v
  | .character _ => complete_test (fun _ _ => rfl) rfl
  | .string _ _ => complete_test (fun _ _ => rfl) rfl
  | .cclass _ => complete_test (fun _ _ => rfl) rfl
  | .action _ => complete_stmt (fun _ _ => rfl) rfl
  | .inLine _ => complete_stmt (fun _ _ => rfl) rfl
  | .predicate _ => complete_test (fun _ _ => rfl) rfl
  | .error e text => complete_error text (complete_node U call vars e)
  | .alternate first => complete_alternate (complete_altLoop U call vars first)
  | .sequence first => complete_seqLoop U call vars first
  | .peekFor e => complete_peekFor (complete_node U call vars e)
  | .peekNot e => complete_peekNot (complete_node U call vars e)
  | .query e => complete_query (complete_node U call vars e)
  | .star e => complete_star (complete_node U call vars e)
  | .plus e => complete_plus (complete_node U call vars e)
theorem complete_altLoop (U : UserCode) (call : Nat → yycontext → Option (Bool × yycontext))
    (vars : List Variable) : ∀ c : Chain, CompleteAlt U call vars c
  | .nil => complete_alt_nil
  | .cons e .nil => complete_alt_last (complete_node U call vars e)
  | .cons e (.cons e2 rest) =>
    complete_alt_cons (complete_node U call vars e)
      (complete_altLoop U call vars (.cons e2 rest))
theorem complete_seqLoop (U : UserCode) (call : Nat → yycontext → Option (Bool × yycontext))
    (vars : List Variable) : ∀ c : Chain, CompleteAt U call vars (.sequence c)
  | .nil => complete_seq_nil
  | .cons e next =>
    complete_seq_cons (complete_node U call vars e) (complete_seqLoop U call vars next)
end

/-! ### The constructs -/

theorem exitOf_inj {b1 b2 : Bool} {ko : Nat} (h : exitOf b1 ko = exitOf b2 ko) : b1 = b2 := by
  cases b1 <;> cases b2 <;> simp [exitOf] at h ⊢

theorem ends_iff_outcome {vars : List Variable} {e : Node} {yy yy1 : yycontext} {b : Bool} :
    Ends U call vars e yy b yy1 ↔ Outcome U call vars e yy b yy1 := by
  constructor
  · intro h
    obtain ⟨loc1, hr⟩ := h 0 0 noLocals (le_refl _)
    obtain ⟨b2, hb, ho, _⟩ := sound_node U call vars e 0 0 _ _ (le_refl _) hr
    have := exitOf_inj hb
    subst this
    exact ho
  · intro h ko prev loc hko
    obtain ⟨loc1, hr, _⟩ := complete_node U call vars e yy b yy1 h ko prev loc hko
    exact ⟨loc1, hr⟩

/-- One run of the text printed for `e` tells how every run of it ends. -/
theorem ends_of_runs {vars : List Variable} {e : Node} {ko prev : Nat} {s : Frame}
    {y : Ctl × Frame} (hko : ko ≤ prev)
    (h : Runs U call (Node_compile_c_ko vars e ko prev).1 (Node_compile_c_ko vars e ko prev).1 s y) :
    ∃ b, y.1 = exitOf b ko ∧ Ends U call vars e s.yy b y.2.yy := by
  obtain ⟨b, hb, ho, _⟩ := sound_node U call vars e ko prev s y hko h
  exact ⟨b, hb, ends_iff_outcome.2 ho⟩

theorem runs_of_ends {vars : List Variable} {e : Node} {yy yy1 : yycontext} {b : Bool}
    (h : Ends U call vars e yy b yy1) (ko prev : Nat) (loc : Locals) (hko : ko ≤ prev) :
    ∃ loc1, Runs U call (Node_compile_c_ko vars e ko prev).1 (Node_compile_c_ko vars e ko prev).1
      ⟨yy, loc⟩ (exitOf b ko, ⟨yy1, loc1⟩) ∧ LocAgree prev loc loc1 := by
  obtain ⟨loc1, hr, hla⟩ := complete_node U call vars e yy b yy1 (ends_iff_outcome.1 h) ko prev loc hko
  exact ⟨loc1, hr, hla⟩

theorem orderedChoice_of_outcome {vars : List Variable} : ∀ (c : Chain) (yy : yycontext)
    (b : Bool) (yy1 : yycontext), c ≠ .nil → Outcome U call vars (.alternate c) yy b yy1 →
    OrderedChoice U call vars yy._pos yy._thunkpos c yy b yy1
  | .nil, _, _, _, hne, _ => absurd rfl hne
  | .cons e .nil, yy, b, yy1, _, h => by
    cases h with
    | test ht _ => simp [testOf] at ht
    | stmt ht _ => simp [stmtOf] at ht
    | alt_last ho => exact .last (ends_iff_outcome.2 ho)
  | .cons e (.cons e2 rest), yy, b, yy1, _, h => by
    cases h with
    | test ht _ => simp [testOf] at ht
    | stmt ht _ => simp [stmtOf] at ht
    | alt_ok ho => exact .first (ends_iff_outcome.2 ho)
    | alt_next ho h2 =>
      exact .next (ends_iff_outcome.2 ho)
        (orderedChoice_of_outcome (.cons e2 rest) _ _ _ (by simp) h2)

theorem outcome_of_orderedChoice {vars : List Variable} {c : Chain} {yy yy1 : yycontext}
    {b : Bool} {p t : Nat} (h : OrderedChoice U call vars p t c yy b yy1) :
    yy._pos = p → yy._thunkpos = t → Outcome U call vars (.alternate c) yy b yy1 := by
  induction h with
  | last he => intro _ _; exact .alt_last (ends_iff_outcome.1 he)
  | first he => intro _ _; exact .alt_ok (ends_iff_outcome.1 he)
  | @next e e2 rest yy yy1 b yy2 he _ ih =>
    intro hp ht
    subst hp ht
    exact .alt_next (ends_iff_outcome.1 he) (ih rfl rfl)

/-- C1 (ordered choice).  The text printed for an `Alternate` with at least one
branch ends exactly as ordered choice over its branches does: it ends behind
its last statement when the first branch that succeeds does (no later branch
is run), in the context that branch leaves; every branch but the first starts
with the cursor and the thunk depth of the entry; it leaves with `goto l<ko>`
when the last branch has failed too. -/
theorem ordered_choice (U : UserCode) (call : Nat → yycontext → Option (Bool × yycontext))
    (vars : List Variable) (first : Chain) (ko prev : Nat) (s : Frame)
    (hne : first ≠ .nil) (hko : ko ≤ prev) :
    (∀ y, Runs U call (Node_compile_c_ko vars (.alternate first) ko prev).1
        (Node_compile_c_ko vars (.alternate first) ko prev).1 s y →
      ∃ b, y.1 = exitOf b ko ∧
        OrderedChoice U call vars s.yy._pos s.yy._thunkpos first s.yy b y.2.yy) ∧
    (∀ b yy1, OrderedChoice U call vars s.yy._pos s.yy._thunkpos first s.yy b yy1 →
      ∃ loc1, Runs U call (Node_compile_c_ko vars (.alternate first) ko prev).1
        (Node_compile_c_ko vars (.alternate first) ko prev).1 s (exitOf b ko, ⟨yy1, loc1⟩)) := by
  constructor
  · intro y h
    obtain ⟨b, hb, ho, _⟩ := sound_node U call vars _ ko prev s y hko h
    exact ⟨b, hb, orderedChoice_of_outcome first _ _ _ hne ho⟩
  · intro b yy1 h
    obtain ⟨loc1, hr, _⟩ := complete_node U call vars _ _ _ _
      (outcome_of_orderedChoice h rfl rfl) ko prev s.loc hko
    exact ⟨loc1, hr⟩

theorem outcome_star {vars : List Variable} {e : Node} {yy yy1 : yycontext} {b : Bool}
    (h : Outcome U call vars (.star e) yy b yy1) :
    b = true ∧ ∃ k yyk yyF, Iterates U call vars e k yy yyk ∧ Ends U call vars e yyk false yyF ∧
      yy1 = { yyF with _pos := yyk._pos, _thunkpos := yyk._thunkpos } := by
  generalize hx : Node.star e = x at h
  induction h with
  | test ht _ => subst hx; simp [testOf] at ht
  | stmt ht _ => subst hx; simp [stmtOf] at ht
  | star_out ho _ =>
    cases hx
    exact ⟨rfl, 0, _, _, .zero, ends_iff_outcome.2 ho, rfl⟩
  | star_again ho _ _ ih =>
    cases hx
    obtain ⟨_, k, yyk, yyF, hit, he, heq⟩ := ih rfl
    exact ⟨rfl, k + 1, yyk, yyF, .succ (ends_iff_outcome.2 ho) hit, he, heq⟩
  | _ => cases hx

theorem outcome_of_iterates {vars : List Variable} {e : Node} {k : Nat} {yy yyk yyF : yycontext}
    (hit : Iterates U call vars e k yy yyk) (he : Ends U call vars e yyk false yyF) :
    Outcome U call vars (.star e) yy true
      { yyF with _pos := yyk._pos, _thunkpos := yyk._thunkpos } := by
  induction hit with
  | zero => exact .star_out (ends_iff_outcome.1 he)
  | succ h1 _ ih => exact .star_again (ends_iff_outcome.1 h1) (ih he)

/-- C3 (greedy Star).  Whenever the text printed for `Star(e)` ends, it ends
behind its last statement, never with a `goto` to the failure label: `e` has
then succeeded `k ≥ 0` times in a row and failed once, and the cursor and the
thunk depth are those after the last round that succeeded, the failing round
leaving them unchanged.  Conversely every such sequence of rounds is a run of
that text. -/
theorem greedy_star (U : UserCode) (call : Nat → yycontext → Option (Bool × yycontext))
    (vars : List Variable) (e : Node) (ko prev : Nat) (s : Frame) (hko : ko ≤ prev) :
    (∀ y, Runs U call (Node_compile_c_ko vars (.star e) ko prev).1
        (Node_compile_c_ko vars (.star e) ko prev).1 s y →
      y.1 = .fall ∧ ∃ k yyk yyF, Iterates U call vars e k s.yy yyk ∧
        Ends U call vars e yyk false yyF ∧
        y.2.yy = { yyF with _pos := yyk._pos, _thunkpos := yyk._thunkpos } ∧
        y.2.yy._pos = yyk._pos ∧ y.2.yy._thunkpos = yyk._thunkpos) ∧
    (∀ k yyk yyF, Iterates U call vars e k s.yy yyk → Ends U call vars e yyk false yyF →
      ∃ loc1, Runs U call (Node_compile_c_ko vars (.star e) ko prev).1
        (Node_compile_c_ko vars (.star e) ko prev).1 s
        (.fall, ⟨{ yyF with _pos := yyk._pos, _thunkpos := yyk._thunkpos }, loc1⟩)) := by
  constructor
  · intro y h
    obtain ⟨b, hb, ho, _⟩ := sound_node U call vars _ ko prev s y hko h
    obtain ⟨hb2, k, yyk, yyF, hit, he, heq⟩ := outcome_star ho
    subst hb2
    exact ⟨hb, k, yyk, yyF, hit, he, heq, by rw [heq], by rw [heq]⟩
  · intro k yyk yyF hit he
    obtain ⟨loc1, hr, _⟩ := complete_node U call vars _ _ _ _
      (outcome_of_iterates hit he) ko prev s.loc hko
    exact ⟨loc1, hr⟩

theorem outcome_plus_iff {vars : List Variable} {e : Node} {yy yy1 : yycontext} {b : Bool} :
    Outcome U call vars (.plus e) yy b yy1 ↔
      Outcome U call vars (.sequence (.cons e (.cons (.star e) .nil))) yy b yy1 := by
  constructor
  · intro h
    cases h with
    | test ht _ => simp [testOf] at ht
    | stmt ht _ => simp [stmtOf] at ht
    | plus_ko ho => exact .seq_ko ho
    | plus_ok ho hs => exact .seq_ok ho (.seq_ok hs .seq_nil)
  · intro h
    cases h with
    | test ht _ => simp [testOf] at ht
    | stmt ht _ => simp [stmtOf] at ht
    | seq_ko ho => exact .plus_ko ho
    | seq_ok ho h2 =>
      cases h2 with
      | test ht _ => simp [testOf] at ht
      | stmt ht _ => simp [stmtOf] at ht
      | seq_ko hs => exact absurd (outcome_star hs).1 (by simp)
      | seq_ok hs h3 =>
        cases h3 with
        | test ht _ => simp [testOf] at ht
        | stmt ht _ => simp [stmtOf] at ht
        | seq_nil => exact .plus_ok ho hs

/-- C4 (Plus requires one).  Started in the same state with the same failure
label, the text printed for `Plus(e)` and the text printed for
`Sequence(e, Star(e))` end in the same way (behind the last statement, or with
`goto l<ko>`) and in the same context, hence with the same cursor, thunk log
and `_maxpos`.  `Plus(e)` leaves with `goto l<ko>` exactly when the first
attempt at `e` fails, and otherwise goes on as `Star(e)` does from where the
first `e` ended. -/
theorem plus_requires_one (U : UserCode) (call : Nat → yycontext → Option (Bool × yycontext))
    (vars : List Variable) (e : Node) (ko prev : Nat) (s : Frame) (hko : ko ≤ prev) :
    (∀ ctl yy1,
      (∃ loc1, Runs U call (Node_compile_c_ko vars (.plus e) ko prev).1
        (Node_compile_c_ko vars (.plus e) ko prev).1 s (ctl, ⟨yy1, loc1⟩)) ↔
      (∃ loc1, Runs U call
        (Node_compile_c_ko vars (.sequence (.cons e (.cons (.star e) .nil))) ko prev).1
        (Node_compile_c_ko vars (.sequence (.cons e (.cons (.star e) .nil))) ko prev).1 s
        (ctl, ⟨yy1, loc1⟩))) ∧
    (∀ y, Runs U call (Node_compile_c_ko vars (.plus e) ko prev).1
        (Node_compile_c_ko vars (.plus e) ko prev).1 s y →
      (y.1 = .jump ko ∧ Ends U call vars e s.yy false y.2.yy) ∨
      (y.1 = .fall ∧ ∃ yy1, Ends U call vars e s.yy true yy1 ∧
        Ends U call vars (.star e) yy1 true y.2.yy)) := by
  refine ⟨fun ctl yy1 => ⟨?_, ?_⟩, ?_⟩
  · rintro ⟨loc1, h⟩
    obtain ⟨b, hb, ho, _⟩ := sound_node U call vars _ ko prev s _ hko h
    obtain ⟨loc2, hr, _⟩ := complete_node U call vars _ _ _ _
      (outcome_plus_iff.1 ho) ko prev s.loc hko
    simp only at hb
    subst hb
    exact ⟨loc2, hr⟩
  · rintro ⟨loc1, h⟩
    obtain ⟨b, hb, ho, _⟩ := sound_node U call vars _ ko prev s _ hko h
    obtain ⟨loc2, hr, _⟩ := complete_node U call vars _ _ _ _
      (outcome_plus_iff.2 ho) ko prev s.loc hko
    simp only at hb
    subst hb
    exact ⟨loc2, hr⟩
  · intro y h
    obtain ⟨b, hb, ho, _⟩ := sound_node U call vars _ ko prev s y hko h
    cases ho with
    | test ht _ => simp [testOf] at ht
    | stmt ht _ => simp [stmtOf] at ht
    | plus_ko ho => exact Or.inl ⟨hb, ends_iff_outcome.2 ho⟩
    | plus_ok ho hs => exact Or.inr ⟨hb, _, ends_iff_outcome.2 ho, ends_iff_outcome.2 hs⟩

/-- C5 (negative lookahead).  The text printed for `PeekNot(e)` succeeds
exactly when `e` fails.  When it succeeds, the cursor and the thunk depth are
those of the entry.  Whether it succeeds or leaves with `goto l<ko>`, `_maxpos`
is that of the entry. -/
theorem negative_lookahead (U : UserCode) (call : Nat → yycontext → Option (Bool × yycontext))
    (vars : List Variable) (e : Node) (ko prev : Nat) (s : Frame) (hko : ko ≤ prev) :
    (∀ y, Runs U call (Node_compile_c_ko vars (.peekNot e) ko prev).1
        (Node_compile_c_ko vars (.peekNot e) ko prev).1 s y →
      y.2.yy._maxpos = s.yy._maxpos ∧
      ((y.1 = .fall ∧ y.2.yy._pos = s.yy._pos ∧ y.2.yy._thunkpos = s.yy._thunkpos ∧
          ∃ yyF, Ends U call vars e s.yy false yyF ∧
            y.2.yy = { yyF with _pos := s.yy._pos, _thunkpos := s.yy._thunkpos,
                                _maxpos := s.yy._maxpos }) ∨
       (y.1 = .jump ko ∧ ∃ yyS, Ends U call vars e s.yy true yyS ∧
            y.2.yy = { yyS with _maxpos := s.yy._maxpos }))) ∧
    (∀ yyF, Ends U call vars e s.yy false yyF →
      ∃ loc1, Runs U call (Node_compile_c_ko vars (.peekNot e) ko prev).1
        (Node_compile_c_ko vars (.peekNot e) ko prev).1 s
        (.fall, ⟨{ yyF with _pos := s.yy._pos, _thunkpos := s.yy._thunkpos,
                            _maxpos := s.yy._maxpos }, loc1⟩)) ∧
    (∀ yyS, Ends U call vars e s.yy true yyS →
      ∃ loc1, Runs U call (Node_compile_c_ko vars (.peekNot e) ko prev).1
        (Node_compile_c_ko vars (.peekNot e) ko prev).1 s
        (.jump ko, ⟨{ yyS with _maxpos := s.yy._maxpos }, loc1⟩)) := by
  refine ⟨?_, ?_, ?_⟩
  · intro y h
    obtain ⟨b, hb, ho, _⟩ := sound_node U call vars _ ko prev s y hko h
    generalize y.2.yy = yyR at ho ⊢
    cases ho with
    | test ht _ => simp [testOf] at ht
    | stmt ht _ => simp [stmtOf] at ht
    | peekNot_ok ho => exact ⟨rfl, Or.inl ⟨hb, rfl, rfl, _, ends_iff_outcome.2 ho, rfl⟩⟩
    | peekNot_ko ho => exact ⟨rfl, Or.inr ⟨hb, _, ends_iff_outcome.2 ho, rfl⟩⟩
  · intro yyF he
    obtain ⟨loc1, hr, _⟩ := complete_node U call vars _ _ _ _
      (.peekNot_ok (ends_iff_outcome.1 he)) ko prev s.loc hko
    exact ⟨loc1, hr⟩
  · intro yyS he
    obtain ⟨loc1, hr, _⟩ := complete_node U call vars _ _ _ _
      (.peekNot_ko (ends_iff_outcome.1 he)) ko prev s.loc hko
    exact ⟨loc1, hr⟩

/-- C6 (positive lookahead).  The text printed for `PeekFor(e)` succeeds
exactly when `e` succeeds, and then the cursor and the thunk depth are those of
the entry: what `e` consumed and the thunks it registered are dropped. -/
theorem positive_lookahead (U : UserCode) (call : Nat → yycontext → Option (Bool × yycontext))
    (vars : List Variable) (e : Node) (ko prev : Nat) (s : Frame) (hko : ko ≤ prev) :
    (∀ y, Runs U call (Node_compile_c_ko vars (.peekFor e) ko prev).1
        (Node_compile_c_ko vars (.peekFor e) ko prev).1 s y →
      (y.1 = .fall ∧ y.2.yy._pos = s.yy._pos ∧ y.2.yy._thunkpos = s.yy._thunkpos ∧
          ∃ yyS, Ends U call vars e s.yy true yyS ∧
            y.2.yy = { yyS with _pos := s.yy._pos, _thunkpos := s.yy._thunkpos }) ∨
      (y.1 = .jump ko ∧ Ends U call vars e s.yy false y.2.yy)) ∧
    (∀ yyS, Ends U call vars e s.yy true yyS →
      ∃ loc1, Runs U call (Node_compile_c_ko vars (.peekFor e) ko prev).1
        (Node_compile_c_ko vars (.peekFor e) ko prev).1 s
        (.fall, ⟨{ yyS with _pos := s.yy._pos, _thunkpos := s.yy._thunkpos }, loc1⟩)) ∧
    (∀ yyF, Ends U call vars e s.yy false yyF →
      ∃ loc1, Runs U call (Node_compile_c_ko vars (.peekFor e) ko prev).1
        (Node_compile_c_ko vars (.peekFor e) ko prev).1 s (.jump ko, ⟨yyF, loc1⟩)) := by
  refine ⟨?_, ?_, ?_⟩
  · intro y h
    obtain ⟨b, hb, ho, _⟩ := sound_node U call vars _ ko prev s y hko h
    generalize y.2.yy = yyR at ho ⊢
    cases ho with
    | test ht _ => simp [testOf] at ht
    | stmt ht _ => simp [stmtOf] at ht
    | peekFor_ok ho => exact Or.inl ⟨hb, rfl, rfl, _, ends_iff_outcome.2 ho, rfl⟩
    | peekFor_ko ho => exact Or.inr ⟨hb, ends_iff_outcome.2 ho⟩
  · intro yyS he
    obtain ⟨loc1, hr, _⟩ := complete_node U call vars _ _ _ _
      (.peekFor_ok (ends_iff_outcome.1 he)) ko prev s.loc hko
    exact ⟨loc1, hr⟩
  · intro yyF he
    obtain ⟨loc1, hr, _⟩ := complete_node U call vars _ _ _ _
      (.peekFor_ko (ends_iff_outcome.1 he)) ko prev s.loc hko
    exact ⟨loc1, hr⟩

/-! ### Rule procedures -/

theorem outcome_safe {vars : List Variable} {e : Node} {yy yy1 : yycontext} {b : Bool}
    (hs : isSafe e = true) (h : Outcome U call vars e yy b yy1) : b = true := by
  cases e <;> simp [isSafe] at hs
  · cases h with
    | test ht _ => simp [testOf] at ht
    | stmt ht _ => simp [stmtOf] at ht
    | query_ok _ => rfl
    | query_ko _ => rfl
  · exact (outcome_star h).1

theorem runs_varsStmt {node : Rule} {a : yyaction} {code rest : List Instr} {s : Frame}
    {y : Ctl × Frame} :
    Runs U call code (varsStmt node a ++ rest) s y ↔
      ∃ yy1, varsDo node a s.yy yy1 ∧ Runs U call code rest ⟨yy1, s.loc⟩ y := by
  unfold varsStmt varsDo
  cases node.vars.isEmpty
  · simp only [Bool.false_eq_true, if_false, List.cons_append, List.nil_append, runs_cons,
      execInstr, evalStmt]
    constructor
    · rintro ⟨x, hx, hr⟩
      cases hd : yyDo s.yy a (countVariables node.vars) 0 with
      | none => rw [hd] at hx; simp at hx
      | some yy1 =>
        rw [hd] at hx
        simp only [Option.some.injEq] at hx
        subst hx
        exact ⟨yy1, rfl, hr⟩
    · rintro ⟨yy1, hd, hr⟩
      rw [hd]
      exact ⟨_, rfl, hr⟩
  · simp

theorem afterLabel_varsStmt (node : Rule) (a : yyaction) (l : Nat) :
    afterLabel (varsStmt node a) l = none := by
  unfold varsStmt
  split <;> simp [afterLabel]

theorem ruleBody_eq (node : Rule) (e : Node) (prev : Nat) :
    (ruleBody node e prev).1 =
      (if isSafe e then [] else [save 0]) ++ (varsStmt node .yyPush ++
        (Instr.stmt .yyprintf :: ((Node_compile_c_ko node.vars e (prev + 1) (prev + 1)).1 ++
          (Instr.stmt .yyprintf :: (varsStmt node .yyPop ++ (Instr.ret true ::
            (if isSafe e then []
             else [label (prev + 1), restore 0, Instr.stmt .yyprintf, Instr.ret false]))))))) := by
  simp only [ruleBody, yyl, varsStmt, List.append_assoc, List.cons_append, List.nil_append]
  cases isSafe e <;> rfl

theorem rule_sound (node : Rule) (e : Node) (prev : Nat) (s : Frame) (y : Ctl × Frame)
    (h : Runs U call (ruleBody node e prev).1 (ruleBody node e prev).1 s y) :
    ∃ v, y.1 = .ret v ∧ RuleOutcome U call node e s.yy v y.2.yy := by
  have hl := labels_node node.vars e (prev + 1) (prev + 1)
  rw [ruleBody_eq] at h
  have hin : Inside (Node_compile_c_ko node.vars e (prev + 1) (prev + 1)).1
      (Instr.stmt .yyprintf :: (varsStmt node .yyPop ++ (Instr.ret true ::
        (if isSafe e then []
         else [label (prev + 1), restore 0, Instr.stmt .yyprintf, Instr.ret false]))))
      ((if isSafe e then [] else [save 0]) ++ (varsStmt node .yyPush ++
        (Instr.stmt .yyprintf :: ((Node_compile_c_ko node.vars e (prev + 1) (prev + 1)).1 ++
          (Instr.stmt .yyprintf :: (varsStmt node .yyPop ++ (Instr.ret true ::
            (if isSafe e then []
             else [label (prev + 1), restore 0, Instr.stmt .yyprintf,
               Instr.ret false])))))))) := by
    intro l r hlr
    rw [afterLabel_append, afterLabel_append, afterLabel_varsStmt]
    have : afterLabel (if isSafe e then [] else [save 0]) l = none := by
      split <;> simp [afterLabel, save]
    simp only [this, afterLabel, afterLabel_append, hlr]
  have hko : afterLabel ((if isSafe e then [] else [save 0]) ++ (varsStmt node .yyPush ++
        (Instr.stmt .yyprintf :: ((Node_compile_c_ko node.vars e (prev + 1) (prev + 1)).1 ++
          (Instr.stmt .yyprintf :: (varsStmt node .yyPop ++ (Instr.ret true ::
            (if isSafe e then []
             else [label (prev + 1), restore 0, Instr.stmt .yyprintf,
               Instr.ret false]))))))) ) (prev + 1) =
      if isSafe e then none else some [restore 0, Instr.stmt .yyprintf, Instr.ret false] := by
    rw [afterLabel_append, afterLabel_append, afterLabel_varsStmt]
    have : afterLabel (if isSafe e then [] else [save 0]) (prev + 1) = none := by
      split <;> simp [afterLabel, save]
    simp only [this, afterLabel, afterLabel_append, hl.2 _ (Or.inl (le_refl _)),
      afterLabel_varsStmt]
    split <;> simp [afterLabel, label]
  generalize hcode : (if isSafe e then [] else [save 0]) ++ (varsStmt node .yyPush ++
        (Instr.stmt .yyprintf :: ((Node_compile_c_ko node.vars e (prev + 1) (prev + 1)).1 ++
          (Instr.stmt .yyprintf :: (varsStmt node .yyPop ++ (Instr.ret true ::
            (if isSafe e then []
             else [label (prev + 1), restore 0, Instr.stmt .yyprintf,
               Instr.ret false]))))))) = code at hin hko
  rw [hcode] at h
  nth_rewrite 2 [← hcode] at h
  -- the statements in front of the expression
  have key : ∃ loc1 yyA, varsDo node .yyPush s.yy yyA ∧
      (isSafe e = false → loc1.yypos 0 = some s.yy._pos ∧
        loc1.yythunkpos 0 = some s.yy._thunkpos) ∧
      Runs U call code ((Node_compile_c_ko node.vars e (prev + 1) (prev + 1)).1 ++
          (Instr.stmt .yyprintf :: (varsStmt node .yyPop ++ (Instr.ret true ::
            (if isSafe e then []
             else [label (prev + 1), restore 0, Instr.stmt .yyprintf, Instr.ret false])))))
        ⟨yyA, loc1⟩ y := by
    cases hsafe : isSafe e
    · simp only [hsafe, Bool.false_eq_true, if_false, List.cons_append, List.nil_append,
        runs_cons, execInstr, save, Option.some.injEq, exists_eq_left', resumes_fall,
        runs_varsStmt, evalStmt] at h
      obtain ⟨yyA, hd, hr⟩ := h
      exact ⟨_, yyA, hd, fun _ => ⟨by simp, by simp⟩, hr⟩
    · simp only [hsafe, if_true, List.nil_append, runs_varsStmt, runs_cons, execInstr,
        evalStmt, Option.some.injEq, exists_eq_left', resumes_fall] at h
      obtain ⟨yyA, hd, hr⟩ := h
      exact ⟨_, yyA, hd, fun hc => by simp at hc, hr⟩
  obtain ⟨loc1, yyA, hpush, hsaved, hr⟩ := key
  rw [runs_append hin] at hr
  obtain ⟨x, hx, hres⟩ := hr
  obtain ⟨b, hb, ho, hla⟩ := sound_node U call node.vars e _ _ _ x (le_refl _) hx
  obtain ⟨ctl, s1⟩ := x
  simp only at hb ho hla hres
  subst hb
  cases b with
  | true =>
    simp only [exitOf, if_true, resumes_fall, runs_cons, execInstr, evalStmt,
      Option.some.injEq, exists_eq_left', runs_varsStmt, resumes_ret] at hres
    obtain ⟨yyC, hpop, hy⟩ := hres
    subst hy
    exact ⟨true, rfl, .ok hpush ho hpop⟩
  | false =>
    cases hsafe : isSafe e with
    | true => exact absurd (outcome_safe hsafe ho) (by simp)
    | false =>
      have h0 := hla 0 (Nat.zero_le _)
      obtain ⟨hp, ht⟩ := hsaved hsafe
      rw [hp, ht] at h0
      simp only [hsafe, Bool.false_eq_true, if_false] at hko
      simp only [exitOf, Bool.false_eq_true, if_false, resumes_jump_some hko, runs_cons,
        execInstr, restore, evalStmt, h0.1, h0.2.1, Option.some.injEq, exists_eq_left',
        resumes_fall, resumes_ret] at hres
      subst hres
      exact ⟨false, rfl, .ko hsafe hpush ho⟩

theorem procs_getD : ∀ (rules : List Rule) (prev r : Nat) (body : List Instr),
    (Rule_compile_c2 rules prev).1.getD r none = some body →
    ∃ node e p, rules.get? r = some node ∧ node.expression = some e ∧
      body = (ruleBody node e p).1
  | [], prev, r, body, h => by simp [Rule_compile_c2] at h
  | node :: next, prev, r, body, h => by
    cases he : node.expression with
    | none =>
      simp only [Rule_compile_c2, he] at h
      cases r with
      | zero => simp at h
      | succ r =>
        simp only [List.getD_cons_succ] at h
        obtain ⟨n2, e2, p, h1, h2, h3⟩ := procs_getD next prev r body h
        exact ⟨n2, e2, p, by simpa using h1, h2, h3⟩
    | some e =>
      simp only [Rule_compile_c2, he] at h
      cases r with
      | zero =>
        simp only [List.getD_cons_zero, Option.some.injEq] at h
        exact ⟨node, e, prev, by simp, he, h.symm⟩
      | succ r =>
        simp only [List.getD_cons_succ] at h
        obtain ⟨n2, e2, p, h1, h2, h3⟩ := procs_getD next _ r body h
        exact ⟨n2, e2, p, by simpa using h1, h2, h3⟩

theorem yyrule_some {procs : List (Option (List Instr))} {fuel r : Nat} {yy yy1 : yycontext}
    {v : Bool} (h : yyrule U procs fuel r yy = some (v, yy1)) :
    ∃ n body loc1, fuel = n + 1 ∧ procs.getD r none = some body ∧
      run U (yyrule U procs n) n body body ⟨yy, noLocals⟩ = some (.ret v, ⟨yy1, loc1⟩) := by
  cases fuel with
  | zero => simp [yyrule] at h
  | succ n =>
    simp only [yyrule] at h
    cases hb : procs.getD r none with
    | none => rw [hb] at h; simp at h
    | some body =>
      rw [hb] at h
      simp only at h
      cases hr : run U (yyrule U procs n) n body body ⟨yy, noLocals⟩ with
      | none => simp [hr] at h
      | some x =>
        obtain ⟨ctl, s1⟩ := x
        cases ctl with
        | fall => simp [hr] at h
        | jump l => simp [hr] at h
        | ret v2 =>
          simp only [hr, Option.some.injEq, Prod.mk.injEq] at h
          obtain ⟨h1, h2⟩ := h
          subst h1 h2
          exact ⟨n, body, s1.loc, rfl, rfl, hr⟩

/-- A call of a procedure printed by `Rule_compile_c2` does what `RuleOutcome`
says of its rule. -/
theorem yyrule_outcome {rules : List Rule} {prev fuel r : Nat} {yy yy1 : yycontext} {v : Bool}
    (h : yyrule U (Rule_compile_c2 rules prev).1 fuel r yy = some (v, yy1)) :
    ∃ n node e, fuel = n + 1 ∧ rules.get? r = some node ∧ node.expression = some e ∧
      RuleOutcome U (yyrule U (Rule_compile_c2 rules prev).1 n) node e yy v yy1 := by
  obtain ⟨n, body, loc1, hf, hb, hr⟩ := yyrule_some h
  obtain ⟨node, e, p, h1, h2, h3⟩ := procs_getD rules prev r body hb
  subst h3
  obtain ⟨v2, hv, ho⟩ := rule_sound node e p _ _ ⟨n, hr⟩
  simp only [Ctl.ret.injEq] at hv
  subst hv
  exact ⟨n, node, e, hf, h1, h2, ho⟩

/-- A procedure printed by `Rule_compile_c2` that returns 0 has put the cursor
and the thunk depth back. -/
theorem yyrule_false {rules : List Rule} {prev fuel r : Nat} {yy yy1 : yycontext}
    (h : yyrule U (Rule_compile_c2 rules prev).1 fuel r yy = some (false, yy1)) :
    (∃ node e, rules.get? r = some node ∧ node.expression = some e ∧ isSafe e = false) ∧
    yy1._pos = yy._pos ∧ yy1._thunkpos = yy._thunkpos := by
  obtain ⟨n, node, e, _, h1, h2, ho⟩ := yyrule_outcome h
  generalize hv : false = v at ho
  cases ho with
  | ok _ _ _ => cases hv
  | ko hs _ _ => exact ⟨⟨node, e, h1, h2, hs⟩, rfl, rfl⟩

/-- C7 (rule failure is atomic).  Whenever a procedure printed by
`Rule_compile_c2` returns 0, its rule is defined with an expression that is
neither `Query` nor `Star`, and the cursor and the thunk depth are those of the
entry to the procedure, wherever the failing part of the expression left
them. -/
theorem rule_failure_atomic (U : UserCode) (rules : List Rule) (prev fuel r : Nat)
    (yy yy1 : yycontext)
    (h : yyrule U (Rule_compile_c2 rules prev).1 fuel r yy = some (false, yy1)) :
    (∃ node e, rules.get? r = some node ∧ node.expression = some e ∧ isSafe e = false) ∧
    yy1._pos = yy._pos ∧ yy1._thunkpos = yy._thunkpos :=
  yyrule_false h

/-! ### The thunk log -/

theorem logSame_refl (yy : yycontext) : LogSame yy yy := ⟨rfl, rfl⟩

theorem LogSame.sameTrans {a b c : yycontext} (h1 : LogSame a b) (h2 : LogSame b c) :
    LogSame a c := ⟨h2.1.trans h1.1, h2.2.trans h1.2⟩

theorem LogSame.keeps {a b : yycontext} (h : LogSame a b) : LogKeeps a b :=
  ⟨by rw [h.2], fun i _ => by rw [h.1]⟩

theorem logKeeps_refl (yy : yycontext) : LogKeeps yy yy := ⟨le_refl _, fun _ _ => rfl⟩

theorem LogKeeps.trans {a b c : yycontext} (h1 : LogKeeps a b) (h2 : LogKeeps b c) :
    LogKeeps a c :=
  ⟨h1.1.trans h2.1, fun i hi => (h2.2 i (by have := h1.1; omega)).trans (h1.2 i hi)⟩

theorem LogKeeps.rewind {a b : yycontext} (h : LogKeeps a b) : LogKeeps a (rewind b a) :=
  ⟨le_refl _, h.2⟩

theorem thunkLog_rewind {a b : yycontext} (h : LogKeeps a b) :
    thunkLog (rewind b a) = thunkLog a := by
  unfold thunkLog rewind
  apply List.map_congr_left
  intro i hi
  exact h.2 i (by simpa using hi)

theorem logSame_recordMaxPos (yy : yycontext) : LogSame yy (yyrecordMaxPos yy) := by
  unfold yyrecordMaxPos
  split <;> exact ⟨rfl, rfl⟩

theorem logSame_refill {yy yy1 : yycontext} {b : Bool} (h : yyrefill yy = some (b, yy1)) :
    LogSame yy yy1 := by
  unfold yyrefill at h
  split at h
  · simp at h
  · split at h <;> simp only [Option.some.injEq, Prod.mk.injEq] at h <;>
      (obtain ⟨_, rfl⟩ := h; exact ⟨rfl, rfl⟩)

theorem logSame_needInput {yy yy1 : yycontext} {b : Bool} (h : needInput yy = some (b, yy1)) :
    LogSame yy yy1 := by
  unfold needInput at h
  split at h
  · exact logSame_refill h
  · simp only [Option.some.injEq, Prod.mk.injEq] at h
    obtain ⟨_, rfl⟩ := h
    exact logSame_refl _

theorem logSame_advance (yy : yycontext) (p : Nat) :
    LogSame yy (yyrecordMaxPos { yy with _pos := p }) :=
  LogSame.sameTrans ⟨rfl, rfl⟩ (logSame_recordMaxPos _)

theorem logSame_matchDot {yy yy1 : yycontext} {b : Bool} (h : yymatchDot yy = some (b, yy1)) :
    LogSame yy yy1 := by
  unfold yymatchDot at h
  split at h
  · simp at h
  · next yy2 hn =>
    simp only [Option.some.injEq, Prod.mk.injEq] at h
    obtain ⟨_, rfl⟩ := h
    exact logSame_needInput hn
  · next yy2 hn =>
    simp only [Option.some.injEq, Prod.mk.injEq] at h
    obtain ⟨_, rfl⟩ := h
    exact (logSame_needInput hn).sameTrans (logSame_advance _ _)

theorem logSame_matchChar {yy yy1 : yycontext} {c : Nat} {b : Bool}
    (h : yymatchChar yy c = some (b, yy1)) : LogSame yy yy1 := by
  unfold yymatchChar at h
  split at h
  · simp at h
  · next yy2 hn =>
    simp only [Option.some.injEq, Prod.mk.injEq] at h
    obtain ⟨_, rfl⟩ := h
    exact logSame_needInput hn
  · next yy2 hn =>
    split at h <;> simp only [Option.some.injEq, Prod.mk.injEq] at h <;> obtain ⟨_, rfl⟩ := h
    · exact (logSame_needInput hn).sameTrans (logSame_advance _ _)
    · exact logSame_needInput hn

theorem logSame_matchClass {yy yy1 : yycontext} {bits : List Nat} {b : Bool}
    (h : yymatchClass yy bits = some (b, yy1)) : LogSame yy yy1 := by
  unfold yymatchClass at h
  split at h
  · simp at h
  · next yy2 hn =>
    simp only [Option.some.injEq, Prod.mk.injEq] at h
    obtain ⟨_, rfl⟩ := h
    exact logSame_needInput hn
  · next yy2 hn =>
    split at h <;> simp only [Option.some.injEq, Prod.mk.injEq] at h <;> obtain ⟨_, rfl⟩ := h
    · exact (logSame_needInput hn).sameTrans (logSame_advance _ _)
    · exact logSame_needInput hn

theorem logSame_matchStringLoop (yysav : Nat) : ∀ (s : List Nat) (yy yy1 : yycontext) (b : Bool),
    yymatchStringLoop yysav s yy = some (b, yy1) → LogSame yy yy1
  | [], yy, yy1, b, h => by
    simp only [yymatchStringLoop, Option.some.injEq, Prod.mk.injEq] at h
    obtain ⟨_, rfl⟩ := h
    exact logSame_recordMaxPos _
  | c :: s, yy, yy1, b, h => by
    simp only [yymatchStringLoop] at h
    split at h
    · simp only [Option.some.injEq, Prod.mk.injEq] at h
      obtain ⟨_, rfl⟩ := h
      exact logSame_recordMaxPos _
    · split at h
      · simp at h
      · next yy2 hn =>
        simp only [Option.some.injEq, Prod.mk.injEq] at h
        obtain ⟨_, rfl⟩ := h
        exact logSame_needInput hn
      · next yy2 hn =>
        split at h
        · simp only [Option.some.injEq, Prod.mk.injEq] at h
          obtain ⟨_, rfl⟩ := h
          exact (logSame_needInput hn).sameTrans ⟨rfl, rfl⟩
        · exact (logSame_needInput hn).sameTrans
            (LogSame.sameTrans (b := { yy2 with _pos := yy2._pos + 1 }) ⟨rfl, rfl⟩
              (logSame_matchStringLoop yysav s _ _ _ h))

theorem logSame_matchIStringLoop (yysav : Nat) : ∀ (s : List Nat) (yy yy1 : yycontext) (b : Bool),
    yymatchIStringLoop yysav s yy = some (b, yy1) → LogSame yy yy1
  | [], yy, yy1, b, h => by
    simp only [yymatchIStringLoop, Option.some.injEq, Prod.mk.injEq] at h
    obtain ⟨_, rfl⟩ := h
    exact logSame_recordMaxPos _
  | c :: s, yy, yy1, b, h => by
    simp only [yymatchIStringLoop] at h
    split at h
    · simp only [Option.some.injEq, Prod.mk.injEq] at h
      obtain ⟨_, rfl⟩ := h
      exact logSame_recordMaxPos _
    · split at h
      · simp at h
      · next yy2 hn =>
        simp only [Option.some.injEq, Prod.mk.injEq] at h
        obtain ⟨_, rfl⟩ := h
        exact logSame_needInput hn
      · next yy2 hn =>
        split at h
        · simp only [Option.some.injEq, Prod.mk.injEq] at h
          obtain ⟨_, rfl⟩ := h
          exact (logSame_needInput hn).sameTrans ⟨rfl, rfl⟩
        · exact (logSame_needInput hn).sameTrans
            (LogSame.sameTrans (b := { yy2 with _pos := yy2._pos + 1 }) ⟨rfl, rfl⟩
              (logSame_matchIStringLoop yysav s _ _ _ h))

theorem logSame_yyText {yy yy1 : yycontext} {b e n : Int} (h : yyText yy b e = some (n, yy1)) :
    LogSame yy yy1 := by
  unfold yyText at h
  split at h
  · simp only [Option.some.injEq, Prod.mk.injEq] at h
    obtain ⟨_, rfl⟩ := h
    exact ⟨rfl, rfl⟩
  · split at h
    · simp at h
    · simp only at h
      split at h
      · simp at h
      · simp only [Option.some.injEq, Prod.mk.injEq] at h
        obtain ⟨_, rfl⟩ := h
        exact ⟨rfl, rfl⟩

theorem store_getD_ne {α : Type} (d : α) (a : List α) {i j : Nat} (v : α) (h : i ≠ j) :
    (store d a j v).getD i d = a.getD i d := by
  unfold store
  split
  · simp [List.getD_eq_getElem?_getD, List.getElem?_set, Ne.symm h]
  · next hj =>
    simp only [List.getD_eq_getElem?_getD]
    by_cases hi : i < a.length
    · rw [List.append_assoc, List.getElem?_append_left hi]
    · rw [List.getElem?_eq_none (Nat.le_of_not_lt hi)]
      by_cases hi2 : i < j
      · rw [List.getElem?_append_left (by simp; omega),
          List.getElem?_append_right (Nat.le_of_not_lt hi)]
        simp only [List.getElem?_replicate]
        split <;> rfl
      · rw [List.getElem?_eq_none (by simp; omega)]

theorem logKeeps_yyDo {yy yy1 : yycontext} {a : yyaction} {b e : Int}
    (h : yyDo yy a b e = some yy1) : LogKeeps yy yy1 := by
  unfold yyDo at h
  split at h
  · simp at h
  · simp only [Option.some.injEq] at h
    subst h
    refine ⟨Nat.le_succ _, fun i hi => ?_⟩
    have := store_getD_ne (default : yythunk) yy._thunks ⟨b, e, a⟩ (Nat.ne_of_lt hi)
    simpa using this

theorem logKeeps_evalTest (hU : UserKeepsLog U) (hc : CallKeeps call) {c : Test}
    {yy yy1 : yycontext} {b : Bool} (h : evalTest U call c yy = some (b, yy1)) :
    LogKeeps yy yy1 := by
  cases c with
  | matchDot => exact (logSame_matchDot h).keeps
  | call rule => exact hc _ _ _ _ h
  | matchChar lit => exact (logSame_matchChar h).keeps
  | matchString lit => exact (logSame_matchStringLoop _ _ _ _ _ h).keeps
  | matchIString lit => exact (logSame_matchIStringLoop _ _ _ _ _ h).keeps
  | matchClass lit =>
    cases lit with
    | none => simp [evalTest] at h
    | some l => exact (logSame_matchClass h).keeps
  | predicate text =>
    simp only [evalTest] at h
    split at h
    · simp at h
    · next n yy2 ht =>
      simp only [Option.some.injEq] at h
      have := (hU text yy2).2.1
      rw [h] at this
      exact ((logSame_yyText ht).sameTrans this).keeps

theorem logKeeps_evalStmt (hU : UserKeepsLog U) {a : Stmt} {yy yy1 : yycontext}
    (h : evalStmt U a yy = some yy1) : LogKeeps yy yy1 := by
  cases a with
  | begin => simp only [evalStmt, Option.some.injEq] at h; subst h; exact logKeeps_refl _
  | end_ => simp only [evalStmt, Option.some.injEq] at h; subst h; exact logKeeps_refl _
  | yyprintf => simp only [evalStmt, Option.some.injEq] at h; subst h; exact logKeeps_refl _
  | yyDo action b e => exact logKeeps_yyDo h
  | yyDoAction name => exact logKeeps_yyDo h
  | inLine text =>
    simp only [evalStmt] at h
    split at h
    · simp at h
    · next n yy2 ht =>
      simp only [Option.some.injEq] at h
      subst h
      exact ((logSame_yyText ht).sameTrans (hU text yy2).1).keeps
  | error text =>
    simp only [evalStmt] at h
    split at h
    · simp at h
    · next n yy2 ht =>
      simp only [Option.some.injEq] at h
      subst h
      exact ((logSame_yyText ht).sameTrans (hU text yy2).2.2).keeps

theorem LogKeeps.maxpos {a b : yycontext} (h : LogKeeps a b) (m : Nat) :
    LogKeeps a { b with _maxpos := m } := h

/-- Whatever the text printed for a node does, the thunk log only grows: the
thunks registered before are still there. -/
theorem logKeeps_outcome (hU : UserKeepsLog U) (hc : CallKeeps call) {vars : List Variable}
    {e : Node} {yy yy1 : yycontext} {b : Bool} (h : Outcome U call vars e yy b yy1) :
    LogKeeps yy yy1 := by
  induction h with
  | test _ hev => exact logKeeps_evalTest hU hc hev
  | stmt _ hev => exact logKeeps_evalStmt hU hev
  | name_ko hev => exact hc _ _ _ _ hev
  | name_ok hev hd => exact (hc _ _ _ _ hev).trans (logKeeps_yyDo hd)
  | error_ok _ ih => exact ih
  | error_ko _ hd ih => exact ih.trans (logKeeps_evalStmt hU hd)
  | alt_nil => exact logKeeps_refl _
  | alt_last _ ih => exact ih
  | alt_ok _ ih => exact ih
  | alt_next _ _ ih1 ih2 => exact ih1.rewind.trans ih2
  | seq_nil => exact logKeeps_refl _
  | seq_ko _ ih => exact ih
  | seq_ok _ _ ih1 ih2 => exact ih1.trans ih2
  | peekFor_ok _ ih => exact ih.rewind
  | peekFor_ko _ ih => exact ih
  | peekNot_ok _ ih => exact ih.rewind.maxpos _
  | peekNot_ko _ ih => exact ih.maxpos _
  | query_ok _ ih => exact ih
  | query_ko _ ih => exact ih.rewind
  | star_out _ ih => exact ih.rewind
  | star_again _ _ ih1 ih2 => exact ih1.trans ih2
  | plus_ko _ ih => exact ih
  | plus_ok _ _ ih1 ih2 => exact ih1.trans ih2

theorem logKeeps_varsDo {node : Rule} {a : yyaction} {yy yy1 : yycontext}
    (h : varsDo node a yy yy1) : LogKeeps yy yy1 := by
  unfold varsDo at h
  split at h
  · subst h; exact logKeeps_refl _
  · exact logKeeps_yyDo h

theorem logKeeps_ruleOutcome (hU : UserKeepsLog U) (hc : CallKeeps call) {node : Rule}
    {e : Node} {yy yy1 : yycontext} {v : Bool} (h : RuleOutcome U call node e yy v yy1) :
    LogKeeps yy yy1 := by
  cases h with
  | ok hpush ho hpop =>
    exact (logKeeps_varsDo hpush).trans ((logKeeps_outcome hU hc ho).trans (logKeeps_varsDo hpop))
  | ko _ hpush ho =>
    exact ((logKeeps_varsDo hpush).trans (logKeeps_outcome hU hc ho)).rewind

/-- The rule procedures printed by `Rule_compile_c2` only let the thunk log
grow. -/
theorem callKeeps_yyrule (hU : UserKeepsLog U) (rules : List Rule) (prev : Nat) :
    ∀ fuel, CallKeeps (yyrule U (Rule_compile_c2 rules prev).1 fuel) := by
  intro fuel
  induction fuel using Nat.strong_induction_on with
  | _ fuel ih =>
    intro r yy v yy1 h
    obtain ⟨n, node, e, hf, _, _, ho⟩ := yyrule_outcome h
    exact logKeeps_ruleOutcome hU (ih n (by omega)) ho

theorem runs_det {code rest : List Instr} {s : Frame} {y1 y2 : Ctl × Frame}
    (h1 : Runs U call code rest s y1) (h2 : Runs U call code rest s y2) : y1 = y2 := by
  obtain ⟨n, h1⟩ := h1
  obtain ⟨m, h2⟩ := h2
  have a := run_mono (callLe_refl call) (Nat.le_max_left n m) h1
  have b := run_mono (callLe_refl call) (Nat.le_max_right n m) h2
  rw [a] at b
  exact Option.some.inj b

/-- The text printed for a node ends in one way only. -/
theorem ends_det {vars : List Variable} {e : Node} {yy yy1 yy2 : yycontext} {b1 b2 : Bool}
    (h1 : Ends U call vars e yy b1 yy1) (h2 : Ends U call vars e yy b2 yy2) :
    b1 = b2 ∧ yy1 = yy2 := by
  obtain ⟨l1, r1⟩ := h1 0 0 noLocals (le_refl _)
  obtain ⟨l2, r2⟩ := h2 0 0 noLocals (le_refl _)
  have := runs_det r1 r2
  simp only [Prod.mk.injEq, Frame.mk.injEq] at this
  exact ⟨exitOf_inj this.1, this.2.1⟩

/-! ### yyDone -/

theorem logSame_invoke (hA : ActionsKeepLog U) {defs : Nat → List (String × Int)}
    {a : yyaction} {yy yy1 : yycontext} {n : Int} (h : invoke U defs a yy n = some yy1) :
    LogSame yy yy1 := by
  cases a with
  | yyPush =>
    simp only [invoke, yyPush] at h
    split at h
    · simp at h
    · simp only [Option.some.injEq] at h
      subst h
      exact ⟨rfl, rfl⟩
  | yyPop =>
    simp only [invoke, yyPop, Option.some.injEq] at h
    subst h
    exact ⟨rfl, rfl⟩
  | yySet =>
    simp only [invoke, yySet] at h
    split at h
    · simp only [Option.some.injEq] at h
      subst h
      exact ⟨rfl, rfl⟩
    · simp at h
  | user name =>
    simp only [invoke, Option.some.injEq] at h
    subst h
    exact hA _ _ _ _

theorem logSame_invokeThunk (hA : ActionsKeepLog U) {defs : Nat → List (String × Int)}
    {t : yythunk} {yy yy1 : yycontext} (h : invokeThunk U defs t yy = some yy1) :
    LogSame yy yy1 := by
  unfold invokeThunk at h
  split at h
  · simp at h
  · next n yy2 heq =>
    split at heq
    · exact (logSame_yyText heq).sameTrans (logSame_invoke hA h)
    · simp only [Option.some.injEq, Prod.mk.injEq] at heq
      obtain ⟨_, rfl⟩ := heq
      exact logSame_invoke hA h

theorem yyDoneLoop_invokeAll (hA : ActionsKeepLog U) (defs : Nat → List (String × Int)) :
    ∀ (fuel pos : Nat) (yy y : yycontext), yyDoneLoop U defs fuel pos yy = some y →
      ∃ y1, invokeAll U defs
          ((List.range' pos (yy._thunkpos - pos)).map fun i => yy._thunks.getD i default) yy
            = some y1 ∧ y = { y1 with _thunkpos := 0 }
  | 0, pos, yy, y, h => by
    simp only [yyDoneLoop] at h
    split at h
    · simp at h
    · next hp =>
      simp only [Option.some.injEq] at h
      have : yy._thunkpos - pos = 0 := by omega
      rw [this]
      exact ⟨yy, by simp [invokeAll], h.symm⟩
  | fuel + 1, pos, yy, y, h => by
    simp only [yyDoneLoop] at h
    split at h
    · next hp =>
      split at h
      · simp at h
      · next yy2 hi =>
        obtain ⟨y1, h1, h2⟩ := yyDoneLoop_invokeAll hA defs fuel (pos + 1) yy2 y h
        have hs := logSame_invokeThunk hA hi
        have e1 : yy._thunkpos - pos = (yy._thunkpos - (pos + 1)) + 1 := by omega
        rw [e1, List.range'_succ, List.map_cons]
        simp only [invokeAll, hi]
        rw [hs.1, hs.2] at h1
        exact ⟨y1, h1, h2⟩
    · next hp =>
      simp only [Option.some.injEq] at h
      have : yy._thunkpos - pos = 0 := by omega
      rw [this]
      exact ⟨yy, by simp [invokeAll], h.symm⟩

/-- `yyDone` calls the actions of the thunks below `_thunkpos`, in the order
of their positions, and no other. -/
theorem yyDone_invokeAll (hA : ActionsKeepLog U) {defs : Nat → List (String × Int)}
    {fuel : Nat} {yy y : yycontext} (h : yyDone U defs fuel yy = some y) :
    ∃ y1, invokeAll U defs (thunkLog yy) yy = some y1 ∧ y = { y1 with _thunkpos := 0 } := by
  have := yyDoneLoop_invokeAll hA defs fuel 0 yy y h
  simpa [thunkLog, List.range_eq_range'] using this

theorem execInstr_congr {U1 U2 : UserCode} (h : SameMatching U1 U2) (i : Instr) (s : Frame) :
    execInstr U1 call i s = execInstr U2 call i s := by
  obtain ⟨h1, h2, h3⟩ := h
  cases i with
  | test c ko => cases c <;> simp [execInstr, evalTest, h2]
  | stmt a => cases a <;> simp [execInstr, evalStmt, h1, h3]
  | _ => rfl

theorem run_congr {U1 U2 : UserCode} (h : SameMatching U1 U2) :
    ∀ (n : Nat) (code rest : List Instr) (s : Frame),
      run U1 call n code rest s = run U2 call n code rest s
  | 0, _, [], _ => rfl
  | 0, _, _ :: _, _ => rfl
  | n + 1, _, [], _ => rfl
  | n + 1, code, i :: rest, s => by
    simp only [run, execInstr_congr h]
    split
    · rfl
    · exact run_congr h n _ _ _
    · split
      · exact run_congr h n _ _ _
      · rfl
    · rfl

/-- The rule procedures never run an action body: their results are the same
whatever the action bodies do. -/
theorem yyrule_congr {U1 U2 : UserCode} (h : SameMatching U1 U2)
    (procs : List (Option (List Instr))) :
    ∀ fuel, yyrule U1 procs fuel = yyrule U2 procs fuel
  | 0 => rfl
  | fuel + 1 => by
    funext r yy
    simp only [yyrule, yyrule_congr h procs fuel, run_congr h]

/-! ### Action deferral -/

theorem YYPARSEFROM_false {P : Program} {fuel start : Nat} {yyctx yy : yycontext}
    (h : YYPARSEFROM U P fuel start yyctx = some (false, yy)) :
    ∃ yy2, yyrule U P.procs fuel start (yyentry yyctx) = some (false, yy2) ∧
      yyCommit yy2 = some yy := by
  simp only [YYPARSEFROM] at h
  split at h
  · simp at h
  · next yyok yy2 hr =>
    cases yyok with
    | true =>
      simp only [if_true] at h
      split at h
      · simp at h
      · split at h <;> simp at h
    | false =>
      simp only [Bool.false_eq_true, if_false] at h
      split at h
      · simp at h
      · next yy4 hc =>
        simp only [Option.some.injEq, Prod.mk.injEq, true_and] at h
        subst h
        exact ⟨yy2, hr, hc⟩

theorem YYPARSEFROM_true {P : Program} {fuel start : Nat} {yyctx yy : yycontext}
    (h : YYPARSEFROM U P fuel start yyctx = some (true, yy)) :
    ∃ yy2 yy3, yyrule U P.procs fuel start (yyentry yyctx) = some (true, yy2) ∧
      yyDone U P.defs fuel yy2 = some yy3 ∧ yyCommit yy3 = some yy := by
  simp only [YYPARSEFROM] at h
  split at h
  · simp at h
  · next yyok yy2 hr =>
    cases yyok with
    | false =>
      simp only [Bool.false_eq_true, if_false] at h
      split at h <;> simp at h
    | true =>
      simp only [if_true] at h
      split at h
      · simp at h
      · next yy3 hd =>
        split at h
        · simp at h
        · next yy4 hc =>
          simp only [Option.some.injEq, Prod.mk.injEq, true_and] at h
          subst h
          exact ⟨yy2, yy3, hr, hd, hc⟩

/-- C2, amended (action deferral).  In a parser printed by `Rule_compile_c`,
whose inline blocks, predicates and error blocks leave the thunk log alone
(they do not call `YYACCEPT`):
(1) when an attempt at `e` fails, putting the cursor and the thunk depth back
to those of its entry gives back the thunk log of the entry, and that is the
context in which the next branch of an `Alternate` starts and in which a
`Query`, a `Star`, a `Plus` (after its first round) and a `PeekNot` go on;
(2) a rule procedure that returns 0 leaves the thunk log of its entry;
(3) a parse that fails calls no action at all: its result is the same whatever
the action bodies do; (4) a parse that succeeds, with action bodies that leave
the thunk log alone too, calls the actions of the thunks below `_thunkpos` in
the context that the start rule returned, in order, and no other. -/
theorem action_deferral (U : UserCode) (rules : List Rule) (actions : List ActionNode)
    (prev : Nat) (hU : UserKeepsLog U) :
    (∀ fuel vars e yy yyF,
      Ends U (yyrule U (Rule_compile_c rules actions prev).procs fuel) vars e yy false yyF →
      (rewind yyF yy)._thunkpos = yy._thunkpos ∧ thunkLog (rewind yyF yy) = thunkLog yy ∧
      (∀ e2 rest b yy1,
        Ends U (yyrule U (Rule_compile_c rules actions prev).procs fuel) vars
            (.alternate (.cons e (.cons e2 rest))) yy b yy1 ↔
          Ends U (yyrule U (Rule_compile_c rules actions prev).procs fuel) vars
            (.alternate (.cons e2 rest)) (rewind yyF yy) b yy1) ∧
      Ends U (yyrule U (Rule_compile_c rules actions prev).procs fuel) vars (.query e) yy true
        (rewind yyF yy) ∧
      Ends U (yyrule U (Rule_compile_c rules actions prev).procs fuel) vars (.peekNot e) yy true
        { rewind yyF yy with _maxpos := yy._maxpos } ∧
      (∀ k yy0, Iterates U (yyrule U (Rule_compile_c rules actions prev).procs fuel) vars e k
          yy0 yy →
        Ends U (yyrule U (Rule_compile_c rules actions prev).procs fuel) vars (.star e) yy0 true
          (rewind yyF yy) ∧
        ∀ yyb, Ends U (yyrule U (Rule_compile_c rules actions prev).procs fuel) vars e yyb true
            yy0 →
          Ends U (yyrule U (Rule_compile_c rules actions prev).procs fuel) vars (.plus e) yyb
            true (rewind yyF yy))) ∧
    (∀ fuel r yy yy1,
      yyrule U (Rule_compile_c rules actions prev).procs fuel r yy = some (false, yy1) →
      yy1._thunkpos = yy._thunkpos ∧ thunkLog yy1 = thunkLog yy) ∧
    (∀ fuel start yyctx yy,
      YYPARSEFROM U (Rule_compile_c rules actions prev) fuel start yyctx = some (false, yy) →
      (∃ yy2, yyrule U (Rule_compile_c rules actions prev).procs fuel start (yyentry yyctx)
          = some (false, yy2) ∧ yyCommit yy2 = some yy) ∧
      ∀ U2, SameMatching U2 U →
        YYPARSEFROM U2 (Rule_compile_c rules actions prev) fuel start yyctx = some (false, yy)) ∧
    (∀ fuel start yyctx yy, ActionsKeepLog U →
      YYPARSEFROM U (Rule_compile_c rules actions prev) fuel start yyctx = some (true, yy) →
      ∃ yy2 y1, yyrule U (Rule_compile_c rules actions prev).procs fuel start (yyentry yyctx)
          = some (true, yy2) ∧
        invokeAll U (Rule_compile_c rules actions prev).defs (thunkLog yy2) yy2 = some y1 ∧
        yyCommit { y1 with _thunkpos := 0 } = some yy) := by
  have hck : ∀ fuel, CallKeeps (yyrule U (Rule_compile_c rules actions prev).procs fuel) :=
    callKeeps_yyrule hU (defineLoop actions rules) prev
  refine ⟨?_, ?_, ?_, ?_⟩
  · intro fuel vars e yy yyF he
    have ho := ends_iff_outcome.1 he
    have hk := logKeeps_outcome hU (hck fuel) ho
    refine ⟨rfl, thunkLog_rewind hk, ?_, ?_, ?_, ?_⟩
    · intro e2 rest b yy1
      constructor
      · intro h
        have h2 := ends_iff_outcome.1 h
        cases h2 with
        | test ht _ => simp [testOf] at ht
        | stmt ht _ => simp [stmtOf] at ht
        | alt_ok ho2 => exact absurd (ends_det he (ends_iff_outcome.2 ho2)).1 (by simp)
        | alt_next ho2 h3 =>
          have := (ends_det he (ends_iff_outcome.2 ho2)).2
          subst this
          exact ends_iff_outcome.2 h3
      · intro h
        exact ends_iff_outcome.2 (.alt_next ho (ends_iff_outcome.1 h))
    · exact ends_iff_outcome.2 (.query_ko ho)
    · exact ends_iff_outcome.2 (.peekNot_ok ho)
    · intro k yy0 hit
      refine ⟨ends_iff_outcome.2 (outcome_of_iterates hit he), fun yyb hb => ?_⟩
      exact ends_iff_outcome.2 (.plus_ok (ends_iff_outcome.1 hb) (outcome_of_iterates hit he))
  · intro fuel r yy yy1 h
    have hk := hck fuel r yy false yy1 h
    obtain ⟨_, hp, ht⟩ := yyrule_false h
    refine ⟨ht, ?_⟩
    unfold thunkLog
    rw [ht]
    apply List.map_congr_left
    intro i hi
    exact hk.2 i (by simpa using hi)
  · intro fuel start yyctx yy h
    refine ⟨YYPARSEFROM_false h, fun U2 hs => ?_⟩
    obtain ⟨yy2, hr, hc⟩ := YYPARSEFROM_false h
    unfold yyentry at hr
    simp only [YYPARSEFROM, yyrule_congr hs, hr, Bool.false_eq_true, if_false, hc]
  · intro fuel start yyctx yy hA h
    obtain ⟨yy2, yy3, hr, hd, hc⟩ := YYPARSEFROM_true h
    obtain ⟨y1, h1, h2⟩ := yyDone_invokeAll hA hd
    subst h2
    exact ⟨yy2, y1, hr, h1, hc⟩

/-! ### Witnesses -/

theorem some_of_map {α : Type} {o : Option α} {p : α → Bool} (h : o.map p = some true) :
    ∃ y, o = some y ∧ p y = true := by
  cases o with
  | none => simp at h
  | some y => exact ⟨y, rfl, by simpa using h⟩

theorem exitOf_fall {b : Bool} {ko : Nat} (h : Ctl.fall = exitOf b ko) : b = true := by
  cases b <;> simp [exitOf] at h ⊢

theorem exitOf_jump {b : Bool} {ko l : Nat} (h : Ctl.jump l = exitOf b ko) : b = false := by
  cases b <;> simp [exitOf] at h ⊢

/-- Witness of C1: `A <- "ab" / "ac"` accepts `ac` and `ab` with the cursor at 2
and rejects `ad` with the cursor back at 0; on `ac` the text printed for the
choice ends as ordered choice says, with the second branch. -/
theorem ordered_choice_witness :
    (yyrule noUser (Rule_compile_c2 grammarChoice 0).1 30 0 (ready [97, 99])).map
        (fun r => (r.1, r.2._pos)) = some (true, 2) ∧
    (yyrule noUser (Rule_compile_c2 grammarChoice 0).1 30 0 (ready [97, 98])).map
        (fun r => (r.1, r.2._pos)) = some (true, 2) ∧
    (yyrule noUser (Rule_compile_c2 grammarChoice 0).1 30 0 (ready [97, 100])).map
        (fun r => (r.1, r.2._pos)) = some (false, 0) ∧
    choiceAbAc ≠ .nil ∧ 1 ≤ 1 ∧
    ∃ y, Runs noUser noCall (Node_compile_c_ko [] (.alternate choiceAbAc) 1 1).1
        (Node_compile_c_ko [] (.alternate choiceAbAc) 1 1).1 ⟨ready [97, 99], noLocals⟩ y ∧
      y.2.yy._pos = 2 ∧
      OrderedChoice noUser noCall [] 0 0 choiceAbAc (ready [97, 99]) true y.2.yy := by
  refine ⟨by decide, by decide, by decide, by simp [choiceAbAc], by decide, ?_⟩
  obtain ⟨y, hy, hp⟩ := some_of_map
    (o := run noUser noCall 30 (Node_compile_c_ko [] (.alternate choiceAbAc) 1 1).1
      (Node_compile_c_ko [] (.alternate choiceAbAc) 1 1).1 ⟨ready [97, 99], noLocals⟩)
    (p := fun y => decide (y.1 = .fall ∧ y.2.yy._pos = 2)) (by decide)
  simp only [decide_eq_true_eq] at hp
  obtain ⟨b, hb, hc⟩ := (ordered_choice noUser noCall [] choiceAbAc 1 1
    ⟨ready [97, 99], noLocals⟩ (by simp [choiceAbAc]) (by decide)).1 y ⟨30, hy⟩
  rw [hp.1] at hb
  rw [exitOf_fall hb] at hc
  exact ⟨y, ⟨30, hy⟩, hp.2, hc⟩

/-- Witness of C3: `A <- "a"* "b"` accepts `aaab` with the cursor at 4 and `b`
with the cursor at 1; on `aaab` the text printed for `"a"*` ends behind its last
statement with the cursor at 3, after rounds as `greedy_star` says. -/
theorem greedy_star_witness :
    (yyrule noUser (Rule_compile_c2 grammarStar 0).1 40 0 (ready [97, 97, 97, 98])).map
        (fun r => (r.1, r.2._pos)) = some (true, 4) ∧
    (yyrule noUser (Rule_compile_c2 grammarStar 0).1 40 0 (ready [98])).map
        (fun r => (r.1, r.2._pos)) = some (true, 1) ∧
    1 ≤ 1 ∧
    ∃ y, Runs noUser noCall (Node_compile_c_ko [] (.star (.string [97] false)) 1 1).1
        (Node_compile_c_ko [] (.star (.string [97] false)) 1 1).1
        ⟨ready [97, 97, 97, 98], noLocals⟩ y ∧
      y.2.yy._pos = 3 ∧ y.1 = .fall ∧
      ∃ k yyk yyF, Iterates noUser noCall [] (.string [97] false) k (ready [97, 97, 97, 98]) yyk ∧
        Ends noUser noCall [] (.string [97] false) yyk false yyF ∧
        y.2.yy = { yyF with _pos := yyk._pos, _thunkpos := yyk._thunkpos } ∧
        y.2.yy._pos = yyk._pos ∧ y.2.yy._thunkpos = yyk._thunkpos := by
  refine ⟨by decide, by decide, by decide, ?_⟩
  obtain ⟨y, hy, hp⟩ := some_of_map
    (o := run noUser noCall 40 (Node_compile_c_ko [] (.star (.string [97] false)) 1 1).1
      (Node_compile_c_ko [] (.star (.string [97] false)) 1 1).1
      ⟨ready [97, 97, 97, 98], noLocals⟩)
    (p := fun y => decide (y.2.yy._pos = 3)) (by decide)
  simp only [decide_eq_true_eq] at hp
  obtain ⟨h1, h2⟩ := (greedy_star noUser noCall [] (.string [97] false) 1 1
    ⟨ready [97, 97, 97, 98], noLocals⟩ (by decide)).1 y ⟨40, hy⟩
  exact ⟨y, ⟨40, hy⟩, hp, h1, h2⟩

/-- Witness of C4: `A <- "a"+` rejects the empty input, accepts `a` and consumes
all of `aaa`; on `aaa` the text printed for `"a" "a"*` ends as the text printed
for `"a"+` does, in the same context. -/
theorem plus_requires_one_witness :
    (yyrule noUser (Rule_compile_c2 grammarPlus 0).1 40 0 (ready [])).map
        (fun r => r.1) = some false ∧
    (yyrule noUser (Rule_compile_c2 grammarPlus 0).1 40 0 (ready [97])).map
        (fun r => (r.1, r.2._pos)) = some (true, 1) ∧
    (yyrule noUser (Rule_compile_c2 grammarPlus 0).1 40 0 (ready [97, 97, 97])).map
        (fun r => (r.1, r.2._pos)) = some (true, 3) ∧
    1 ≤ 1 ∧
    ∃ y, Runs noUser noCall (Node_compile_c_ko [] (.plus (.string [97] false)) 1 1).1
        (Node_compile_c_ko [] (.plus (.string [97] false)) 1 1).1
        ⟨ready [97, 97, 97], noLocals⟩ y ∧
      y.2.yy._pos = 3 ∧
      ∃ loc1, Runs noUser noCall
        (Node_compile_c_ko [] (.sequence (.cons (.string [97] false)
          (.cons (.star (.string [97] false)) .nil))) 1 1).1
        (Node_compile_c_ko [] (.sequence (.cons (.string [97] false)
          (.cons (.star (.string [97] false)) .nil))) 1 1).1
        ⟨ready [97, 97, 97], noLocals⟩ (y.1, ⟨y.2.yy, loc1⟩) := by
  refine ⟨by decide, by decide, by decide, by decide, ?_⟩
  obtain ⟨y, hy, hp⟩ := some_of_map
    (o := run noUser noCall 40 (Node_compile_c_ko [] (.plus (.string [97] false)) 1 1).1
      (Node_compile_c_ko [] (.plus (.string [97] false)) 1 1).1
      ⟨ready [97, 97, 97], noLocals⟩)
    (p := fun y => decide (y.2.yy._pos = 3)) (by decide)
  simp only [decide_eq_true_eq] at hp
  exact ⟨y, ⟨40, hy⟩, hp, ((plus_requires_one noUser noCall [] (.string [97] false) 1 1
    ⟨ready [97, 97, 97], noLocals⟩ (by decide)).1 y.1 y.2.yy).1 ⟨y.2.loc, 40, hy⟩⟩

/-- Witness of C5: `A <- !"x" .` rejects `x` and accepts `y` with the cursor and
`_maxpos` at 1; on `yz` the text printed for `!("y" "x")` succeeds with
`_maxpos` still 0, although the probe has read `y`. -/
theorem negative_lookahead_witness :
    (yyrule noUser (Rule_compile_c2 grammarNot 0).1 40 0 (ready [120])).map
        (fun r => r.1) = some false ∧
    (yyrule noUser (Rule_compile_c2 grammarNot 0).1 40 0 (ready [121])).map
        (fun r => (r.1, r.2._pos, r.2._maxpos)) = some (true, 1, 1) ∧
    (evalTest noUser noCall (.matchString [121, 120]) (ready [121, 122])).map
        (fun r => (r.1, r.2._maxpos)) = some (false, 0) ∧
    (yymatchChar (ready [121, 122]) 121).map (fun r => (r.1, r.2._maxpos)) = some (true, 1) ∧
    1 ≤ 1 ∧
    ∃ y, Runs noUser noCall
        (Node_compile_c_ko [] (.peekNot (.sequence (.cons (.string [121] false)
          (.cons (.string [120] false) .nil)))) 1 1).1
        (Node_compile_c_ko [] (.peekNot (.sequence (.cons (.string [121] false)
          (.cons (.string [120] false) .nil)))) 1 1).1
        ⟨ready [121, 122], noLocals⟩ y ∧
      y.1 = .fall ∧ y.2.yy._maxpos = (ready [121, 122])._maxpos ∧ y.2.yy._maxpos = 0 := by
  refine ⟨by decide, by decide, by decide, by decide, by decide, ?_⟩
  obtain ⟨y, hy, hp⟩ := some_of_map
    (o := run noUser noCall 40
      (Node_compile_c_ko [] (.peekNot (.sequence (.cons (.string [121] false)
          (.cons (.string [120] false) .nil)))) 1 1).1
      (Node_compile_c_ko [] (.peekNot (.sequence (.cons (.string [121] false)
          (.cons (.string [120] false) .nil)))) 1 1).1
      ⟨ready [121, 122], noLocals⟩)
    (p := fun y => decide (y.1 = .fall)) (by decide)
  simp only [decide_eq_true_eq] at hp
  have h := ((negative_lookahead noUser noCall [] (.sequence (.cons (.string [121] false)
    (.cons (.string [120] false) .nil))) 1 1 ⟨ready [121, 122], noLocals⟩ (by decide)).1 y
    ⟨40, hy⟩).1
  exact ⟨y, ⟨40, hy⟩, hp, h, h⟩

/-- Witness of C6: `A <- &"a" "ab"` accepts `ab` with the cursor at 2; the text
printed for `&"a"` succeeds with the cursor at 0 although `"a"` alone ends with
the cursor at 1. -/
theorem positive_lookahead_witness :
    (yyrule noUser (Rule_compile_c2 grammarAnd 0).1 40 0 (ready [97, 98])).map
        (fun r => (r.1, r.2._pos)) = some (true, 2) ∧
    (yymatchChar (ready [97, 98]) 97).map (fun r => (r.1, r.2._pos)) = some (true, 1) ∧
    1 ≤ 1 ∧
    ∃ y, Runs noUser noCall (Node_compile_c_ko [] (.peekFor (.string [97] false)) 1 1).1
        (Node_compile_c_ko [] (.peekFor (.string [97] false)) 1 1).1
        ⟨ready [97, 98], noLocals⟩ y ∧
      y.1 = .fall ∧ y.2.yy._pos = (ready [97, 98])._pos ∧
      y.2.yy._thunkpos = (ready [97, 98])._thunkpos := by
  refine ⟨by decide, by decide, by decide, ?_⟩
  obtain ⟨y, hy, hp⟩ := some_of_map
    (o := run noUser noCall 40 (Node_compile_c_ko [] (.peekFor (.string [97] false)) 1 1).1
      (Node_compile_c_ko [] (.peekFor (.string [97] false)) 1 1).1
      ⟨ready [97, 98], noLocals⟩)
    (p := fun y => decide (y.1 = .fall)) (by decide)
  simp only [decide_eq_true_eq] at hp
  have h := (positive_lookahead noUser noCall [] (.string [97] false) 1 1
    ⟨ready [97, 98], noLocals⟩ (by decide)).1 y ⟨40, hy⟩
  rcases h with ⟨_, h1, h2, _⟩ | ⟨h1, _⟩
  · exact ⟨y, ⟨40, hy⟩, hp, h1, h2⟩
  · rw [hp] at h1; cases h1

/-- Witness of C7: on the input `a`, `yymatchString` for `"ab"` returns 0 with
the cursor at 1, the input being exhausted, and the procedure of `A <- "ab"`
returns 0 with the cursor and the thunk depth of its entry. -/
theorem rule_failure_atomic_witness :
    (yymatchString (ready [97]) [97, 98]).map (fun r => (r.1, r.2._pos)) = some (false, 1) ∧
    ∃ yy1, yyrule noUser (Rule_compile_c2 grammarAb 0).1 30 0 (ready [97]) = some (false, yy1) ∧
      (∃ node e, grammarAb.get? 0 = some node ∧ node.expression = some e ∧ isSafe e = false) ∧
      yy1._pos = (ready [97])._pos ∧ yy1._thunkpos = (ready [97])._thunkpos := by
  refine ⟨by decide, ?_⟩
  obtain ⟨⟨v, yy1⟩, hy, hp⟩ := some_of_map
    (o := yyrule noUser (Rule_compile_c2 grammarAb 0).1 30 0 (ready [97]))
    (p := fun r => decide (r.1 = false)) (by decide)
  simp only [decide_eq_true_eq] at hp
  subst hp
  exact ⟨yy1, hy, rule_failure_atomic noUser grammarAb 0 30 0 (ready [97]) yy1 hy⟩

theorem userCount_keeps : UserKeepsLog userCount :=
  fun _ _ => ⟨⟨rfl, rfl⟩, ⟨rfl, rfl⟩, ⟨rfl, rfl⟩⟩

/-- Witness of C2: with `A <- "a" { n++ } / "b"` the input `b` is accepted and
`n++` never runs, while on `a` it runs once; on `ab` the attempt
`"a" { n++ } "c"` fails after it has registered its thunk, and the thunk log
after the reset is the log of the entry. -/
theorem action_deferral_witness :
    (YYPARSEFROM userCount (Rule_compile_c grammarAct actionsAct 0) 40 0 (yyctx0 [98])).map
        (fun r => (r.1, r.2.members)) = some (true, []) ∧
    (YYPARSEFROM userCount (Rule_compile_c grammarAct actionsAct 0) 40 0 (yyctx0 [97])).map
        (fun r => (r.1, r.2.members)) = some (true, [1]) ∧
    UserKeepsLog userCount ∧
    ∃ yyF, Ends userCount (yyrule userCount (Rule_compile_c grammarAct actionsAct 0).procs 5)
        [] (.sequence (.cons (.string [97] false) (.cons (.action 0)
          (.cons (.string [99] false) .nil)))) (ready [97, 98]) false yyF ∧
      yyF._thunkpos = 1 ∧
      (rewind yyF (ready [97, 98]))._thunkpos = (ready [97, 98])._thunkpos ∧
      thunkLog (rewind yyF (ready [97, 98])) = thunkLog (ready [97, 98]) := by
  refine ⟨by decide, by decide, userCount_keeps, ?_⟩
  obtain ⟨y, hy, hp⟩ := some_of_map
    (o := run userCount (yyrule userCount (Rule_compile_c grammarAct actionsAct 0).procs 5) 40
      (Node_compile_c_ko [] (.sequence (.cons (.string [97] false) (.cons (.action 0)
          (.cons (.string [99] false) .nil)))) 1 1).1
      (Node_compile_c_ko [] (.sequence (.cons (.string [97] false) (.cons (.action 0)
          (.cons (.string [99] false) .nil)))) 1 1).1
      ⟨ready [97, 98], noLocals⟩)
    (p := fun y => decide (y.1 = .jump 1 ∧ y.2.yy._thunkpos = 1)) (by decide)
  simp only [decide_eq_true_eq] at hp
  obtain ⟨b, hb, he⟩ := ends_of_runs (le_refl 1) ⟨40, hy⟩
  rw [hp.1] at hb
  rw [exitOf_jump hb] at he
  have h := (action_deferral userCount grammarAct actionsAct 0 userCount_keeps).1 5 [] _ _ _ he
  exact ⟨y.2.yy, he, hp.2, h.1, h.2.1⟩

/-! ### The analysis of the grammar -/

theorem reached_set (f : Nat) : 2 &&& (f ||| 2) ≠ 0 := by
  intro h
  have := congrArg (fun x => Nat.testBit x 1) h
  have h2 : Nat.testBit 2 1 = true := by decide
  simp [h2] at this

theorem reached_clear (f : Nat) (h : 2 &&& f = 0) : (f ||| 2) ^^^ ((f ||| 2) &&& 2) = f := by
  apply Nat.eq_of_testBit_eq
  intro i
  have h2 := congrArg (fun x => Nat.testBit x i) h
  simp only [Nat.testBit_and, Nat.zero_testBit] at h2
  simp only [Nat.testBit_xor, Nat.testBit_and, Nat.testBit_or]
  cases h3 : f.testBit i <;> cases h4 : Nat.testBit 2 i <;> simp_all

theorem set_same {α : Type} (l : List α) (r : Nat) (hr : r < l.length) : l.set r l[r] = l := by
  apply List.ext_getElem?
  intro i
  rw [List.getElem?_set]
  split
  · next h => subst h; simp [hr]
  · rfl

theorem setReached_length (rules : List Rule) (r : Nat) :
    (setReached rules r).length = rules.length := by
  unfold setReached
  split <;> simp

theorem clear_set {rules : List Rule} {r : Nat} {node : Rule} (h : rules.get? r = some node)
    (hf : RuleReached &&& node.flags = 0) : clearReached (setReached rules r) r = rules := by
  have hr : r < rules.length := by
    rw [List.get?_eq_getElem?] at h
    exact (List.getElem?_eq_some_iff.1 h).1
  have hn : rules[r] = node := by
    rw [List.get?_eq_getElem?] at h
    exact (List.getElem?_eq_some_iff.1 h).2
  simp only [setReached, h, clearReached, List.get?_eq_getElem?, List.getElem?_set_self hr,
    List.set_set, RuleReached, reached_clear _ hf]
  rw [← hn]
  exact set_same rules r hr

mutual
theorem total_node {rule : Nat → List Rule → Option (Bool × List Rule × List String)}
    {rules : List Rule} (h : TotalOn rule rules) :
    ∀ (n : Node), namesBelow rules.length n = true →
      ∃ b w, consumesInput rule n rules = some (b, rules, w)
  | .dot, _ => by simp only [consumesInput]; exact ⟨_, _, rfl⟩
  | .name r v, hn => by
    simp only [namesBelow, decide_eq_true_eq] at hn
    simpa [consumesInput] using h r hn
  | .character value, _ => by simp only [consumesInput]; exact ⟨_, _, rfl⟩
  | .string value casefold, _ => by simp only [consumesInput]; exact ⟨_, _, rfl⟩
  | .cclass value, _ => by simp only [consumesInput]; exact ⟨_, _, rfl⟩
  | .action name, _ => by simp only [consumesInput]; exact ⟨_, _, rfl⟩
  | .inLine text, _ => by simp only [consumesInput]; exact ⟨_, _, rfl⟩
  | .predicate text, _ => by simp only [consumesInput]; exact ⟨_, _, rfl⟩
  | .error element text, hn => by
    simp only [namesBelow] at hn
    simpa only [consumesInput] using total_node h element hn
  | .alternate first, hn => by
    simp only [namesBelow] at hn
    simpa only [consumesInput] using total_alt h first hn
  | .sequence first, hn => by
    simp only [namesBelow] at hn
    simpa only [consumesInput] using total_seq h first hn
  | .peekFor element, _ => by simp only [consumesInput]; exact ⟨_, _, rfl⟩
  | .peekNot element, _ => by simp only [consumesInput]; exact ⟨_, _, rfl⟩
  | .query element, _ => by simp only [consumesInput]; exact ⟨_, _, rfl⟩
  | .star element, _ => by simp only [consumesInput]; exact ⟨_, _, rfl⟩
  | .plus element, hn => by
    simp only [namesBelow] at hn
    simpa only [consumesInput] using total_node h element hn
theorem total_alt {rule : Nat → List Rule → Option (Bool × List Rule × List String)}
    {rules : List Rule} (h : TotalOn rule rules) :
    ∀ (c : Chain), chainNamesBelow rules.length c = true →
      ∃ b w, consumesAlternate rule c rules = some (b, rules, w)
  | .nil, _ => by simp only [consumesAlternate]; exact ⟨_, _, rfl⟩
  | .cons n next, hn => by
    simp only [chainNamesBelow, Bool.and_eq_true] at hn
    obtain ⟨b, w, h1⟩ := total_node h n hn.1
    obtain ⟨b2, w2, h2⟩ := total_alt h next hn.2
    cases b with
    | false => simp only [consumesAlternate, h1]; exact ⟨_, _, rfl⟩
    | true => simp only [consumesAlternate, h1, h2]; exact ⟨_, _, rfl⟩
theorem total_seq {rule : Nat → List Rule → Option (Bool × List Rule × List String)}
    {rules : List Rule} (h : TotalOn rule rules) :
    ∀ (c : Chain), chainNamesBelow rules.length c = true →
      ∃ b w, consumesSequence rule c rules = some (b, rules, w)
  | .nil, _ => by simp only [consumesSequence]; exact ⟨_, _, rfl⟩
  | .cons n next, hn => by
    simp only [chainNamesBelow, Bool.and_eq_true] at hn
    obtain ⟨b, w, h1⟩ := total_node h n hn.1
    obtain ⟨b2, w2, h2⟩ := total_seq h next hn.2
    cases b with
    | true => simp only [consumesSequence, h1]; exact ⟨_, _, rfl⟩
    | false => simp only [consumesSequence, h1, h2]; exact ⟨_, _, rfl⟩
end

theorem wellFormed_setReached {rules : List Rule} (h : WellFormed rules) (r : Nat) :
    WellFormed (setReached rules r) := by
  intro node hnode e he
  rw [setReached_length]
  unfold setReached at hnode
  cases hg : rules.get? r with
  | none => rw [hg] at hnode; exact h node hnode e he
  | some n0 =>
    rw [hg] at hnode
    simp only at hnode
    rcases List.mem_or_eq_of_mem_set hnode with hm | hm
    · exact h node hm e he
    · subst hm
      have : n0 ∈ rules := by
        rw [List.get?_eq_getElem?] at hg
        obtain ⟨hlt, heq⟩ := List.getElem?_eq_some_iff.1 hg
        exact heq ▸ List.getElem_mem hlt
      exact h n0 this e he

theorem isReached_setReached {rules : List Rule} {r : Nat} (hr : r < rules.length) (i : Nat) :
    isReached (setReached rules r) i = if i = r then true else isReached rules i := by
  have hg : rules.get? r = some rules[r] := by simp [List.get?_eq_getElem?, hr]
  simp only [setReached, hg, isReached, List.get?_eq_getElem?, List.getElem?_set]
  by_cases h : i = r
  · subst h
    simp [hr, RuleReached, reached_set]
  · have h2 : ¬ r = i := fun e => h e.symm
    simp [h, h2]

theorem unreached_setReached {rules : List Rule} {r : Nat} (hr : r < rules.length)
    (hf : isReached rules r = false) :
    (unreached (setReached rules r)).card < (unreached rules).card := by
  apply Finset.card_lt_card
  rw [Finset.ssubset_iff_of_subset]
  · refine ⟨r, ?_, ?_⟩
    · simp [unreached, hr, hf]
    · simp [unreached, isReached_setReached hr]
  · intro i hi
    simp only [unreached, Finset.mem_filter, Finset.mem_range, setReached_length,
      isReached_setReached hr] at hi ⊢
    refine ⟨hi.1, ?_⟩
    by_cases h : i = r
    · simp [h] at hi
    · simpa [h] using hi.2

theorem total_rule : ∀ (fuel : Nat) (rules : List Rule) (r : Nat), WellFormed rules →
    r < rules.length → (unreached rules).card < fuel →
    ∃ b w, consumesInputRule fuel r rules = some (b, rules, w)
  | 0, _, _, _, _, hf => by omega
  | fuel + 1, rules, r, hw, hr, hf => by
    have hg : rules.get? r = some rules[r] := by simp [List.get?_eq_getElem?, hr]
    simp only [consumesInputRule, hg]
    by_cases hfl : RuleReached &&& rules[r].flags ≠ 0
    · exact ⟨_, _, by rw [if_pos hfl]⟩
    · rw [if_neg hfl]
      have hfl0 : RuleReached &&& rules[r].flags = 0 := by simpa using hfl
      have hir : isReached rules r = false := by
        simp only [isReached, hg, hfl0]
        rfl
      have hcard := unreached_setReached hr hir
      cases he : rules[r].expression with
      | none => simp only [clear_set hg hfl0]; exact ⟨_, _, rfl⟩
      | some e =>
        have hn : namesBelow (setReached rules r).length e = true := by
          rw [setReached_length]
          exact hw _ (List.getElem_mem hr) e he
        have ht : TotalOn (consumesInputRule fuel) (setReached rules r) := fun r2 hr2 =>
          total_rule fuel (setReached rules r) r2 (wellFormed_setReached hw r) hr2 (by omega)
        obtain ⟨b, w, h1⟩ := total_node ht e hn
        simp only [h1, clear_set hg hfl0]
        exact ⟨_, _, rfl⟩

theorem unreached_le (rules : List Rule) : (unreached rules).card ≤ rules.length := by
  unfold unreached
  exact le_trans (Finset.card_filter_le _ _) (by simp)

theorem totalOn_rule {fuel : Nat} {rules : List Rule} (hw : WellFormed rules)
    (hf : rules.length < fuel) : TotalOn (consumesInputRule fuel) rules := fun r hr =>
  total_rule fuel rules r hw hr (lt_of_le_of_lt (unreached_le rules) hf)

theorem analysis_total {fuel : Nat} {rules : List Rule} (hw : WellFormed rules)
    (hf : rules.length < fuel) : ∀ (k r : Nat), r + k = rules.length →
    ∃ w, analysis fuel k r rules = some (rules, w)
  | 0, _, _ => ⟨[], rfl⟩
  | k + 1, r, h => by
    obtain ⟨b, w, h1⟩ := totalOn_rule hw hf r (by omega)
    obtain ⟨w2, h2⟩ := analysis_total hw hf k (r + 1) (by omega)
    simp only [analysis, h1, h2]
    exact ⟨_, rfl⟩

theorem alt_value {rule : Nat → List Rule → Option (Bool × List Rule × List String)}
    {rules : List Rule} (h : TotalOn rule rules) :
    ∀ (c : Chain), chainNamesBelow rules.length c = true →
      (consumesAlternate rule c rules).map (fun x => x.1) =
        some (decide (∀ n ∈ chainNodes c, (consumesInput rule n rules).map (fun x => x.1) = some true))
  | .nil, _ => by simp [consumesAlternate, chainNodes]
  | .cons n next, hn => by
    simp only [chainNamesBelow, Bool.and_eq_true] at hn
    obtain ⟨b, w, h1⟩ := total_node h n hn.1
    obtain ⟨b2, w2, h2⟩ := total_alt h next hn.2
    have ih := alt_value h next hn.2
    rw [h2] at ih
    cases b with
    | false => simp [consumesAlternate, h1, chainNodes]
    | true =>
      simp only [Option.map_some', Option.some.injEq] at ih
      simp [consumesAlternate, h1, h2, chainNodes, ih]

theorem seq_value {rule : Nat → List Rule → Option (Bool × List Rule × List String)}
    {rules : List Rule} (h : TotalOn rule rules) :
    ∀ (c : Chain), chainNamesBelow rules.length c = true →
      (consumesSequence rule c rules).map (fun x => x.1) =
        some (decide (∃ n ∈ chainNodes c, (consumesInput rule n rules).map (fun x => x.1) = some true))
  | .nil, _ => by simp [consumesSequence, chainNodes]
  | .cons n next, hn => by
    simp only [chainNamesBelow, Bool.and_eq_true] at hn
    obtain ⟨b, w, h1⟩ := total_node h n hn.1
    obtain ⟨b2, w2, h2⟩ := total_seq h next hn.2
    have ih := seq_value h next hn.2
    rw [h2] at ih
    cases b with
    | true => simp [consumesSequence, h1, chainNodes]
    | false =>
      simp only [Option.map_some', Option.some.injEq] at ih
      simp [consumesSequence, h1, h2, chainNodes, ih]

/-- C20 (Reached is transient): in a grammar none of whose rules has the
`RuleReached` flag set, `consumesInput` on a node returns, and the rules it
leaves are the rules it found, so that no rule has the flag set and no other
flag or field of a rule has changed; the same holds of the analysis loop that
opens `Rule_compile_c`. -/
theorem reached_transient (rules : List Rule) (n : Node) (fuel : Nat) (hw : WellFormed rules)
    (hn : namesBelow rules.length n = true) (hf : rules.length < fuel)
    (hclear : ∀ node ∈ rules, RuleReached &&& node.flags = 0) :
    (∃ b rules1 w, consumesInput (consumesInputRule fuel) n rules = some (b, rules1, w) ∧
      rules1 = rules ∧ ∀ node ∈ rules1, RuleReached &&& node.flags = 0) ∧
    (∃ rules1 w, analysis fuel rules.length 0 rules = some (rules1, w) ∧
      rules1 = rules ∧ ∀ node ∈ rules1, RuleReached &&& node.flags = 0) := by
  obtain ⟨b, w, h1⟩ := total_node (totalOn_rule hw hf) n hn
  obtain ⟨w2, h2⟩ := analysis_total hw hf rules.length 0 (by omega)
  exact ⟨⟨b, rules, w, h1, rfl, hclear⟩, ⟨rules, w2, h2, rfl, hclear⟩⟩

/-- C17 (per-kind rules of `consumesInput`): in a grammar whose names refer
to rules, `consumesInput` returns 1 on `Dot` and `Class`; on `Character` and
`String` 1 iff `strlen` of the text is positive; 0 on `Action`, `Inline`,
`Predicate`, and on `PeekFor`, `PeekNot`, `Query`, `Star` without a visit of the
element (no warning, no call on a rule); on `Name` the result on the target
rule; on `Error` and `Plus` the result on the element; on `Alternate` 1 iff
every branch gives 1; on `Sequence` 1 iff some element gives 1; on a `Rule`
with `RuleReached` set 0 and a warning, on a `Rule` without expression 0, and
otherwise the result on the expression, found with the flag set. -/
theorem consumes_per_kind (rules : List Rule) (fuel : Nat) (hw : WellFormed rules)
    (hf : rules.length < fuel) :
    consumesInput (consumesInputRule fuel) .dot rules = some (true, rules, []) ∧
    (∀ v, consumesInput (consumesInputRule fuel) (.cclass v) rules = some (true, rules, [])) ∧
    (∀ v, consumesInput (consumesInputRule fuel) (.character v) rules =
      some (decide (strlen v > 0), rules, [])) ∧
    (∀ v cf, consumesInput (consumesInputRule fuel) (.string v cf) rules =
      some (decide (strlen v > 0), rules, [])) ∧
    (∀ a, consumesInput (consumesInputRule fuel) (.action a) rules = some (false, rules, [])) ∧
    (∀ t, consumesInput (consumesInputRule fuel) (.inLine t) rules = some (false, rules, [])) ∧
    (∀ t, consumesInput (consumesInputRule fuel) (.predicate t) rules =
      some (false, rules, [])) ∧
    (∀ e, consumesInput (consumesInputRule fuel) (.peekFor e) rules = some (false, rules, [])) ∧
    (∀ e, consumesInput (consumesInputRule fuel) (.peekNot e) rules = some (false, rules, [])) ∧
    (∀ e, consumesInput (consumesInputRule fuel) (.query e) rules = some (false, rules, [])) ∧
    (∀ e, consumesInput (consumesInputRule fuel) (.star e) rules = some (false, rules, [])) ∧
    (∀ r v, consumesInput (consumesInputRule fuel) (.name r v) rules =
      consumesInputRule fuel r rules) ∧
    (∀ e t, consumesInput (consumesInputRule fuel) (.error e t) rules =
      consumesInput (consumesInputRule fuel) e rules) ∧
    (∀ e, consumesInput (consumesInputRule fuel) (.plus e) rules =
      consumesInput (consumesInputRule fuel) e rules) ∧
    (∀ c, chainNamesBelow rules.length c = true →
      consumes fuel rules (.alternate c) =
        some (decide (∀ n ∈ chainNodes c, consumes fuel rules n = some true))) ∧
    (∀ c, chainNamesBelow rules.length c = true →
      consumes fuel rules (.sequence c) =
        some (decide (∃ n ∈ chainNodes c, consumes fuel rules n = some true))) ∧
    (∀ r node, rules.get? r = some node → RuleReached &&& node.flags ≠ 0 →
      consumesInputRule fuel r rules = some (false, rules, [node.name])) ∧
    (∀ r node, rules.get? r = some node → RuleReached &&& node.flags = 0 →
      node.expression = none → consumesInputRule fuel r rules = some (false, rules, [])) ∧
    (∀ r node e, rules.get? r = some node → RuleReached &&& node.flags = 0 →
      node.expression = some e →
      ∃ b w, consumesInput (consumesInputRule (fuel - 1)) e (setReached rules r) =
          some (b, setReached rules r, w) ∧
        consumesInputRule fuel r rules = some (b, rules, w)) := by
  have ht := totalOn_rule hw hf
  obtain ⟨k, rfl⟩ : ∃ k, fuel = k + 1 := ⟨fuel - 1, by omega⟩
  refine ⟨by simp only [consumesInput], fun _ => by simp only [consumesInput],
    fun _ => by simp only [consumesInput], fun _ _ => by simp only [consumesInput],
    fun _ => by simp only [consumesInput], fun _ => by simp only [consumesInput],
    fun _ => by simp only [consumesInput], fun _ => by simp only [consumesInput],
    fun _ => by simp only [consumesInput], fun _ => by simp only [consumesInput],
    fun _ => by simp only [consumesInput], fun _ _ => by simp only [consumesInput],
    fun _ _ => by simp only [consumesInput], fun _ => by simp only [consumesInput],
    ?_, ?_, ?_, ?_, ?_⟩
  · intro c hc
    simpa only [consumes, consumesInput] using alt_value ht c hc
  · intro c hc
    simpa only [consumes, consumesInput] using seq_value ht c hc
  · intro r node hg hfl
    simp only [consumesInputRule, hg, if_pos hfl]
  · intro r node hg hfl he
    simp only [consumesInputRule, hg, hfl, he, clear_set hg hfl]
    simp
  · intro r node e hg hfl he
    have hr : r < rules.length := by
      rw [List.get?_eq_getElem?] at hg
      exact (List.getElem?_eq_some_iff.1 hg).1
    have hir : isReached rules r = false := by
      simp only [isReached, hg, hfl]
      rfl
    have hcard := unreached_setReached hr hir
    have hle := unreached_le rules
    have ht2 : TotalOn (consumesInputRule k) (setReached rules r) := fun r2 hr2 =>
      total_rule k (setReached rules r) r2 (wellFormed_setReached hw r) hr2 (by omega)
    have hn : namesBelow (setReached rules r).length e = true := by
      rw [setReached_length]
      have hmem : node ∈ rules := by
        rw [List.get?_eq_getElem?] at hg
        obtain ⟨hlt, heq⟩ := List.getElem?_eq_some_iff.1 hg
        exact heq ▸ List.getElem_mem hlt
      exact hw _ hmem e he
    obtain ⟨b, w, h1⟩ := total_node ht2 e hn
    refine ⟨b, w, by simpa using h1, ?_⟩
    simp only [consumesInputRule, hg, hfl, he, h1, clear_set hg hfl]
    simp

theorem wellFormed_grammarLeft : WellFormed grammarLeft := by
  intro node hnode e he
  simp only [grammarLeft, List.mem_singleton] at hnode
  subst hnode
  simp only [Option.some.injEq] at he
  subst he
  decide

theorem clear_grammarLeft : ∀ node ∈ grammarLeft, RuleReached &&& node.flags = 0 := by
  intro node hnode
  simp only [grammarLeft, List.mem_singleton] at hnode
  subst hnode
  decide

theorem reached_transient_witness :
    (∃ b rules1 w, consumesInput (consumesInputRule 2) (.name 0 none) grammarLeft =
        some (b, rules1, w) ∧
      rules1 = grammarLeft ∧ ∀ node ∈ rules1, RuleReached &&& node.flags = 0) ∧
    (∃ rules1 w, analysis 2 grammarLeft.length 0 grammarLeft = some (rules1, w) ∧
      rules1 = grammarLeft ∧ ∀ node ∈ rules1, RuleReached &&& node.flags = 0) :=
  reached_transient grammarLeft (.name 0 none) 2 wellFormed_grammarLeft (by decide) (by decide)
    clear_grammarLeft

theorem consumes_per_kind_witness :
    consumes 2 grammarLeft (.sequence (.cons (.name 0 none) (.cons .dot .nil))) =
      some (decide (∃ n ∈ chainNodes (.cons (.name 0 none) (.cons .dot .nil)),
        consumes 2 grammarLeft n = some true)) :=
  (consumes_per_kind grammarLeft 2 wellFormed_grammarLeft (by decide)).2.2.2.2.2.2.2.2.2.2.2.2.2.2.2.1
    _ (by decide)

/-! ### Left recursion -/

theorem sameExprs_setReached {rules rules1 : List Rule} (h : SameExprs rules rules1) (r : Nat) :
    SameExprs rules (setReached rules1 r) := by
  intro i node1 hi
  unfold setReached at hi
  cases hg : rules1.get? r with
  | none => rw [hg] at hi; exact h i node1 hi
  | some n0 =>
    rw [hg] at hi
    simp only [List.get?_eq_getElem?, List.getElem?_set] at hi
    by_cases hri : r = i
    · subst hri
      rw [if_pos rfl] at hi
      split at hi
      · simp only [Option.some.injEq] at hi
        subst hi
        exact h r n0 hg
      · simp at hi
    · rw [if_neg hri] at hi
      exact h i node1 (by simpa [List.get?_eq_getElem?] using hi)

theorem isReached_setReached_of {rules : List Rule} {R : Nat} (h : isReached rules R = true)
    (r : Nat) : isReached (setReached rules r) R = true := by
  by_cases hr : r < rules.length
  · rw [isReached_setReached hr]
    split
    · rfl
    · exact h
  · have : rules.get? r = none := by simp [List.get?_eq_getElem?]; omega
    simp only [setReached, this, h]

theorem consumesInputRule_some {fuel r : Nat} {S S1 : List Rule} {b : Bool} {w : List String}
    (h : consumesInputRule fuel r S = some (b, S1, w)) :
    ∃ k node, fuel = k + 1 ∧ S.get? r = some node ∧
      ((RuleReached &&& node.flags ≠ 0 ∧ b = false ∧ w = [node.name]) ∨
       (RuleReached &&& node.flags = 0 ∧ node.expression = none ∧ b = false ∧ w = []) ∨
       (RuleReached &&& node.flags = 0 ∧ ∃ e S2, node.expression = some e ∧
          consumesInput (consumesInputRule k) e (setReached S r) = some (b, S2, w))) := by
  cases fuel with
  | zero => simp [consumesInputRule] at h
  | succ k =>
    cases hg : S.get? r with
    | none =>
      simp only [consumesInputRule, hg] at h
      cases h
    | some node =>
      refine ⟨k, node, rfl, rfl, ?_⟩
      by_cases hfl : RuleReached &&& node.flags ≠ 0
      · simp only [consumesInputRule, hg, if_pos hfl, Option.some.injEq, Prod.mk.injEq] at h
        exact Or.inl ⟨hfl, h.1.symm, h.2.2.symm⟩
      · have hfl0 : RuleReached &&& node.flags = 0 := by simpa using hfl
        cases he : node.expression with
        | none =>
          simp only [consumesInputRule, hg, if_neg hfl, he, Option.some.injEq,
            Prod.mk.injEq] at h
          exact Or.inr (Or.inl ⟨hfl0, rfl, h.1.symm, h.2.2.symm⟩)
        | some e =>
          simp only [consumesInputRule, hg, if_neg hfl, he] at h
          cases h1 : consumesInput (consumesInputRule k) e (setReached S r) with
          | none => simp [h1] at h
          | some x =>
            obtain ⟨b1, S2, w1⟩ := x
            simp only [h1, Option.some.injEq, Prod.mk.injEq] at h
            exact Or.inr (Or.inr ⟨hfl0, e, S2, rfl, by rw [← h.1, ← h.2.2]; exact h1⟩)

theorem sameExprs_refl (rules : List Rule) : SameExprs rules rules :=
  fun _ node1 h => ⟨node1, h, rfl⟩

theorem analysis_warns {fuel R : Nat} {rules : List Rule} (hw : WellFormed rules)
    (hf : rules.length < fuel)
    (hR : ∀ b S w, consumesInputRule fuel R rules = some (b, S, w) → w ≠ []) :
    ∀ (k r : Nat), r + k = rules.length → r ≤ R → R < rules.length →
      ∀ S w, analysis fuel k r rules = some (S, w) → w ≠ []
  | 0, r, h1, h2, h3, _, _, _ => by omega
  | k + 1, r, h1, h2, h3, S, w, h => by
    obtain ⟨b, w1, hc⟩ := totalOn_rule hw hf r (by omega)
    simp only [analysis, hc] at h
    cases ha : analysis fuel k (r + 1) rules with
    | none => simp [ha] at h
    | some y =>
      obtain ⟨S2, w2⟩ := y
      simp only [ha, Option.some.injEq, Prod.mk.injEq] at h
      rw [← h.2]
      by_cases hrR : r = R
      · subst hrR
        have := hR _ _ _ hc
        simp [this]
      · have := analysis_warns hw hf hR k (r + 1) (by omega) (by omega) h3 S2 w2 ha
        simp [this]

theorem run_stuck {U : UserCode} {call : Nat → yycontext → Option (Bool × yycontext)}
    {code rest : List Instr} {i : Instr} {s : Frame} (h : execInstr U call i s = none) :
    ∀ n, run U call n code (i :: rest) s = none
  | 0 => rfl
  | n + 1 => by simp only [run, h]

theorem run_never {U : UserCode} {call : Nat → yycontext → Option (Bool × yycontext)}
    {code rest : List Instr} {i : Instr} {s s1 : Frame}
    (h : execInstr U call i s = some (.fall, s1)) (hr : ∀ n, run U call n code rest s1 = none) :
    ∀ n, run U call n code (i :: rest) s = none
  | 0 => rfl
  | n + 1 => by simp only [run, h, hr]

theorem grammarOpt_never :
    ∀ (fuel : Nat) (yy : yycontext), yyrule noUser (Rule_compile_c2 grammarOpt 0).1 fuel 0 yy = none
  | 0, _ => rfl
  | fuel + 1, yy => by
    have ih := grammarOpt_never fuel
    obtain ⟨rest0, hP⟩ : ∃ rest0, (Rule_compile_c2 grammarOpt 0).1 =
        [some (save 0 :: Instr.stmt .yyprintf :: begin :: save 2 ::
          Instr.test (.call 0) 2 :: rest0)] := ⟨_, rfl⟩
    have hstuck : ∀ s : Frame, execInstr noUser (yyrule noUser (Rule_compile_c2 grammarOpt 0).1 fuel)
        (Instr.test (.call 0) 2) s = none := by
      intro s
      simp only [execInstr, evalTest, ih]
    rw [yyrule]
    generalize hcall : yyrule noUser (Rule_compile_c2 grammarOpt 0).1 fuel = call at hstuck
    rw [hP]
    simp only [List.getD_cons_zero]
    have h5 : ∀ (code : List Instr) (s : Frame) (n : Nat),
        run noUser call n code (Instr.test (.call 0) 2 :: rest0) s = none :=
      fun code s => run_stuck (hstuck s)
    have h4 : ∀ (code : List Instr) (s : Frame) (n : Nat),
        run noUser call n code (save 2 :: Instr.test (.call 0) 2 :: rest0) s = none :=
      fun code s => run_never (show execInstr noUser call (save 2) s = some (.fall, _) from rfl)
        (h5 code _)
    have h3 : ∀ (code : List Instr) (s : Frame) (n : Nat),
        run noUser call n code (begin :: save 2 :: Instr.test (.call 0) 2 :: rest0) s = none :=
      fun code s => run_never (show execInstr noUser call begin s = some (.fall, _) from rfl)
        (h4 code _)
    have h2 : ∀ (code : List Instr) (s : Frame) (n : Nat),
        run noUser call n code (Instr.stmt .yyprintf :: begin :: save 2 ::
          Instr.test (.call 0) 2 :: rest0) s = none :=
      fun code s => run_never
        (show execInstr noUser call (Instr.stmt .yyprintf) s = some (.fall, _) from rfl)
        (h3 code _)
    have h1 : ∀ (code : List Instr) (s : Frame) (n : Nat),
        run noUser call n code (save 0 :: Instr.stmt .yyprintf :: begin :: save 2 ::
          Instr.test (.call 0) 2 :: rest0) s = none :=
      fun code s => run_never (show execInstr noUser call (save 0) s = some (.fall, _) from rfl)
        (h2 code _)
    rw [h1]

/-! ### Soundness of the analysis -/

theorem pos_refill {yy yy1 : yycontext} {b : Bool} (h : yyrefill yy = some (b, yy1)) :
    yy1._pos = yy._pos := by
  unfold yyrefill at h
  split at h
  · simp at h
  · split at h <;> simp only [Option.some.injEq, Prod.mk.injEq] at h <;>
      (obtain ⟨_, rfl⟩ := h; rfl)

theorem pos_needInput {yy yy1 : yycontext} {b : Bool} (h : needInput yy = some (b, yy1)) :
    yy1._pos = yy._pos := by
  unfold needInput at h
  split at h
  · exact pos_refill h
  · simp only [Option.some.injEq, Prod.mk.injEq] at h
    obtain ⟨_, rfl⟩ := h
    rfl

theorem pos_recordMaxPos (yy : yycontext) : (yyrecordMaxPos yy)._pos = yy._pos := by
  unfold yyrecordMaxPos
  split <;> rfl

theorem pos_matchDot {yy yy1 : yycontext} (h : yymatchDot yy = some (true, yy1)) :
    yy1._pos = yy._pos + 1 := by
  unfold yymatchDot at h
  split at h
  · simp at h
  · simp at h
  · next yy2 hn =>
    simp only [Option.some.injEq, Prod.mk.injEq, true_and] at h
    rw [← h, pos_recordMaxPos, ← pos_needInput hn]

theorem pos_matchChar {yy yy1 : yycontext} {c : Nat} (h : yymatchChar yy c = some (true, yy1)) :
    yy1._pos = yy._pos + 1 := by
  unfold yymatchChar at h
  split at h
  · simp at h
  · simp at h
  · next yy2 hn =>
    split at h
    · simp only [Option.some.injEq, Prod.mk.injEq, true_and] at h
      rw [← h, pos_recordMaxPos, ← pos_needInput hn]
    · simp at h

theorem pos_matchClass {yy yy1 : yycontext} {bits : List Nat}
    (h : yymatchClass yy bits = some (true, yy1)) : yy1._pos = yy._pos + 1 := by
  unfold yymatchClass at h
  split at h
  · simp at h
  · simp at h
  · next yy2 hn =>
    split at h
    · simp only [Option.some.injEq, Prod.mk.injEq, true_and] at h
      rw [← h, pos_recordMaxPos, ← pos_needInput hn]
    · simp at h

theorem pos_matchStringLoop (yysav : Nat) : ∀ (s : List Nat) (yy yy1 : yycontext),
    yymatchStringLoop yysav s yy = some (true, yy1) →
    yy._pos ≤ yy1._pos ∧ (peekc s ≠ 0 → yy._pos < yy1._pos)
  | [], yy, yy1, h => by
    simp only [yymatchStringLoop, Option.some.injEq, Prod.mk.injEq, true_and] at h
    rw [← h, pos_recordMaxPos]
    simp [peekc]
  | c :: s, yy, yy1, h => by
    simp only [yymatchStringLoop] at h
    split at h
    · next hc =>
      simp only [Option.some.injEq, Prod.mk.injEq, true_and] at h
      rw [← h, pos_recordMaxPos]
      simp [peekc, hc]
    · split at h
      · simp at h
      · simp at h
      · next yy2 hn =>
        split at h
        · simp at h
        · have := (pos_matchStringLoop yysav s _ yy1 h).1
          have h2 := pos_needInput hn
          simp only at this
          constructor <;> intros <;> omega

theorem pos_matchIStringLoop (yysav : Nat) : ∀ (s : List Nat) (yy yy1 : yycontext),
    yymatchIStringLoop yysav s yy = some (true, yy1) →
    yy._pos ≤ yy1._pos ∧ (peekc s ≠ 0 → yy._pos < yy1._pos)
  | [], yy, yy1, h => by
    simp only [yymatchIStringLoop, Option.some.injEq, Prod.mk.injEq, true_and] at h
    rw [← h, pos_recordMaxPos]
    simp [peekc]
  | c :: s, yy, yy1, h => by
    simp only [yymatchIStringLoop] at h
    split at h
    · next hc =>
      simp only [Option.some.injEq, Prod.mk.injEq, true_and] at h
      rw [← h, pos_recordMaxPos]
      simp [peekc, hc]
    · split at h
      · simp at h
      · simp at h
      · next yy2 hn =>
        split at h
        · simp at h
        · have := (pos_matchIStringLoop yysav s _ yy1 h).1
          have h2 := pos_needInput hn
          simp only at this
          constructor <;> intros <;> omega

theorem pos_yyText {yy yy1 : yycontext} {b e n : Int} (h : yyText yy b e = some (n, yy1)) :
    yy1._pos = yy._pos := by
  unfold yyText at h
  split at h
  · simp only [Option.some.injEq, Prod.mk.injEq] at h
    obtain ⟨_, rfl⟩ := h
    rfl
  · split at h
    · simp at h
    · simp only at h
      split at h
      · simp at h
      · simp only [Option.some.injEq, Prod.mk.injEq] at h
        obtain ⟨_, rfl⟩ := h
        rfl

theorem pos_yyDo {yy yy1 : yycontext} {a : yyaction} {b e : Int}
    (h : yyDo yy a b e = some yy1) : yy1._pos = yy._pos := by
  unfold yyDo at h
  split at h
  · simp at h
  · simp only [Option.some.injEq] at h
    subst h
    rfl

theorem pos_evalTest (hU : UserKeepsPos U) (hc : CallMono call) {c : Test}
    {yy yy1 : yycontext} (h : evalTest U call c yy = some (true, yy1)) :
    yy._pos ≤ yy1._pos := by
  cases c with
  | matchDot => have := pos_matchDot h; omega
  | call rule => exact hc _ _ _ h
  | matchChar lit => have := pos_matchChar h; omega
  | matchString lit => exact (pos_matchStringLoop _ _ _ _ h).1
  | matchIString lit => exact (pos_matchIStringLoop _ _ _ _ h).1
  | matchClass lit =>
    cases lit with
    | none => simp [evalTest] at h
    | some l => have := pos_matchClass h; omega
  | predicate text =>
    simp only [evalTest] at h
    split at h
    · simp at h
    · next n yy2 ht =>
      simp only [Option.some.injEq] at h
      have h1 := (hU text yy2).2
      rw [h] at h1
      have h2 := pos_yyText ht
      simp only at h1
      omega

theorem pos_evalStmt (hU : UserKeepsPos U) {e : Node} {a : Stmt} (ha : stmtOf e = some a)
    {yy yy1 : yycontext} (h : evalStmt U a yy = some yy1) : yy1._pos = yy._pos := by
  cases e <;> simp [stmtOf] at ha <;> subst ha
  · exact pos_yyDo h
  · simp only [evalStmt] at h
    split at h
    · simp at h
    · next n yy2 ht =>
      simp only [Option.some.injEq] at h
      rw [← h, (hU _ yy2).1, pos_yyText ht]

theorem pos_outcome (hU : UserKeepsPos U) (hc : CallMono call) {vars : List Variable}
    {e : Node} {yy yy1 : yycontext} {b : Bool} (h : Outcome U call vars e yy b yy1) :
    b = true → yy._pos ≤ yy1._pos := by
  induction h with
  | test ht hev => intro hb; subst hb; exact pos_evalTest hU hc hev
  | stmt ht hev => intro _; exact le_of_eq (pos_evalStmt hU ht hev).symm
  | name_ko hev => intro hb; cases hb
  | name_ok hev hd => intro _; have := hc _ _ _ hev; have := pos_yyDo hd; omega
  | error_ok _ ih => exact ih
  | error_ko _ _ _ => intro hb; cases hb
  | alt_nil => intro _; exact le_refl _
  | alt_last _ ih => exact ih
  | alt_ok _ ih => exact ih
  | alt_next _ _ _ ih2 => intro hb; have := ih2 hb; simpa [rewind] using this
  | seq_nil => intro _; exact le_refl _
  | seq_ko _ _ => intro hb; cases hb
  | seq_ok _ _ ih1 ih2 => intro hb; exact le_trans (ih1 rfl) (ih2 hb)
  | peekFor_ok _ _ => intro _; simp [rewind]
  | peekFor_ko _ _ => intro hb; cases hb
  | peekNot_ok _ _ => intro _; simp [rewind]
  | peekNot_ko _ _ => intro hb; cases hb
  | query_ok _ ih => exact ih
  | query_ko _ _ => intro _; simp [rewind]
  | star_out _ _ => intro _; simp [rewind]
  | star_again _ _ ih1 ih2 => intro hb; exact le_trans (ih1 rfl) (ih2 hb)
  | plus_ko _ _ => intro hb; cases hb
  | plus_ok _ _ ih1 ih2 => intro hb; exact le_trans (ih1 rfl) (ih2 hb)

theorem pos_varsDo {node : Rule} {a : yyaction} {yy yy1 : yycontext}
    (h : varsDo node a yy yy1) : yy1._pos = yy._pos := by
  unfold varsDo at h
  split at h
  · subst h; rfl
  · exact pos_yyDo h

theorem callMono_yyrule (hU : UserKeepsPos U) (rules : List Rule) (prev : Nat) :
    ∀ fuel, CallMono (yyrule U (Rule_compile_c2 rules prev).1 fuel)
  | fuel => by
    intro r yy yy1 h
    obtain ⟨n, node, e, hn, _, _, ho⟩ := yyrule_outcome h
    subst hn
    have ih := callMono_yyrule hU rules prev n
    cases ho with
    | ok hpush ho hpop =>
      have h1 := pos_varsDo hpush
      have h2 := pos_outcome hU ih ho rfl
      have h3 := pos_varsDo hpop
      omega

mutual
theorem keeps_node {rule : Nat → List Rule → Option (Bool × List Rule × List String)}
    (hK : KeepsRules rule) : ∀ (e : Node) (S : List Rule) (b : Bool) (S1 : List Rule)
    (w : List String), consumesInput rule e S = some (b, S1, w) → S1 = S
  | .dot, _, _, _, _, h => by
    simp only [consumesInput, Option.some.injEq, Prod.mk.injEq] at h; exact h.2.1.symm
  | .name r v, S, b, S1, w, h => by
    simp only [consumesInput] at h; exact hK r S b S1 w h
  | .character value, _, _, _, _, h => by
    simp only [consumesInput, Option.some.injEq, Prod.mk.injEq] at h; exact h.2.1.symm
  | .string value casefold, _, _, _, _, h => by
    simp only [consumesInput, Option.some.injEq, Prod.mk.injEq] at h; exact h.2.1.symm
  | .cclass value, _, _, _, _, h => by
    simp only [consumesInput, Option.some.injEq, Prod.mk.injEq] at h; exact h.2.1.symm
  | .action name, _, _, _, _, h => by
    simp only [consumesInput, Option.some.injEq, Prod.mk.injEq] at h; exact h.2.1.symm
  | .inLine text, _, _, _, _, h => by
    simp only [consumesInput, Option.some.injEq, Prod.mk.injEq] at h; exact h.2.1.symm
  | .predicate text, _, _, _, _, h => by
    simp only [consumesInput, Option.some.injEq, Prod.mk.injEq] at h; exact h.2.1.symm
  | .error element text, S, b, S1, w, h => by
    simp only [consumesInput] at h; exact keeps_node hK element S b S1 w h
  | .alternate first, S, b, S1, w, h => by
    simp only [consumesInput] at h; exact keeps_alt hK first S b S1 w h
  | .sequence first, S, b, S1, w, h => by
    simp only [consumesInput] at h; exact keeps_seq hK first S b S1 w h
  | .peekFor element, _, _, _, _, h => by
    simp only [consumesInput, Option.some.injEq, Prod.mk.injEq] at h; exact h.2.1.symm
  | .peekNot element, _, _, _, _, h => by
    simp only [consumesInput, Option.some.injEq, Prod.mk.injEq] at h; exact h.2.1.symm
  | .query element, _, _, _, _, h => by
    simp only [consumesInput, Option.some.injEq, Prod.mk.injEq] at h; exact h.2.1.symm
  | .star element, _, _, _, _, h => by
    simp only [consumesInput, Option.some.injEq, Prod.mk.injEq] at h; exact h.2.1.symm
  | .plus element, S, b, S1, w, h => by
    simp only [consumesInput] at h; exact keeps_node hK element S b S1 w h
theorem keeps_alt {rule : Nat → List Rule → Option (Bool × List Rule × List String)}
    (hK : KeepsRules rule) : ∀ (c : Chain) (S : List Rule) (b : Bool) (S1 : List Rule)
    (w : List String), consumesAlternate rule c S = some (b, S1, w) → S1 = S
  | .nil, _, _, _, _, h => by
    simp only [consumesAlternate, Option.some.injEq, Prod.mk.injEq] at h; exact h.2.1.symm
  | .cons n next, S, b, S1, w, h => by
    simp only [consumesAlternate] at h
    cases h1 : consumesInput rule n S with
    | none => simp [h1] at h
    | some x =>
      obtain ⟨b1, S2, w1⟩ := x
      have e1 := keeps_node hK n S b1 S2 w1 h1
      subst e1
      cases b1 with
      | false =>
        simp only [h1, Option.some.injEq, Prod.mk.injEq] at h; exact h.2.1.symm
      | true =>
        simp only [h1] at h
        cases h2 : consumesAlternate rule next S2 with
        | none => simp [h2] at h
        | some y =>
          obtain ⟨b2, S3, w2⟩ := y
          simp only [h2, Option.some.injEq, Prod.mk.injEq] at h
          rw [← h.2.1]
          exact keeps_alt hK next S2 b2 S3 w2 h2
theorem keeps_seq {rule : Nat → List Rule → Option (Bool × List Rule × List String)}
    (hK : KeepsRules rule) : ∀ (c : Chain) (S : List Rule) (b : Bool) (S1 : List Rule)
    (w : List String), consumesSequence rule c S = some (b, S1, w) → S1 = S
  | .nil, _, _, _, _, h => by
    simp only [consumesSequence, Option.some.injEq, Prod.mk.injEq] at h; exact h.2.1.symm
  | .cons n next, S, b, S1, w, h => by
    simp only [consumesSequence] at h
    cases h1 : consumesInput rule n S with
    | none => simp [h1] at h
    | some x =>
      obtain ⟨b1, S2, w1⟩ := x
      have e1 := keeps_node hK n S b1 S2 w1 h1
      subst e1
      cases b1 with
      | true =>
        simp only [h1, Option.some.injEq, Prod.mk.injEq] at h; exact h.2.1.symm
      | false =>
        simp only [h1] at h
        cases h2 : consumesSequence rule next S2 with
        | none => simp [h2] at h
        | some y =>
          obtain ⟨b2, S3, w2⟩ := y
          simp only [h2, Option.some.injEq, Prod.mk.injEq] at h
          rw [← h.2.1]
          exact keeps_seq hK next S2 b2 S3 w2 h2
end

theorem keeps_rule : ∀ fuel, KeepsRules (consumesInputRule fuel)
  | 0 => by
    intro r S b S1 w h
    simp [consumesInputRule] at h
  | k + 1 => by
    intro r S b S1 w h
    cases hg : S.get? r with
    | none =>
      simp only [consumesInputRule, hg] at h
      cases h
    | some node =>
      by_cases hfl : RuleReached &&& node.flags ≠ 0
      · simp only [consumesInputRule, hg, if_pos hfl, Option.some.injEq, Prod.mk.injEq] at h
        exact h.2.1.symm
      · have hfl0 : RuleReached &&& node.flags = 0 := by simpa using hfl
        cases he : node.expression with
        | none =>
          simp only [consumesInputRule, hg, if_neg hfl, he, Option.some.injEq,
            Prod.mk.injEq] at h
          rw [← h.2.1, clear_set hg hfl0]
        | some e =>
          simp only [consumesInputRule, hg, if_neg hfl, he] at h
          cases h1 : consumesInput (consumesInputRule k) e (setReached S r) with
          | none => simp [h1] at h
          | some x =>
            obtain ⟨b1, S2, w1⟩ := x
            simp only [h1, Option.some.injEq, Prod.mk.injEq] at h
            have := keeps_node (keeps_rule k) e _ b1 S2 w1 h1
            rw [← h.2.1, this, clear_set hg hfl0]

theorem pos_compileString (isString : Bool) (value : List Nat) (casefold : Bool)
    (hs : startsNonNul (compileString isString value casefold) = true) {yy yy1 : yycontext}
    (h : evalTest U call (compileString isString value casefold) yy = some (true, yy1)) :
    yy._pos < yy1._pos := by
  unfold compileString at h hs
  by_cases h1 : (isString && casefold) = true
  · rw [if_pos h1] at h hs
    simp only [startsNonNul, decide_eq_true_eq] at hs
    exact (pos_matchIStringLoop _ _ _ _ h).2 hs
  · rw [if_neg h1] at h hs
    by_cases h2 : strlen value = 1
    · rw [if_pos h2] at h
      split at h <;> exact Nat.lt_of_lt_of_eq (Nat.lt_succ_self _) (pos_matchChar h).symm
    · rw [if_neg h2] at h hs
      by_cases h3 : strlen value = 2 ∧ peekc value = 92
      · rw [if_pos h3] at h
        have := pos_matchChar h; omega
      · rw [if_neg h3] at h hs
        simp only [startsNonNul, decide_eq_true_eq] at hs
        exact (pos_matchStringLoop _ _ _ _ h).2 hs

mutual
theorem consuming_node (hU : UserKeepsPos U) (hc : CallMono call) (vars : List Variable)
    {rule : Nat → List Rule → Option (Bool × List Rule × List String)} (hK : KeepsRules rule)
    (S : List Rule)
    (ho : ∀ r S1 w, rule r S = some (true, S1, w) →
      ∀ yy yy1, call r yy = some (true, yy1) → yy._pos < yy1._pos) :
    ∀ (e : Node) (S1 : List Rule) (w : List String), literalsOK e = true →
      altsNonEmpty e = true → consumesInput rule e S = some (true, S1, w) →
      Consuming U call vars e
  | .dot, _, _, _, _, _ => by
    intro yy yy1 h
    cases h with
    | test ht hev =>
      simp only [testOf, Option.some.injEq] at ht; subst ht
      have := pos_matchDot hev; omega
    | stmt ht _ => simp [stmtOf] at ht
  | .name r v, S1, w, _, _, h => by
    simp only [consumesInput] at h
    intro yy yy1 hout
    cases hout with
    | test ht hev =>
      cases v <;> simp only [testOf, Option.some.injEq] at ht
      · subst ht; exact ho r S1 w h _ _ hev
      · cases ht
    | stmt ht _ => simp [stmtOf] at ht
    | name_ok hev hd =>
      have := ho r S1 w h _ _ hev
      have := pos_yyDo hd
      omega
  | .character value, _, _, hl, _, h => by
    simp only [consumesInput, Option.some.injEq, Prod.mk.injEq, decide_eq_true_eq] at h
    simp only [literalsOK, Bool.or_eq_true, decide_eq_true_eq] at hl
    intro yy yy1 hout
    cases hout with
    | test ht hev =>
      simp only [testOf, Option.some.injEq] at ht; subst ht
      exact pos_compileString _ _ _ (hl.resolve_left (by omega)) hev
    | stmt ht _ => simp [stmtOf] at ht
  | .string value casefold, _, _, hl, _, h => by
    simp only [consumesInput, Option.some.injEq, Prod.mk.injEq, decide_eq_true_eq] at h
    simp only [literalsOK, Bool.or_eq_true, decide_eq_true_eq] at hl
    intro yy yy1 hout
    cases hout with
    | test ht hev =>
      simp only [testOf, Option.some.injEq] at ht; subst ht
      exact pos_compileString _ _ _ (hl.resolve_left (by omega)) hev
    | stmt ht _ => simp [stmtOf] at ht
  | .cclass value, _, _, _, _, _ => by
    intro yy yy1 hout
    cases hout with
    | test ht hev =>
      simp only [testOf, Option.some.injEq] at ht; subst ht
      simp only [evalTest] at hev
      split at hev
      · simp at hev
      · have := pos_matchClass hev; omega
    | stmt ht _ => simp [stmtOf] at ht
  | .action name, _, _, _, _, h => by simp [consumesInput] at h
  | .inLine text, _, _, _, _, h => by simp [consumesInput] at h
  | .predicate text, _, _, _, _, h => by simp [consumesInput] at h
  | .error element text, S1, w, hl, ha, h => by
    simp only [consumesInput] at h
    simp only [literalsOK] at hl
    simp only [altsNonEmpty] at ha
    have ih := consuming_node hU hc vars hK S ho element S1 w hl ha h
    intro yy yy1 hout
    cases hout with
    | test ht _ => simp [testOf] at ht
    | stmt ht _ => simp [stmtOf] at ht
    | error_ok h1 => exact ih _ _ h1
  | .alternate first, S1, w, hl, ha, h => by
    simp only [consumesInput] at h
    simp only [literalsOK] at hl
    cases first with
    | nil => simp [altsNonEmpty] at ha
    | cons n next =>
      have ha2 : chainAltsNonEmpty (.cons n next) = true := by
        simpa only [altsNonEmpty, chainAltsNonEmpty] using ha
      exact consuming_alt hU hc vars hK S ho (.cons n next) S1 w (by simp) hl ha2 h
  | .sequence first, S1, w, hl, ha, h => by
    simp only [consumesInput] at h
    simp only [literalsOK] at hl
    simp only [altsNonEmpty] at ha
    exact consuming_seq hU hc vars hK S ho first S1 w hl ha h
  | .peekFor element, _, _, _, _, h => by simp [consumesInput] at h
  | .peekNot element, _, _, _, _, h => by simp [consumesInput] at h
  | .query element, _, _, _, _, h => by simp [consumesInput] at h
  | .star element, _, _, _, _, h => by simp [consumesInput] at h
  | .plus element, S1, w, hl, ha, h => by
    simp only [consumesInput] at h
    simp only [literalsOK] at hl
    simp only [altsNonEmpty] at ha
    have ih := consuming_node hU hc vars hK S ho element S1 w hl ha h
    intro yy yy1 hout
    cases hout with
    | test ht _ => simp [testOf] at ht
    | stmt ht _ => simp [stmtOf] at ht
    | plus_ok h1 h2 =>
      have := ih _ _ h1
      have := pos_outcome hU hc h2 rfl
      omega
theorem consuming_alt (hU : UserKeepsPos U) (hc : CallMono call) (vars : List Variable)
    {rule : Nat → List Rule → Option (Bool × List Rule × List String)} (hK : KeepsRules rule)
    (S : List Rule)
    (ho : ∀ r S1 w, rule r S = some (true, S1, w) →
      ∀ yy yy1, call r yy = some (true, yy1) → yy._pos < yy1._pos) :
    ∀ (c : Chain) (S1 : List Rule) (w : List String), c ≠ .nil →
      chainLiteralsOK c = true → chainAltsNonEmpty c = true →
      consumesAlternate rule c S = some (true, S1, w) →
      Consuming U call vars (.alternate c)
  | .nil, _, _, hn, _, _, _ => absurd rfl hn
  | .cons n .nil, S1, w, _, hl, ha, h => by
    simp only [chainLiteralsOK, Bool.and_true] at hl
    simp only [chainAltsNonEmpty, Bool.and_true] at ha
    simp only [consumesAlternate] at h
    cases h1 : consumesInput rule n S with
    | none => simp [h1] at h
    | some x =>
      obtain ⟨b1, S2, w1⟩ := x
      cases b1 with
      | false => simp [h1] at h
      | true =>
        have ih := consuming_node hU hc vars hK S ho n S2 w1 hl ha h1
        intro yy yy1 hout
        cases hout with
        | test ht _ => simp [testOf] at ht
        | stmt ht _ => simp [stmtOf] at ht
        | alt_last h2 => exact ih _ _ h2
  | .cons n (.cons n2 rest), S1, w, _, hl, ha, h => by
    rw [chainLiteralsOK, Bool.and_eq_true] at hl
    rw [chainAltsNonEmpty, Bool.and_eq_true] at ha
    rw [consumesAlternate] at h
    cases h1 : consumesInput rule n S with
    | none => simp [h1] at h
    | some x =>
      obtain ⟨b1, S2, w1⟩ := x
      cases b1 with
      | false => simp [h1] at h
      | true =>
        have e1 := keeps_node hK n S true S2 w1 h1
        subst e1
        simp only [h1] at h
        cases h2 : consumesAlternate rule (.cons n2 rest) S2 with
        | none => simp [h2] at h
        | some y =>
          obtain ⟨b2, S3, w2⟩ := y
          simp only [h2, Option.some.injEq, Prod.mk.injEq] at h
          obtain ⟨hb, _, _⟩ := h
          subst hb
          have ih1 := consuming_node hU hc vars hK S2 ho n S2 w1 hl.1 ha.1 h1
          have ih2 := consuming_alt hU hc vars hK S2 ho (.cons n2 rest) S3 w2 (by simp)
            hl.2 ha.2 h2
          intro yy yy1 hout
          cases hout with
          | test ht _ => simp [testOf] at ht
          | stmt ht _ => simp [stmtOf] at ht
          | alt_ok h3 => exact ih1 _ _ h3
          | alt_next h3 h4 =>
            have := ih2 _ _ h4
            simpa [rewind] using this
theorem consuming_seq (hU : UserKeepsPos U) (hc : CallMono call) (vars : List Variable)
    {rule : Nat → List Rule → Option (Bool × List Rule × List String)} (hK : KeepsRules rule)
    (S : List Rule)
    (ho : ∀ r S1 w, rule r S = some (true, S1, w) →
      ∀ yy yy1, call r yy = some (true, yy1) → yy._pos < yy1._pos) :
    ∀ (c : Chain) (S1 : List Rule) (w : List String), chainLiteralsOK c = true →
      chainAltsNonEmpty c = true → consumesSequence rule c S = some (true, S1, w) →
      Consuming U call vars (.sequence c)
  | .nil, _, _, _, _, h => by simp [consumesSequence] at h
  | .cons n next, S1, w, hl, ha, h => by
    rw [chainLiteralsOK, Bool.and_eq_true] at hl
    rw [chainAltsNonEmpty, Bool.and_eq_true] at ha
    rw [consumesSequence] at h
    cases h1 : consumesInput rule n S with
    | none => simp [h1] at h
    | some x =>
      obtain ⟨b1, S2, w1⟩ := x
      have e1 := keeps_node hK n S b1 S2 w1 h1
      subst e1
      cases b1 with
      | true =>
        have ih := consuming_node hU hc vars hK S2 ho n S2 w1 hl.1 ha.1 h1
        intro yy yy1 hout
        cases hout with
        | test ht _ => simp [testOf] at ht
        | stmt ht _ => simp [stmtOf] at ht
        | seq_ok h3 h4 =>
          have := ih _ _ h3
          have := pos_outcome hU hc h4 rfl
          omega
      | false =>
        simp only [h1] at h
        cases h2 : consumesSequence rule next S2 with
        | none => simp [h2] at h
        | some y =>
          obtain ⟨b2, S3, w2⟩ := y
          simp only [h2, Option.some.injEq, Prod.mk.injEq] at h
          obtain ⟨hb, _, _⟩ := h
          subst hb
          have ih := consuming_seq hU hc vars hK S2 ho next S3 w2 hl.2 ha.2 h2
          intro yy yy1 hout
          cases hout with
          | test ht _ => simp [testOf] at ht
          | stmt ht _ => simp [stmtOf] at ht
          | seq_ok h3 h4 =>
            have := pos_outcome hU hc h3 rfl
            have := ih _ _ h4
            omega
end

theorem consuming_rule (hU : UserKeepsPos U) (rules : List Rule) (prev : Nat)
    (hm : Matchable rules) : ∀ (k r : Nat) (S S1 : List Rule) (w : List String),
    SameExprs rules S → consumesInputRule k r S = some (true, S1, w) →
    ∀ m yy yy1, yyrule U (Rule_compile_c2 rules prev).1 m r yy = some (true, yy1) →
      yy._pos < yy1._pos
  | k, r, S, S1, w, hS, h, m, yy, yy1, hrun => by
    obtain ⟨k1, node1, hk, hg1, h3⟩ := consumesInputRule_some h
    subst hk
    obtain ⟨node0, hg0, he0⟩ := hS r node1 hg1
    obtain ⟨n, node, e, hn, hg, he, hout⟩ := yyrule_outcome hrun
    rw [hg0] at hg
    simp only [Option.some.injEq] at hg
    subst hg
    rcases h3 with ⟨_, hb, _⟩ | ⟨_, _, hb, _⟩ | ⟨_, e1, S2, he1, h1⟩
    · cases hb
    · cases hb
    · rw [← he0, he] at he1
      simp only [Option.some.injEq] at he1
      subst he1
      have hmem : node0 ∈ rules := by
        rw [List.get?_eq_getElem?] at hg0
        obtain ⟨hlt, heq⟩ := List.getElem?_eq_some_iff.1 hg0
        exact heq ▸ List.getElem_mem hlt
      have hlit := hm node0 hmem e he
      have hcons : Consuming U (yyrule U (Rule_compile_c2 rules prev).1 n) node0.vars e :=
        consuming_node hU (callMono_yyrule hU rules prev n) node0.vars (keeps_rule k1)
          (setReached S r)
          (fun r2 S3 w3 h4 yy2 yy3 hcall =>
            consuming_rule hU rules prev hm k1 r2 (setReached S r) S3 w3
              (sameExprs_setReached hS r) h4 n yy2 yy3 hcall)
          e S2 w hlit.1 hlit.2 h1
      cases hout with
      | ok hpush ho hpop =>
        have h5 := pos_varsDo hpush
        have h6 := hcons _ _ ho
        have h7 := pos_varsDo hpop
        omega

/-- C16, amended (soundness of `consumesInput`): in a grammar none of whose
literals is matched as a C string that begins with NUL and none of whose
`Alternate` nodes is empty, if `consumesInput` returns 1 on rule `R` then every
run of the procedure printed for `R` that returns 1 ends with the cursor
greater than at entry, the inline blocks and predicates of the grammar's author
leaving the cursor alone. -/
theorem consumes_sound (U : UserCode) (hU : UserKeepsPos U) (rules : List Rule)
    (prev fuel R : Nat) (hm : Matchable rules) (S1 : List Rule) (w : List String)
    (h : consumesInputRule fuel R rules = some (true, S1, w)) (m : Nat) (yy yy1 : yycontext)
    (hrun : yyrule U (Rule_compile_c2 rules prev).1 m R yy = some (true, yy1)) :
    yy._pos < yy1._pos :=
  consuming_rule hU rules prev hm fuel R rules S1 w (sameExprs_refl rules) h m yy yy1 hrun

theorem matchable_grammarAb : Matchable grammarAb := by
  intro node hnode e he
  simp only [grammarAb, List.mem_singleton] at hnode
  subst hnode
  simp only [Option.some.injEq] at he
  subst he
  decide

theorem consumes_sound_witness :
    ∃ yy1, yyrule noUser (Rule_compile_c2 grammarAb 0).1 30 0 (ready [97, 98]) =
        some (true, yy1) ∧ (ready [97, 98])._pos < yy1._pos := by
  obtain ⟨y, hy, hv⟩ := some_of_map
    (o := yyrule noUser (Rule_compile_c2 grammarAb 0).1 30 0 (ready [97, 98]))
    (p := fun y => y.1) (by decide)
  obtain ⟨v, yy1⟩ := y
  simp only at hv
  subst hv
  obtain ⟨x, hx, hb⟩ := some_of_map (o := consumesInputRule 2 0 grammarAb)
    (p := fun x => x.1) (by decide)
  obtain ⟨b, S1, w⟩ := x
  simp only at hb
  subst hb
  exact ⟨yy1, hy, consumes_sound noUser (fun _ _ => ⟨rfl, rfl⟩) grammarAb 0 2 0
    matchable_grammarAb S1 w hx 30 _ _ hy⟩

/-- C16 as stated fails: on `A <- "\000"` `consumesInput` returns 1, and the
procedure of `A` returns 1 with the cursor where it was, the C string `"\000"`
being empty. -/
theorem consumes_unsound_nul :
    (consumesInputRule 2 0 grammarNul).map (fun x => x.1) = some true ∧
    (yyrule noUser (Rule_compile_c2 grammarNul 0).1 30 0 (ready [97])).map
      (fun r => (r.1, r.2._pos)) = some (true, (ready [97])._pos) := by
  constructor <;> decide

/-! ### The rule boundary -/

theorem inner_mono {ko ko1 prev prev1 : Nat} {i : Instr} (h : inner ko1 prev1 i)
    (hp : prev ≤ prev1) (hk : ko1 = ko ∨ prev < ko1) : inner ko prev i := by
  cases i <;> simp only [inner] at h ⊢ <;> omega

theorem counter_le (vars : List Variable) (e : Node) (ko prev : Nat) :
    prev ≤ (Node_compile_c_ko vars e ko prev).2 := (labels_node vars e ko prev).1

mutual
theorem inner_node (vars : List Variable) : ∀ (e : Node) (ko prev : Nat) (i : Instr),
    i ∈ (Node_compile_c_ko vars e ko prev).1 → inner ko prev i
  | .dot, ko, prev, i, hi => by
    simp only [Node_compile_c_ko, List.mem_singleton] at hi
    subst hi; simp [inner]
  | .name rule var, ko, prev, i, hi => by
    cases var <;> simp only [Node_compile_c_ko, List.mem_append, List.mem_singleton,
      List.not_mem_nil, or_false] at hi
    · subst hi; simp [inner]
    · rcases hi with hi | hi <;> subst hi <;> simp [inner]
  | .character value, ko, prev, i, hi => by
    simp only [Node_compile_c_ko, List.mem_singleton] at hi
    subst hi; simp [inner]
  | .string value casefold, ko, prev, i, hi => by
    simp only [Node_compile_c_ko, List.mem_singleton] at hi
    subst hi; simp [inner]
  | .cclass value, ko, prev, i, hi => by
    simp only [Node_compile_c_ko, List.mem_singleton] at hi
    subst hi; simp [inner]
  | .action name, ko, prev, i, hi => by
    simp only [Node_compile_c_ko, List.mem_singleton] at hi
    subst hi; simp [inner]
  | .inLine text, ko, prev, i, hi => by
    simp only [Node_compile_c_ko, List.mem_singleton] at hi
    subst hi; simp [inner]
  | .predicate text, ko, prev, i, hi => by
    simp only [Node_compile_c_ko, List.mem_singleton] at hi
    subst hi; simp [inner]
  | .error element text, ko, prev, i, hi => by
    simp only [Node_compile_c_ko, yyl, List.mem_append, List.mem_cons, List.mem_singleton,
      List.not_mem_nil, or_false, jump, label] at hi
    rcases hi with hi | hi | hi | hi | hi | hi
    · exact inner_mono (inner_node vars element _ _ i hi) (by omega) (Or.inr (by omega))
    all_goals (subst hi; simp only [inner] <;> first | omega | simp)
  | .alternate first, ko, prev, i, hi => by
    simp only [Node_compile_c_ko, yyl, List.mem_append, List.mem_cons, List.mem_singleton,
      List.not_mem_nil, or_false, begin, save, end_, label] at hi
    rcases hi with ((hi | hi) | hi) | hi | hi
    · subst hi; simp [inner]
    · subst hi; simp only [inner] <;> first | omega | simp
    · rcases inner_alt vars first (prev + 1) ko (prev + 1) i hi with h | h | h
      · exact inner_mono h (by omega) (Or.inl rfl)
      · subst h; simp only [inner]; omega
      · subst h; simp only [inner]; omega
    · subst hi; simp [inner]
    · subst hi; simp only [inner] <;> first | omega | simp
  | .sequence first, ko, prev, i, hi => by
    simp only [Node_compile_c_ko] at hi
    exact inner_seq vars first ko prev i hi
  | .peekFor element, ko, prev, i, hi => by
    simp only [Node_compile_c_ko, yyl, List.mem_append, List.mem_cons, List.mem_singleton,
      List.not_mem_nil, or_false, begin, save, end_, restore] at hi
    rcases hi with ((hi | hi) | hi) | hi | hi
    · subst hi; simp [inner]
    · subst hi; simp only [inner] <;> first | omega | simp
    · exact inner_mono (inner_node vars element _ _ i hi) (by omega) (Or.inl rfl)
    · subst hi; simp only [inner] <;> first | omega | simp
    · subst hi; simp [inner]
  | .peekNot element, ko, prev, i, hi => by
    simp only [Node_compile_c_ko, yyl, List.mem_append, List.mem_cons, List.mem_singleton,
      List.not_mem_nil, or_false, begin, save, end_, restore, saveMaxPos, restoreMaxPos, jump,
      label] at hi
    rcases hi with ((hi | hi | hi) | hi) | hi | hi | hi | hi | hi | hi
    · subst hi; simp [inner]
    · subst hi; simp only [inner] <;> first | omega | simp
    · subst hi; simp only [inner] <;> first | omega | simp
    · exact inner_mono (inner_node vars element _ _ i hi) (by omega) (Or.inr (by omega))
    all_goals (subst hi; simp only [inner] <;> first | omega | simp)
  | .query element, ko, prev, i, hi => by
    simp only [Node_compile_c_ko, yyl, List.mem_append, List.mem_cons, List.mem_singleton,
      List.not_mem_nil, or_false, begin, save, end_, restore, jump, label] at hi
    rcases hi with ((hi | hi) | hi) | hi | hi | hi | hi | hi
    · subst hi; simp [inner]
    · subst hi; simp only [inner] <;> first | omega | simp
    · exact inner_mono (inner_node vars element _ _ i hi) (by omega) (Or.inr (by omega))
    all_goals (subst hi; simp only [inner] <;> first | omega | simp)
  | .star element, ko, prev, i, hi => by
    simp only [Node_compile_c_ko, yyl, List.mem_append, List.mem_cons, List.mem_singleton,
      List.not_mem_nil, or_false, begin, save, end_, restore, jump, label] at hi
    rcases hi with ((hi | hi | hi) | hi) | hi | hi | hi | hi
    · subst hi; simp only [inner] <;> first | omega | simp
    · subst hi; simp [inner]
    · subst hi; simp only [inner] <;> first | omega | simp
    · exact inner_mono (inner_node vars element _ _ i hi) (by omega) (Or.inr (by omega))
    all_goals (subst hi; simp only [inner] <;> first | omega | simp)
  | .plus element, ko, prev, i, hi => by
    have hle := counter_le vars element ko (prev + 1 + 1)
    simp only [Node_compile_c_ko, yyl, List.mem_append, List.mem_cons, List.mem_singleton,
      List.not_mem_nil, or_false, begin, save, end_, restore, jump, label] at hi
    rcases hi with (((hi | hi | hi | hi) | hi)) | hi | hi | hi | hi
    · exact inner_mono (inner_node vars element _ _ i hi) (by omega) (Or.inl rfl)
    · subst hi; simp only [inner] <;> first | omega | simp
    · subst hi; simp [inner]
    · subst hi; simp only [inner] <;> first | omega | simp
    · exact inner_mono (inner_node vars element _ _ i hi) (by omega) (Or.inr (by omega))
    all_goals (subst hi; simp only [inner] <;> first | omega | simp)
theorem inner_alt (vars : List Variable) : ∀ (c : Chain) (ok ko prev : Nat) (i : Instr),
    i ∈ (alternateLoop vars c ok ko prev).1 → inner ko prev i ∨ i = .jump ok ∨ i = .restore ok
  | .nil, ok, ko, prev, i, hi => by simp [alternateLoop] at hi
  | .cons node .nil, ok, ko, prev, i, hi => by
    simp only [alternateLoop] at hi
    exact Or.inl (inner_node vars node ko prev i hi)
  | .cons node (.cons node2 rest), ok, ko, prev, i, hi => by
    have hle := counter_le vars node (prev + 1) (prev + 1)
    simp only [alternateLoop, yyl, List.mem_append, List.mem_cons, List.mem_singleton,
      List.not_mem_nil, or_false, jump, label, restore] at hi
    rcases hi with (hi | hi | hi | hi) | hi
    · exact Or.inl (inner_mono (inner_node vars node _ _ i hi) (by omega) (Or.inr (by omega)))
    · exact Or.inr (Or.inl hi)
    · subst hi; left; simp only [inner]; omega
    · exact Or.inr (Or.inr hi)
    · rcases inner_alt vars (.cons node2 rest) ok ko _ i hi with h | h
      · exact Or.inl (inner_mono h (by omega) (Or.inl rfl))
      · exact Or.inr h
theorem inner_seq (vars : List Variable) : ∀ (c : Chain) (ko prev : Nat) (i : Instr),
    i ∈ (sequenceLoop vars c ko prev).1 → inner ko prev i
  | .nil, ko, prev, i, hi => by simp [sequenceLoop] at hi
  | .cons node next, ko, prev, i, hi => by
    have hle := counter_le vars node ko prev
    simp only [sequenceLoop, List.mem_append] at hi
    rcases hi with hi | hi
    · exact inner_node vars node ko prev i hi
    · exact inner_mono (inner_seq vars next ko _ i hi) hle (Or.inl rfl)
end

theorem inner_safe (vars : List Variable) {e : Node} (hs : isSafe e = true) (ko prev : Nat)
    {i : Instr} (hi : i ∈ (Node_compile_c_ko vars e ko prev).1) : inner (prev + 1) prev i := by
  cases e with
  | query el =>
    exact inner_node vars (.query el) (prev + 1) prev i (by
      simp only [Node_compile_c_ko] at hi ⊢; exact hi)
  | star el =>
    exact inner_node vars (.star el) (prev + 1) prev i (by
      simp only [Node_compile_c_ko] at hi ⊢; exact hi)
  | _ => simp [isSafe] at hs

theorem procs_getD_of : ∀ (rules : List Rule) (prev r : Nat) (node : Rule) (e : Node),
    rules.get? r = some node → node.expression = some e →
    ∃ p, (Rule_compile_c2 rules prev).1.getD r none = some (ruleBody node e p).1
  | [], _, _, _, _, h, _ => by simp at h
  | n0 :: next, prev, 0, node, e, h, he => by
    simp only [List.get?_cons_zero, Option.some.injEq] at h
    subst h
    exact ⟨prev, by simp only [Rule_compile_c2, he, List.getD_cons_zero]⟩
  | n0 :: next, prev, r + 1, node, e, h, he => by
    simp only [List.get?_cons_succ] at h
    cases h0 : n0.expression with
    | none =>
      obtain ⟨p, hp⟩ := procs_getD_of next prev r node e h he
      exact ⟨p, by simp only [Rule_compile_c2, h0, List.getD_cons_succ, hp]⟩
    | some e0 =>
      obtain ⟨p, hp⟩ := procs_getD_of next (ruleBody n0 e0 prev).2 r node e h he
      exact ⟨p, by simp only [Rule_compile_c2, h0, List.getD_cons_succ, hp]⟩

theorem varsStmt_mem {node : Rule} {a : yyaction} {i : Instr} (h : i ∈ varsStmt node a) :
    i = Instr.stmt (.yyDo a (countVariables node.vars) 0) := by
  unfold varsStmt at h
  split at h
  · simp at h
  · simpa using h

theorem grammarLoop_never :
    ∀ (fuel : Nat) (yy : yycontext),
      yyrule noUser (Rule_compile_c2 grammarLoop 0).1 fuel 0 yy = none
  | 0, _ => rfl
  | fuel + 1, yy => by
    have ih := grammarLoop_never fuel
    obtain ⟨rest0, hP⟩ : ∃ rest0, (Rule_compile_c2 grammarLoop 0).1 =
        [some (Instr.stmt .yyprintf :: label 2 :: begin :: save 3 ::
          Instr.test (.call 0) 3 :: rest0)] := ⟨_, rfl⟩
    have hstuck : ∀ s : Frame,
        execInstr noUser (yyrule noUser (Rule_compile_c2 grammarLoop 0).1 fuel)
          (Instr.test (.call 0) 3) s = none := by
      intro s
      simp only [execInstr, evalTest, ih]
    rw [yyrule]
    generalize hcall : yyrule noUser (Rule_compile_c2 grammarLoop 0).1 fuel = call at hstuck
    rw [hP]
    simp only [List.getD_cons_zero]
    have h5 : ∀ (code : List Instr) (s : Frame) (n : Nat),
        run noUser call n code (Instr.test (.call 0) 3 :: rest0) s = none :=
      fun code s => run_stuck (hstuck s)
    have h4 : ∀ (code : List Instr) (s : Frame) (n : Nat),
        run noUser call n code (save 3 :: Instr.test (.call 0) 3 :: rest0) s = none :=
      fun code s => run_never (show execInstr noUser call (save 3) s = some (.fall, _) from rfl)
        (h5 code _)
    have h3 : ∀ (code : List Instr) (s : Frame) (n : Nat),
        run noUser call n code (begin :: save 3 :: Instr.test (.call 0) 3 :: rest0) s = none :=
      fun code s => run_never (show execInstr noUser call begin s = some (.fall, _) from rfl)
        (h4 code _)
    have h2 : ∀ (code : List Instr) (s : Frame) (n : Nat),
        run noUser call n code (label 2 :: begin :: save 3 ::
          Instr.test (.call 0) 3 :: rest0) s = none :=
      fun code s => run_never (show execInstr noUser call (label 2) s = some (.fall, _) from rfl)
        (h3 code _)
    have h1 : ∀ (code : List Instr) (s : Frame) (n : Nat),
        run noUser call n code (Instr.stmt .yyprintf :: label 2 :: begin :: save 3 ::
          Instr.test (.call 0) 3 :: rest0) s = none :=
      fun code s => run_never
        (show execInstr noUser call (Instr.stmt .yyprintf) s = some (.fall, _) from rfl)
        (h2 code _)
    rw [h1]

/-- C18 as stated fails: the rule `A <- A*` has a `Star` on top, and its
procedure returns on no input, so that it does not return 1 on every input. -/
theorem safe_rule_no_return :
    (∃ node e, grammarLoop.get? 0 = some node ∧ node.expression = some e ∧
      isSafe e = true) ∧
    ∀ (fuel : Nat) (yy : yycontext),
      yyrule noUser (Rule_compile_c2 grammarLoop 0).1 fuel 0 yy = none :=
  ⟨⟨_, _, rfl, rfl, rfl⟩, grammarLoop_never⟩

/-! ### Variable offsets -/

theorem countVariables_eq (vars : List Variable) : countVariables vars = vars.length := by
  induction vars with
  | nil => rfl
  | cons v vs ih => simp [countVariables, ih]

theorem defineVariables_length : ∀ (vars : List Variable) (c : Int),
    (defineVariables vars c).length = vars.length
  | [], _ => rfl
  | v :: vs, c => by simp [defineVariables, defineVariables_length vs]

theorem defineVariables_getD : ∀ (vars : List Variable) (c : Int) (i : Nat),
    i < vars.length →
    (defineVariables vars c).getD i ⟨"", 0⟩ =
      ⟨(vars.getD i ⟨"", 0⟩).name, c - ((i : Int) + 1)⟩
  | [], _, _, h => by simp at h
  | v :: vs, c, 0, _ => by simp [defineVariables]
  | v :: vs, c, i + 1, h => by
    have := defineVariables_getD vs (c - 1) i (by simpa using h)
    simp only [defineVariables, List.getD_cons_succ, this]
    congr 1
    push_cast
    ring

theorem defineVariables_idem : ∀ (vars : List Variable) (c : Int),
    defineVariables (defineVariables vars c) c = defineVariables vars c
  | [], _ => rfl
  | v :: vs, c => by simp [defineVariables, defineVariables_idem vs]

theorem defineLoop_get : ∀ (actions : List ActionNode) (rules : List Rule) (r : Nat),
    (defineLoop actions rules).get? r =
      (rules.get? r).map fun n =>
        if actions.any (fun a => a.rule == r) then { n with vars := defineVariables n.vars 0 }
        else n
  | [], rules, r => by simp [defineLoop]
  | a :: list, rules, r => by
    rw [defineLoop, defineLoop_get list]
    cases hg : rules.get? a.rule with
    | none =>
      simp only
      by_cases har : a.rule = r
      · subst har
        have hg2 : rules[a.rule]? = none := by rw [← List.get?_eq_getElem?]; exact hg
        simp [hg2]
      · cases hr : rules.get? r with
        | none => simp
        | some n => simp [har]
    | some n =>
      simp only
      by_cases har : a.rule = r
      · subst har
        have hlt : a.rule < rules.length := by
          rw [List.get?_eq_getElem?] at hg
          exact (List.getElem?_eq_some_iff.1 hg).1
        have hg2 : rules[a.rule]? = some n := by rw [← List.get?_eq_getElem?]; exact hg
        simp [hg2, List.get?_eq_getElem?, List.getElem?_set_self hlt, defineVariables_idem]
      · have : (rules.set a.rule { n with vars := defineVariables n.vars 0 }).get? r =
            rules.get? r := by
          simp [List.get?_eq_getElem?, List.getElem?_set, har]
        rw [this]
        cases hr : rules.get? r with
        | none => simp
        | some n2 => simp [har]

/-- C19, amended (variable offsets): for every rule that owns an action of
the `actions` list and declares the variables `v1..vn`, when `Rule_compile_c`
prints the body of the rule each `vi` has the offset `-i` (declaration order),
so that the `yySet` thunk printed for a `Name` bound to `vi` carries `-i`; the
offsets are pairwise distinct and lie in `[-n, -1]`, `n` being the count that
the `yyPush` and `yyPop` thunks of the rule carry. -/
theorem variable_offsets (rules : List Rule) (actions : List ActionNode) (r : Nat)
    (node : Rule) (hg : rules.get? r = some node) (ha : ∃ a ∈ actions, a.rule = r) :
    ∃ node1, (defineLoop actions rules).get? r = some node1 ∧
      node1.expression = node.expression ∧ node1.vars.length = node.vars.length ∧
      countVariables node1.vars = node.vars.length ∧
      (∀ i, i < node.vars.length →
        (node1.vars.getD i ⟨"", 0⟩).name = (node.vars.getD i ⟨"", 0⟩).name ∧
        (node1.vars.getD i ⟨"", 0⟩).offset = -((i : Int) + 1) ∧
        -(node.vars.length : Int) ≤ (node1.vars.getD i ⟨"", 0⟩).offset ∧
        (node1.vars.getD i ⟨"", 0⟩).offset ≤ -1 ∧
        (∀ rule ko prev, Node_compile_c_ko node1.vars (.name rule (some i)) ko prev =
          ([.test (.call rule) ko, .stmt (.yyDo .yySet (-((i : Int) + 1)) 0)], prev)) ∧
        ∀ j, j < node.vars.length →
          (node1.vars.getD j ⟨"", 0⟩).offset = (node1.vars.getD i ⟨"", 0⟩).offset → j = i) ∧
      (node.vars ≠ [] →
        varsStmt node1 .yyPush = [Instr.stmt (.yyDo .yyPush (node.vars.length : Int) 0)] ∧
        varsStmt node1 .yyPop = [Instr.stmt (.yyDo .yyPop (node.vars.length : Int) 0)]) := by
  have hany : actions.any (fun a => a.rule == r) = true := by
    obtain ⟨a, ham, har⟩ := ha
    simp only [List.any_eq_true, beq_iff_eq]
    exact ⟨a, ham, har⟩
  have hget := defineLoop_get actions rules r
  rw [hg] at hget
  simp only [Option.map_some', hany, if_true] at hget
  refine ⟨_, hget, rfl, defineVariables_length _ _, ?_, ?_, ?_⟩
  · rw [countVariables_eq]; exact defineVariables_length _ _
  · intro i hi
    have hoff := defineVariables_getD node.vars 0 i hi
    simp only at hoff ⊢
    rw [hoff]
    refine ⟨rfl, by simp, by simp only; omega, by simp only; omega, ?_, ?_⟩
    · intro rule ko prev
      simp only [Node_compile_c_ko, hoff]
      simp
    · intro j hj hji
      rw [defineVariables_getD node.vars 0 j hj] at hji
      simp only at hji
      omega
  · intro hne
    have hlen : (defineVariables node.vars 0).isEmpty = false := by
      cases hv : node.vars with
      | nil => exact absurd hv hne
      | cons v vs => simp [defineVariables]
    simp only [varsStmt, hlen, countVariables_eq, defineVariables_length]
    simp

theorem variable_offsets_witness :
    ∃ node1, (defineLoop actionsBind grammarBind).get? 0 = some node1 ∧
      node1.expression = some (.sequence (.cons (.name 1 (some 0)) (.cons (.action 0) .nil))) ∧
      node1.vars.length = 1 ∧ countVariables node1.vars = 1 ∧
      (∀ i, i < 1 →
        (node1.vars.getD i ⟨"", 0⟩).name = (([⟨"x", 0⟩] : List Variable).getD i ⟨"", 0⟩).name ∧
        (node1.vars.getD i ⟨"", 0⟩).offset = -((i : Int) + 1) ∧
        -((1 : Nat) : Int) ≤ (node1.vars.getD i ⟨"", 0⟩).offset ∧
        (node1.vars.getD i ⟨"", 0⟩).offset ≤ -1 ∧
        (∀ rule ko prev, Node_compile_c_ko node1.vars (.name rule (some i)) ko prev =
          ([.test (.call rule) ko, .stmt (.yyDo .yySet (-((i : Int) + 1)) 0)], prev)) ∧
        ∀ j, j < 1 →
          (node1.vars.getD j ⟨"", 0⟩).offset = (node1.vars.getD i ⟨"", 0⟩).offset → j = i) ∧
      ((([⟨"x", 0⟩] : List Variable)) ≠ [] →
        varsStmt node1 .yyPush = [Instr.stmt (.yyDo .yyPush ((1 : Nat) : Int) 0)] ∧
        varsStmt node1 .yyPop = [Instr.stmt (.yyDo .yyPop ((1 : Nat) : Int) 0)]) :=
  variable_offsets grammarBind actionsBind 0 _ rfl ⟨⟨0, 0, "use(x)", 1⟩, by simp [actionsBind], rfl⟩

/-- C19 as stated fails: in `A <- x:B ; B <- "1"`, where `A` has a variable
and no action, the `yySet` thunk printed for `x:B` carries the offset 0 that
`x` had before, not -1. -/
theorem offsets_without_action :
    (Rule_compile_c grammarBindOnly [] 0).procs.getD 0 none =
      some [save 0, Instr.stmt (.yyDo .yyPush 1 0), Instr.stmt .yyprintf,
        Instr.test (.call 1) 1, Instr.stmt (.yyDo .yySet 0 0), Instr.stmt .yyprintf,
        Instr.stmt (.yyDo .yyPop 1 0), Instr.ret true, label 1, restore 0,
        Instr.stmt .yyprintf, Instr.ret false] := rfl

/-! ### The runtime primitives -/

/-- C11 fails on the class text `\777`: `cnext` decodes the octal escape to
511, and the setter of `makeCharClass` is called with it, which indexes
`bits[63]` in the array of 32; no bitmap results. -/
theorem class_bounds_exceeded :
    cnext [92, 55, 55, 55] = (511, []) ∧
    511 >>> 3 = 63 ∧
    charClassSet (List.replicate 32 0) 511 = none ∧
    makeCharClassBits [92, 55, 55, 55] = none ∧
    makeCharClass [92, 55, 55, 55] = none := by
  decide

/-- C12 fails when the input ends inside the literal: `yymatchString` for
`"ab"` on the input `a` returns 0 with the cursor at 1, the cursor at entry
being 0; on a mismatch (`"abc"` against `abd`) it does put the cursor back. -/
theorem match_string_cursor_left :
    (ready [97])._pos = 0 ∧
    (yymatchString (ready [97]) [97, 98]).map (fun r => (r.1, r.2._pos)) = some (false, 1) ∧
    (yymatchIString (ready [97]) [97, 98]).map (fun r => (r.1, r.2._pos)) = some (false, 1) ∧
    (yymatchString (ready [97, 98, 100]) [97, 98, 99]).map (fun r => (r.1, r.2._pos)) =
      some (false, 0) := by
  decide

/-- C22 (termination of `consumesInput` on cyclic grammars): in a grammar
whose names refer to its rules, whatever the references between the rules,
`consumesInput` returns on every node when rule calls may nest as deep as there
are rules plus one (and with every larger bound); a rule found with
`RuleReached` set is not entered: the call on it returns at once, with the
warning. -/
theorem consumes_terminates (rules : List Rule) (n : Node) (hw : WellFormed rules)
    (hn : namesBelow rules.length n = true)
    (hclear : ∀ node ∈ rules, RuleReached &&& node.flags = 0) :
    (∀ fuel, rules.length < fuel →
      ∃ b w, consumesInput (consumesInputRule fuel) n rules = some (b, rules, w)) ∧
    (∀ fuel r S node, S.get? r = some node → RuleReached &&& node.flags ≠ 0 →
      consumesInputRule (fuel + 1) r S = some (false, S, [node.name])) := by
  refine ⟨fun fuel hf => total_node (totalOn_rule hw hf) n hn, ?_⟩
  intro fuel r S node hg hfl
  simp only [consumesInputRule, hg, if_pos hfl]

theorem consumes_terminates_witness :
    (∀ fuel, grammarLeft.length < fuel →
      ∃ b w, consumesInput (consumesInputRule fuel) (.name 0 none) grammarLeft =
        some (b, grammarLeft, w)) ∧
    (∀ fuel r S node, S.get? r = some node → RuleReached &&& node.flags ≠ 0 →
      consumesInputRule (fuel + 1) r S = some (false, S, [node.name])) :=
  consumes_terminates grammarLeft (.name 0 none) wellFormed_grammarLeft (by decide)
    clear_grammarLeft

theorem slice_length (a : List Nat) (b n : Nat) : (slice a b n).length = n := by
  simp [slice]

theorem slice_getD (a : List Nat) (b n i : Nat) (h : i < n) :
    (slice a b n).getD i 0 = a.getD (b + i) 0 := by
  simp [slice, List.getD_eq_getElem?_getD, List.getElem?_map, List.getElem?_range h]

theorem slice_zero_take (a : List Nat) (n : Nat) (h : n ≤ a.length) : slice a 0 n = a.take n := by
  apply List.ext_getElem?
  intro i
  by_cases hi : i < n
  · simp [slice, List.getElem?_map, List.getElem?_range hi, List.getElem?_take, hi,
      List.getD_eq_getElem?_getD, List.getElem?_eq_getElem (show i < a.length by omega)]
  · have h1 : (slice a 0 n)[i]? = none := by
      rw [List.getElem?_eq_none_iff, slice_length]; omega
    have h2 : (a.take n)[i]? = none := by
      rw [List.getElem?_eq_none_iff, List.length_take]; omega
    rw [h1, h2]

theorem yyDoneLoop_eq (hA : ActionsKeepLog U) (defs : Nat → List (String × Int)) :
    ∀ (fuel pos : Nat) (yy : yycontext), yy._thunkpos - pos ≤ fuel →
      yyDoneLoop U defs fuel pos yy =
        (invokeAll U defs
          ((List.range' pos (yy._thunkpos - pos)).map fun i => yy._thunks.getD i default) yy).map
          fun y1 => { y1 with _thunkpos := 0 }
  | 0, pos, yy, h => by
    have h0 : yy._thunkpos - pos = 0 := by omega
    have hp : ¬ pos < yy._thunkpos := by omega
    simp [yyDoneLoop, hp, h0, invokeAll]
  | fuel + 1, pos, yy, h => by
    simp only [yyDoneLoop]
    by_cases hp : pos < yy._thunkpos
    · rw [if_pos hp]
      have e1 : yy._thunkpos - pos = (yy._thunkpos - (pos + 1)) + 1 := by omega
      rw [e1, List.range'_succ, List.map_cons]
      simp only [invokeAll]
      cases hi : invokeThunk U defs (yy._thunks.getD pos default) yy with
      | none => simp
      | some yy2 =>
        have hs := logSame_invokeThunk hA hi
        simp only
        rw [yyDoneLoop_eq hA defs fuel (pos + 1) yy2 (by rw [hs.2]; omega), hs.1, hs.2]
    · rw [if_neg hp]
      have h0 : yy._thunkpos - pos = 0 := by omega
      simp [h0, invokeAll]

theorem yyText_span {yy yy1 : yycontext} {b e n : Int} (h : yyText yy b e = some (n, yy1)) :
    n = max 0 (e - b) ∧ yy1._text.take n.toNat = slice yy._buf b.toNat n.toNat ∧
      yy1._text.getD n.toNat 1 = 0 := by
  unfold yyText at h
  split at h
  · next hle =>
    simp only [Option.some.injEq, Prod.mk.injEq] at h
    obtain ⟨rfl, rfl⟩ := h
    refine ⟨by omega, by simp [slice], ?_⟩
    simp only [Int.toNat_zero, store]
    split
    · next hl => simp [List.getD_eq_getElem?_getD, hl]
    · next hl =>
      have : yy._text = [] := by
        cases ht : yy._text with
        | nil => rfl
        | cons a l => simp [ht] at hl
      simp [this]
  · next hgt =>
    split at h
    · simp at h
    · simp only at h
      split at h
      · simp at h
      · simp only [Option.some.injEq, Prod.mk.injEq] at h
        obtain ⟨rfl, rfl⟩ := h
        refine ⟨by omega, ?_, ?_⟩
        · simp [List.take_append_eq_append_take, slice_length]
        · simp only [List.getD_eq_getElem?_getD, List.append_assoc, List.singleton_append]
          rw [List.getElem?_append_right (by rw [slice_length])]
          simp [slice_length]

/-- C14, amended (`yyDone`): when the action bodies leave the thunk log
alone, `yyDone` invokes the thunks at the positions `0, ..., _thunkpos - 1` in
that order, each once, and then sets the thunk depth to 0.  A thunk whose `end`
is not 0 has its action called with the text of its span, `yyleng` being
`max(0, end - begin)` and `yytext` holding the buffer bytes `[begin, end)` and a
NUL; a thunk whose `end` is 0 has its action called with `yyleng = begin`, the
text buffer being left as it is. -/
theorem done_in_order (U : UserCode) (hA : ActionsKeepLog U)
    (defs : Nat → List (String × Int)) (yy : yycontext) (fuel : Nat)
    (hf : yy._thunkpos ≤ fuel) :
    yyDone U defs fuel yy =
      (invokeAll U defs (thunkLog yy) yy).map (fun y1 => { y1 with _thunkpos := 0 }) ∧
    (∀ (t : yythunk) (yy0 : yycontext), t.end_ ≠ 0 →
      invokeThunk U defs t yy0 =
        match yyText yy0 t.begin t.end_ with
        | none => none
        | some (yyleng, yy1) => invoke U defs t.action yy1 yyleng) ∧
    (∀ (yy0 yy1 : yycontext) (b e n : Int), yyText yy0 b e = some (n, yy1) →
      n = max 0 (e - b) ∧ yy1._text.take n.toNat = slice yy0._buf b.toNat n.toNat ∧
        yy1._text.getD n.toNat 1 = 0) ∧
    (∀ (t : yythunk) (yy0 : yycontext), t.end_ = 0 →
      invokeThunk U defs t yy0 = invoke U defs t.action yy0 t.begin) := by
  refine ⟨?_, ?_, fun _ _ _ _ _ h => yyText_span h, ?_⟩
  · have := yyDoneLoop_eq hA defs fuel 0 yy (by omega)
    simpa [yyDone, thunkLog, List.range_eq_range'] using this
  · intro t yy0 ht
    simp only [invokeThunk, if_pos ht]
    try (cases yyText yy0 t.begin t.end_ <;> rfl)
  · intro t yy0 ht
    simp only [invokeThunk, ht, ne_eq, not_true_eq_false, if_false]

theorem done_in_order_witness :
    yyDone userLeng (fun _ => []) 2
        { ready [97, 98] with _buf := [97, 98], _thunks := [⟨0, 1, .user 0⟩, ⟨0, 2, .user 0⟩],
                              _thunkpos := 2 } =
      (invokeAll userLeng (fun _ => [])
        (thunkLog { ready [97, 98] with _buf := [97, 98],
                                        _thunks := [⟨0, 1, .user 0⟩, ⟨0, 2, .user 0⟩],
                                        _thunkpos := 2 })
        { ready [97, 98] with _buf := [97, 98], _thunks := [⟨0, 1, .user 0⟩, ⟨0, 2, .user 0⟩],
                              _thunkpos := 2 }).map (fun y1 => { y1 with _thunkpos := 0 }) :=
  (done_in_order userLeng (fun _ _ _ _ => ⟨rfl, rfl⟩) (fun _ => [])
    { ready [97, 98] with _buf := [97, 98], _thunks := [⟨0, 1, .user 0⟩, ⟨0, 2, .user 0⟩],
                          _thunkpos := 2 } 2 (by decide)).1

/-- C14 as stated fails for a thunk whose `end` is 0: its action is called
with `yyleng = begin`, not with `max(0, end - begin)`.  The thunk
`yyDo(yy, yyPush, 1, 0)` of a rule with one variable pushes one slot, and an
action registered with `begin = 3` and `end = 0` is called with `yyleng = 3`. -/
theorem done_passes_begin :
    max (0 : Int) (0 - 3) = 0 ∧
    (yyDone userLeng (fun _ => []) 1
      { ready [] with _thunks := [⟨3, 0, .user 0⟩], _thunkpos := 1 }).map
        (fun y => y.members) = some [3] ∧
    (yyDone userLeng (fun _ => []) 1
      { ready [] with _thunks := [⟨1, 0, .yyPush⟩], _thunkpos := 1 }).map
        (fun y => y._val) = some 1 := by
  decide

/-! ### The cursor and the buffer -/

theorem doubleWhileBelow_ge : ∀ (fuel len bound n : Nat),
    doubleWhileBelow fuel len bound = some n → bound ≤ n ∧ len ≤ n
  | 0, _, _, _, h => by simp [doubleWhileBelow] at h
  | fuel + 1, len, bound, n, h => by
    simp only [doubleWhileBelow] at h
    split at h
    · split at h
      · have := doubleWhileBelow_ge fuel (len * 2) bound n h
        omega
      · simp at h
    · simp only [Option.some.injEq] at h
      omega

theorem inside_refill {yy yy1 : yycontext} {b : Bool} (h : yyrefill yy = some (b, yy1))
    (hi : CursorInside yy) (hg : yy._limit ≤ yy._pos) :
    CursorInside yy1 ∧ yy._limit ≤ yy1._limit ∧ yy1._pos = yy._pos ∧
      (b = true → yy1._pos < yy1._limit) := by
  unfold yyrefill at h
  split at h
  · simp at h
  · next n hn =>
    have hge := doubleWhileBelow_ge _ _ _ _ hn
    obtain ⟨h1, h2⟩ := hi
    have hsz : yyInputSize yy (n - yy._pos) ≤ n - yy._pos :=
      le_trans (Nat.min_le_left _ _) (Nat.min_le_right _ _)
    split at h <;> simp only [Option.some.injEq, Prod.mk.injEq] at h <;>
      obtain ⟨rfl, rfl⟩ := h
    · exact ⟨⟨h1, by simp only; omega⟩, le_refl _, rfl, by simp⟩
    · exact ⟨⟨by simp only; omega, by simp only; omega⟩, by simp only; omega, rfl,
        fun _ => by simp only; omega⟩

theorem inside_needInput {yy yy1 : yycontext} {b : Bool} (h : needInput yy = some (b, yy1))
    (hi : CursorInside yy) :
    CursorInside yy1 ∧ yy._limit ≤ yy1._limit ∧ yy1._pos = yy._pos ∧
      (b = true → yy1._pos < yy1._limit) := by
  unfold needInput at h
  split at h
  · next hg => exact inside_refill h hi hg
  · next hg =>
    simp only [Option.some.injEq, Prod.mk.injEq] at h
    obtain ⟨_, rfl⟩ := h
    exact ⟨hi, le_refl _, rfl, fun _ => by omega⟩

theorem inside_advance {yy : yycontext} (hi : CursorInside yy) (hp : yy._pos < yy._limit) :
    CursorInside (yyrecordMaxPos { yy with _pos := yy._pos + 1 }) ∧
      (yyrecordMaxPos { yy with _pos := yy._pos + 1 })._limit = yy._limit := by
  unfold yyrecordMaxPos
  obtain ⟨h1, h2⟩ := hi
  split <;> exact ⟨⟨hp, h2⟩, rfl⟩

theorem inside_recordMaxPos {yy : yycontext} (hi : CursorInside yy) :
    CursorInside (yyrecordMaxPos yy) ∧ (yyrecordMaxPos yy)._limit = yy._limit := by
  unfold yyrecordMaxPos
  split <;> exact ⟨hi, rfl⟩

theorem inside_matchDot {yy yy1 : yycontext} {b : Bool} (h : yymatchDot yy = some (b, yy1))
    (hi : CursorInside yy) : CursorInside yy1 ∧ yy._limit ≤ yy1._limit := by
  unfold yymatchDot at h
  split at h
  · simp at h
  · next yy2 hn =>
    simp only [Option.some.injEq, Prod.mk.injEq] at h
    obtain ⟨_, rfl⟩ := h
    have := inside_needInput hn hi
    exact ⟨this.1, this.2.1⟩
  · next yy2 hn =>
    simp only [Option.some.injEq, Prod.mk.injEq] at h
    obtain ⟨_, rfl⟩ := h
    obtain ⟨h1, h2, _, h4⟩ := inside_needInput hn hi
    have := inside_advance h1 (h4 rfl)
    exact ⟨this.1, by rw [this.2]; exact h2⟩

theorem inside_matchChar {yy yy1 : yycontext} {b : Bool} {c : Nat}
    (h : yymatchChar yy c = some (b, yy1)) (hi : CursorInside yy) :
    CursorInside yy1 ∧ yy._limit ≤ yy1._limit := by
  unfold yymatchChar at h
  split at h
  · simp at h
  · next yy2 hn =>
    simp only [Option.some.injEq, Prod.mk.injEq] at h
    obtain ⟨_, rfl⟩ := h
    have := inside_needInput hn hi
    exact ⟨this.1, this.2.1⟩
  · next yy2 hn =>
    obtain ⟨h1, h2, _, h4⟩ := inside_needInput hn hi
    split at h <;> simp only [Option.some.injEq, Prod.mk.injEq] at h <;> obtain ⟨_, rfl⟩ := h
    · have := inside_advance h1 (h4 rfl)
      exact ⟨this.1, by rw [this.2]; exact h2⟩
    · exact ⟨h1, h2⟩

theorem inside_matchClass {yy yy1 : yycontext} {b : Bool} {bits : List Nat}
    (h : yymatchClass yy bits = some (b, yy1)) (hi : CursorInside yy) :
    CursorInside yy1 ∧ yy._limit ≤ yy1._limit := by
  unfold yymatchClass at h
  split at h
  · simp at h
  · next yy2 hn =>
    simp only [Option.some.injEq, Prod.mk.injEq] at h
    obtain ⟨_, rfl⟩ := h
    have := inside_needInput hn hi
    exact ⟨this.1, this.2.1⟩
  · next yy2 hn =>
    obtain ⟨h1, h2, _, h4⟩ := inside_needInput hn hi
    split at h <;> simp only [Option.some.injEq, Prod.mk.injEq] at h <;> obtain ⟨_, rfl⟩ := h
    · have := inside_advance h1 (h4 rfl)
      exact ⟨this.1, by rw [this.2]; exact h2⟩
    · exact ⟨h1, h2⟩

theorem inside_matchStringLoop (yysav : Nat) : ∀ (s : List Nat) (yy yy1 : yycontext) (b : Bool),
    yymatchStringLoop yysav s yy = some (b, yy1) → CursorInside yy → yysav ≤ yy._pos →
    CursorInside yy1 ∧ yy._limit ≤ yy1._limit
  | [], yy, yy1, b, h, hi, _ => by
    simp only [yymatchStringLoop, Option.some.injEq, Prod.mk.injEq] at h
    obtain ⟨_, rfl⟩ := h
    have := inside_recordMaxPos hi
    exact ⟨this.1, by rw [this.2]⟩
  | c :: s, yy, yy1, b, h, hi, hs => by
    simp only [yymatchStringLoop] at h
    split at h
    · simp only [Option.some.injEq, Prod.mk.injEq] at h
      obtain ⟨_, rfl⟩ := h
      have := inside_recordMaxPos hi
      exact ⟨this.1, by rw [this.2]⟩
    · split at h
      · simp at h
      · next yy2 hn =>
        simp only [Option.some.injEq, Prod.mk.injEq] at h
        obtain ⟨_, rfl⟩ := h
        have := inside_needInput hn hi
        exact ⟨this.1, this.2.1⟩
      · next yy2 hn =>
        obtain ⟨h1, h2, h3, h4⟩ := inside_needInput hn hi
        have h5 := h4 rfl
        split at h
        · simp only [Option.some.injEq, Prod.mk.injEq] at h
          obtain ⟨_, rfl⟩ := h
          exact ⟨⟨by simp only; omega, h1.2⟩, h2⟩
        · have := inside_matchStringLoop yysav s _ yy1 b h ⟨h5, h1.2⟩ (by simp only; omega)
          exact ⟨this.1, le_trans h2 this.2⟩

theorem inside_matchIStringLoop (yysav : Nat) : ∀ (s : List Nat) (yy yy1 : yycontext) (b : Bool),
    yymatchIStringLoop yysav s yy = some (b, yy1) → CursorInside yy → yysav ≤ yy._pos →
    CursorInside yy1 ∧ yy._limit ≤ yy1._limit
  | [], yy, yy1, b, h, hi, _ => by
    simp only [yymatchIStringLoop, Option.some.injEq, Prod.mk.injEq] at h
    obtain ⟨_, rfl⟩ := h
    have := inside_recordMaxPos hi
    exact ⟨this.1, by rw [this.2]⟩
  | c :: s, yy, yy1, b, h, hi, hs => by
    simp only [yymatchIStringLoop] at h
    split at h
    · simp only [Option.some.injEq, Prod.mk.injEq] at h
      obtain ⟨_, rfl⟩ := h
      have := inside_recordMaxPos hi
      exact ⟨this.1, by rw [this.2]⟩
    · split at h
      · simp at h
      · next yy2 hn =>
        simp only [Option.some.injEq, Prod.mk.injEq] at h
        obtain ⟨_, rfl⟩ := h
        have := inside_needInput hn hi
        exact ⟨this.1, this.2.1⟩
      · next yy2 hn =>
        obtain ⟨h1, h2, h3, h4⟩ := inside_needInput hn hi
        have h5 := h4 rfl
        split at h
        · simp only [Option.some.injEq, Prod.mk.injEq] at h
          obtain ⟨_, rfl⟩ := h
          exact ⟨⟨by simp only; omega, h1.2⟩, h2⟩
        · have := inside_matchIStringLoop yysav s _ yy1 b h ⟨h5, h1.2⟩ (by simp only; omega)
          exact ⟨this.1, le_trans h2 this.2⟩

theorem sameCursor_yyText {yy yy1 : yycontext} {b e n : Int}
    (h : yyText yy b e = some (n, yy1)) : SameCursor yy yy1 := by
  unfold yyText at h
  split at h
  · simp only [Option.some.injEq, Prod.mk.injEq] at h
    obtain ⟨_, rfl⟩ := h
    exact ⟨rfl, rfl, rfl⟩
  · split at h
    · simp at h
    · simp only at h
      split at h
      · simp at h
      · simp only [Option.some.injEq, Prod.mk.injEq] at h
        obtain ⟨_, rfl⟩ := h
        exact ⟨rfl, rfl, rfl⟩

theorem sameCursor_yyDo {yy yy1 : yycontext} {a : yyaction} {b e : Int}
    (h : yyDo yy a b e = some yy1) : SameCursor yy yy1 := by
  unfold yyDo at h
  split at h
  · simp at h
  · simp only [Option.some.injEq] at h
    subst h
    exact ⟨rfl, rfl, rfl⟩

theorem sameCursor_inside {yy yy1 : yycontext} (h : SameCursor yy yy1) (hi : CursorInside yy) :
    CursorInside yy1 ∧ yy._limit ≤ yy1._limit := by
  obtain ⟨h1, h2, h3⟩ := h
  unfold CursorInside at hi ⊢
  rw [h1, h2, h3]
  exact ⟨hi, le_refl _⟩

theorem sameCursor_andThen {a b c : yycontext} (h1 : SameCursor a b) (h2 : SameCursor b c) :
    SameCursor a c :=
  ⟨h2.1.trans h1.1, h2.2.1.trans h1.2.1, h2.2.2.trans h1.2.2⟩

theorem inside_evalTest (hU : UserKeepsBuffer U) (hc : CallInside call) {c : Test}
    {yy yy1 : yycontext} {b : Bool} (h : evalTest U call c yy = some (b, yy1))
    (hi : CursorInside yy) : CursorInside yy1 ∧ yy._limit ≤ yy1._limit := by
  cases c with
  | matchDot => exact inside_matchDot h hi
  | call rule => exact hc _ _ _ _ h hi
  | matchChar lit => exact inside_matchChar h hi
  | matchString lit => exact inside_matchStringLoop _ _ _ _ _ h hi (le_refl _)
  | matchIString lit => exact inside_matchIStringLoop _ _ _ _ _ h hi (le_refl _)
  | matchClass lit =>
    cases lit with
    | none => simp [evalTest] at h
    | some l => exact inside_matchClass h hi
  | predicate text =>
    simp only [evalTest] at h
    split at h
    · simp at h
    · next n yy2 ht =>
      simp only [Option.some.injEq] at h
      have h1 := (hU text yy2).2.1
      rw [h] at h1
      exact sameCursor_inside (sameCursor_andThen (sameCursor_yyText ht) h1) hi

theorem inside_evalStmt (hU : UserKeepsBuffer U) {a : Stmt} {yy yy1 : yycontext}
    (h : evalStmt U a yy = some yy1) (hi : CursorInside yy) :
    CursorInside yy1 ∧ yy._limit ≤ yy1._limit := by
  cases a with
  | begin => simp only [evalStmt, Option.some.injEq] at h; subst h; exact ⟨hi, le_refl _⟩
  | end_ => simp only [evalStmt, Option.some.injEq] at h; subst h; exact ⟨hi, le_refl _⟩
  | yyprintf => simp only [evalStmt, Option.some.injEq] at h; subst h; exact ⟨hi, le_refl _⟩
  | yyDo action b e => exact sameCursor_inside (sameCursor_yyDo h) hi
  | yyDoAction name => exact sameCursor_inside (sameCursor_yyDo h) hi
  | inLine text =>
    simp only [evalStmt] at h
    split at h
    · simp at h
    · next n yy2 ht =>
      simp only [Option.some.injEq] at h
      have h1 := (hU text yy2).1
      rw [h] at h1
      exact sameCursor_inside (sameCursor_andThen (sameCursor_yyText ht) h1) hi
  | error text =>
    simp only [evalStmt] at h
    split at h
    · simp at h
    · next n yy2 ht =>
      simp only [Option.some.injEq] at h
      have h1 := (hU text yy2).2.2
      rw [h] at h1
      exact sameCursor_inside (sameCursor_andThen (sameCursor_yyText ht) h1) hi

theorem inside_execInstr (hU : UserKeepsBuffer U) (hc : CallInside call) {i : Instr}
    {s s1 : Frame} {ctl : Ctl} (h : execInstr U call i s = some (ctl, s1))
    (hi : CursorInside s.yy) (hs : SavedInside s) :
    CursorInside s1.yy ∧ SavedInside s1 ∧ s.yy._limit ≤ s1.yy._limit := by
  cases i with
  | test c ko =>
    simp only [execInstr] at h
    cases he : evalTest U call c s.yy with
    | none => simp [he] at h
    | some x =>
      obtain ⟨b, yy⟩ := x
      have := inside_evalTest hU hc he hi
      cases b <;> simp only [he, Option.some.injEq, Prod.mk.injEq] at h <;>
        obtain ⟨_, rfl⟩ := h <;>
        exact ⟨this.1, fun n p hp => le_trans (hs n p hp) this.2, this.2⟩
  | stmt a =>
    simp only [execInstr] at h
    cases he : evalStmt U a s.yy with
    | none => simp [he] at h
    | some yy =>
      have := inside_evalStmt hU he hi
      simp only [he, Option.some.injEq, Prod.mk.injEq] at h
      obtain ⟨_, rfl⟩ := h
      exact ⟨this.1, fun n p hp => le_trans (hs n p hp) this.2, this.2⟩
  | label n =>
    simp only [execInstr, Option.some.injEq, Prod.mk.injEq] at h
    obtain ⟨_, rfl⟩ := h
    exact ⟨hi, hs, le_refl _⟩
  | jump n =>
    simp only [execInstr, Option.some.injEq, Prod.mk.injEq] at h
    obtain ⟨_, rfl⟩ := h
    exact ⟨hi, hs, le_refl _⟩
  | save n =>
    simp only [execInstr, Option.some.injEq, Prod.mk.injEq] at h
    obtain ⟨_, rfl⟩ := h
    refine ⟨hi, ?_, le_refl _⟩
    intro m p hp
    simp only [Function.update_apply] at hp
    split at hp
    · simp only [Option.some.injEq] at hp
      rw [← hp]; exact hi.1
    · exact hs m p hp
  | restore n =>
    simp only [execInstr] at h
    split at h
    · next p t hp ht =>
      simp only [Option.some.injEq, Prod.mk.injEq] at h
      obtain ⟨_, rfl⟩ := h
      exact ⟨⟨hs n p hp, hi.2⟩, hs, le_refl _⟩
    · simp at h
  | saveMaxPos n =>
    simp only [execInstr, Option.some.injEq, Prod.mk.injEq] at h
    obtain ⟨_, rfl⟩ := h
    exact ⟨hi, hs, le_refl _⟩
  | restoreMaxPos n =>
    simp only [execInstr] at h
    split at h
    · simp only [Option.some.injEq, Prod.mk.injEq] at h
      obtain ⟨_, rfl⟩ := h
      exact ⟨hi, hs, le_refl _⟩
    · simp at h
  | ret v =>
    simp only [execInstr, Option.some.injEq, Prod.mk.injEq] at h
    obtain ⟨_, rfl⟩ := h
    exact ⟨hi, hs, le_refl _⟩

theorem inside_run (hU : UserKeepsBuffer U) (hc : CallInside call) (code : List Instr) :
    ∀ (n : Nat) (rest : List Instr) (s s1 : Frame) (ctl : Ctl),
      run U call n code rest s = some (ctl, s1) → CursorInside s.yy → SavedInside s →
      CursorInside s1.yy ∧ SavedInside s1 ∧ s.yy._limit ≤ s1.yy._limit
  | _, [], s, s1, ctl, h, hi, hs => by
    have : s1 = s := by
      cases ‹Nat› <;> simp only [run, Option.some.injEq, Prod.mk.injEq] at h <;> exact h.2.symm
    subst this
    exact ⟨hi, hs, le_refl _⟩
  | 0, _ :: _, s, s1, ctl, h, hi, hs => by simp [run] at h
  | n + 1, i :: rest, s, s1, ctl, h, hi, hs => by
    simp only [run] at h
    cases he : execInstr U call i s with
    | none => simp [he] at h
    | some x =>
      obtain ⟨c2, s2⟩ := x
      obtain ⟨h1, h2, h3⟩ := inside_execInstr hU hc he hi hs
      rw [he] at h
      cases c2 with
      | fall =>
        obtain ⟨h4, h5, h6⟩ := inside_run hU hc code n rest s2 s1 ctl h h1 h2
        exact ⟨h4, h5, le_trans h3 h6⟩
      | jump l =>
        simp only at h
        cases hl : afterLabel code l with
        | none =>
          simp only [hl, Option.some.injEq, Prod.mk.injEq] at h
          obtain ⟨_, rfl⟩ := h
          exact ⟨h1, h2, h3⟩
        | some r1 =>
          simp only [hl] at h
          obtain ⟨h4, h5, h6⟩ := inside_run hU hc code n r1 s2 s1 ctl h h1 h2
          exact ⟨h4, h5, le_trans h3 h6⟩
      | ret v =>
        simp only [Option.some.injEq, Prod.mk.injEq] at h
        obtain ⟨_, rfl⟩ := h
        exact ⟨h1, h2, h3⟩

theorem inside_yyrule (hU : UserKeepsBuffer U) (procs : List (Option (List Instr))) :
    ∀ fuel, CallInside (yyrule U procs fuel)
  | 0 => by
    intro r yy v yy1 h
    simp [yyrule] at h
  | fuel + 1 => by
    intro r yy v yy1 h hi
    obtain ⟨n, body, loc1, hn, _, hrun⟩ := yyrule_some h
    simp only [Nat.add_right_cancel_iff] at hn
    subst hn
    have := inside_run hU (inside_yyrule hU procs fuel) body fuel body ⟨yy, noLocals⟩ _ _ hrun hi
      (fun n p hp => by simp [noLocals] at hp)
    exact ⟨this.1, this.2.2⟩

theorem inside_yyentry (yyctx : yycontext) (h : yyctx._buflen = 0 ∨ CursorInside yyctx) :
    CursorInside (yyentry yyctx) := by
  unfold yyentry yyinit CursorInside
  by_cases h0 : yyctx._buflen = 0
  · simp [h0, YY_BUFFER_SIZE]
  · rcases h with h | h
    · exact absurd h h0
    · simpa [h0] using h

/-! ### Labels and gotos -/

theorem countLabel_append (l : Nat) (a b : List Instr) :
    countLabel l (a ++ b) = countLabel l a + countLabel l b := by
  induction a with
  | nil => simp [countLabel]
  | cons i a ih => cases i <;> simp [countLabel, ih, Nat.add_assoc]

theorem countLabel_zero_of_afterLabel {l : Nat} {code : List Instr}
    (h : afterLabel code l = none) : countLabel l code = 0 := by
  induction code with
  | nil => rfl
  | cons i code ih =>
    cases i <;> simp only [afterLabel, countLabel] at h ⊢ <;> try exact ih h
    split at h
    · simp at h
    · next hn => simp [hn, ih h]

theorem countLabel_outside (vars : List Variable) (e : Node) (ko prev l : Nat)
    (h : l ≤ prev ∨ (Node_compile_c_ko vars e ko prev).2 < l) :
    countLabel l (Node_compile_c_ko vars e ko prev).1 = 0 :=
  countLabel_zero_of_afterLabel ((labels_node vars e ko prev).2 l h)

theorem countLabel_alt_outside (vars : List Variable) (c : Chain) (ok ko prev l : Nat)
    (h : l ≤ prev ∨ (alternateLoop vars c ok ko prev).2 < l) :
    countLabel l (alternateLoop vars c ok ko prev).1 = 0 :=
  countLabel_zero_of_afterLabel ((labels_alt vars c ok ko prev).2 l h)

theorem countLabel_seq_outside (vars : List Variable) (c : Chain) (ko prev l : Nat)
    (h : l ≤ prev ∨ (sequenceLoop vars c ko prev).2 < l) :
    countLabel l (sequenceLoop vars c ko prev).1 = 0 :=
  countLabel_zero_of_afterLabel ((labels_seq vars c ko prev).2 l h)

mutual
theorem count_node (vars : List Variable) (l : Nat) : ∀ (e : Node) (ko prev : Nat),
    countLabel l (Node_compile_c_ko vars e ko prev).1 ≤ 1
  | .dot, ko, prev => by simp [Node_compile_c_ko, countLabel]
  | .name rule var, ko, prev => by
    cases var <;> simp [Node_compile_c_ko, countLabel]
  | .character value, ko, prev => by simp [Node_compile_c_ko, countLabel]
  | .string value casefold, ko, prev => by simp [Node_compile_c_ko, countLabel]
  | .cclass value, ko, prev => by simp [Node_compile_c_ko, countLabel]
  | .action name, ko, prev => by simp [Node_compile_c_ko, countLabel]
  | .inLine text, ko, prev => by simp [Node_compile_c_ko, countLabel]
  | .predicate text, ko, prev => by simp [Node_compile_c_ko, countLabel]
  | .error element text, ko, prev => by
    have ih := count_node vars l element (prev + 1 + 1) (prev + 1 + 1)
    have hz := countLabel_outside vars element (prev + 1 + 1) (prev + 1 + 1) l
    have hle := counter_le vars element (prev + 1 + 1) (prev + 1 + 1)
    simp only [Node_compile_c_ko, yyl, jump, label, List.cons_append, List.nil_append, List.append_assoc]
    simp only [countLabel_append, countLabel]
    split_ifs <;> omega
  | .alternate first, ko, prev => by
    have ih := count_alt vars l first (prev + 1) ko (prev + 1)
    have hz := countLabel_alt_outside vars first (prev + 1) ko (prev + 1) l
    have hle := (labels_alt vars first (prev + 1) ko (prev + 1)).1
    simp only [Node_compile_c_ko, yyl, begin, save, end_, label, List.cons_append, List.nil_append, List.append_assoc]
    simp only [countLabel_append, countLabel]
    split_ifs <;> omega
  | .sequence first, ko, prev => by
    simpa only [Node_compile_c_ko] using count_seq vars l first ko prev
  | .peekFor element, ko, prev => by
    have ih := count_node vars l element ko (prev + 1)
    simp only [Node_compile_c_ko, yyl, begin, save, end_, restore, List.cons_append, List.nil_append, List.append_assoc]
    simp only [countLabel_append, countLabel]
    omega
  | .peekNot element, ko, prev => by
    have ih := count_node vars l element (prev + 1) (prev + 1)
    have hz := countLabel_outside vars element (prev + 1) (prev + 1) l
    have hle := counter_le vars element (prev + 1) (prev + 1)
    simp only [Node_compile_c_ko, yyl, begin, save, end_, restore, saveMaxPos, restoreMaxPos, jump, label, List.cons_append, List.nil_append, List.append_assoc]
    simp only [countLabel_append, countLabel]
    split_ifs <;> omega
  | .query element, ko, prev => by
    have ih := count_node vars l element (prev + 1) (prev + 1 + 1)
    have hz := countLabel_outside vars element (prev + 1) (prev + 1 + 1) l
    have hle := counter_le vars element (prev + 1) (prev + 1 + 1)
    simp only [Node_compile_c_ko, yyl, begin, save, end_, restore, jump, label, List.cons_append, List.nil_append, List.append_assoc]
    simp only [countLabel_append, countLabel]
    split_ifs <;> omega
  | .star element, ko, prev => by
    have ih := count_node vars l element (prev + 1 + 1) (prev + 1 + 1)
    have hz := countLabel_outside vars element (prev + 1 + 1) (prev + 1 + 1) l
    have hle := counter_le vars element (prev + 1 + 1) (prev + 1 + 1)
    simp only [Node_compile_c_ko, yyl, begin, save, end_, restore, jump, label, List.cons_append, List.nil_append, List.append_assoc]
    simp only [countLabel_append, countLabel]
    split_ifs <;> omega
  | .plus element, ko, prev => by
    have ih1 := count_node vars l element ko (prev + 1 + 1)
    have hz1 := countLabel_outside vars element ko (prev + 1 + 1) l
    have hle1 := counter_le vars element ko (prev + 1 + 1)
    have ih2 := count_node vars l element (prev + 1 + 1)
      (Node_compile_c_ko vars element ko (prev + 1 + 1)).2
    have hz2 := countLabel_outside vars element (prev + 1 + 1)
      (Node_compile_c_ko vars element ko (prev + 1 + 1)).2 l
    have hle2 := counter_le vars element (prev + 1 + 1)
      (Node_compile_c_ko vars element ko (prev + 1 + 1)).2
    simp only [Node_compile_c_ko, yyl, begin, save, end_, restore, jump, label, List.cons_append, List.nil_append, List.append_assoc]
    simp only [countLabel_append, countLabel]
    split_ifs <;> omega
theorem count_alt (vars : List Variable) (l : Nat) : ∀ (c : Chain) (ok ko prev : Nat),
    countLabel l (alternateLoop vars c ok ko prev).1 ≤ 1
  | .nil, ok, ko, prev => by simp [alternateLoop, countLabel]
  | .cons node .nil, ok, ko, prev => by
    simpa only [alternateLoop] using count_node vars l node ko prev
  | .cons node (.cons node2 rest), ok, ko, prev => by
    have ih1 := count_node vars l node (prev + 1) (prev + 1)
    have hz1 := countLabel_outside vars node (prev + 1) (prev + 1) l
    have hle1 := counter_le vars node (prev + 1) (prev + 1)
    have ih2 := count_alt vars l (.cons node2 rest) ok ko
      (Node_compile_c_ko vars node (prev + 1) (prev + 1)).2
    have hz2 := countLabel_alt_outside vars (.cons node2 rest) ok ko
      (Node_compile_c_ko vars node (prev + 1) (prev + 1)).2 l
    simp only [alternateLoop, yyl, jump, label, restore, List.cons_append, List.nil_append, List.append_assoc]
    simp only [countLabel_append, countLabel]
    split_ifs <;> omega
theorem count_seq (vars : List Variable) (l : Nat) : ∀ (c : Chain) (ko prev : Nat),
    countLabel l (sequenceLoop vars c ko prev).1 ≤ 1
  | .nil, ko, prev => by simp [sequenceLoop, countLabel]
  | .cons node next, ko, prev => by
    have ih1 := count_node vars l node ko prev
    have hz1 := countLabel_outside vars node ko prev l
    have ih2 := count_seq vars l next ko (Node_compile_c_ko vars node ko prev).2
    have hz2 := countLabel_seq_outside vars next ko (Node_compile_c_ko vars node ko prev).2 l
    simp only [sequenceLoop, countLabel_append]
    omega
end

mutual
theorem targets_node (vars : List Variable) : ∀ (e : Node) (ko prev : Nat) (i : Instr),
    i ∈ (Node_compile_c_ko vars e ko prev).1 → ∀ l, target i = some l →
    l = ko ∨ 1 ≤ countLabel l (Node_compile_c_ko vars e ko prev).1
  | .dot, ko, prev, i => by
    intro hi l ht
    simp only [Node_compile_c_ko, List.mem_singleton] at hi
    subst hi
    simp only [target, Option.some.injEq] at ht
    exact Or.inl ht.symm
  | .name rule var, ko, prev, i => by
    intro hi l ht
    cases var <;> simp only [Node_compile_c_ko, List.mem_append, List.mem_singleton,
      List.not_mem_nil, or_false] at hi
    · subst hi
      simp only [target, Option.some.injEq] at ht
      exact Or.inl ht.symm
    · rcases hi with hi | hi <;> subst hi
      · simp only [target, Option.some.injEq] at ht
        exact Or.inl ht.symm
      · simp [target] at ht
  | .character value, ko, prev, i => by
    intro hi l ht
    simp only [Node_compile_c_ko, List.mem_singleton] at hi
    subst hi
    simp only [target, Option.some.injEq] at ht
    exact Or.inl ht.symm
  | .string value casefold, ko, prev, i => by
    intro hi l ht
    simp only [Node_compile_c_ko, List.mem_singleton] at hi
    subst hi
    simp only [target, Option.some.injEq] at ht
    exact Or.inl ht.symm
  | .cclass value, ko, prev, i => by
    intro hi l ht
    simp only [Node_compile_c_ko, List.mem_singleton] at hi
    subst hi
    simp only [target, Option.some.injEq] at ht
    exact Or.inl ht.symm
  | .action name, ko, prev, i => by
    intro hi l ht
    simp only [Node_compile_c_ko, List.mem_singleton] at hi
    subst hi
    simp [target] at ht
  | .inLine text, ko, prev, i => by
    intro hi l ht
    simp only [Node_compile_c_ko, List.mem_singleton] at hi
    subst hi
    simp [target] at ht
  | .predicate text, ko, prev, i => by
    intro hi l ht
    simp only [Node_compile_c_ko, List.mem_singleton] at hi
    subst hi
    simp only [target, Option.some.injEq] at ht
    exact Or.inl ht.symm
  | .error element text, ko, prev, i => by
    intro hi l ht
    have ih1 := fun i hi l ht => targets_node vars element (prev + 1 + 1) (prev + 1 + 1) i hi l ht
    simp only [Node_compile_c_ko, yyl, jump, label, List.cons_append, List.nil_append, List.append_assoc] at hi ⊢
    simp only [List.mem_cons, List.mem_append, List.mem_singleton, List.not_mem_nil, or_false] at hi
    repeat' rcases hi with hi | hi
    all_goals first
      | (have h1 := ih1 _ hi _ ht
         simp only [countLabel_append, countLabel]
         first | omega | (split_ifs <;> omega))
      | (simp [target] at ht <;> simp only [countLabel_append, countLabel] <;>
          first | omega | (split_ifs <;> omega))
  | .alternate first, ko, prev, i => by
    intro hi l ht
    have ih1 := fun i hi l ht => targets_alt vars first (prev + 1) ko (prev + 1) i hi l ht
    simp only [Node_compile_c_ko, yyl, begin, save, end_, label, List.cons_append, List.nil_append,
      List.append_assoc] at hi ⊢
    simp only [List.mem_cons, List.mem_append, List.mem_singleton, List.not_mem_nil,
      or_false] at hi
    repeat' rcases hi with hi | hi
    all_goals first
      | (have h1 := ih1 _ hi _ ht
         simp only [countLabel_append, countLabel]
         first | omega | (split_ifs <;> omega))
      | (simp [target] at ht <;> simp only [countLabel_append, countLabel] <;>
          first | omega | (split_ifs <;> omega))
  | .sequence first, ko, prev, i => by
    intro hi l ht
    simp only [Node_compile_c_ko] at hi ⊢
    exact targets_seq vars first ko prev i hi l ht
  | .peekFor element, ko, prev, i => by
    intro hi l ht
    have ih1 := fun i hi l ht => targets_node vars element ko (prev + 1) i hi l ht
    simp only [Node_compile_c_ko, yyl, begin, save, end_, restore, List.cons_append, List.nil_append, List.append_assoc] at hi ⊢
    simp only [List.mem_cons, List.mem_append, List.mem_singleton, List.not_mem_nil, or_false] at hi
    repeat' rcases hi with hi | hi
    all_goals first
      | (have h1 := ih1 _ hi _ ht
         simp only [countLabel_append, countLabel]
         first | omega | (split_ifs <;> omega))
      | (simp [target] at ht <;> simp only [countLabel_append, countLabel] <;>
          first | omega | (split_ifs <;> omega))
  | .peekNot element, ko, prev, i => by
    intro hi l ht
    have ih1 := fun i hi l ht => targets_node vars element (prev + 1) (prev + 1) i hi l ht
    simp only [Node_compile_c_ko, yyl, begin, save, end_, restore, saveMaxPos, restoreMaxPos, jump, label, List.cons_append, List.nil_append, List.append_assoc] at hi ⊢
    simp only [List.mem_cons, List.mem_append, List.mem_singleton, List.not_mem_nil, or_false] at hi
    repeat' rcases hi with hi | hi
    all_goals first
      | (have h1 := ih1 _ hi _ ht
         simp only [countLabel_append, countLabel]
         first | omega | (split_ifs <;> omega))
      | (simp [target] at ht <;> simp only [countLabel_append, countLabel] <;>
          first | omega | (split_ifs <;> omega))
  | .query element, ko, prev, i => by
    intro hi l ht
    have ih1 := fun i hi l ht => targets_node vars element (prev + 1) (prev + 1 + 1) i hi l ht
    simp only [Node_compile_c_ko, yyl, begin, save, end_, restore, jump, label, List.cons_append, List.nil_append, List.append_assoc] at hi ⊢
    simp only [List.mem_cons, List.mem_append, List.mem_singleton, List.not_mem_nil, or_false] at hi
    repeat' rcases hi with hi | hi
    all_goals first
      | (have h1 := ih1 _ hi _ ht
         simp only [countLabel_append, countLabel]
         first | omega | (split_ifs <;> omega))
      | (simp [target] at ht <;> simp only [countLabel_append, countLabel] <;>
          first | omega | (split_ifs <;> omega))
  | .star element, ko, prev, i => by
    intro hi l ht
    have ih1 := fun i hi l ht => targets_node vars element (prev + 1 + 1) (prev + 1 + 1) i hi l ht
    simp only [Node_compile_c_ko, yyl, begin, save, end_, restore, jump, label, List.cons_append, List.nil_append, List.append_assoc] at hi ⊢
    simp only [List.mem_cons, List.mem_append, List.mem_singleton, List.not_mem_nil, or_false] at hi
    repeat' rcases hi with hi | hi
    all_goals first
      | (have h1 := ih1 _ hi _ ht
         simp only [countLabel_append, countLabel]
         first | omega | (split_ifs <;> omega))
      | (simp [target] at ht <;> simp only [countLabel_append, countLabel] <;>
          first | omega | (split_ifs <;> omega))
  | .plus element, ko, prev, i => by
    intro hi l ht
    have ih1 := fun i hi l ht => targets_node vars element ko (prev + 1 + 1) i hi l ht
    have ih2 := fun i hi l ht => targets_node vars element (prev + 1 + 1)
      (Node_compile_c_ko vars element ko (prev + 1 + 1)).2 i hi l ht
    simp only [Node_compile_c_ko, yyl, begin, save, end_, restore, jump, label, List.cons_append, List.nil_append, List.append_assoc] at hi ⊢
    simp only [List.mem_cons, List.mem_append, List.mem_singleton, List.not_mem_nil, or_false] at hi
    repeat' rcases hi with hi | hi
    all_goals first
      | (have h1 := ih1 _ hi _ ht
         simp only [countLabel_append, countLabel]
         first | omega | (split_ifs <;> omega))
      | (have h1 := ih2 _ hi _ ht
         simp only [countLabel_append, countLabel]
         first | omega | (split_ifs <;> omega))
      | (simp [target] at ht <;> simp only [countLabel_append, countLabel] <;>
          first | omega | (split_ifs <;> omega))
theorem targets_alt (vars : List Variable) : ∀ (c : Chain) (ok ko prev : Nat) (i : Instr),
    i ∈ (alternateLoop vars c ok ko prev).1 → ∀ l, target i = some l →
    l = ko ∨ l = ok ∨ 1 ≤ countLabel l (alternateLoop vars c ok ko prev).1
  | .nil, ok, ko, prev, i => by
    intro hi
    simp [alternateLoop] at hi
  | .cons node .nil, ok, ko, prev, i => by
    intro hi l ht
    simp only [alternateLoop] at hi ⊢
    rcases targets_node vars node ko prev i hi l ht with h | h
    · exact Or.inl h
    · exact Or.inr (Or.inr h)
  | .cons node (.cons node2 rest), ok, ko, prev, i => by
    intro hi l ht
    have ih1 := fun i hi l ht => targets_node vars node (prev + 1) (prev + 1) i hi l ht
    have ih2 := fun i hi l ht => targets_alt vars (.cons node2 rest) ok ko
      (Node_compile_c_ko vars node (prev + 1) (prev + 1)).2 i hi l ht
    simp only [alternateLoop, yyl, jump, label, restore, List.cons_append, List.nil_append,
      List.append_assoc] at hi ⊢
    simp only [List.mem_cons, List.mem_append, List.mem_singleton, List.not_mem_nil,
      or_false] at hi
    repeat' rcases hi with hi | hi
    all_goals first
      | (have h1 := ih1 _ hi _ ht
         simp only [countLabel_append, countLabel]
         first | omega | (split_ifs <;> omega))
      | (have h1 := ih2 _ hi _ ht
         simp only [countLabel_append, countLabel]
         first | omega | (split_ifs <;> omega))
      | (simp [target] at ht <;> simp only [countLabel_append, countLabel] <;>
          first | omega | (split_ifs <;> omega))
theorem targets_seq (vars : List Variable) : ∀ (c : Chain) (ko prev : Nat) (i : Instr),
    i ∈ (sequenceLoop vars c ko prev).1 → ∀ l, target i = some l →
    l = ko ∨ 1 ≤ countLabel l (sequenceLoop vars c ko prev).1
  | .nil, ko, prev, i => by
    intro hi
    simp [sequenceLoop] at hi
  | .cons node next, ko, prev, i => by
    intro hi l ht
    simp only [sequenceLoop, List.mem_append] at hi ⊢
    simp only [countLabel_append]
    rcases hi with hi | hi
    · have := targets_node vars node ko prev i hi l ht
      omega
    · have := targets_seq vars next ko (Node_compile_c_ko vars node ko prev).2 i hi l ht
      omega
end

theorem countLabel_varsStmt (l : Nat) (node : Rule) (a : yyaction) :
    countLabel l (varsStmt node a) = 0 := by
  unfold varsStmt
  split <;> rfl

theorem target_varsStmt {node : Rule} {a : yyaction} {i : Instr} (h : i ∈ varsStmt node a) :
    target i = none := by
  rw [varsStmt_mem h]
  rfl

theorem inner_target {ko prev l : Nat} {i : Instr} (h : inner ko prev i)
    (ht : target i = some l) : l = ko ∨ prev < l := by
  cases i <;> simp [target] at ht <;> subst ht <;> exact h

theorem ruleBody_counter (node : Rule) (e : Node) (p : Nat) :
    (ruleBody node e p).2 = (Node_compile_c_ko node.vars e (p + 1) (p + 1)).2 := rfl

theorem ruleBody_count (l : Nat) (node : Rule) (e : Node) (p : Nat) :
    countLabel l (ruleBody node e p).1 =
      countLabel l (Node_compile_c_ko node.vars e (p + 1) (p + 1)).1 +
        (if isSafe e = true then 0 else if p + 1 = l then 1 else 0) := by
  rw [ruleBody_eq]
  by_cases hs : isSafe e = true
  · simp only [hs, if_true, List.nil_append, countLabel_append, countLabel_varsStmt,
      countLabel]
    omega
  · simp only [hs, Bool.false_eq_true, if_false, countLabel_append, countLabel_varsStmt,
      countLabel, save, label, restore]
    omega

theorem ruleBody_count_le (l : Nat) (node : Rule) (e : Node) (p : Nat) :
    countLabel l (ruleBody node e p).1 ≤ 1 ∧
      (l ≤ p → countLabel l (ruleBody node e p).1 = 0) ∧ p ≤ (ruleBody node e p).2 := by
  have h1 := count_node node.vars l e (p + 1) (p + 1)
  have hz := countLabel_outside node.vars e (p + 1) (p + 1) l
  have hle := counter_le node.vars e (p + 1) (p + 1)
  rw [ruleBody_count, ruleBody_counter]
  split_ifs <;> omega

theorem printed_count (l : Nat) : ∀ (rules : List Rule) (prev : Nat),
    countLabel l (printed rules prev) ≤ 1 ∧ (l ≤ prev → countLabel l (printed rules prev) = 0)
  | [], prev => by simp [printed, Rule_compile_c2, countLabel]
  | node :: next, prev => by
    cases he : node.expression with
    | none =>
      have ih := printed_count l next prev
      simpa only [printed, Rule_compile_c2, he, List.filterMap_cons, id_eq] using ih
    | some e =>
      have ih := printed_count l next (ruleBody node e prev).2
      have hb := ruleBody_count_le l node e prev
      have hz := @countLabel_zero_of_afterLabel l
        (Node_compile_c_ko node.vars e (prev + 1) (prev + 1)).1
      have hout := countLabel_outside node.vars e (prev + 1) (prev + 1) l
      have hc := ruleBody_count l node e prev
      rw [ruleBody_counter] at ih hb
      simp only [printed, Rule_compile_c2, he, List.filterMap_cons, id_eq, List.flatten_cons,
        countLabel_append] at ih ⊢
      rw [ruleBody_counter]
      have hle := counter_le node.vars e (prev + 1) (prev + 1)
      split_ifs at hc <;> omega

theorem body_targets (node : Rule) (e : Node) (p : Nat) {i : Instr}
    (hi : i ∈ (ruleBody node e p).1) {l : Nat} (ht : target i = some l) :
    countLabel l (ruleBody node e p).1 = 1 := by
  have hcode : i ∈ (Node_compile_c_ko node.vars e (p + 1) (p + 1)).1 := by
    rw [ruleBody_eq] at hi
    simp only [List.mem_append, List.mem_cons] at hi
    rcases hi with hi | hi | hi | hi | hi | hi | hi | hi
    · split at hi
      · simp at hi
      · simp only [List.mem_singleton] at hi; subst hi; simp [target, save] at ht
    · rw [target_varsStmt hi] at ht; cases ht
    · subst hi; simp [target] at ht
    · exact hi
    · subst hi; simp [target] at ht
    · rw [target_varsStmt hi] at ht; cases ht
    · subst hi; simp [target] at ht
    · split at hi
      · simp at hi
      · simp only [List.mem_cons, List.mem_singleton, List.not_mem_nil, or_false] at hi
        rcases hi with hi | hi | hi | hi <;> subst hi <;> simp [target, label, restore] at ht
  have h1 := count_node node.vars l e (p + 1) (p + 1)
  have hout := countLabel_outside node.vars e (p + 1) (p + 1) l
  have ht2 := targets_node node.vars e (p + 1) (p + 1) i hcode l ht
  rw [ruleBody_count]
  by_cases hs : isSafe e = true
  · have := inner_target (inner_safe node.vars hs _ _ hcode) ht
    simp only [hs, if_true]
    omega
  · simp only [hs, Bool.false_eq_true, if_false]
    split_ifs <;> omega

/-- C21 (labels): the first call of `yyl` returns 1 and every call returns
the counter it found plus one, which it stores; no label `lN:` is printed
twice in the text of all the rule procedures of a compilation, whatever the
grammar, an element compiled twice by `Plus` included; and every `goto lN` in
the text of a rule procedure goes to a label printed exactly once in that
procedure. -/
theorem labels_well_formed :
    ((yyl 0).1 = 1 ∧ ∀ prev, (yyl prev).1 = prev + 1 ∧ (yyl prev).2 = (yyl prev).1) ∧
    (∀ rules prev l, countLabel l (printed rules prev) ≤ 1) ∧
    (∀ rules prev r body, (Rule_compile_c2 rules prev).1.getD r none = some body →
      ∀ i ∈ body, ∀ l, target i = some l → countLabel l body = 1) := by
  refine ⟨⟨rfl, fun _ => ⟨rfl, rfl⟩⟩, fun rules prev l => (printed_count l rules prev).1, ?_⟩
  intro rules prev r body hb i hi l ht
  obtain ⟨node, e, p, _, _, rfl⟩ := procs_getD rules prev r body hb
  exact body_targets node e p hi ht

/-! ### Character classes: negation -/

set_option maxRecDepth 100000 in
theorem bit_facts : ∀ x : Fin 256, ∀ k : Fin 8,
    (255 - x.val) &&& (255 ^^^ (1 <<< k.val)) = 255 - (x.val ||| (1 <<< k.val)) ∧
    x.val ||| (1 <<< k.val) < 256 ∧
    ((255 - x.val) &&& (1 <<< k.val) ≠ 0 ↔ ¬ (x.val &&& (1 <<< k.val) ≠ 0)) := by
  decide

theorem and_seven_lt (c : Nat) : c &&& 7 < 8 :=
  Nat.lt_succ_of_le Nat.and_le_right

theorem complement_length (bits : List Nat) : (complement bits).length = bits.length := by
  simp [complement]

theorem complement_getD (bits : List Nat) (i : Nat) (h : i < bits.length) :
    (complement bits).getD i 0 = 255 - bits.getD i 0 := by
  simp [complement, List.getD_eq_getElem?_getD, List.getElem?_map, List.getElem?_eq_getElem h]

theorem complement_set (bits : List Nat) (i v : Nat) :
    complement (bits.set i v) = (complement bits).set i (255 - v) := by
  simp [complement, List.map_set]

theorem getD_lt {bits : List Nat} (hb : Bytes bits) (i : Nat) : bits.getD i 0 < 256 := by
  rw [List.getD_eq_getElem?_getD]
  cases h : bits[i]? with
  | none => simp
  | some v =>
    obtain ⟨hlt, heq⟩ := List.getElem?_eq_some_iff.1 h
    exact hb v (heq ▸ List.getElem_mem hlt)

theorem clear_complement {bits : List Nat} (hb : Bytes bits) (c : Nat) :
    charClassClear (complement bits) c = (charClassSet bits c).map complement := by
  unfold charClassClear charClassSet
  rw [complement_length]
  by_cases h : c >>> 3 < bits.length
  · rw [if_pos h, if_pos h]
    simp only [Option.map_some', Option.some.injEq]
    rw [complement_set, complement_getD _ _ h]
    congr 1
    exact (bit_facts ⟨bits.getD (c >>> 3) 0, getD_lt hb _⟩ ⟨c &&& 7, and_seven_lt c⟩).1
  · rw [if_neg h, if_neg h]
    rfl

theorem bytes_set {bits bits1 : List Nat} (hb : Bytes bits) {c : Nat}
    (h : charClassSet bits c = some bits1) : Bytes bits1 ∧ bits1.length = bits.length := by
  unfold charClassSet at h
  split at h
  · simp only [Option.some.injEq] at h
    subst h
    refine ⟨?_, by simp⟩
    intro b hmem
    rcases List.mem_or_eq_of_mem_set hmem with h1 | h1
    · exact hb b h1
    · rw [h1]
      exact (bit_facts ⟨bits.getD (c >>> 3) 0, getD_lt hb _⟩ ⟨c &&& 7, and_seven_lt c⟩).2.1
  · simp at h

theorem rangeLoop_complement : ∀ (n : Nat) (bits : List Nat) (prev : Nat), Bytes bits →
    rangeLoop charClassClear n (complement bits) prev =
      (rangeLoop charClassSet n bits prev).map complement
  | 0, _, _, _ => rfl
  | n + 1, bits, prev, hb => by
    simp only [rangeLoop, clear_complement hb]
    cases h : charClassSet bits prev with
    | none => rfl
    | some bits1 =>
      simp only [Option.map_some']
      exact rangeLoop_complement n bits1 (prev + 1) (bytes_set hb h).1

theorem bytes_rangeLoop : ∀ (n : Nat) (bits bits1 : List Nat) (prev : Nat), Bytes bits →
    rangeLoop charClassSet n bits prev = some bits1 → Bytes bits1 ∧ bits1.length = bits.length
  | 0, bits, bits1, _, hb, h => by
    simp only [rangeLoop, Option.some.injEq] at h
    subst h
    exact ⟨hb, rfl⟩
  | n + 1, bits, bits1, prev, hb, h => by
    simp only [rangeLoop] at h
    cases h1 : charClassSet bits prev with
    | none => simp [h1] at h
    | some bits2 =>
      simp only [h1] at h
      have h2 := bytes_set hb h1
      have h3 := bytes_rangeLoop n bits2 bits1 (prev + 1) h2.1 h
      exact ⟨h3.1, h3.2.trans h2.2⟩

theorem classLoop_complement : ∀ (fuel : Nat) (cclass : List Nat) (prev : Option Nat)
    (bits : List Nat), Bytes bits →
    classLoop charClassClear fuel cclass prev (complement bits) =
      (classLoop charClassSet fuel cclass prev bits).map complement
  | 0, cclass, prev, bits, _ => by
    simp only [classLoop]
    split <;> rfl
  | fuel + 1, cclass, prev, bits, hb => by
    simp only [classLoop]
    split
    · rfl
    · split
      · rw [rangeLoop_complement _ _ _ hb]
        cases h : rangeLoop charClassSet ((cnext cclass.tail).1 + 1 - prev.getD 0) bits
            (prev.getD 0) with
        | none => rfl
        | some bits1 =>
          simp only [Option.map_some']
          exact classLoop_complement fuel _ none bits1 (bytes_rangeLoop _ _ _ _ hb h).1
      · rw [clear_complement hb]
        cases h : charClassSet bits (cnext cclass).1 with
        | none => rfl
        | some bits1 =>
          simp only [Option.map_some']
          exact classLoop_complement fuel _ _ bits1 (bytes_set hb h).1

theorem ite_snd_length {P : Prop} [Decidable P] {a b : Nat × List Nat} {n : Nat}
    (ha : a.2.length ≤ n) (hb : b.2.length ≤ n) : (if P then a else b).2.length ≤ n := by
  split <;> assumption

theorem skip_length (f : Nat → Bool) (q : List Nat) :
    (if f (peekc q) then q.tail else q).length ≤ q.length := by
  split
  · rw [List.length_tail]; omega
  · exact le_refl _

theorem skip_skip_length (f : Nat → Bool) (q : List Nat) (n : Nat) (h : q.length ≤ n) :
    (if f (peekc (if f (peekc q) then q.tail else q))
      then (if f (peekc q) then q.tail else q).tail
      else (if f (peekc q) then q.tail else q)).length ≤ n :=
  le_trans (skip_length f _) (le_trans (skip_length f q) h)

theorem cnext_cons_length (c : Nat) (p : List Nat) (hc : c ≠ 0) :
    (cnext (c :: p)).2.length ≤ p.length := by
  rw [cnext.eq_def]
  simp only []
  rw [if_neg hc]
  apply ite_snd_length
  · cases p with
    | nil => exact le_refl _
    | cons e q =>
      simp only []
      repeat' apply ite_snd_length
      all_goals first
        | exact Nat.le_succ _
        | exact skip_skip_length higit q _ (Nat.le_succ _)
        | exact skip_skip_length oigit q _ (Nat.le_succ _)
  · exact le_refl _

theorem cnext_length (s : List Nat) :
    (cnext s).2.length ≤ s.length ∧ (peekc s ≠ 0 → (cnext s).2.length < s.length) := by
  cases s with
  | nil => simp [cnext, peekc]
  | cons c p =>
    by_cases hc : c = 0
    · subst hc
      simp [cnext, peekc]
    · have := cnext_cons_length c p hc
      simp only [List.length_cons]
      exact ⟨by omega, fun _ => by omega⟩
theorem classLoop_fuel (set : List Nat → Nat → Option (List Nat)) :
    ∀ (fuel : Nat) (cclass : List Nat) (prev : Option Nat) (bits : List Nat),
      cclass.length ≤ fuel →
      classLoop set (fuel + 1) cclass prev bits = classLoop set fuel cclass prev bits
  | 0, cclass, prev, bits, h => by
    have : cclass = [] := List.length_eq_zero.1 (Nat.le_zero.1 h)
    subst this
    simp [classLoop, peekc]
  | fuel + 1, cclass, prev, bits, h => by
    rw [classLoop, classLoop.eq_def _ (fuel + 1)]
    simp only
    by_cases h0 : peekc cclass = 0
    · simp only [h0, if_true]
    · simp only [h0, if_false]
      have hne : cclass ≠ [] := by
        intro hc; subst hc; simp [peekc] at h0
      have htail : cclass.tail.length + 1 = cclass.length := by
        cases cclass with
        | nil => exact absurd rfl hne
        | cons a l => simp
      have h1 := (cnext_length cclass).2 h0
      have h2 := (cnext_length cclass.tail).1
      split
      · cases rangeLoop set ((cnext cclass.tail).1 + 1 - prev.getD 0) bits (prev.getD 0) with
        | none => rfl
        | some bits1 => exact classLoop_fuel set fuel _ none bits1 (by omega)
      · cases set bits (cnext cclass).1 with
        | none => rfl
        | some bits1 => exact classLoop_fuel set fuel _ _ bits1 (by omega)

theorem bytes_classLoop : ∀ (fuel : Nat) (cclass : List Nat) (prev : Option Nat)
    (bits bits1 : List Nat), Bytes bits →
    classLoop charClassSet fuel cclass prev bits = some bits1 →
    Bytes bits1 ∧ bits1.length = bits.length
  | 0, cclass, prev, bits, bits1, hb, h => by
    simp only [classLoop] at h
    split at h
    · simp only [Option.some.injEq] at h; subst h; exact ⟨hb, rfl⟩
    · simp at h
  | fuel + 1, cclass, prev, bits, bits1, hb, h => by
    simp only [classLoop] at h
    split at h
    · simp only [Option.some.injEq] at h; subst h; exact ⟨hb, rfl⟩
    · split at h
      · cases h1 : rangeLoop charClassSet ((cnext cclass.tail).1 + 1 - prev.getD 0) bits
            (prev.getD 0) with
        | none => simp [h1] at h
        | some bits2 =>
          simp only [h1] at h
          have h2 := bytes_rangeLoop _ _ _ _ hb h1
          have h3 := bytes_classLoop fuel _ none bits2 bits1 h2.1 h
          exact ⟨h3.1, h3.2.trans h2.2⟩
      · cases h1 : charClassSet bits (cnext cclass).1 with
        | none => simp [h1] at h
        | some bits2 =>
          simp only [h1] at h
          have h2 := bytes_set hb h1
          have h3 := bytes_classLoop fuel _ _ bits2 bits1 h2.1 h
          exact ⟨h3.1, h3.2.trans h2.2⟩

theorem bytes_zero : Bytes (List.replicate 32 0) := by
  intro b hb
  rw [List.mem_replicate] at hb
  omega

theorem classBit_complement {bits : List Nat} (hb : Bytes bits) (hl : bits.length = 32)
    (c : Nat) (hc : c < 256) : classBit (complement bits) c = !classBit bits c := by
  have hi : c >>> 3 < bits.length := by
    rw [hl, Nat.shiftRight_eq_div_pow]
    have : c / 2 ^ 3 < 32 := by omega
    exact this
  have := (bit_facts ⟨bits.getD (c >>> 3) 0, getD_lt hb _⟩ ⟨c &&& 7, and_seven_lt c⟩).2.2
  unfold classBit
  rw [complement_getD _ _ hi]
  by_cases h : bits.getD (c >>> 3) 0 &&& 1 <<< (c &&& 7) ≠ 0
  · have h2 := mt this.1 (not_not.2 h)
    rw [decide_eq_true h, Bool.not_true, decide_eq_false_iff_not]
    exact h2
  · have h2 := this.2 h
    rw [decide_eq_false h, Bool.not_false, decide_eq_true_eq]
    exact h2

/-- C10 (class negation is complement): for a class body `s` that does not
begin with `^`, the bitmap that `makeCharClass` computes for `^` followed by `s`
is the bitwise complement of the bitmap it computes for `s` (the one is
computed when the other one is), and the negated class accepts a byte iff the
plain class rejects it. -/
theorem negation_is_complement (s : List Nat) (hs : peekc s ≠ 94) :
    makeCharClassBits (94 :: s) = (makeCharClassBits s).map complement ∧
    makeCharClass (94 :: s) =
      (makeCharClassBits s).map (fun bits => ((complement bits).map sprintfOctal).flatten) ∧
    ∀ bits, makeCharClassBits s = some bits →
      bits.length = 32 ∧ Bytes bits ∧
      ∀ c, c < 256 → classBit (complement bits) c = !classBit bits c := by
  have h1 : makeCharClassBits (94 :: s) =
      classLoop charClassClear s.length s none (List.replicate 32 255) := by
    unfold makeCharClassBits
    rw [if_pos (by rfl)]
    exact classLoop_fuel charClassClear s.length s none _ (le_refl _)
  have h2 : makeCharClassBits s = classLoop charClassSet s.length s none (List.replicate 32 0) := by
    unfold makeCharClassBits
    rw [if_neg hs]
  have h3 : List.replicate 32 255 = complement (List.replicate 32 0) := by decide
  have h4 : makeCharClassBits (94 :: s) = (makeCharClassBits s).map complement := by
    rw [h1, h2, h3, classLoop_complement _ _ _ _ bytes_zero]
  refine ⟨h4, ?_, ?_⟩
  · unfold makeCharClass
    rw [h4, Option.map_map]
    rfl
  intro bits hb
  rw [h2] at hb
  have := bytes_classLoop _ _ _ _ _ bytes_zero hb
  exact ⟨by simpa using this.2, this.1, fun c hc =>
    classBit_complement this.1 (by simpa using this.2) c hc⟩

theorem negation_is_complement_witness :
    (makeCharClassBits (94 :: [97, 45, 99]) = (makeCharClassBits [97, 45, 99]).map complement ∧
      makeCharClass (94 :: [97, 45, 99]) =
        (makeCharClassBits [97, 45, 99]).map
          (fun bits => ((complement bits).map sprintfOctal).flatten) ∧
      ∀ bits, makeCharClassBits [97, 45, 99] = some bits →
        bits.length = 32 ∧ Bytes bits ∧
        ∀ c, c < 256 → classBit (complement bits) c = !classBit bits c) ∧
    (makeCharClassBits [94, 97, 45, 99]).map
      (fun bits => [classBit bits 97, classBit bits 98, classBit bits 99, classBit bits 100]) =
        some [false, false, false, true] :=
  ⟨negation_is_complement [97, 45, 99] (by decide), by decide⟩

/-! ### Variable binding -/

theorem store_getD_self {α : Type} (d : α) (a : List α) (i : Nat) (v : α) :
    (store d a i v).getD i d = v := by
  unfold store
  split
  · next h => simp [List.getD_eq_getElem?_getD, List.getElem?_set_self h]
  · next h =>
    simp only [List.getD_eq_getElem?_getD]
    rw [List.getElem?_append_right (by simp; omega)]
    have : i - (a ++ List.replicate (i - a.length) d).length = 0 := by simp; omega
    rw [this]
    rfl

set_option maxRecDepth 100000 in
/-- C9 fails on the class text `\400`, which does not begin with `^`: `cnext`
decodes it to the symbol 256, `makeCharClass` calls the setter on it, which
indexes `bits[32]` in the array of 32, so that no bitmap is serialized and the
`yymatchClass` test printed for the class has no defined result on any input
byte; on the class text `\x41-\x43` the bitmap accepts exactly `A`, `B`,
`C`. -/
theorem class_membership_undefined :
    peekc [92, 52, 48, 48] ≠ 94 ∧
    cnext [92, 52, 48, 48] = (256, []) ∧
    256 >>> 3 = 32 ∧
    makeCharClass [92, 52, 48, 48] = none ∧
    (evalTest noUser noCall (.matchClass (makeCharClass [92, 52, 48, 48]))
      (ready [0])).isSome = false ∧
    (makeCharClass [92, 120, 52, 49, 45, 92, 120, 52, 51]).map
      (fun lit => (List.range 256).filter fun b => classBit (literal lit) b) =
        some [65, 66, 67] := by
  decide

/-! ### Character classes: the set denoted by a class text -/

theorem and_bit_ne_zero (y j : Nat) : y &&& (1 <<< j) ≠ 0 ↔ y.testBit j = true := by
  rw [Nat.one_shiftLeft]
  constructor
  · intro h
    by_contra hc
    apply h
    apply Nat.eq_of_testBit_eq
    intro i
    rw [Nat.testBit_and, Nat.testBit_two_pow, Nat.zero_testBit]
    by_cases hij : j = i
    · subst hij
      simp [hc]
    · simp [hij]
  · intro h h0
    have := congrArg (fun z => Nat.testBit z j) h0
    simp only [Nat.testBit_and, Nat.testBit_two_pow, Nat.zero_testBit, h] at this
    simp at this

theorem set_bit_test (x j k : Nat) :
    ((x ||| 1 <<< k) &&& (1 <<< j) ≠ 0) ↔ (j = k ∨ x &&& (1 <<< j) ≠ 0) := by
  rw [and_bit_ne_zero, and_bit_ne_zero, Nat.testBit_or, Nat.one_shiftLeft, Nat.testBit_two_pow]
  simp only [Bool.or_eq_true, decide_eq_true_eq]
  constructor
  · rintro (h | h)
    · exact Or.inr h
    · exact Or.inl h.symm
  · rintro (h | h)
    · exact Or.inr h.symm
    · exact Or.inl h

theorem byte_split (b c : Nat) : b = c ↔ (b >>> 3 = c >>> 3 ∧ b &&& 7 = c &&& 7) := by
  have h7 : ∀ n : Nat, n &&& 7 = n % 8 := fun n => Nat.and_pow_two_sub_one_eq_mod n 3
  rw [h7, h7, Nat.shiftRight_eq_div_pow, Nat.shiftRight_eq_div_pow]
  constructor
  · rintro rfl
    exact ⟨rfl, rfl⟩
  · rintro ⟨h1, h2⟩
    have e1 : 2 ^ 3 = 8 := rfl
    rw [e1] at h1
    omega

theorem classBit_set {bits : List Nat} (hB : Bytes bits) (hl : bits.length = 32) (c : Nat)
    (hc : c < 256) :
    ∃ bits1, charClassSet bits c = some bits1 ∧ Bytes bits1 ∧ bits1.length = 32 ∧
      ∀ b, classBit bits1 b = (decide (b = c) || classBit bits b) := by
  have hi : c >>> 3 < bits.length := by
    rw [hl, Nat.shiftRight_eq_div_pow]
    have : c / 2 ^ 3 < 32 := by omega
    exact this
  have hs : charClassSet bits c =
      some (bits.set (c >>> 3) (bits.getD (c >>> 3) 0 ||| (1 <<< (c &&& 7)))) := by
    unfold charClassSet
    rw [if_pos hi]
  have hb := bytes_set hB hs
  refine ⟨_, hs, hb.1, hb.2.trans hl, fun b => ?_⟩
  unfold classBit
  rw [Bool.eq_iff_iff]
  simp only [Bool.or_eq_true, decide_eq_true_eq]
  by_cases hbc : b >>> 3 = c >>> 3
  · rw [hbc]
    have hg : (bits.set (c >>> 3) (bits.getD (c >>> 3) 0 ||| 1 <<< (c &&& 7))).getD (c >>> 3) 0 =
        bits.getD (c >>> 3) 0 ||| 1 <<< (c &&& 7) := by
      simp [List.getD_eq_getElem?_getD, List.getElem?_set_self hi]
    rw [hg, set_bit_test, byte_split b c]
    simp [hbc]
  · have hg : (bits.set (c >>> 3) (bits.getD (c >>> 3) 0 ||| 1 <<< (c &&& 7))).getD (b >>> 3) 0 =
        bits.getD (b >>> 3) 0 := by
      simp [List.getD_eq_getElem?_getD, List.getElem?_set, Ne.symm hbc]
    rw [hg, byte_split b c]
    simp [hbc]

theorem classBit_rangeLoop : ∀ (n : Nat) (bits : List Nat) (p : Nat), Bytes bits →
    bits.length = 32 → p + n ≤ 256 →
    ∃ bits1, rangeLoop charClassSet n bits p = some bits1 ∧ Bytes bits1 ∧ bits1.length = 32 ∧
      ∀ b, classBit bits1 b = (decide (p ≤ b ∧ b < p + n) || classBit bits b)
  | 0, bits, p, hB, hl, _ => ⟨bits, rfl, hB, hl, fun b => by simp⟩
  | n + 1, bits, p, hB, hl, hp => by
    obtain ⟨bits1, h1, hB1, hl1, hm1⟩ := classBit_set hB hl p (by omega)
    obtain ⟨bits2, h2, hB2, hl2, hm2⟩ := classBit_rangeLoop n bits1 (p + 1) hB1 hl1 (by omega)
    refine ⟨bits2, by simp only [rangeLoop, h1, h2], hB2, hl2, fun b => ?_⟩
    rw [hm2, hm1, Bool.eq_iff_iff]
    cases classBit bits b
    · simp only [Bool.or_eq_true, decide_eq_true_eq, Bool.false_eq_true, or_false]
      omega
    · simp

theorem classBit_classLoop : ∀ (fuel : Nat) (s : List Nat) (prev : Option Nat) (bits : List Nat),
    s.length ≤ fuel → Bytes bits → bits.length = 32 → (∀ p, prev = some p → p < 256) →
    symbolsAreBytes fuel s prev = true →
    ∃ bits1, classLoop charClassSet fuel s prev bits = some bits1 ∧ Bytes bits1 ∧
      bits1.length = 32 ∧ ∀ b, classBit bits1 b = (denotes fuel s prev b || classBit bits b)
  | 0, s, prev, bits, hf, hB, hl, hp, hs => by
    have : s = [] := List.eq_nil_of_length_eq_zero (by omega)
    subst this
    exact ⟨bits, by simp [classLoop, peekc], hB, hl, fun b => by simp [denotes]⟩
  | fuel + 1, s, prev, bits, hf, hB, hl, hp, hs => by
    by_cases h0 : peekc s = 0
    · exact ⟨bits, by simp only [classLoop, if_pos h0], hB, hl,
        fun b => by simp only [denotes, if_pos h0]; simp⟩
    · have hlen : s.tail.length + 1 = s.length := by
        cases s with
        | nil => simp [peekc] at h0
        | cons c p => simp
      by_cases hr : peekc s = 45 ∧ peekc s.tail ≠ 0 ∧ prev.isSome
      · simp only [symbolsAreBytes, if_neg h0, if_pos hr, Bool.and_eq_true,
          decide_eq_true_eq] at hs
        obtain ⟨pv, hpv⟩ := Option.isSome_iff_exists.1 hr.2.2
        subst hpv
        have hpv2 := hp pv rfl
        obtain ⟨bits1, h1, hB1, hl1, hm1⟩ :=
          classBit_rangeLoop ((cnext s.tail).1 + 1 - pv) bits pv hB hl (by omega)
        obtain ⟨bits2, h2, hB2, hl2, hm2⟩ :=
          classBit_classLoop fuel (cnext s.tail).2 none bits1
            (by have := (cnext_length s.tail).1; omega) hB1 hl1 (by simp) hs.2
        refine ⟨bits2, ?_, hB2, hl2, fun b => ?_⟩
        · simp only [classLoop, if_neg h0, if_pos hr, Option.getD_some, h1, h2]
        · rw [hm2, hm1]
          simp only [denotes, if_neg h0, if_pos hr, Option.getD_some]
          rw [Bool.eq_iff_iff]
          cases classBit bits b <;> cases denotes fuel (cnext s.tail).2 none b <;>
            simp <;> omega
      · simp only [symbolsAreBytes, if_neg h0, if_neg hr, Bool.and_eq_true,
          decide_eq_true_eq] at hs
        obtain ⟨bits1, h1, hB1, hl1, hm1⟩ := classBit_set hB hl (cnext s).1 hs.1
        obtain ⟨bits2, h2, hB2, hl2, hm2⟩ :=
          classBit_classLoop fuel (cnext s).2 (some (cnext s).1) bits1
            (by have := (cnext_length s).2 h0; omega) hB1 hl1
            (by intro p hp; simp only [Option.some.injEq] at hp; omega) hs.2
        refine ⟨bits2, ?_, hB2, hl2, fun b => ?_⟩
        · simp only [classLoop, if_neg h0, if_neg hr, h1, h2]
        · rw [hm2, hm1]
          simp only [denotes, if_neg h0, if_neg hr]
          rw [Bool.eq_iff_iff]
          cases classBit bits b <;> cases denotes fuel (cnext s).2 (some (cnext s).1) b <;>
            simp

theorem octalEscape_two (a d2 d3 : Nat) (h2 : d2 < 8) (h3 : d3 < 8) (rest : List Nat) :
    octalEscape 2 a ((48 + d2) :: (48 + d3) :: rest) = ((a * 8 + d2) * 8 + d3, rest) := by
  have o2 : oigit (48 + d2) = true := by simp [oigit]; omega
  have o3 : oigit (48 + d3) = true := by simp [oigit]; omega
  simp only [octalEscape, o2, o3, if_true, Nat.add_sub_cancel_left]

theorem cLiteral_digits (fuel d1 d2 d3 : Nat) (h1 : d1 < 4) (h2 : d2 < 8) (h3 : d3 < 8)
    (rest : List Nat) :
    cLiteral (fuel + 1) (92 :: (48 + d1) :: (48 + d2) :: (48 + d3) :: rest) =
      ((d1 * 8 + d2) * 8 + d3) :: cLiteral fuel rest := by
  have o1 : oigit (48 + d1) = true := by simp [oigit]; omega
  have hm : ((d1 * 8 + d2) * 8 + d3) % 256 = (d1 * 8 + d2) * 8 + d3 := Nat.mod_eq_of_lt (by omega)
  rw [cLiteral]
  rw [if_pos rfl]
  repeat rw [if_neg (by omega)]
  rw [if_pos o1, Nat.add_sub_cancel_left, octalEscape_two _ _ _ h2 h3, hm]

theorem literal_serialized : ∀ (bits : List Nat) (fuel : Nat), Bytes bits → bits.length ≤ fuel →
    cLiteral fuel (bits.map sprintfOctal).flatten = bits
  | [], fuel, _, _ => by cases fuel <;> simp [cLiteral]
  | b :: bits, 0, _, h => by simp at h
  | b :: bits, fuel + 1, hB, h => by
    have hb : b < 256 := hB b (by simp)
    have ih := literal_serialized bits fuel (fun x hx => hB x (by simp [hx])) (by simpa using h)
    simp only [List.map_cons, List.flatten_cons, sprintfOctal, List.cons_append, List.nil_append]
    rw [cLiteral_digits fuel _ _ _ (by omega) (Nat.mod_lt _ (by omega)) (Nat.mod_lt _ (by omega)),
      ih]
    congr 1
    omega

theorem serialized_length : ∀ bits : List Nat,
    ((bits.map sprintfOctal).flatten).length = 4 * bits.length
  | [] => rfl
  | b :: bits => by
    simp only [List.map_cons, List.flatten_cons, List.length_append, serialized_length bits,
      sprintfOctal, List.length_cons, List.length_nil]
    omega

theorem classBit_zero (b : Nat) : classBit (List.replicate 32 0) b = false := by
  unfold classBit
  have : (List.replicate 32 0).getD (b >>> 3) 0 = 0 := by
    rw [List.getD_eq_getElem?_getD, List.getElem?_replicate]
    split <;> rfl
  rw [this]
  simp

/-- Character-class membership where no symbol exceeds a byte: for every class
text `s` that does not begin with `^` and whose symbols, as `cnext` decodes
them, are all below 256, `makeCharClass` serializes a bitmap of 32 bytes as 32
groups of a backslash and three octal digits, the C literal with that text is
the bitmap, the test printed for the class is `yymatchClass` on it, and the
bitmap has the bit of a byte `b` (byte `b >> 3`, bit `b & 7`) set iff `b`
belongs to the set denoted by `s`. -/
theorem class_membership (s : List Nat) (hs : peekc s ≠ 94)
    (hb : symbolsAreBytes s.length s none = true) :
    ∃ bits, makeCharClassBits s = some bits ∧ bits.length = 32 ∧ Bytes bits ∧
      makeCharClass s = some (bits.map sprintfOctal).flatten ∧
      literal (bits.map sprintfOctal).flatten = bits ∧
      (∀ (U : UserCode) (call : Nat → yycontext → Option (Bool × yycontext)) (yy : yycontext),
        evalTest U call (.matchClass (makeCharClass s)) yy = yymatchClass yy bits) ∧
      ∀ b, classBit bits b = denotes s.length s none b := by
  obtain ⟨bits, h1, hB, hl, hm⟩ :=
    classBit_classLoop s.length s none (List.replicate 32 0) (le_refl _) bytes_zero
      (by simp) (by simp) hb
  have h2 : makeCharClassBits s = some bits := by
    unfold makeCharClassBits
    rw [if_neg hs]
    exact h1
  have h3 : makeCharClass s = some (bits.map sprintfOctal).flatten := by
    unfold makeCharClass
    rw [h2]
    rfl
  have h4 : literal (bits.map sprintfOctal).flatten = bits := by
    unfold literal
    exact literal_serialized bits _ hB (by rw [serialized_length]; omega)
  refine ⟨bits, h2, hl, hB, h3, h4, fun U call yy => ?_, fun b => ?_⟩
  · simp only [evalTest, h3, h4]
  · rw [hm, classBit_zero, Bool.or_false]

set_option maxRecDepth 100000 in
theorem class_membership_witness :
    (∃ bits, makeCharClassBits [92, 120, 52, 49, 45, 92, 120, 52, 51] = some bits ∧
      bits.length = 32 ∧ Bytes bits ∧
      makeCharClass [92, 120, 52, 49, 45, 92, 120, 52, 51] =
        some (bits.map sprintfOctal).flatten ∧
      literal (bits.map sprintfOctal).flatten = bits ∧
      (∀ (U : UserCode) (call : Nat → yycontext → Option (Bool × yycontext)) (yy : yycontext),
        evalTest U call (.matchClass (makeCharClass [92, 120, 52, 49, 45, 92, 120, 52, 51])) yy =
          yymatchClass yy bits) ∧
      ∀ b, classBit bits b =
        denotes [92, 120, 52, 49, 45, 92, 120, 52, 51].length
          [92, 120, 52, 49, 45, 92, 120, 52, 51] none b) ∧
    (List.range 256).filter (denotes 9 [92, 120, 52, 49, 45, 92, 120, 52, 51] none) =
      [65, 66, 67] :=
  ⟨class_membership [92, 120, 52, 49, 45, 92, 120, 52, 51] (by decide) (by decide), by decide⟩

/-! ### The cursor and the buffer: the claim -/

theorem storeAll_getD : ∀ (bytes a : List Nat) (i j : Nat),
    (storeAll a i bytes).getD j 0 =
      if i ≤ j ∧ j < i + bytes.length then bytes.getD (j - i) 0 else a.getD j 0
  | [], a, i, j => by
    rw [storeAll, if_neg (by simp only [List.length_nil]; omega)]
  | c :: rest, a, i, j => by
    rw [storeAll, storeAll_getD rest (store 0 a i c) (i + 1) j]
    by_cases h1 : i + 1 ≤ j ∧ j < i + 1 + rest.length
    · rw [if_pos h1, if_pos ⟨by omega, by simp only [List.length_cons]; omega⟩]
      have : j - i = (j - (i + 1)) + 1 := by omega
      rw [this, List.getD_cons_succ]
    · rw [if_neg h1]
      by_cases h2 : j = i
      · subst h2
        rw [store_getD_self, if_pos ⟨le_refl _, by simp⟩]
        simp
      · rw [store_getD_ne 0 a c h2, if_neg (by simp only [List.length_cons]; omega)]

theorem refill_appends {yy yy1 : yycontext} (h : yyrefill yy = some (true, yy1))
    (hi : CursorInside yy) (hg : yy._limit ≤ yy._pos) :
    ∃ k, 0 < k ∧ k ≤ yy1._buflen - yy._pos ∧ yy1._limit = yy._limit + k ∧
      (∀ i, i < k → yy1._buf.getD (yy._limit + i) 0 = yy.input.getD i 0) ∧
      (∀ j, j < yy._limit → yy1._buf.getD j 0 = yy._buf.getD j 0) ∧
      yy1.input = yy.input.drop k := by
  have hp : yy._pos = yy._limit := le_antisymm hi.1 hg
  unfold yyrefill at h
  split at h
  · simp at h
  · next n hn =>
    split at h
    · simp at h
    · next hk =>
      have hlen : yyInputSize yy (n - yy._pos) ≤ yy.input.length := Nat.min_le_right _ _
      have hmax : yyInputSize yy (n - yy._pos) ≤ n - yy._pos :=
        le_trans (Nat.min_le_left _ _) (Nat.min_le_right _ _)
      generalize yyInputSize yy (n - yy._pos) = k at h hk hlen hmax
      simp only [Option.some.injEq, Prod.mk.injEq, true_and] at h
      subst h
      refine ⟨k, Nat.pos_of_ne_zero hk, hmax, rfl, fun i hi2 => ?_, fun j hj => ?_, rfl⟩
      · simp only
        rw [storeAll_getD, if_pos ⟨by omega, by
          rw [List.length_take, Nat.min_eq_left hlen]; omega⟩]
        have : yy._limit + i - yy._pos = i := by omega
        rw [this, List.getD_eq_getElem?_getD, List.getD_eq_getElem?_getD,
          List.getElem?_take_of_lt hi2]
      · simp only
        rw [storeAll_getD, if_neg (by omega)]

/-- C2 as stated fails where the text of the grammar's author touches the
thunk log.  (a) With `A <- "a" { n++ } &{ YYACCEPT } "b"` on the input `ac` the
predicate calls `yyAccept`, whose `yyDone` runs `n++`, and the parse then fails
at `"b"`: `YYPARSEFROM` returns 0 and the action has run once.  (b) With
`A <- "a" { yythunkpos = 2 } ("b" { n++ } "c")?` on the input `abd` the thunk of
`n++` is registered at index 1 inside the option, which fails at `"c"` and puts
the thunk depth back to 1; the parse succeeds with the thunk of the first
action alone in the log, and `yyDone`, whose loop reads `_thunkpos` in every
round, finds it raised to 2 by that action and invokes the thunk of `n++`. -/
theorem deferral_broken :
    (YYPARSEFROM userAccept (Rule_compile_c grammarAccept actionsAct 0) 40 0
      (yyctx0 [97, 99])).map (fun r => (r.1, r.2.members)) = some (false, [1]) ∧
    (yyrule userStale (Rule_compile_c grammarStale actionsStale 0).procs 40 0
      (ready [97, 98, 100])).map (fun r => (r.1, thunkLog r.2)) =
        some (true, [⟨0, 0, .user 0⟩]) ∧
    (YYPARSEFROM userStale (Rule_compile_c grammarStale actionsStale 0) 40 0
      (yyctx0 [97, 98, 100])).map (fun r => (r.1, r.2.members)) = some (true, [1]) := by
  decide

/-- C23 as stated fails.  (a) Where the text of the grammar's author commits
in mid-parse: with `A <- "ab" ("c" &{ YYACCEPT } "d")? "x"` on the input `abcex`
the cursor 2 is saved at the `Query`, `yyAccept` commits after `c` (the cursor
and the end of the buffered input go to 0), `"d"` fails, the restore puts the
cursor back to 2 with one byte buffered, and the procedure returns 1 with
`_pos = 3` and `_limit = 2`, from a context in which the invariant held.
(b) Where the buffer cannot be doubled: with 2^30 bytes buffered and matched in
a buffer of 2^30 bytes, a context in which the invariant holds, `yyrefill`
multiplies `_buflen` by 2, which overflows `int`: the call has no defined
result, and neither has the `yymatchDot` that made it. -/
theorem cursor_outside :
    (ready [97, 98, 99, 101, 120])._pos ≤ (ready [97, 98, 99, 101, 120])._limit ∧
    (ready [97, 98, 99, 101, 120])._limit ≤ (ready [97, 98, 99, 101, 120])._buflen ∧
    (yyrule userAccept (Rule_compile_c2 grammarAcceptBack 0).1 40 0
      (ready [97, 98, 99, 101, 120])).map (fun r => (r.1, r.2._pos, r.2._limit)) =
        some (true, 3, 2) ∧
    (bufferedFull._pos ≤ bufferedFull._limit ∧ bufferedFull._limit ≤ bufferedFull._buflen) ∧
    yyrefill bufferedFull = none ∧ yymatchDot bufferedFull = none :=
  ⟨by decide, by decide, by decide, ⟨by decide, by decide⟩, rfl, rfl⟩

/-- C23, amended (the cursor stays inside the buffered input): where the
inline blocks, predicates and error blocks of the grammar's author leave the
cursor and the bounds of the buffer alone (no commit in mid-parse), the
invariant `_pos <= _limit <= _buflen` holds in the context set up by
`YYPARSEFROM`, and it is kept by `yyrefill` called under its guard
`_pos >= _limit` (`YY_INPUT` delivering at most `max_size` bytes, whatever the
sizes it is asked for), by the five match primitives whether they return 1 or
0, by every statement of a rule procedure, among them a restore of a cursor
saved earlier in the activation (the saved cursors lying at or below `_limit`,
as they do at the entry of a procedure and after each of its statements), by
the rule procedures and by `yyCommit`; under it the guard of `yyrefill` holds
with `_pos = _limit` only, the bytes that `yyrefill` reads are appended right
behind the buffered input, which stays as it is, and a primitive reads
`_buf[_pos]` with `_pos < _limit`. -/
theorem cursor_inside (U : UserCode) (hU : UserKeepsBuffer U) :
    (∀ yyctx, yyctx._buflen = 0 ∨ CursorInside yyctx → CursorInside (yyentry yyctx)) ∧
    (∀ yy max_size, yyInputSize yy max_size ≤ max_size) ∧
    (∀ yy b yy1, yyrefill yy = some (b, yy1) → CursorInside yy → yy._limit ≤ yy._pos →
      CursorInside yy1) ∧
    (∀ yy yy1, yyrefill yy = some (true, yy1) → CursorInside yy → yy._limit ≤ yy._pos →
      ∃ k, 0 < k ∧ k ≤ yy1._buflen - yy._pos ∧ yy1._limit = yy._limit + k ∧
        (∀ i, i < k → yy1._buf.getD (yy._limit + i) 0 = yy.input.getD i 0) ∧
        (∀ j, j < yy._limit → yy1._buf.getD j 0 = yy._buf.getD j 0) ∧
        yy1.input = yy.input.drop k) ∧
    (∀ yy b yy1, yymatchDot yy = some (b, yy1) → CursorInside yy → CursorInside yy1) ∧
    (∀ yy c b yy1, yymatchChar yy c = some (b, yy1) → CursorInside yy → CursorInside yy1) ∧
    (∀ yy s b yy1, yymatchString yy s = some (b, yy1) → CursorInside yy → CursorInside yy1) ∧
    (∀ yy s b yy1, yymatchIString yy s = some (b, yy1) → CursorInside yy →
      CursorInside yy1) ∧
    (∀ yy bits b yy1, yymatchClass yy bits = some (b, yy1) → CursorInside yy →
      CursorInside yy1) ∧
    (∀ (call : Nat → yycontext → Option (Bool × yycontext)) n s ctl s1, CallInside call →
      execInstr U call (.restore n) s = some (ctl, s1) → CursorInside s.yy → SavedInside s →
      CursorInside s1.yy) ∧
    (∀ (call : Nat → yycontext → Option (Bool × yycontext)) code n rest s ctl s1,
      CallInside call → run U call n code rest s = some (ctl, s1) → CursorInside s.yy →
      SavedInside s → CursorInside s1.yy ∧ SavedInside s1) ∧
    (∀ procs fuel r yy v yy1, yyrule U procs fuel r yy = some (v, yy1) → CursorInside yy →
      CursorInside yy1) ∧
    (∀ yy, CursorInside yy → ∃ yy1, yyCommit yy = some yy1 ∧ CursorInside yy1) ∧
    (∀ yy, CursorInside yy → yy._pos ≥ yy._limit → yy._pos = yy._limit) ∧
    (∀ yy yy1, CursorInside yy → needInput yy = some (true, yy1) →
      yy1._pos = yy._pos ∧ yy1._pos < yy1._limit) := by
  refine ⟨inside_yyentry,
    fun yy m => le_trans (Nat.min_le_left _ _) (Nat.min_le_right _ _),
    fun yy b yy1 h hi hg => (inside_refill h hi hg).1,
    fun yy yy1 h hi hg => refill_appends h hi hg,
    fun yy b yy1 h hi => (inside_matchDot h hi).1,
    fun yy c b yy1 h hi => (inside_matchChar h hi).1,
    fun yy s b yy1 h hi => (inside_matchStringLoop _ _ _ _ _ h hi (le_refl _)).1,
    fun yy s b yy1 h hi => (inside_matchIStringLoop _ _ _ _ _ h hi (le_refl _)).1,
    fun yy bits b yy1 h hi => (inside_matchClass h hi).1,
    fun call n s ctl s1 hc h hi hs => (inside_execInstr hU hc h hi hs).1,
    fun call code n rest s ctl s1 hc h hi hs =>
      ⟨(inside_run hU hc code n rest s s1 ctl h hi hs).1,
        (inside_run hU hc code n rest s s1 ctl h hi hs).2.1⟩,
    fun procs fuel r yy v yy1 h hi => (inside_yyrule hU procs fuel r yy v yy1 h hi).1,
    ?_, fun yy hi hg => le_antisymm hi.1 hg,
    fun yy yy1 hi h => ⟨(inside_needInput h hi).2.2.1, (inside_needInput h hi).2.2.2 rfl⟩⟩
  intro yy hi
  simp only [yyCommit, if_neg (Nat.not_lt.2 hi.1), Option.some.injEq, exists_eq_left']
  exact ⟨Nat.zero_le _, le_trans (Nat.sub_le _ _) hi.2⟩

/-- Witness of C23: with `A <- "ab"` and a `YY_INPUT` that delivers `abc` in
one call, the procedure returns 1 with the cursor at 2 and three bytes
buffered, inside the invariant. -/
theorem cursor_inside_witness :
    CursorInside (yyentry { yyctx0 [97, 98, 99] with chunks := [3] }) ∧
    (yyrule noUser (Rule_compile_c2 grammarAb 0).1 30 0
      (yyentry { yyctx0 [97, 98, 99] with chunks := [3] })).map
        (fun r => (r.1, r.2._pos, r.2._limit, r.2._buf)) = some (true, 2, 3, [97, 98, 99]) ∧
    ∃ yy1, yyrule noUser (Rule_compile_c2 grammarAb 0).1 30 0
        (yyentry { yyctx0 [97, 98, 99] with chunks := [3] }) = some (true, yy1) ∧
      CursorInside yy1 := by
  have hU : UserKeepsBuffer noUser := fun _ _ => ⟨⟨rfl, rfl, rfl⟩, ⟨rfl, rfl, rfl⟩, ⟨rfl, rfl, rfl⟩⟩
  obtain ⟨y, hy, hv⟩ := some_of_map
    (o := yyrule noUser (Rule_compile_c2 grammarAb 0).1 30 0
      (yyentry { yyctx0 [97, 98, 99] with chunks := [3] }))
    (p := fun y => y.1) (by decide)
  obtain ⟨v, yy1⟩ := y
  simp only at hv
  subst hv
  have hin := (cursor_inside noUser hU).1 { yyctx0 [97, 98, 99] with chunks := [3] } (Or.inl rfl)
  exact ⟨hin, by decide, yy1, hy,
    (cursor_inside noUser hU).2.2.2.2.2.2.2.2.2.2.2.1 _ _ _ _ _ _ hy hin⟩

/-! ### Commit -/

theorem buffer_yyText {yy yy1 : yycontext} {b e n : Int} (h : yyText yy b e = some (n, yy1)) :
    yy1._pos = yy._pos ∧ yy1._limit = yy._limit ∧ yy1._buf = yy._buf := by
  unfold yyText at h
  split at h
  · simp only [Option.some.injEq, Prod.mk.injEq] at h
    obtain ⟨_, rfl⟩ := h
    exact ⟨rfl, rfl, rfl⟩
  · split at h
    · simp at h
    · simp only at h
      split at h
      · simp at h
      · simp only [Option.some.injEq, Prod.mk.injEq] at h
        obtain ⟨_, rfl⟩ := h
        exact ⟨rfl, rfl, rfl⟩

theorem buffer_invokeThunk (hA : ActionsKeepBuffer U) {defs : Nat → List (String × Int)}
    {t : yythunk} {yy yy1 : yycontext} (h : invokeThunk U defs t yy = some yy1) :
    yy1._pos = yy._pos ∧ yy1._limit = yy._limit ∧ yy1._buf = yy._buf := by
  have key : ∀ (y y1 : yycontext) (n : Int), invoke U defs t.action y n = some y1 →
      y1._pos = y._pos ∧ y1._limit = y._limit ∧ y1._buf = y._buf := by
    intro y y1 n hi
    cases ha : t.action with
    | yyPush =>
      simp only [ha, invoke, yyPush] at hi
      split at hi
      · simp at hi
      · simp only [Option.some.injEq] at hi
        subst hi
        exact ⟨rfl, rfl, rfl⟩
    | yyPop =>
      simp only [ha, invoke, yyPop, Option.some.injEq] at hi
      subst hi
      exact ⟨rfl, rfl, rfl⟩
    | yySet =>
      simp only [ha, invoke, yySet] at hi
      split at hi
      · simp only [Option.some.injEq] at hi
        subst hi
        exact ⟨rfl, rfl, rfl⟩
      · simp at hi
    | user name =>
      simp only [ha, invoke, Option.some.injEq] at hi
      subst hi
      exact hA _ _ _ _
  unfold invokeThunk at h
  split at h
  · simp at h
  · next n yy2 heq =>
    split at heq
    · obtain ⟨a1, a2, a3⟩ := buffer_yyText heq
      obtain ⟨b1, b2, b3⟩ := key _ _ _ h
      exact ⟨b1.trans a1, b2.trans a2, b3.trans a3⟩
    · simp only [Option.some.injEq, Prod.mk.injEq] at heq
      obtain ⟨_, rfl⟩ := heq
      exact key _ _ _ h

theorem buffer_yyDoneLoop (hA : ActionsKeepBuffer U) (defs : Nat → List (String × Int)) :
    ∀ (fuel pos : Nat) (yy y : yycontext), yyDoneLoop U defs fuel pos yy = some y →
      y._pos = yy._pos ∧ y._limit = yy._limit ∧ y._buf = yy._buf
  | 0, pos, yy, y, h => by
    simp only [yyDoneLoop] at h
    split at h
    · simp at h
    · simp only [Option.some.injEq] at h
      subst h
      exact ⟨rfl, rfl, rfl⟩
  | fuel + 1, pos, yy, y, h => by
    simp only [yyDoneLoop] at h
    split at h
    · split at h
      · simp at h
      · next yy2 hi =>
        obtain ⟨a1, a2, a3⟩ := buffer_invokeThunk hA hi
        obtain ⟨b1, b2, b3⟩ := buffer_yyDoneLoop hA defs fuel (pos + 1) yy2 y h
        exact ⟨b1.trans a1, b2.trans a2, b3.trans a3⟩
    · simp only [Option.some.injEq] at h
      subst h
      exact ⟨rfl, rfl, rfl⟩

theorem commit_key (y : yycontext) (hy : y._pos ≤ y._limit) :
    ∃ y1, yyCommit y = some y1 ∧ y1._pos = 0 ∧ y1._thunkpos = 0 ∧
      y1._limit = y._limit - y._pos ∧
      (∀ i, i < y1._limit → y1._buf.getD i 0 = y._buf.getD (y._pos + i) 0) ∧
      yyCommit y1 = some y1 := by
  have hc : yyCommit y = some
      { y with _limit := y._limit - y._pos,
               _buf := slice y._buf y._pos (y._limit - y._pos)
                         ++ y._buf.drop (y._limit - y._pos),
               _begin := y._begin - y._pos,
               _end := y._end - y._pos,
               _pos := 0,
               _thunkpos := 0 } := by
    simp only [yyCommit, if_neg (Nat.not_lt.2 hy)]
  refine ⟨_, hc, rfl, rfl, rfl, ?_, ?_⟩
  · intro i hi
    simp only at hi ⊢
    rw [List.getD_append _ _ _ _ (by rw [slice_length]; exact hi)]
    exact slice_getD _ _ _ _ hi
  · simp only [yyCommit, Nat.not_lt_zero, if_false, Nat.sub_zero, Int.ofNat_zero, sub_zero,
      Nat.cast_zero]
    rw [slice_zero_take _ _ (by simp [slice_length])]
    simp [List.take_append_drop]

/-- C13 (commit): in a context with `_pos ≤ _limit`, `yyCommit` leaves the
cursor and the thunk depth at 0, `_limit` smaller by the old cursor and the
bytes `[0, _limit)` of the buffer equal to the old bytes from the old cursor
on; a second `yyCommit` changes nothing.  Every `YYPARSEFROM` that returns 1
has called the start rule, then `yyDone` on the context the rule returned, then
`yyCommit` on the context `yyDone` left: its thunk depth and cursor are 0, its
buffer holds from offset 0 on the bytes that were buffered behind the cursor
when `yyDone` ended, `yyCommit` changes nothing any more, and when the action
bodies leave the cursor and the buffer alone these bytes are the ones behind
the cursor that the start rule returned, the input read and not matched. -/
theorem commit_shifts (yy : yycontext) (h : yy._pos ≤ yy._limit) :
    (∃ yy1, yyCommit yy = some yy1 ∧ yy1._pos = 0 ∧ yy1._thunkpos = 0 ∧
      yy1._limit = yy._limit - yy._pos ∧
      (∀ i, i < yy1._limit → yy1._buf.getD i 0 = yy._buf.getD (yy._pos + i) 0) ∧
      yyCommit yy1 = some yy1) ∧
    (∀ (U : UserCode) (P : Program) (fuel start : Nat) (yyctx yyR : yycontext),
      YYPARSEFROM U P fuel start yyctx = some (true, yyR) →
      ∃ yy2 yy3, yyrule U P.procs fuel start (yyentry yyctx) = some (true, yy2) ∧
        yyDone U P.defs fuel yy2 = some yy3 ∧ yy3._pos ≤ yy3._limit ∧
        yyCommit yy3 = some yyR ∧
        yyR._thunkpos = 0 ∧ yyR._pos = 0 ∧ yyR._limit = yy3._limit - yy3._pos ∧
        (∀ i, i < yyR._limit → yyR._buf.getD i 0 = yy3._buf.getD (yy3._pos + i) 0) ∧
        yyCommit yyR = some yyR ∧
        (ActionsKeepBuffer U →
          yyR._limit = yy2._limit - yy2._pos ∧
          ∀ i, i < yyR._limit → yyR._buf.getD i 0 = yy2._buf.getD (yy2._pos + i) 0)) := by
  refine ⟨commit_key yy h, ?_⟩
  intro U P fuel start yyctx yyR hp
  obtain ⟨yy2, yy3, hr, hd, hc⟩ := YYPARSEFROM_true hp
  have h3 : yy3._pos ≤ yy3._limit := by
    by_contra hn
    simp only [yyCommit, if_pos (Nat.lt_of_not_le hn)] at hc
    cases hc
  obtain ⟨y1, e1, e2, e3, e4, e5, e6⟩ := commit_key yy3 h3
  rw [hc] at e1
  simp only [Option.some.injEq] at e1
  subst e1
  refine ⟨yy2, yy3, hr, hd, h3, hc, e3, e2, e4, e5, e6, fun hA => ?_⟩
  obtain ⟨b1, b2, b3⟩ := buffer_yyDoneLoop hA P.defs fuel 0 yy2 yy3 hd
  rw [← b1, ← b2, ← b3]
  exact ⟨e4, e5⟩

/-- Witness of C13: `yyCommit` with the cursor at 1 of the three bytes `abc`
leaves `bc` from offset 0 on, two bytes buffered, the cursor and the thunk
depth at 0; with `A <- "ab"` and `abc` delivered by one call of `YY_INPUT`, a
parse returns 1 and leaves the unread `c` at offset 0, one byte buffered. -/
theorem commit_shifts_witness :
    (yyCommit bufferedAbc).map
        (fun y => (y._pos, y._thunkpos, y._limit, y._buf.take 2)) = some (0, 0, 2, [98, 99]) ∧
    (∃ yy1, yyCommit bufferedAbc = some yy1 ∧
      yy1._pos = 0 ∧ yy1._thunkpos = 0 ∧ yy1._limit = bufferedAbc._limit - bufferedAbc._pos ∧
      (∀ i, i < yy1._limit →
        yy1._buf.getD i 0 = bufferedAbc._buf.getD (bufferedAbc._pos + i) 0) ∧
      yyCommit yy1 = some yy1) ∧
    (YYPARSEFROM noUser (Rule_compile_c grammarAb [] 0) 30 0 yyctxAbc).map
        (fun r => (r.1, r.2._pos, r.2._thunkpos, r.2._limit, r.2._buf.take 1)) =
      some (true, 0, 0, 1, [99]) ∧
    ∃ yyR yy2, YYPARSEFROM noUser (Rule_compile_c grammarAb [] 0) 30 0 yyctxAbc =
        some (true, yyR) ∧
      yyrule noUser (Rule_compile_c grammarAb [] 0).procs 30 0 (yyentry yyctxAbc) =
        some (true, yy2) ∧
      yyR._limit = yy2._limit - yy2._pos ∧
      ∀ i, i < yyR._limit → yyR._buf.getD i 0 = yy2._buf.getD (yy2._pos + i) 0 := by
  have hw := commit_shifts bufferedAbc (by decide)
  refine ⟨by decide, hw.1, by decide, ?_⟩
  obtain ⟨y, hy, hv⟩ := some_of_map
    (o := YYPARSEFROM noUser (Rule_compile_c grammarAb [] 0) 30 0 yyctxAbc)
    (p := fun y => y.1) (by decide)
  obtain ⟨v, yyR⟩ := y
  simp only at hv
  subst hv
  obtain ⟨yy2, yy3, hr, _, _, _, _, _, _, _, _, hk⟩ := hw.2 _ _ _ _ _ _ hy
  exact ⟨yyR, yy2, hy, hr, hk (fun _ _ _ _ => ⟨rfl, rfl, rfl⟩)⟩

/-! ### Safe rules: the claim -/

theorem callLe_yyrule (procs : List (Option (List Instr))) :
    ∀ n m, n ≤ m → CallLe (yyrule U procs n) (yyrule U procs m)
  | 0, _, _ => by intro r yy x h; simp [yyrule] at h
  | n + 1, 0, h => by omega
  | n + 1, m + 1, h => by
    intro r yy x hx
    obtain ⟨v, yy1⟩ := x
    have ih := callLe_yyrule procs n m (by omega)
    obtain ⟨n1, body, loc1, hn, hb, hr⟩ := yyrule_some hx
    have hn1 : n1 = n := by omega
    subst hn1
    have := run_mono ih (by omega : n1 ≤ m) hr
    simp only [yyrule, hb, this]

/-- The procedure printed for a rule returns 1 once the push, the text of the
expression, ending behind its last statement, and the pop have led from the
context of the entry to `yyC`. -/
theorem rule_returns (node : Rule) (e : Node) (prev : Nat) (s : Frame)
    {yyA yyB yyC : yycontext} (hpush : varsDo node .yyPush s.yy yyA)
    (ho : Outcome U call node.vars e yyA true yyB) (hpop : varsDo node .yyPop yyB yyC) :
    ∃ loc, Runs U call (ruleBody node e prev).1 (ruleBody node e prev).1 s
      (.ret true, ⟨yyC, loc⟩) := by
  have hl := labels_node node.vars e (prev + 1) (prev + 1)
  rw [ruleBody_eq]
  have hin : Inside (Node_compile_c_ko node.vars e (prev + 1) (prev + 1)).1
      (Instr.stmt .yyprintf :: (varsStmt node .yyPop ++ (Instr.ret true ::
        (if isSafe e then []
         else [label (prev + 1), restore 0, Instr.stmt .yyprintf, Instr.ret false]))))
      ((if isSafe e then [] else [save 0]) ++ (varsStmt node .yyPush ++
        (Instr.stmt .yyprintf :: ((Node_compile_c_ko node.vars e (prev + 1) (prev + 1)).1 ++
          (Instr.stmt .yyprintf :: (varsStmt node .yyPop ++ (Instr.ret true ::
            (if isSafe e then []
             else [label (prev + 1), restore 0, Instr.stmt .yyprintf,
               Instr.ret false])))))))) := by
    intro l r hlr
    rw [afterLabel_append, afterLabel_append, afterLabel_varsStmt]
    have : afterLabel (if isSafe e then [] else [save 0]) l = none := by
      split <;> simp [afterLabel, save]
    simp only [this, afterLabel, afterLabel_append, hlr]
  generalize hcode : (if isSafe e then [] else [save 0]) ++ (varsStmt node .yyPush ++
        (Instr.stmt .yyprintf :: ((Node_compile_c_ko node.vars e (prev + 1) (prev + 1)).1 ++
          (Instr.stmt .yyprintf :: (varsStmt node .yyPop ++ (Instr.ret true ::
            (if isSafe e then []
             else [label (prev + 1), restore 0, Instr.stmt .yyprintf,
               Instr.ret false]))))))) = code at hin
  nth_rewrite 2 [← hcode]
  have tail : ∀ loc0, ∃ loc, Runs U call code
      ((Node_compile_c_ko node.vars e (prev + 1) (prev + 1)).1 ++
          (Instr.stmt .yyprintf :: (varsStmt node .yyPop ++ (Instr.ret true ::
            (if isSafe e then []
             else [label (prev + 1), restore 0, Instr.stmt .yyprintf, Instr.ret false])))))
        ⟨yyA, loc0⟩ (.ret true, ⟨yyC, loc⟩) := by
    intro loc0
    obtain ⟨loc1, hr, _⟩ := complete_node U call node.vars e yyA true yyB ho (prev + 1) (prev + 1)
      loc0 (le_refl _)
    refine ⟨loc1, (runs_append hin).2 ⟨_, hr, ?_⟩⟩
    simp only [exitOf, if_true, resumes_fall, runs_cons, execInstr, evalStmt,
      Option.some.injEq, exists_eq_left', runs_varsStmt, resumes_ret]
    exact ⟨yyC, hpop, rfl⟩
  cases hsafe : isSafe e
  · simp only [Bool.false_eq_true, if_false, List.cons_append, List.nil_append,
      runs_cons, execInstr, save, Option.some.injEq, exists_eq_left', resumes_fall,
      runs_varsStmt, evalStmt]
    obtain ⟨loc, hr⟩ := tail
      { s.loc with yypos := Function.update s.loc.yypos 0 (some s.yy._pos),
                   yythunkpos := Function.update s.loc.yythunkpos 0 (some s.yy._thunkpos) }
    simp only [hsafe, Bool.false_eq_true, if_false] at hr
    exact ⟨loc, yyA, hpush, hr⟩
  · simp only [if_true, List.nil_append, runs_varsStmt, runs_cons, execInstr,
      evalStmt, Option.some.injEq, exists_eq_left', resumes_fall]
    obtain ⟨loc, hr⟩ := tail s.loc
    simp only [hsafe, if_true] at hr
    exact ⟨loc, yyA, hpush, hr⟩

theorem yyrule_returns {rules : List Rule} {prev r : Nat} {node : Rule} {e : Node}
    (hg : rules.get? r = some node) (he : node.expression = some e) {n : Nat}
    {yy yyA yyB yyC : yycontext} (hpush : varsDo node .yyPush yy yyA)
    (ho : Outcome U (yyrule U (Rule_compile_c2 rules prev).1 n) node.vars e yyA true yyB)
    (hpop : varsDo node .yyPop yyB yyC) :
    ∃ fuel, yyrule U (Rule_compile_c2 rules prev).1 fuel r yy = some (true, yyC) := by
  obtain ⟨p, hp⟩ := procs_getD_of rules prev r node e hg he
  obtain ⟨loc, m, hm⟩ := rule_returns node e p ⟨yy, noLocals⟩ hpush ho hpop
  refine ⟨max n m + 1, ?_⟩
  have := run_mono (callLe_yyrule (Rule_compile_c2 rules prev).1 n (max n m)
    (Nat.le_max_left _ _)) (Nat.le_max_right n m) hm
  simp only [yyrule, hp, this]

/-- C18, amended (safe-rule optimisation): the procedure printed for a rule
with expression `e` opens with the save of cursor and thunk depth and closes
with the failure label, the restore and `return 0` when `e` is neither `Query`
nor `Star`; when `e` is `Query` or `Star` none of them is printed, no `goto`
of the procedure goes to the failure label, and the procedure never returns 0:
whenever it returns, it returns 1; and it does return 1 whenever the text
printed for `e` ends, in the context that the pop leaves: for a `Query` when
the text of the element ends, either way, for a `Star` when the element has
succeeded `k` times in a row and failed once. -/
theorem safe_rule (U : UserCode) (rules : List Rule) (prev r : Nat) (node : Rule) (e : Node)
    (hg : rules.get? r = some node) (he : node.expression = some e) :
    ∃ p body, (Rule_compile_c2 rules prev).1.getD r none = some body ∧
      body = (ruleBody node e p).1 ∧
      (isSafe e = false → ∃ mid, body = save 0 :: mid ++
        [label (p + 1), restore 0, Instr.stmt .yyprintf, Instr.ret false]) ∧
      (isSafe e = true → save 0 ∉ body ∧ label (p + 1) ∉ body ∧ restore 0 ∉ body ∧
        Instr.ret false ∉ body ∧ jump (p + 1) ∉ body ∧ ∀ c, Instr.test c (p + 1) ∉ body) ∧
      (isSafe e = true → ∀ fuel yy v yy1,
        yyrule U (Rule_compile_c2 rules prev).1 fuel r yy = some (v, yy1) → v = true) ∧
      (isSafe e = true → ∀ n yy yyA b yyB yyC, varsDo node .yyPush yy yyA →
        Ends U (yyrule U (Rule_compile_c2 rules prev).1 n) node.vars e yyA b yyB →
        varsDo node .yyPop yyB yyC →
        ∃ fuel, yyrule U (Rule_compile_c2 rules prev).1 fuel r yy = some (true, yyC)) ∧
      (∀ el, e = .query el → ∀ n yy yyA b yyE yyC, varsDo node .yyPush yy yyA →
        Ends U (yyrule U (Rule_compile_c2 rules prev).1 n) node.vars el yyA b yyE →
        varsDo node .yyPop (if b then yyE else rewind yyE yyA) yyC →
        ∃ fuel, yyrule U (Rule_compile_c2 rules prev).1 fuel r yy = some (true, yyC)) ∧
      (∀ el, e = .star el → ∀ n yy yyA k yyk yyF yyC, varsDo node .yyPush yy yyA →
        Iterates U (yyrule U (Rule_compile_c2 rules prev).1 n) node.vars el k yyA yyk →
        Ends U (yyrule U (Rule_compile_c2 rules prev).1 n) node.vars el yyk false yyF →
        varsDo node .yyPop { yyF with _pos := yyk._pos, _thunkpos := yyk._thunkpos } yyC →
        ∃ fuel, yyrule U (Rule_compile_c2 rules prev).1 fuel r yy = some (true, yyC)) := by
  obtain ⟨p, hp⟩ := procs_getD_of rules prev r node e hg he
  refine ⟨p, _, hp, rfl, ?_, ?_, ?_, ?_, ?_, ?_⟩
  · intro hs
    rw [ruleBody_eq]
    simp only [hs, Bool.false_eq_true, if_false]
    exact ⟨varsStmt node yyaction.yyPush ++ (Instr.stmt Stmt.yyprintf ::
      ((Node_compile_c_ko node.vars e (p + 1) (p + 1)).1 ++ (Instr.stmt Stmt.yyprintf ::
        (varsStmt node yyaction.yyPop ++ [Instr.ret true])))), by simp⟩
  · intro hs
    rw [ruleBody_eq]
    simp only [hs, if_true, List.nil_append, List.append_nil]
    have key : ∀ i, i ∈ varsStmt node yyaction.yyPush ++ (Instr.stmt Stmt.yyprintf ::
        ((Node_compile_c_ko node.vars e (p + 1) (p + 1)).1 ++ (Instr.stmt Stmt.yyprintf ::
          (varsStmt node yyaction.yyPop ++ [Instr.ret true])))) →
        inner (p + 1 + 1) (p + 1) i ∨ i = Instr.ret true := by
      intro i hi
      simp only [List.mem_append, List.mem_cons, List.mem_singleton] at hi
      rcases hi with hi | hi | hi | hi | hi | hi
      · rw [varsStmt_mem hi]; left; trivial
      · subst hi; left; trivial
      · exact Or.inl (inner_safe node.vars hs _ _ hi)
      · subst hi; left; trivial
      · rw [varsStmt_mem hi]; left; trivial
      · exact Or.inr (by simpa using hi)
    refine ⟨?_, ?_, ?_, ?_, ?_, ?_⟩
    · intro h; rcases key _ h with h1 | h1
      · simp [inner, save] at h1
      · simp [save] at h1
    · intro h; rcases key _ h with h1 | h1
      · simp [inner, label] at h1
      · simp [label] at h1
    · intro h; rcases key _ h with h1 | h1
      · simp [inner, restore] at h1
      · simp [restore] at h1
    · intro h; rcases key _ h with h1 | h1
      · simp [inner] at h1
      · simp at h1
    · intro h; rcases key _ h with h1 | h1
      · simp [inner, jump] at h1
      · simp [jump] at h1
    · intro c h; rcases key _ h with h1 | h1
      · simp [inner] at h1
      · simp at h1
  · intro hs fuel yy v yy1 h
    cases v with
    | true => rfl
    | false =>
      obtain ⟨⟨node1, e1, hg1, he1, hs1⟩, _⟩ := yyrule_false h
      rw [hg] at hg1
      simp only [Option.some.injEq] at hg1
      subst hg1
      rw [he] at he1
      simp only [Option.some.injEq] at he1
      subst he1
      rw [hs] at hs1
      cases hs1
  · intro hs n yy yyA b yyB yyC hpush hends hpop
    have ho := ends_iff_outcome.1 hends
    have hb := outcome_safe hs ho
    subst hb
    exact yyrule_returns hg he hpush ho hpop
  · intro el hel n yy yyA b yyE yyC hpush hends hpop
    subst hel
    have ho := ends_iff_outcome.1 hends
    cases b with
    | true => exact yyrule_returns hg he hpush (.query_ok ho) (by simpa using hpop)
    | false => exact yyrule_returns hg he hpush (.query_ko ho) (by simpa using hpop)
  · intro el hel n yy yyA k yyk yyF yyC hpush hit hends hpop
    subst hel
    exact yyrule_returns hg he hpush (outcome_of_iterates hit hends) hpop

/-- Witness of C18: the procedures of `A <- "a"*` and of `A <- "a"?` return 1
on the input `aab`, with the cursor at 2 and at 1; the text of the first has
no save, no restore, no failure label and no `return 0`. -/
theorem safe_rule_witness :
    (yyrule noUser (Rule_compile_c2 grammarStarA 0).1 30 0 (ready [97, 97, 98])).map
        (fun x => (x.1, x.2._pos)) = some (true, 2) ∧
    (yyrule noUser (Rule_compile_c2 grammarQueryA 0).1 30 0 (ready [97, 97, 98])).map
        (fun x => (x.1, x.2._pos)) = some (true, 1) ∧
    ∃ p body, (Rule_compile_c2 grammarStarA 0).1.getD 0 none = some body ∧
      (save 0 ∉ body ∧ label (p + 1) ∉ body ∧ restore 0 ∉ body ∧
        Instr.ret false ∉ body ∧ jump (p + 1) ∉ body ∧ ∀ c, Instr.test c (p + 1) ∉ body) ∧
      (∀ fuel yy v yy1,
        yyrule noUser (Rule_compile_c2 grammarStarA 0).1 fuel 0 yy = some (v, yy1) →
          v = true) := by
  obtain ⟨p, body, h1, _, _, h4, h5, _⟩ := safe_rule noUser grammarStarA 0 0 _ _ rfl rfl
  exact ⟨by decide, by decide, p, body, h1, h4 rfl, h5 rfl⟩

/-! ### Left recursion: the claim -/

theorem verdict_value {rules : List Rule} {n : Node} {b : Bool} (hv : Verdict rules n b) :
    ∀ (fuel : Nat) (S : List Rule) (b1 : Bool) (S1 : List Rule) (w : List String),
      SameExprs rules S → consumesInput (consumesInputRule fuel) n S = some (b1, S1, w) →
      w ≠ [] ∨ b1 = b := by
  induction hv with
  | dot | cclass | character | string | action | inLine | predicate | peekFor | peekNot
    | query | star | seq_nil | alt_nil =>
    intro fuel S b1 S1 w _ h
    simp only [consumesInput, consumesSequence, consumesAlternate, Option.some.injEq,
      Prod.mk.injEq] at h
    exact Or.inr h.1.symm
  | @undefined r v node hg he =>
    intro fuel S b1 S1 w hS h
    simp only [consumesInput] at h
    obtain ⟨k, node1, _, hg1, h3⟩ := consumesInputRule_some h
    obtain ⟨node0, hg0, he0⟩ := hS r node1 hg1
    rw [hg] at hg0
    simp only [Option.some.injEq] at hg0
    subst hg0
    rcases h3 with ⟨_, _, hw⟩ | ⟨_, _, hb, _⟩ | ⟨_, e1, S2, he1, _⟩
    · rw [hw]; simp
    · exact Or.inr hb
    · rw [← he0, he] at he1; simp at he1
  | @rule r v node e b hg he _ ih =>
    intro fuel S b1 S1 w hS h
    simp only [consumesInput] at h
    obtain ⟨k, node1, _, hg1, h3⟩ := consumesInputRule_some h
    obtain ⟨node0, hg0, he0⟩ := hS r node1 hg1
    rw [hg] at hg0
    simp only [Option.some.injEq] at hg0
    subst hg0
    rcases h3 with ⟨_, _, hw⟩ | ⟨_, hne, _⟩ | ⟨_, e1, S2, he1, h1⟩
    · rw [hw]; simp
    · rw [← he0, he] at hne; simp at hne
    · rw [← he0, he] at he1
      simp only [Option.some.injEq] at he1
      subst he1
      exact ih k _ _ _ _ (sameExprs_setReached hS r) h1
  | @error e t b _ ih =>
    intro fuel S b1 S1 w hS h
    simp only [consumesInput] at h
    exact ih fuel S b1 S1 w hS h
  | @plus e b _ ih =>
    intro fuel S b1 S1 w hS h
    simp only [consumesInput] at h
    exact ih fuel S b1 S1 w hS h
  | @seq_stop n next _ ih =>
    intro fuel S b1 S1 w hS h
    simp only [consumesInput, consumesSequence] at h
    cases h1 : consumesInput (consumesInputRule fuel) n S with
    | none => simp [h1] at h
    | some x =>
      obtain ⟨bn, S2, wn⟩ := x
      have hn := ih fuel S bn S2 wn hS h1
      cases bn with
      | true =>
        simp only [h1, Option.some.injEq, Prod.mk.injEq] at h
        exact Or.inr h.1.symm
      | false =>
        have hwn : wn ≠ [] := by
          rcases hn with hn | hn
          · exact hn
          · cases hn
        simp only [h1] at h
        cases h2 : consumesSequence (consumesInputRule fuel) next S2 with
        | none => simp [h2] at h
        | some y =>
          simp only [h2, Option.some.injEq, Prod.mk.injEq] at h
          rw [← h.2.2]
          simp [hwn]
  | @seq_next n next b _ _ ih1 ih2 =>
    intro fuel S b1 S1 w hS h
    simp only [consumesInput, consumesSequence] at h ih2
    cases h1 : consumesInput (consumesInputRule fuel) n S with
    | none => simp [h1] at h
    | some x =>
      obtain ⟨bn, S2, wn⟩ := x
      have hn := ih1 fuel S bn S2 wn hS h1
      have hS2 := keeps_node (keeps_rule fuel) n S bn S2 wn h1
      subst hS2
      cases bn with
      | true =>
        have hwn : wn ≠ [] := by
          rcases hn with hn | hn
          · exact hn
          · cases hn
        simp only [h1, Option.some.injEq, Prod.mk.injEq] at h
        rw [← h.2.2]
        exact Or.inl hwn
      | false =>
        simp only [h1] at h
        cases h2 : consumesSequence (consumesInputRule fuel) next S2 with
        | none => simp [h2] at h
        | some y =>
          obtain ⟨b2, S3, w2⟩ := y
          simp only [h2, Option.some.injEq, Prod.mk.injEq] at h
          rw [← h.2.2, ← h.1]
          rcases ih2 fuel S2 b2 S3 w2 hS h2 with h3 | h3
          · left; simp [h3]
          · exact Or.inr h3
  | @alt_stop n next _ ih =>
    intro fuel S b1 S1 w hS h
    simp only [consumesInput, consumesAlternate] at h
    cases h1 : consumesInput (consumesInputRule fuel) n S with
    | none => simp [h1] at h
    | some x =>
      obtain ⟨bn, S2, wn⟩ := x
      have hn := ih fuel S bn S2 wn hS h1
      cases bn with
      | false =>
        simp only [h1, Option.some.injEq, Prod.mk.injEq] at h
        exact Or.inr h.1.symm
      | true =>
        have hwn : wn ≠ [] := by
          rcases hn with hn | hn
          · exact hn
          · cases hn
        simp only [h1] at h
        cases h2 : consumesAlternate (consumesInputRule fuel) next S2 with
        | none => simp [h2] at h
        | some y =>
          simp only [h2, Option.some.injEq, Prod.mk.injEq] at h
          rw [← h.2.2]
          simp [hwn]
  | @alt_next n next b _ _ ih1 ih2 =>
    intro fuel S b1 S1 w hS h
    simp only [consumesInput, consumesAlternate] at h ih2
    cases h1 : consumesInput (consumesInputRule fuel) n S with
    | none => simp [h1] at h
    | some x =>
      obtain ⟨bn, S2, wn⟩ := x
      have hn := ih1 fuel S bn S2 wn hS h1
      have hS2 := keeps_node (keeps_rule fuel) n S bn S2 wn h1
      subst hS2
      cases bn with
      | false =>
        have hwn : wn ≠ [] := by
          rcases hn with hn | hn
          · exact hn
          · cases hn
        simp only [h1, Option.some.injEq, Prod.mk.injEq] at h
        rw [← h.2.2]
        exact Or.inl hwn
      | true =>
        simp only [h1] at h
        cases h2 : consumesAlternate (consumesInputRule fuel) next S2 with
        | none => simp [h2] at h
        | some y =>
          obtain ⟨b2, S3, w2⟩ := y
          simp only [h2, Option.some.injEq, Prod.mk.injEq] at h
          rw [← h.2.2, ← h.1]
          rcases ih2 fuel S2 b2 S3 w2 hS h2 with h3 | h3
          · left; simp [h3]
          · exact Or.inr h3

theorem isReached_of_get {S : List Rule} {r : Nat} {node : Rule} (hg : S.get? r = some node) :
    isReached S r = (RuleReached &&& node.flags != 0) := by
  simp only [isReached, hg]

theorem warns_of_leftReach {rules : List Rule} {R : Nat} {n : Node}
    (hp : LeftReach rules R n) :
    ∀ (fuel : Nat) (S : List Rule) (b : Bool) (S1 : List Rule) (w : List String),
      SameExprs rules S → isReached S R = true →
      consumesInput (consumesInputRule fuel) n S = some (b, S1, w) → w ≠ [] := by
  induction hp with
  | @here v =>
    intro fuel S b S1 w hS hR h
    simp only [consumesInput] at h
    obtain ⟨k, node1, _, hg1, h3⟩ := consumesInputRule_some h
    have hfl : RuleReached &&& node1.flags ≠ 0 := by
      rw [isReached_of_get hg1] at hR
      simpa using hR
    rcases h3 with ⟨_, _, hw⟩ | ⟨h0, _⟩ | ⟨h0, _⟩
    · rw [hw]; simp
    · exact absurd h0 hfl
    · exact absurd h0 hfl
  | @rule r v node e hg he _ ih =>
    intro fuel S b S1 w hS hR h
    simp only [consumesInput] at h
    obtain ⟨k, node1, _, hg1, h3⟩ := consumesInputRule_some h
    obtain ⟨node0, hg0, he0⟩ := hS r node1 hg1
    rw [hg] at hg0
    simp only [Option.some.injEq] at hg0
    subst hg0
    rcases h3 with ⟨_, _, hw⟩ | ⟨_, hne, _⟩ | ⟨_, e1, S2, he1, h1⟩
    · rw [hw]; simp
    · rw [← he0, he] at hne; simp at hne
    · rw [← he0, he] at he1
      simp only [Option.some.injEq] at he1
      subst he1
      exact ih k _ _ _ _ (sameExprs_setReached hS r) (isReached_setReached_of hR r) h1
  | @error e t _ ih =>
    intro fuel S b S1 w hS hR h
    simp only [consumesInput] at h
    exact ih fuel S b S1 w hS hR h
  | @plus e _ ih =>
    intro fuel S b S1 w hS hR h
    simp only [consumesInput] at h
    exact ih fuel S b S1 w hS hR h
  | @seq_head n next _ ih =>
    intro fuel S b S1 w hS hR h
    simp only [consumesInput, consumesSequence] at h
    cases h1 : consumesInput (consumesInputRule fuel) n S with
    | none => simp [h1] at h
    | some x =>
      obtain ⟨bn, S2, wn⟩ := x
      have hwn := ih fuel S bn S2 wn hS hR h1
      cases bn with
      | true =>
        simp only [h1, Option.some.injEq, Prod.mk.injEq] at h
        rw [← h.2.2]
        exact hwn
      | false =>
        simp only [h1] at h
        cases h2 : consumesSequence (consumesInputRule fuel) next S2 with
        | none => simp [h2] at h
        | some y =>
          simp only [h2, Option.some.injEq, Prod.mk.injEq] at h
          rw [← h.2.2]
          simp [hwn]
  | @seq_skip n next hv _ ih =>
    intro fuel S b S1 w hS hR h
    simp only [consumesInput, consumesSequence] at h ih
    cases h1 : consumesInput (consumesInputRule fuel) n S with
    | none => simp [h1] at h
    | some x =>
      obtain ⟨bn, S2, wn⟩ := x
      have hn := verdict_value hv fuel S bn S2 wn hS h1
      have hS2 := keeps_node (keeps_rule fuel) n S bn S2 wn h1
      subst hS2
      cases bn with
      | true =>
        have hwn : wn ≠ [] := by
          rcases hn with hn | hn
          · exact hn
          · cases hn
        simp only [h1, Option.some.injEq, Prod.mk.injEq] at h
        rw [← h.2.2]
        exact hwn
      | false =>
        simp only [h1] at h
        cases h2 : consumesSequence (consumesInputRule fuel) next S2 with
        | none => simp [h2] at h
        | some y =>
          obtain ⟨b2, S3, w2⟩ := y
          simp only [h2, Option.some.injEq, Prod.mk.injEq] at h
          rw [← h.2.2]
          have := ih fuel S2 b2 S3 w2 hS hR h2
          simp [this]
  | @alt_head n next _ ih =>
    intro fuel S b S1 w hS hR h
    simp only [consumesInput, consumesAlternate] at h
    cases h1 : consumesInput (consumesInputRule fuel) n S with
    | none => simp [h1] at h
    | some x =>
      obtain ⟨bn, S2, wn⟩ := x
      have hwn := ih fuel S bn S2 wn hS hR h1
      cases bn with
      | false =>
        simp only [h1, Option.some.injEq, Prod.mk.injEq] at h
        rw [← h.2.2]
        exact hwn
      | true =>
        simp only [h1] at h
        cases h2 : consumesAlternate (consumesInputRule fuel) next S2 with
        | none => simp [h2] at h
        | some y =>
          simp only [h2, Option.some.injEq, Prod.mk.injEq] at h
          rw [← h.2.2]
          simp [hwn]
  | @alt_skip n next hv _ ih =>
    intro fuel S b S1 w hS hR h
    simp only [consumesInput, consumesAlternate] at h ih
    cases h1 : consumesInput (consumesInputRule fuel) n S with
    | none => simp [h1] at h
    | some x =>
      obtain ⟨bn, S2, wn⟩ := x
      have hn := verdict_value hv fuel S bn S2 wn hS h1
      have hS2 := keeps_node (keeps_rule fuel) n S bn S2 wn h1
      subst hS2
      cases bn with
      | false =>
        have hwn : wn ≠ [] := by
          rcases hn with hn | hn
          · exact hn
          · cases hn
        simp only [h1, Option.some.injEq, Prod.mk.injEq] at h
        rw [← h.2.2]
        exact hwn
      | true =>
        simp only [h1] at h
        cases h2 : consumesAlternate (consumesInputRule fuel) next S2 with
        | none => simp [h2] at h
        | some y =>
          obtain ⟨b2, S3, w2⟩ := y
          simp only [h2, Option.some.injEq, Prod.mk.injEq] at h
          rw [← h.2.2]
          have := ih fuel S2 b2 S3 w2 hS hR h2
          simp [this]

theorem rule_warns {rules : List Rule} {R : Nat} {node : Rule} {e : Node}
    (hg : rules.get? R = some node) (he : node.expression = some e)
    (hp : LeftReach rules R e) (fuel : Nat) (b : Bool) (S : List Rule) (w : List String)
    (h : consumesInputRule fuel R rules = some (b, S, w)) : w ≠ [] := by
  obtain ⟨k, node1, _, hg1, h3⟩ := consumesInputRule_some h
  rw [hg] at hg1
  simp only [Option.some.injEq] at hg1
  subst hg1
  rcases h3 with ⟨_, _, hw⟩ | ⟨_, hne, _⟩ | ⟨_, e1, S2, he1, h1⟩
  · rw [hw]; simp
  · rw [he] at hne; simp at hne
  · rw [he] at he1
    simp only [Option.some.injEq] at he1
    subst he1
    have hr : R < rules.length := by
      rw [List.get?_eq_getElem?] at hg
      exact (List.getElem?_eq_some_iff.1 hg).1
    exact warns_of_leftReach hp k _ _ _ _ (sameExprs_setReached (sameExprs_refl rules) R)
      (by rw [isReached_setReached hr, if_pos rfl]) h1

mutual
theorem explains_node {rules : List Rule}
    {rule : Nat → List Rule → Option (Bool × List Rule × List String)}
    (hK : KeepsRules rule)
    (hO : ∀ r v S b S1 w, SameExprs rules S → rule r S = some (b, S1, w) →
      Explained rules (.name r v) S b w) :
    ∀ (n : Node) (S : List Rule) (b : Bool) (S1 : List Rule) (w : List String),
      SameExprs rules S → consumesInput rule n S = some (b, S1, w) → Explained rules n S b w
  | .dot, _, _, _, _, _, h => by
    simp only [consumesInput, Option.some.injEq, Prod.mk.injEq] at h
    rw [← h.1, ← h.2.2]; exact Or.inl ⟨rfl, .dot⟩
  | .name r v, S, b, S1, w, hS, h => by
    simp only [consumesInput] at h; exact hO r v S b S1 w hS h
  | .character value, _, _, _, _, _, h => by
    simp only [consumesInput, Option.some.injEq, Prod.mk.injEq] at h
    rw [← h.1, ← h.2.2]; exact Or.inl ⟨rfl, .character⟩
  | .string value casefold, _, _, _, _, _, h => by
    simp only [consumesInput, Option.some.injEq, Prod.mk.injEq] at h
    rw [← h.1, ← h.2.2]; exact Or.inl ⟨rfl, .string⟩
  | .cclass value, _, _, _, _, _, h => by
    simp only [consumesInput, Option.some.injEq, Prod.mk.injEq] at h
    rw [← h.1, ← h.2.2]; exact Or.inl ⟨rfl, .cclass⟩
  | .action name, _, _, _, _, _, h => by
    simp only [consumesInput, Option.some.injEq, Prod.mk.injEq] at h
    rw [← h.1, ← h.2.2]; exact Or.inl ⟨rfl, .action⟩
  | .inLine text, _, _, _, _, _, h => by
    simp only [consumesInput, Option.some.injEq, Prod.mk.injEq] at h
    rw [← h.1, ← h.2.2]; exact Or.inl ⟨rfl, .inLine⟩
  | .predicate text, _, _, _, _, _, h => by
    simp only [consumesInput, Option.some.injEq, Prod.mk.injEq] at h
    rw [← h.1, ← h.2.2]; exact Or.inl ⟨rfl, .predicate⟩
  | .error element text, S, b, S1, w, hS, h => by
    simp only [consumesInput] at h
    rcases explains_node hK hO element S b S1 w hS h with ⟨h1, h2⟩ | ⟨R, h1, h2⟩ | h1
    · exact Or.inl ⟨h1, .error h2⟩
    · exact Or.inr (Or.inl ⟨R, h1, .error h2⟩)
    · exact Or.inr (Or.inr h1)
  | .alternate first, S, b, S1, w, hS, h => by
    simp only [consumesInput] at h
    exact explains_alt hK hO first S b S1 w hS h
  | .sequence first, S, b, S1, w, hS, h => by
    simp only [consumesInput] at h
    exact explains_seq hK hO first S b S1 w hS h
  | .peekFor element, _, _, _, _, _, h => by
    simp only [consumesInput, Option.some.injEq, Prod.mk.injEq] at h
    rw [← h.1, ← h.2.2]; exact Or.inl ⟨rfl, .peekFor⟩
  | .peekNot element, _, _, _, _, _, h => by
    simp only [consumesInput, Option.some.injEq, Prod.mk.injEq] at h
    rw [← h.1, ← h.2.2]; exact Or.inl ⟨rfl, .peekNot⟩
  | .query element, _, _, _, _, _, h => by
    simp only [consumesInput, Option.some.injEq, Prod.mk.injEq] at h
    rw [← h.1, ← h.2.2]; exact Or.inl ⟨rfl, .query⟩
  | .star element, _, _, _, _, _, h => by
    simp only [consumesInput, Option.some.injEq, Prod.mk.injEq] at h
    rw [← h.1, ← h.2.2]; exact Or.inl ⟨rfl, .star⟩
  | .plus element, S, b, S1, w, hS, h => by
    simp only [consumesInput] at h
    rcases explains_node hK hO element S b S1 w hS h with ⟨h1, h2⟩ | ⟨R, h1, h2⟩ | h1
    · exact Or.inl ⟨h1, .plus h2⟩
    · exact Or.inr (Or.inl ⟨R, h1, .plus h2⟩)
    · exact Or.inr (Or.inr h1)
theorem explains_alt {rules : List Rule}
    {rule : Nat → List Rule → Option (Bool × List Rule × List String)}
    (hK : KeepsRules rule)
    (hO : ∀ r v S b S1 w, SameExprs rules S → rule r S = some (b, S1, w) →
      Explained rules (.name r v) S b w) :
    ∀ (c : Chain) (S : List Rule) (b : Bool) (S1 : List Rule) (w : List String),
      SameExprs rules S → consumesAlternate rule c S = some (b, S1, w) →
      Explained rules (.alternate c) S b w
  | .nil, _, _, _, _, _, h => by
    simp only [consumesAlternate, Option.some.injEq, Prod.mk.injEq] at h
    rw [← h.1, ← h.2.2]; exact Or.inl ⟨rfl, .alt_nil⟩
  | .cons n next, S, b, S1, w, hS, h => by
    simp only [consumesAlternate] at h
    cases h1 : consumesInput rule n S with
    | none => simp [h1] at h
    | some x =>
      obtain ⟨bn, S2, wn⟩ := x
      have hS2 := keeps_node hK n S bn S2 wn h1
      subst hS2
      rcases explains_node hK hO n S2 bn S2 wn hS h1 with ⟨hw1, hv1⟩ | ⟨R, hr1, hl1⟩ | hc
      · subst hw1
        cases bn with
        | false =>
          simp only [h1, Option.some.injEq, Prod.mk.injEq] at h
          rw [← h.1, ← h.2.2]
          exact Or.inl ⟨rfl, .alt_stop hv1⟩
        | true =>
          simp only [h1] at h
          cases h2 : consumesAlternate rule next S2 with
          | none => simp [h2] at h
          | some y =>
            obtain ⟨b2, S3, w2⟩ := y
            simp only [h2, Option.some.injEq, Prod.mk.injEq, List.nil_append] at h
            rw [← h.1, ← h.2.2]
            rcases explains_alt hK hO next S2 b2 S3 w2 hS h2 with ⟨hw2, hv2⟩ | ⟨R, hr2, hl2⟩ | hc
            · exact Or.inl ⟨hw2, .alt_next hv1 hv2⟩
            · exact Or.inr (Or.inl ⟨R, hr2, .alt_skip hv1 hl2⟩)
            · exact Or.inr (Or.inr hc)
      · exact Or.inr (Or.inl ⟨R, hr1, .alt_head hl1⟩)
      · exact Or.inr (Or.inr hc)
theorem explains_seq {rules : List Rule}
    {rule : Nat → List Rule → Option (Bool × List Rule × List String)}
    (hK : KeepsRules rule)
    (hO : ∀ r v S b S1 w, SameExprs rules S → rule r S = some (b, S1, w) →
      Explained rules (.name r v) S b w) :
    ∀ (c : Chain) (S : List Rule) (b : Bool) (S1 : List Rule) (w : List String),
      SameExprs rules S → consumesSequence rule c S = some (b, S1, w) →
      Explained rules (.sequence c) S b w
  | .nil, _, _, _, _, _, h => by
    simp only [consumesSequence, Option.some.injEq, Prod.mk.injEq] at h
    rw [← h.1, ← h.2.2]; exact Or.inl ⟨rfl, .seq_nil⟩
  | .cons n next, S, b, S1, w, hS, h => by
    simp only [consumesSequence] at h
    cases h1 : consumesInput rule n S with
    | none => simp [h1] at h
    | some x =>
      obtain ⟨bn, S2, wn⟩ := x
      have hS2 := keeps_node hK n S bn S2 wn h1
      subst hS2
      rcases explains_node hK hO n S2 bn S2 wn hS h1 with ⟨hw1, hv1⟩ | ⟨R, hr1, hl1⟩ | hc
      · subst hw1
        cases bn with
        | true =>
          simp only [h1, Option.some.injEq, Prod.mk.injEq] at h
          rw [← h.1, ← h.2.2]
          exact Or.inl ⟨rfl, .seq_stop hv1⟩
        | false =>
          simp only [h1] at h
          cases h2 : consumesSequence rule next S2 with
          | none => simp [h2] at h
          | some y =>
            obtain ⟨b2, S3, w2⟩ := y
            simp only [h2, Option.some.injEq, Prod.mk.injEq, List.nil_append] at h
            rw [← h.1, ← h.2.2]
            rcases explains_seq hK hO next S2 b2 S3 w2 hS h2 with ⟨hw2, hv2⟩ | ⟨R, hr2, hl2⟩ | hc
            · exact Or.inl ⟨hw2, .seq_next hv1 hv2⟩
            · exact Or.inr (Or.inl ⟨R, hr2, .seq_skip hv1 hl2⟩)
            · exact Or.inr (Or.inr hc)
      · exact Or.inr (Or.inl ⟨R, hr1, .seq_head hl1⟩)
      · exact Or.inr (Or.inr hc)
end

theorem explains_rule (rules : List Rule) :
    ∀ (fuel r : Nat) (v : Option Nat) (S : List Rule) (b : Bool) (S1 : List Rule)
      (w : List String), SameExprs rules S → consumesInputRule fuel r S = some (b, S1, w) →
      Explained rules (.name r v) S b w
  | 0, _, _, _, _, _, _, _, h => by simp [consumesInputRule] at h
  | k + 1, r, v, S, b, S1, w, hS, h => by
    obtain ⟨k1, node1, hk, hg1, h3⟩ := consumesInputRule_some h
    have hk1 : k1 = k := by omega
    subst hk1
    obtain ⟨node0, hg0, he0⟩ := hS r node1 hg1
    have hr : r < S.length := by
      rw [List.get?_eq_getElem?] at hg1
      exact (List.getElem?_eq_some_iff.1 hg1).1
    rcases h3 with ⟨hfl, _, hw⟩ | ⟨_, hne, hb, hw⟩ | ⟨_, e1, S2, he1, h1⟩
    · refine Or.inr (Or.inl ⟨r, ?_, .here⟩)
      rw [isReached_of_get hg1]
      simpa using hfl
    · rw [hb, hw]
      exact Or.inl ⟨rfl, .undefined hg0 (he0.trans hne)⟩
    · have he : node0.expression = some e1 := he0.trans he1
      rcases explains_node (keeps_rule k1) (explains_rule rules k1) e1 _ b S2 w
          (sameExprs_setReached hS r) h1 with ⟨hw1, hv1⟩ | ⟨R, hr1, hl1⟩ | hc
      · exact Or.inl ⟨hw1, .rule hg0 he hv1⟩
      · rw [isReached_setReached hr] at hr1
        by_cases hRr : R = r
        · subst hRr
          exact Or.inr (Or.inr ⟨R, node0, e1, hg0, he, hl1⟩)
        · rw [if_neg hRr] at hr1
          exact Or.inr (Or.inl ⟨R, hr1, .rule hg0 he hl1⟩)
      · exact Or.inr (Or.inr hc)

theorem analysis_explained {fuel : Nat} {rules : List Rule}
    (hc : ∀ node ∈ rules, RuleReached &&& node.flags = 0) :
    ∀ (k r : Nat) (S : List Rule) (w : List String),
      analysis fuel k r rules = some (S, w) → w ≠ [] →
      ∃ R node e, rules.get? R = some node ∧ node.expression = some e ∧ LeftReach rules R e
  | 0, _, _, _, h, hw => by
    simp only [analysis, Option.some.injEq, Prod.mk.injEq] at h
    exact absurd h.2.symm hw
  | k + 1, r, S, w, h, hw => by
    simp only [analysis] at h
    cases h1 : consumesInputRule fuel r rules with
    | none => simp [h1] at h
    | some x =>
      obtain ⟨b1, S1, w1⟩ := x
      have hS1 := keeps_rule fuel r rules b1 S1 w1 h1
      subst hS1
      simp only [h1] at h
      cases h2 : analysis fuel k (r + 1) S1 with
      | none => simp [h2] at h
      | some y =>
        obtain ⟨S2, w2⟩ := y
        simp only [h2, Option.some.injEq, Prod.mk.injEq] at h
        rcases explains_rule S1 fuel r none S1 b1 S1 w1 (sameExprs_refl S1) h1 with
          ⟨hw1, _⟩ | ⟨R, hr1, _⟩ | hcl
        · subst hw1
          rw [List.nil_append] at h
          exact analysis_explained hc k (r + 1) S2 w2 h2 (by rw [h.2]; exact hw)
        · exfalso
          cases hg : S1.get? R with
          | none => simp only [isReached, hg] at hr1; cases hr1
          | some node =>
            have hm : node ∈ S1 := by
              rw [List.get?_eq_getElem?] at hg
              obtain ⟨hlt, heq⟩ := List.getElem?_eq_some_iff.1 hg
              exact heq ▸ List.getElem_mem hlt
            rw [isReached_of_get hg, hc node hm] at hr1
            cases hr1
        · exact hcl

theorem run_jump {U : UserCode} {call : Nat → yycontext → Option (Bool × yycontext)}
    {code rest rest1 : List Instr} {i : Instr} {s s1 : Frame} {l : Nat}
    (h : execInstr U call i s = some (.jump l, s1)) (hl : afterLabel code l = some rest1)
    (hr : ∀ n, run U call n code rest1 s1 = none) :
    ∀ n, run U call n code (i :: rest) s = none
  | 0 => rfl
  | n + 1 => by simp only [run, h, hl, hr]

theorem exec_test_fails {U : UserCode} {call : Nat → yycontext → Option (Bool × yycontext)}
    {c : Test} {ko : Nat} {s : Frame} {yy1 : yycontext}
    (h : evalTest U call c s.yy = some (false, yy1)) :
    execInstr U call (.test c ko) s = some (.jump ko, ⟨yy1, s.loc⟩) := by
  simp only [execInstr, h]

theorem grammarPeek_stuck {call : Nat → yycontext → Option (Bool × yycontext)}
    {yy yy1 : yycontext} (h1 : yymatchChar yy 98 = some (false, yy1))
    (h2 : call 0 { yy1 with _pos := yy._pos, _thunkpos := yy._thunkpos } = none) :
    ∀ n, run noUser call n ((Rule_compile_c2 grammarPeek 0).1.headD none).get!
      ((Rule_compile_c2 grammarPeek 0).1.headD none).get! ⟨yy, noLocals⟩ = none := by
  have hb : ((Rule_compile_c2 grammarPeek 0).1.headD none).get! =
      [save 0, Instr.stmt .yyprintf, begin, save 2, begin, save 4,
        Instr.test (.matchChar [98]) 3, restore 4, end_, jump 2, label 3, restore 2,
        Instr.test (.call 0) 1, Instr.test (.matchChar [120]) 1, end_, label 2,
        Instr.stmt .yyprintf, Instr.ret true, label 1, restore 0, Instr.stmt .yyprintf,
        Instr.ret false] := rfl
  rw [hb]
  iterate 6 refine run_never rfl ?_
  refine run_jump (exec_test_fails (show evalTest _ _ (.matchChar [98]) yy = _ from h1)) rfl ?_
  · refine run_never rfl (run_stuck ?_)
    simp only [execInstr, evalTest]
    rw [h2]

theorem grammarPeek_never : ∀ (fuel : Nat) (yy : yycontext),
    yy._pos < yy._limit → yy._buf.getD yy._pos 0 % 256 ≠ 98 →
    yyrule noUser (Rule_compile_c2 grammarPeek 0).1 fuel 0 yy = none
  | 0, _, _, _ => rfl
  | fuel + 1, yy, hlt, hne => by
    have h1 : yymatchChar yy 98 = some (false, yy) := by
      simp only [yymatchChar, needInput, if_neg (not_le.2 hlt), if_neg hne]
    have h := grammarPeek_stuck h1 (grammarPeek_never fuel yy hlt hne) fuel
    rw [yyrule]
    show (match run noUser _ fuel ((Rule_compile_c2 grammarPeek 0).1.headD none).get!
      ((Rule_compile_c2 grammarPeek 0).1.headD none).get! ⟨yy, noLocals⟩ with
      | some (.ret v, s) => some (v, s.yy)
      | _ => none) = none
    rw [h]

theorem grammarPeek_loops : ∀ (fuel : Nat),
    yyrule noUser (Rule_compile_c2 grammarPeek 0).1 fuel 0 (ready [120]) = none
  | 0 => rfl
  | fuel + 1 => by
    have h1 : yymatchChar (ready [120]) 98 =
        some (false, { ready [120] with _buf := [120], _limit := 1, input := [] }) := rfl
    have h := grammarPeek_stuck h1 (grammarPeek_never fuel _ (by decide) (by decide)) fuel
    rw [yyrule]
    show (match run noUser _ fuel ((Rule_compile_c2 grammarPeek 0).1.headD none).get!
      ((Rule_compile_c2 grammarPeek 0).1.headD none).get! ⟨ready [120], noLocals⟩ with
      | some (.ret v, s) => some (v, s.yy)
      | _ => none) = none
    rw [h]

theorem grammarNulLeft_never : ∀ (fuel : Nat) (yy : yycontext),
    yyrule noUser (Rule_compile_c2 grammarNulLeft 0).1 fuel 0 yy = none
  | 0, _ => rfl
  | fuel + 1, yy => by
    have hb : ((Rule_compile_c2 grammarNulLeft 0).1.headD none).get! =
        [save 0, Instr.stmt .yyprintf, Instr.test (.matchString [92, 48, 48, 48]) 1,
          Instr.test (.call 0) 1, Instr.stmt .yyprintf, Instr.ret true, label 1, restore 0,
          Instr.stmt .yyprintf, Instr.ret false] := rfl
    have h : ∀ n, run noUser (yyrule noUser (Rule_compile_c2 grammarNulLeft 0).1 fuel) n
        ((Rule_compile_c2 grammarNulLeft 0).1.headD none).get!
        ((Rule_compile_c2 grammarNulLeft 0).1.headD none).get! ⟨yy, noLocals⟩ = none := by
      rw [hb]
      iterate 3 refine run_never rfl ?_
      refine run_stuck ?_
      simp only [execInstr, evalTest]
      rw [grammarNulLeft_never fuel]
    rw [yyrule]
    show (match run noUser _ fuel ((Rule_compile_c2 grammarNulLeft 0).1.headD none).get!
      ((Rule_compile_c2 grammarNulLeft 0).1.headD none).get! ⟨yy, noLocals⟩ with
      | some (.ret v, s) => some (v, s.yy)
      | _ => none) = none
    rw [h]

/-- C15, amended (left-recursion detection): for a grammar whose names refer
to rules of the grammar and whose `Reached` flags are clear, the analysis loop
of `Rule_compile_c` ends, the parser printed is the one printed without the
analysis, and at least one warning is written exactly when the expression of
some rule `R` has a `Name` of `R` in front through the places that
`consumesInput` visits (`LeftReach`): the expression of a rule named, the
element of an `Error` or a `Plus`, an element of a sequence behind elements to
which the analysis gives the value 0, a branch of a choice behind branches to
which it gives the value 1. -/
theorem left_recursion_detected (rules : List Rule) (actions : List ActionNode)
    (prev fuel : Nat) (hw : WellFormed rules) (hf : rules.length < fuel)
    (hc : ∀ node ∈ rules, RuleReached &&& node.flags = 0) :
    ∃ w, Rule_compile_c_all fuel rules actions prev =
        some (w, Rule_compile_c rules actions prev) ∧
      (w ≠ [] ↔ ∃ R node e, rules.get? R = some node ∧ node.expression = some e ∧
        LeftReach rules R e) := by
  obtain ⟨w, ha⟩ := analysis_total hw hf rules.length 0 (by omega)
  refine ⟨w, by simp only [Rule_compile_c_all, ha], ?_, ?_⟩
  · exact analysis_explained hc rules.length 0 rules w ha
  · rintro ⟨R, node, e, hg, he, hp⟩
    have hr : R < rules.length := by
      rw [List.get?_eq_getElem?] at hg
      exact (List.getElem?_eq_some_iff.1 hg).1
    exact analysis_warns hw hf (fun b S w h => rule_warns hg he hp _ _ _ _ h) rules.length 0
      (by omega) (by omega) hr rules w ha

/-- C15 as stated fails, in each of the places that the analysis does not
visit.  In `A <- A? "x"` (the element of an option), in `A <- &"b" / A "x"` (a
branch of a choice behind a branch of value 0) and in `A <- "\000" A` (an
element of a sequence behind a literal of value 1 that matches the empty
string) the procedure of `A` calls itself before any input is consumed and
never returns (for the second grammar on the input `x`), and the analysis
writes no warning. -/
theorem left_recursion_missed :
    ((Rule_compile_c_all 2 grammarOpt [] 0).map (fun x => x.1) = some [] ∧
      ∀ (fuel : Nat) (yy : yycontext),
        yyrule noUser (Rule_compile_c2 grammarOpt 0).1 fuel 0 yy = none) ∧
    ((Rule_compile_c_all 2 grammarPeek [] 0).map (fun x => x.1) = some [] ∧
      ∀ (fuel : Nat),
        yyrule noUser (Rule_compile_c2 grammarPeek 0).1 fuel 0 (ready [120]) = none) ∧
    ((Rule_compile_c_all 2 grammarNulLeft [] 0).map (fun x => x.1) = some [] ∧
      ∀ (fuel : Nat) (yy : yycontext),
        yyrule noUser (Rule_compile_c2 grammarNulLeft 0).1 fuel 0 yy = none) :=
  ⟨⟨by decide, grammarOpt_never⟩, ⟨by decide, grammarPeek_loops⟩,
    ⟨by decide, grammarNulLeft_never⟩⟩

/-! ### Variable binding: the claim -/

theorem chainBindsOf_append : ∀ (c1 c2 : Chain),
    chainBindsOf (chainAppend c1 c2) = chainBindsOf c1 ++ chainBindsOf c2
  | .nil, _ => by simp [chainAppend, chainBindsOf]
  | .cons n c, c2 => by simp [chainAppend, chainBindsOf, chainBindsOf_append c c2]

theorem wellFormed_grammarExpr : WellFormed grammarExpr := by
  intro node hnode e he
  simp only [grammarExpr, List.mem_cons, List.mem_singleton, List.not_mem_nil, or_false] at hnode
  rcases hnode with rfl | rfl <;>
  · simp only [Option.some.injEq] at he
    subst he
    decide

theorem clear_grammarExpr : ∀ node ∈ grammarExpr, RuleReached &&& node.flags = 0 := by
  intro node hnode
  simp only [grammarExpr, List.mem_cons, List.mem_singleton, List.not_mem_nil, or_false] at hnode
  rcases hnode with rfl | rfl <;> decide

theorem wellFormed_grammarNullable : WellFormed grammarNullable := by
  intro node hnode e he
  simp only [grammarNullable, List.mem_cons, List.mem_singleton, List.not_mem_nil,
    or_false] at hnode
  rcases hnode with rfl | rfl <;>
  · simp only [Option.some.injEq] at he
    subst he
    decide

theorem clear_grammarNullable : ∀ node ∈ grammarNullable, RuleReached &&& node.flags = 0 := by
  intro node hnode
  simp only [grammarNullable, List.mem_cons, List.mem_singleton, List.not_mem_nil,
    or_false] at hnode
  rcases hnode with rfl | rfl <;> decide

/-- Witness of C15: a warning is written for `A <- A "x" / "y"`, for
`Expr <- Term / Expr "+" Term` (the recursion stands in a branch behind a branch
that consumes) and for `A <- B A ; B <- "x"?` (behind a `Name` of a rule that
may match nothing). -/
theorem left_recursion_detected_witness :
    (∃ w, Rule_compile_c_all 2 grammarLeft [] 0 = some (w, Rule_compile_c grammarLeft [] 0) ∧
      w ≠ []) ∧
    (∃ w, Rule_compile_c_all 3 grammarExpr [] 0 = some (w, Rule_compile_c grammarExpr [] 0) ∧
      w ≠ []) ∧
    (∃ w, Rule_compile_c_all 3 grammarNullable [] 0 =
      some (w, Rule_compile_c grammarNullable [] 0) ∧ w ≠ []) := by
  obtain ⟨w, h1, h2⟩ := left_recursion_detected grammarLeft [] 0 2 wellFormed_grammarLeft
    (by decide) clear_grammarLeft
  obtain ⟨w2, h3, h4⟩ := left_recursion_detected grammarExpr [] 0 3 wellFormed_grammarExpr
    (by decide) clear_grammarExpr
  obtain ⟨w3, h5, h6⟩ := left_recursion_detected grammarNullable [] 0 3
    wellFormed_grammarNullable (by decide) clear_grammarNullable
  exact ⟨⟨w, h1, h2.2 ⟨0, _, _, rfl, rfl, .alt_head (.seq_head .here)⟩⟩,
    ⟨w2, h3, h4.2 ⟨0, _, _, rfl, rfl,
      .alt_skip (.rule (show grammarExpr.get? 1 = some _ from rfl) rfl .string)
        (.alt_head (.seq_head .here))⟩⟩,
    ⟨w3, h5, h6.2 ⟨0, _, _, rfl, rfl,
      .seq_skip (.rule (show grammarNullable.get? 1 = some _ from rfl) rfl .query)
        (.seq_head .here)⟩⟩⟩

end Peg
